import Mathlib

/-!
# FRAY browser (`fraynix_src/apps/http.c`, `html.c`, `render_html.c`)

A shallow embedding of the HTTP client (`parse_url`, `dns_resolve`,
`build_request`, `parse_response`, `http_get`), of the HTML parser
(`html_match_tag`, `html_parse_attr`, `html_parse`) and of the renderer
(`render_text`, `render_node`, `render_page`), and the properties of them that
the specification states.

Conventions of the embedding.

* A `char` is a `Char`; comparisons and arithmetic on it go through `Char.toNat`.
* A `const char*` is the memory from the pointed address on, a `List Char`.
  `*ptr` is the head of that list and `ptr++` its tail.  A byte beyond the
  modelled memory reads as the terminator `NUL`.  A list may hold `NUL`
  bytes: the C string it denotes is then the part before the first one
  (`cstr`) and what follows is the memory behind the terminator.
* An `int` is an `Int` kept in the 32-bit two's complement range by `wrap32`
  after each arithmetic step that can leave it; an `unsigned int` is a `Nat`
  reduced modulo `2^32`.
* A `char[N]` destination is the list of the bytes written before its
  terminator.
-/

namespace FrayHttp

/-! ## Bytes, C strings and machine integers -/

/-- The string terminator, the byte 0. -/
def NUL : Char := Char.ofNat 0

/-- Carriage return, the byte 13. -/
def CR : Char := Char.ofNat 13

/-- Line feed, the byte 10. -/
def LF : Char := Char.ofNat 10

/-- Dereference, `*ptr`: the first byte of the memory a pointer denotes. -/
def deref (p : List Char) : Char := p.headD NUL

/-- The C string stored at a pointer: the bytes before the first terminator. -/
def cstr (p : List Char) : List Char := p.takeWhile (fun c => c ≠ NUL)

/-- The test `c >= '0' && c <= '9'`. -/
def isDigit (c : Char) : Bool := decide ('0'.toNat ≤ c.toNat) && decide (c.toNat ≤ '9'.toNat)

/-- The value `c - '0'`. -/
def digitVal (c : Char) : Int := (c.toNat : Int) - ('0'.toNat : Int)

/-- Reduction of an integer to the range of a 32-bit `int`. -/
def wrap32 (x : Int) : Int := (x + 2147483648) % 4294967296 - 2147483648

/-- Modelled from the spec: `kstrncmp` is a kernel primitive that is not part of
the sources at hand.  The specification uses it to recognise "prefixes"
(`http://`, `HTTP/1.`, `Content-Type:`), so it is the usual `strncmp`: it compares
at most `n` bytes, stops at a terminator, and returns the difference of the first
two bytes that differ, 0 when there are none. -/
def kstrncmp : List Char → List Char → Nat → Int
  | _, _, 0 => 0
  | a, b, n + 1 =>
    if deref a ≠ deref b then ((deref a).toNat : Int) - ((deref b).toNat : Int)
    else if deref a = NUL then 0
    else kstrncmp a.tail b.tail n

/-- Modelled from the spec: `kstrcmp` is a kernel primitive that is not part of
the sources at hand.  The specification says that "the literal string" `localhost`
is recognised with it, so it is the usual `strcmp`: it compares byte by byte up to
a terminator and returns the difference of the first two bytes that differ, 0
when the two C strings are equal. -/
def kstrcmp : List Char → List Char → Int
  | [], b => if NUL ≠ deref b then (NUL.toNat : Int) - ((deref b).toNat : Int) else 0
  | c :: cs, b =>
    if c ≠ deref b then (c.toNat : Int) - ((deref b).toNat : Int)
    else if c = NUL then 0
    else kstrcmp cs b.tail

/-! ## `parse_url` -/

/-- The structure `ParsedUrl`; the three `char` arrays hold C strings. -/
structure ParsedUrl where
  host : List Char
  port : Int
  path : List Char
  query : List Char
deriving DecidableEq

/-- The copy loops of `parse_url`,
`while (*ptr && cond(*ptr) && i < limit) out[i++] = *ptr++;`,
with `n` the remaining room `limit - i`.  Returns the bytes copied and the
final pointer. -/
def copyWhile (cond : Char → Bool) : Nat → List Char → List Char × List Char
  | 0, p => ([], p)
  | _ + 1, [] => ([], [])
  | n + 1, c :: cs =>
    if c ≠ NUL ∧ cond c = true then
      (c :: (copyWhile cond n cs).1, (copyWhile cond n cs).2)
    else ([], c :: cs)

/-- The digit loop `while (*ptr >= '0' && *ptr <= '9') v = v * 10 + (*ptr++ - '0');`
on an `int` accumulator.  Returns the value and the final pointer. -/
def parseInt : List Char → Int → Int × List Char
  | [], v => (v, [])
  | c :: cs, v =>
    if isDigit c = true then parseInt cs (wrap32 (v * 10 + digitVal c))
    else (v, c :: cs)

/-- The host loop condition `*ptr != '/' && *ptr != ':' && *ptr != '?'`. -/
def hostChar (c : Char) : Bool := c != '/' && c != ':' && c != '?'

/-- The path loop condition `*ptr != '?'`. -/
def pathChar (c : Char) : Bool := c != '?'

/-- The pointer after "Skip protocol", with the port that step leaves. -/
def skipProtocol (url : List Char) : List Char × Int :=
  if kstrncmp url "http://".toList 7 = 0 then (url.drop 7, 80)
  else if kstrncmp url "https://".toList 8 = 0 then (url.drop 8, 443)
  else (url, 80)

/-- The function `parse_url`: the return value (always 1) and the structure
written through `out`.  Every field is written on every call, so the result
does not depend on the previous contents of `*out`. -/
def parse_url (url : List Char) : Int × ParsedUrl :=
  -- out->port = 80; out->path = "/"; out->query = ""; skip protocol
  let s1 := skipProtocol url
  -- while (*ptr && *ptr != '/' && *ptr != ':' && *ptr != '?' && i < 127) host[i++] = *ptr++;
  let s2 := copyWhile hostChar 127 s1.1
  -- if (*ptr == ':') { ptr++; out->port = 0; digit loop }
  let s3 := if deref s2.2 = ':' then parseInt s2.2.tail 0 else (s1.2, s2.2)
  -- if (*ptr == '/') { i = 0; while (*ptr && *ptr != '?' && i < 255) path[i++] = *ptr++; }
  let s4 := if deref s3.2 = '/' then copyWhile pathChar 255 s3.2 else (['/'], s3.2)
  -- if (*ptr == '?') { ptr++; i = 0; while (*ptr && i < 255) query[i++] = *ptr++; }
  let s5 := if deref s4.2 = '?' then copyWhile (fun _ => true) 255 s4.2.tail else ([], s4.2)
  (1, { host := s2.1, port := s3.1, path := s4.1, query := s5.1 })

/-! ## `dns_resolve` -/

/-- The update `ip = (ip << 8) | (part & 0xFF)` of an `unsigned int` by an `int`. -/
def shiftIn (ip : Nat) (part : Int) : Nat :=
  ((ip <<< 8) % 4294967296) ||| (part % 256).toNat

/-- The loop of `dns_resolve`,
`for (i = 0; hostname[i] && parts < 4; i++)`, on the state `(ip, part, parts)`:
a digit extends `part`, a dot shifts `part` into `ip`, any other byte is passed
over. -/
def dnsLoop : List Char → Nat → Int → Nat → Nat × Int × Nat
  | [], ip, part, parts => (ip, part, parts)
  | c :: cs, ip, part, parts =>
    if c ≠ NUL ∧ parts < 4 then
      if isDigit c = true then dnsLoop cs ip (wrap32 (part * 10 + digitVal c)) parts
      else if c = '.' then dnsLoop cs (shiftIn ip part) 0 (parts + 1)
      else dnsLoop cs ip part parts
    else (ip, part, parts)

/-- The function `dns_resolve`; the result 0 is the "unresolved" value. -/
def dns_resolve (hostname : List Char) : Nat :=
  if kstrcmp hostname "localhost".toList = 0 then 0x7F000001
  else
    let r := dnsLoop hostname 0 0 0
    let ip := shiftIn r.1 r.2.1
    if r.2.2 = 3 then ip else 0

/-! ## `build_request` -/

/-- Modelled from the spec: `ksprintf` is a kernel primitive that is not part of
the sources at hand.  The specification says that `build_request` "emits
`METHOD PATH[?QUERY] HTTP/1.1\r\n`" and the header lines with it, so it is the
usual `sprintf` with the one directive the callers use: the bytes of the format
are copied, each `%s` is replaced by the C string of the next argument, and the
number of bytes written is returned.  The function here yields the text written;
the caller takes its length. -/
def ksprintf : List Char → List (List Char) → List Char
  | '%' :: 's' :: fmt, a :: args => cstr a ++ ksprintf fmt args
  | c :: fmt, args => c :: ksprintf fmt args
  | [], _ => []

/-- The C string in a buffer after `ksprintf(&buf[len], ...)` has written the
text `s` and its terminator at offset `len`. -/
def writeAt (buf : List Char) (len : Nat) (s : List Char) : List Char :=
  buf.take len ++ s

/-- One statement `len += ksprintf(&buf[len], ...)` on the state `(len, buf)`,
with `t` the text that `ksprintf` writes. -/
def emit (st : Nat × List Char) (t : List Char) : Nat × List Char :=
  (st.1 + t.length, writeAt st.2 st.1 t)

/-- The function `build_request`: the returned length and the C string left in
`buf`.  The parameter `buf_size` is not used, as in the source. -/
def build_request (buf : List Char) (_buf_size : Int) (method : List Char) (url : ParsedUrl) :
    Nat × List Char :=
  -- int len = 0;
  let s0 : Nat × List Char := (0, buf)
  -- len += ksprintf(&buf[len], "%s %s", method, url->path);
  let s1 := emit s0 (ksprintf "%s %s".toList [method, url.path])
  -- if (url->query[0]) len += ksprintf(&buf[len], "?%s", url->query);
  let s2 := if deref url.query ≠ NUL then emit s1 (ksprintf "?%s".toList [url.query]) else s1
  -- len += ksprintf(&buf[len], " HTTP/1.1\r\n");
  let s3 := emit s2 (ksprintf " HTTP/1.1\r\n".toList [])
  -- len += ksprintf(&buf[len], "Host: %s\r\n", url->host);
  let s4 := emit s3 (ksprintf "Host: %s\r\n".toList [url.host])
  -- len += ksprintf(&buf[len], "User-Agent: FrayBrowser/1.0\r\n");
  let s5 := emit s4 (ksprintf "User-Agent: FrayBrowser/1.0\r\n".toList [])
  -- len += ksprintf(&buf[len], "Accept: text/html,text/plain,*/*\r\n");
  let s6 := emit s5 (ksprintf "Accept: text/html,text/plain,*/*\r\n".toList [])
  -- len += ksprintf(&buf[len], "Connection: close\r\n");
  let s7 := emit s6 (ksprintf "Connection: close\r\n".toList [])
  -- len += ksprintf(&buf[len], "\r\n");
  let s8 := emit s7 (ksprintf "\r\n".toList [])
  -- return len;
  s8

/-! ## `parse_response` -/

/-- The structure `HttpResponse`.  The field `body` is a pointer into the
response buffer, kept as the offset it points at; `none` is the null pointer. -/
structure HttpResponse where
  status_code : Int
  content_type : List Char
  content_length : Int
  body : Option Nat
  body_length : Int
deriving DecidableEq

/-- A pointer into the response buffer whose offset from `data` matters: the
offset and the memory from there on. -/
structure Ptr where
  off : Nat
  mem : List Char
deriving DecidableEq

/-- The byte at a pointer, `*ptr`. -/
def Ptr.get (p : Ptr) : Char := deref p.mem

/-- The pointer `ptr + n`. -/
def Ptr.add (p : Ptr) (n : Nat) : Ptr := ⟨p.off + n, p.mem.drop n⟩

/-- Modelled from the spec: `kstrstr` is a kernel primitive that is not part of
the sources at hand.  The specification says that the body is located "by the
first occurrence of the 4-byte sequence", so it is the usual `strstr`: the offset
of the first occurrence of the C string `nd` in the C string at `hay`, `none`
(the null pointer) when there is none. -/
def kstrstr : List Char → List Char → Option Nat
  | [], nd => if cstr nd = [] then some 0 else none
  | c :: cs, nd =>
    if (cstr nd).isPrefixOf (c :: cs) = true then some 0
    else if c = NUL then none
    else (kstrstr cs nd).map (fun k => k + 1)

/-- The loop `while (*ptr == ' ') ptr++;`. -/
def skipSpaces (p : Ptr) : Ptr :=
  p.add (p.mem.takeWhile (fun c => c == ' ')).length

/-- The digit loop `parseInt` run at a pointer with an offset: the value and the
pointer behind the digits consumed. -/
def parseIntAt (p : Ptr) (v : Int) : Int × Ptr :=
  ((parseInt p.mem v).1, ⟨p.off + (p.mem.length - (parseInt p.mem v).2.length), (parseInt p.mem v).2⟩)

/-- The loop `while (*ptr != '\r' && i < 63) resp->content_type[i++] = *ptr++;`
with `n` the remaining room `63 - i`: the bytes copied and the memory at the
final pointer.  The loop does not test for the terminator. -/
def copyLine : Nat → List Char → List Char × List Char
  | 0, p => ([], p)
  | n + 1, p =>
    if deref p ≠ CR then (deref p :: (copyLine n p.tail).1, (copyLine n p.tail).2)
    else ([], p)

/-- The body of the header loop before "Skip to next line": the pointer and the
response after the two tests for `Content-Type:` and `Content-Length:`. -/
def headerStep (p : Ptr) (resp : HttpResponse) : Ptr × HttpResponse :=
  if kstrncmp p.mem "Content-Type:".toList 13 = 0 then
    -- ptr += 13; while (*ptr == ' ') ptr++; copy loop; content_type[i] = 0
    let p2 := skipSpaces (p.add 13)
    let c := copyLine 63 p2.mem
    (⟨p2.off + c.1.length, c.2⟩, { resp with content_type := c.1 })
  else if kstrncmp p.mem "Content-Length:".toList 15 = 0 then
    -- ptr += 15; while (*ptr == ' ') ptr++; content_length = 0; digit loop
    let p2 := skipSpaces (p.add 15)
    let r := parseIntAt p2 0
    (r.2, { resp with content_length := r.1 })
  else (p, resp)

/-- The loop `while (ptr < data + data_len && *ptr != '\n') ptr++;`.  The
counter `k` bounds the iterations; it is started at `data_len - (ptr - data)`,
the number of iterations after which the first test fails. -/
def skipLine (data_len : Int) : Nat → Ptr → Ptr
  | 0, p => p
  | k + 1, p =>
    if (p.off : Int) < data_len ∧ p.get ≠ LF then skipLine data_len k (p.add 1) else p

/-- The header loop `while (ptr < data + data_len && *ptr != '\r') { ... ptr++; }`.
Every iteration moves the pointer forward, so the counter `k`, started at
`data_len - (ptr - data)`, reaches 0 only when the first test fails. -/
def headerLoop (data_len : Int) : Nat → Ptr → HttpResponse → Ptr × HttpResponse
  | 0, p, resp => (p, resp)
  | k + 1, p, resp =>
    if (p.off : Int) < data_len ∧ p.get ≠ CR then
      let s := headerStep p resp
      let p4 := skipLine data_len (data_len - (s.1.off : Int)).toNat s.1
      headerLoop data_len k (p4.add 1) s.2
    else (p, resp)

/-- The function `parse_response` on the buffer `data`, the length `data_len`
and the previous contents of `*resp`: the return value and the response written.
The result is `none` when the function computes with the null pointer that
`kstrstr(data, "\r\n")` returns for a buffer without line end. -/
def parse_response (data : List Char) (data_len : Int) (resp : HttpResponse) :
    Option (Int × HttpResponse) :=
  -- resp->status_code = 0; resp->content_length = 0; resp->body = 0;
  let r0 := { resp with status_code := 0, content_length := 0, body := none }
  if kstrncmp data "HTTP/1.".toList 7 ≠ 0 then some (0, r0)
  else
    -- ptr = data + 9; while (*ptr == ' ') ptr++; status_code = 0; digit loop
    let p1 := skipSpaces (Ptr.add ⟨0, data⟩ 9)
    let r1 := { r0 with status_code := (parseIntAt p1 0).1 }
    -- ptr = kstrstr(data, "\r\n") + 2;
    match kstrstr data [CR, LF] with
    | none => none
    | some k =>
      let p2 : Ptr := Ptr.add ⟨0, data⟩ (k + 2)
      let r2 := (headerLoop data_len (data_len - (p2.off : Int)).toNat p2 r1).2
      -- body_start = kstrstr(data, "\r\n\r\n"); if (body_start) { ... }
      match kstrstr data [CR, LF, CR, LF] with
      | some b =>
        some (1, { r2 with body := some (b + 4), body_length := data_len - ((b + 4 : Nat) : Int) })
      | none => some (1, r2)

/-! ## `http_get` -/

/-- The constant `MAX_RESPONSE_SIZE`. -/
def MAX_RESPONSE_SIZE : Int := 65536

/-- A call that `http_get` makes to an external collaborator: the transport
(`tcp_connect`, `tcp_send`, `tcp_recv`, `tcp_close`) or the console
(`kprint_color`). -/
inductive NetEvent where
  | connect (ip : Nat) (port : Int)
  | send (sock : Int) (data : List Char) (len : Nat)
  | recv (sock : Int) (max_len : Int)
  | close (sock : Int)
  | print (msg : List Char) (color : Nat)
deriving DecidableEq

/-- The transport, an external collaborator whose functions are not part of the
sources at hand; `http_get` takes it as a parameter.  Its state is `σ`.
`tcp_connect` returns the handle, negative on failure; `tcp_send` returns a
count; `tcp_recv` returns the bytes it has stored in the buffer, their number
being its return value, and no byte when it returns 0 or less. -/
structure Transport (σ : Type) where
  tcp_connect : σ → Nat → Int → Int × σ
  tcp_send : σ → Int → List Char → Nat → Int × σ
  tcp_recv : σ → Int → Int → List Char × σ
  tcp_close : σ → Int → σ

/-- The buffer after the bytes `bs` have been stored at offset `off`. -/
def pokeAt (buf : List Char) (off : Nat) (bs : List Char) : List Char :=
  buf.take off ++ bs ++ buf.drop (off + bs.length)

/-- The state of the receive loop: buffer, `total`, transport state, calls made. -/
structure RecvState (σ : Type) where
  buf : List Char
  total : Nat
  st : σ
  log : List NetEvent

/-- The loop
`while ((received = tcp_recv(sock, &response_buf[total], MAX_RESPONSE_SIZE - total)) > 0) total += received;`.
The loop ends when the transport returns no byte; a transport that never does
so keeps it running, and `k` bounds the iterations looked at: `none` stands for a
loop that has not ended within `k` iterations. -/
def recvLoop {σ : Type} (net : Transport σ) (sock : Int) : Nat → RecvState σ → Option (RecvState σ)
  | 0, _ => none
  | k + 1, r =>
    let got := net.tcp_recv r.st sock (MAX_RESPONSE_SIZE - (r.total : Int))
    let log := r.log ++ [NetEvent.recv sock (MAX_RESPONSE_SIZE - (r.total : Int))]
    if got.1.length > 0 then
      recvLoop net sock k
        { buf := pokeAt r.buf r.total got.1, total := r.total + got.1.length, st := got.2,
          log := log }
    else some { r with st := got.2, log := log }

/-- The result of `http_get`: return value, response structure, transport state
and the calls made to the collaborators. -/
structure GetResult (σ : Type) where
  ret : Int
  resp : HttpResponse
  st : σ
  log : List NetEvent

/-- The state in which the receive loop starts: after
`req_len = build_request(request, sizeof(request), "GET", &parsed);` and
`tcp_send(sock, request, req_len);` on the connection `c` (handle and transport
state) to `ip`. -/
def afterSend {σ : Type} (net : Transport σ) (c : Int × σ) (ip : Nat) (parsed : ParsedUrl)
    (response_buf : List Char) : RecvState σ :=
  let req := build_request [] 512 "GET".toList parsed
  { buf := response_buf, total := 0, st := (net.tcp_send c.2 c.1 req.2 req.1).2,
    log := [NetEvent.connect ip parsed.port, NetEvent.send c.1 req.2 req.1] }

/-- The function `http_get` over a transport `net` in state `st`, with
`response_buf` the previous contents of the static response buffer and `resp`
those of `*resp`.  The result is `none` when the receive loop does not end within
`k` iterations or `parse_response` computes with a null pointer. -/
def http_get {σ : Type} (net : Transport σ) (k : Nat) (st : σ) (response_buf : List Char)
    (url : List Char) (resp : HttpResponse) : Option (GetResult σ) :=
  -- if (!parse_url(url, &parsed)) return 0;
  let parsed := parse_url url
  if parsed.1 = 0 then some ⟨0, resp, st, []⟩
  else
    -- unsigned int ip = dns_resolve(parsed.host); if (ip == 0) { ...; return 0; }
    let ip := dns_resolve parsed.2.host
    if ip = 0 then
      some ⟨0, resp, st, [NetEvent.print "[HTTP] DNS resolution failed\n".toList 0x0C]⟩
    else
      -- int sock = tcp_connect(ip, parsed.port); if (sock < 0) { ...; return 0; }
      let c := net.tcp_connect st ip parsed.2.port
      if c.1 < 0 then
        some ⟨0, resp, c.2, [NetEvent.connect ip parsed.2.port,
          NetEvent.print "[HTTP] Connection failed\n".toList 0x0C]⟩
      else
        -- build_request, tcp_send, the receive loop
        match recvLoop net c.1 k (afterSend net c ip parsed.2 response_buf) with
        | none => none
        | some r =>
          -- response_buf[total] = '\0'; tcp_close(sock);
          let data := pokeAt r.buf r.total [NUL]
          let st' := net.tcp_close r.st c.1
          let log3 := r.log ++ [NetEvent.close c.1]
          -- return parse_response(response_buf, total, resp);
          match parse_response data (r.total : Int) resp with
          | none => none
          | some pr => some ⟨pr.1, pr.2, st', log3⟩

/-- A transport for examples: its state is the list of the chunks that the peer
still sends; `tcp_connect` returns the handle 3. -/
def chunkTransport : Transport (List (List Char)) where
  tcp_connect := fun st _ _ => (3, st)
  tcp_send := fun st _ _ len => ((len : Int), st)
  tcp_recv := fun st _ _ => (st.headD [], st.tail)
  tcp_close := fun st _ => st

/-! ## `html.c`: the node arena -/

/-- The constant `NODE_TEXT`. -/
def NODE_TEXT : Nat := 0

/-- The constant `NODE_ELEMENT`. -/
def NODE_ELEMENT : Nat := 1

/-- The constant `TAG_HTML`. -/
def TAG_HTML : Nat := 1

/-- The constant `TAG_HEAD`. -/
def TAG_HEAD : Nat := 2

/-- The constant `TAG_TITLE`. -/
def TAG_TITLE : Nat := 3

/-- The constant `TAG_BODY`. -/
def TAG_BODY : Nat := 4

/-- The constant `TAG_H1`. -/
def TAG_H1 : Nat := 5

/-- The constant `TAG_H2`. -/
def TAG_H2 : Nat := 6

/-- The constant `TAG_H3`. -/
def TAG_H3 : Nat := 7

/-- The constant `TAG_P`. -/
def TAG_P : Nat := 8

/-- The constant `TAG_A`. -/
def TAG_A : Nat := 9

/-- The constant `TAG_DIV`. -/
def TAG_DIV : Nat := 10

/-- The constant `TAG_SPAN`. -/
def TAG_SPAN : Nat := 11

/-- The constant `TAG_UL`. -/
def TAG_UL : Nat := 12

/-- The constant `TAG_LI`. -/
def TAG_LI : Nat := 13

/-- The constant `TAG_IMG`. -/
def TAG_IMG : Nat := 14

/-- The constant `TAG_BR`. -/
def TAG_BR : Nat := 15

/-- The constant `TAG_HR`. -/
def TAG_HR : Nat := 16

/-- The constant `TAG_B`. -/
def TAG_B : Nat := 17

/-- The constant `TAG_I`. -/
def TAG_I : Nat := 18

/-- The constant `TAG_PRE`. -/
def TAG_PRE : Nat := 19

/-- The constant `TAG_CODE`. -/
def TAG_CODE : Nat := 20

/-- The constant `MAX_NODES`. -/
def MAX_NODES : Nat := 512

/-- The structure `HtmlNode`.  A pointer to a node is the index of the node in
`node_pool`, `none` the null pointer; `children` holds the entries
`children[0 .. child_count)`, so `child_count` is its length; the three `char`
arrays hold C strings. -/
structure HtmlNode where
  type : Nat
  tag : Nat
  text : List Char
  href : List Char
  src : List Char
  children : List Nat
  parent : Option Nat
deriving DecidableEq

/-- The node that `html_alloc_node` hands out. -/
def blankNode : HtmlNode :=
  { type := NODE_TEXT, tag := 0, text := [], href := [], src := [], children := [],
    parent := none }

/-- The function `html_alloc_node` on the arena, the list of the nodes
`node_pool[0 .. node_count)`: the null pointer (`none`) when the arena is full,
else the index of the new node and the arena with it. -/
def html_alloc_node (pool : List HtmlNode) : Option (Nat × List HtmlNode) :=
  if pool.length ≥ MAX_NODES then none else some (pool.length, pool ++ [blankNode])

/-- The function `html_reset`: `node_count = 0`. -/
def html_reset (_pool : List HtmlNode) : List HtmlNode := []

/-- An assignment to fields of the node `node_pool[i]`. -/
def setNode : List HtmlNode → Nat → (HtmlNode → HtmlNode) → List HtmlNode
  | [], _, _ => []
  | n :: ns, 0, f => f n :: ns
  | n :: ns, i + 1, f => n :: setNode ns i f

/-- The statement
`if (current->child_count < 32) current->children[current->child_count++] = node;`. -/
def addChild (pool : List HtmlNode) (current node : Nat) : List HtmlNode :=
  setNode pool current (fun n =>
    if n.children.length < 32 then { n with children := n.children ++ [node] } else n)

/-- The function `html_match_tag`. -/
def html_match_tag (name : List Char) : Nat :=
  if kstrcmp name "html".toList = 0 then TAG_HTML
  else if kstrcmp name "head".toList = 0 then TAG_HEAD
  else if kstrcmp name "title".toList = 0 then TAG_TITLE
  else if kstrcmp name "body".toList = 0 then TAG_BODY
  else if kstrcmp name "h1".toList = 0 then TAG_H1
  else if kstrcmp name "h2".toList = 0 then TAG_H2
  else if kstrcmp name "h3".toList = 0 then TAG_H3
  else if kstrcmp name "p".toList = 0 then TAG_P
  else if kstrcmp name "a".toList = 0 then TAG_A
  else if kstrcmp name "div".toList = 0 then TAG_DIV
  else if kstrcmp name "span".toList = 0 then TAG_SPAN
  else if kstrcmp name "ul".toList = 0 then TAG_UL
  else if kstrcmp name "li".toList = 0 then TAG_LI
  else if kstrcmp name "img".toList = 0 then TAG_IMG
  else if kstrcmp name "br".toList = 0 then TAG_BR
  else if kstrcmp name "hr".toList = 0 then TAG_HR
  else if kstrcmp name "b".toList = 0 ∨ kstrcmp name "strong".toList = 0 then TAG_B
  else if kstrcmp name "i".toList = 0 ∨ kstrcmp name "em".toList = 0 then TAG_I
  else if kstrcmp name "pre".toList = 0 then TAG_PRE
  else if kstrcmp name "code".toList = 0 then TAG_CODE
  else 0

/-! ## `html.c`: `html_parse_attr` -/

/-- The double quote, the byte 34. -/
def DQ : Char := Char.ofNat 34

/-- The single quote, the byte 39. -/
def SQ : Char := Char.ofNat 39

/-- The tabulator, the byte 9. -/
def TAB : Char := Char.ofNat 9

/-- The condition `*p != '=' && *p != ' ' && *p != '>'` of the loop that reads an
attribute name. -/
def attrNameChar (c : Char) : Bool := c != '=' && c != ' ' && c != '>'

/-- The condition `*p != quote && *p != '>'` of the two loops over an attribute value. -/
def attrValueChar (quote : Char) (c : Char) : Bool := c != quote && c != '>'

/-- The value of `quote` after `char quote = *p; if (quote == '"' || quote == '\'') p++;
else quote = ' ';` with `p` the pointer behind the byte `=`. -/
def attrQuote (p : List Char) : Char :=
  if deref p = DQ ∨ deref p = SQ then deref p else ' '

/-- The pointer after `char quote = *p; if (quote == '"' || quote == '\'') p++;
else quote = ' ';`. -/
def attrOpen (p : List Char) : List Char :=
  if deref p = DQ ∨ deref p = SQ then p.tail else p

/-- The two loops over an attribute value: the value is copied to `out` when
`attr_name` is the name looked for, `kstrcmp(attr_name, name) == 0`, and passed
over otherwise.  The pointer behind the value, and the destination. -/
def attrValue (name attr_name : List Char) (max_len : Nat) (quote : Char)
    (p out : List Char) : List Char × List Char :=
  if kstrcmp attr_name name = 0 then
    -- i = 0; while (*p && *p != quote && *p != '>' && i < max_len - 1) out[i++] = *p++;
    ((copyWhile (attrValueChar quote) (max_len - 1) p).2,
      (copyWhile (attrValueChar quote) (max_len - 1) p).1)
  else
    -- while (*p && *p != quote && *p != '>') p++;
    (p.dropWhile (fun c => c != NUL && attrValueChar quote c), out)

/-- The statement `if (*p == quote) p++;`. -/
def skipQuote (quote : Char) (p : List Char) : List Char :=
  if deref p = quote then p.tail else p

/-- The body of the loop `while (*p && *p != '>') { ... }` of `html_parse_attr` on
the pointer `p` and the destination `out`, for the attribute `name` and the size
`max_len`: the pointer and the destination after one iteration. -/
def attrBody (name : List Char) (max_len : Nat) (p out : List Char) : List Char × List Char :=
  -- while (*p == ' ') p++;
  let p1 := p.dropWhile (fun c => c == ' ')
  -- while (*p && *p != '=' && *p != ' ' && *p != '>' && i < 31) attr_name[i++] = *p++;
  let nm := copyWhile attrNameChar 31 p1
  if deref nm.2 = '=' then
    -- p++; then the quote, the value and the closing quote
    let v := attrValue name nm.1 max_len (attrQuote nm.2.tail) (attrOpen nm.2.tail) out
    (skipQuote (attrQuote nm.2.tail) v.1, v.2)
  else (nm.2, out)

/-- The loop `while (*p && *p != '>') { ... }` of `html_parse_attr`.  Every
iteration moves the pointer forward, so the counter `k` is started at the length
of the text plus one. -/
def attrLoop (name : List Char) (max_len : Nat) : Nat → List Char → List Char →
    List Char × List Char
  | 0, p, out => (p, out)
  | k + 1, p, out =>
    if deref p ≠ NUL ∧ deref p ≠ '>' then
      attrLoop name max_len k (attrBody name max_len p out).1 (attrBody name max_len p out).2
    else (p, out)

/-- The function `html_parse_attr`: the pointer written back through `ptr` and the
C string in `out`. -/
def html_parse_attr (p name out : List Char) (max_len : Nat) : List Char × List Char :=
  attrLoop name max_len (p.length + 1) p out

/-! ## `html.c`: `html_parse` -/

/-- The state of the main loop of `html_parse`: the arena, `current` and `ptr`. -/
structure PState where
  pool : List HtmlNode
  current : Nat
  ptr : List Char
deriving DecidableEq

/-- How an iteration of the main loop ends: at the end of the loop body or a
`continue` (`next`), at a `break` (`stop`), or with `ptr` the null pointer that
`kstrstr` has returned, which the loop condition dereferences (`fault`). -/
inductive Step where
  | next (s : PState)
  | stop (s : PState)
  | fault
deriving DecidableEq

/-- The test `*ptr == ' ' || *ptr == '\n' || *ptr == '\r' || *ptr == '\t'`. -/
def isWs (c : Char) : Bool := c == ' ' || c == LF || c == CR || c == TAB

/-- The condition `*ptr && *ptr != '>'` of the loops that run to the end of a tag. -/
def inTagChar (c : Char) : Bool := c != NUL && c != '>'

/-- The loops `while (*ptr && *ptr != '>') ptr++;`. -/
def skipToGt (p : List Char) : List Char :=
  p.dropWhile inTagChar

/-- The statement `if (*ptr == '>') ptr++;`. -/
def skipGt (p : List Char) : List Char :=
  if deref p = '>' then p.tail else p

/-- The byte `ptr[-1]` in front of the pointer `p`, where `start` is an earlier
value of the pointer that has since moved forward to `p`. -/
def prevChar (start p : List Char) : Char :=
  deref (start.drop (start.length - p.length - 1))

/-- The condition `*ptr != ' ' && *ptr != '>' && *ptr != '/'` of the loop that
reads the tag name. -/
def tagNameChar (c : Char) : Bool := c != ' ' && c != '>' && c != '/'

/-- The expression `(*ptr >= 'A' && *ptr <= 'Z') ? *ptr + 32 : *ptr`. -/
def lowerChar (c : Char) : Char :=
  if 'A'.toNat ≤ c.toNat ∧ c.toNat ≤ 'Z'.toNat then Char.ofNat (c.toNat + 32) else c

/-- The loop over a text run,
`while (*ptr && *ptr != '<' && i < 255) { ... ptr++; }`, with `text` the bytes
`text[0 .. i)`: a line feed, carriage return or tabulator becomes one space
unless the text is empty or ends with a space, any other byte is stored. -/
def textLoop : List Char → List Char → List Char × List Char
  | [], text => (text, [])
  | c :: cs, text =>
    if c ≠ NUL ∧ c ≠ '<' ∧ text.length < 255 then
      if c = LF ∨ c = CR ∨ c = TAB then
        if text ≠ [] ∧ text.getLast? ≠ some ' ' then textLoop cs (text ++ [' '])
        else textLoop cs text
      else textLoop cs (text ++ [c])
    else (text, c :: cs)

/-- The loop `while (i > 0 && text[i-1] == ' ') text[--i] = '\0';`. -/
def trimEnd (text : List Char) : List Char :=
  (text.reverse.dropWhile (fun c => c == ' ')).reverse

/-- Modelled from the spec: `kstrcpy` is a kernel primitive that is not part of
the sources at hand.  The specification has the text of a node be "content" or
"tag-name", so it is the usual `strcpy`: the destination holds the C string of
the source. -/
def kstrcpy (_dst src : List Char) : List Char := cstr src

/-- The branch "Opening tag" of the main loop for a recognized tag, from
`html_alloc_node` on: `p0` is the pointer at `<`, `tn` the result of the loop
that has read the tag name, `tag_id` the tag. -/
def openTag (s : PState) (p0 : List Char) (tn : List Char × List Char) (tag_id : Nat) : Step :=
  -- HtmlNode* node = html_alloc_node(); if (!node) break;
  match html_alloc_node s.pool with
  | none => Step.stop s
  | some (node, pool1) =>
    -- node->type, node->tag, node->text, node->parent
    let pool2 := setNode pool1 node (fun n =>
      { n with type := NODE_ELEMENT, tag := tag_id, text := kstrcpy n.text tn.1,
               parent := some s.current })
    let pool3 := addChild pool2 s.current node
    -- html_parse_attr(&ptr, "href", node->href, 256); html_parse_attr(&ptr, "src", node->src, 256);
    let h := html_parse_attr tn.2 "href".toList [] 256
    let sr := html_parse_attr h.1 "src".toList [] 256
    let pool4 := setNode pool3 node (fun n => { n with href := h.2, src := sr.2 })
    -- while (*ptr && *ptr != '>') ptr++;
    let p4 := skipToGt sr.1
    -- int self_close = (ptr[-1] == '/') || (tag_id == TAG_BR || tag_id == TAG_HR || tag_id == TAG_IMG);
    let self_close := prevChar p0 p4 = '/' ∨ tag_id = TAG_BR ∨ tag_id = TAG_HR ∨ tag_id = TAG_IMG
    -- if (*ptr == '>') ptr++; if (!self_close) current = node;
    Step.next { pool := pool4, current := if self_close then s.current else node,
                ptr := skipGt p4 }

/-- The branch "Text node" of the main loop, with `p0` the pointer behind the
white space. -/
def textNode (s : PState) (p0 : List Char) : Step :=
  let t := textLoop p0 []
  let text := trimEnd t.1
  if text ≠ [] then
    match html_alloc_node s.pool with
    | none => Step.stop s
    | some (node, pool1) =>
      let pool2 := setNode pool1 node (fun n =>
        { n with type := NODE_TEXT, text := kstrcpy n.text text, parent := some s.current })
      Step.next { pool := addChild pool2 s.current node, current := s.current, ptr := t.2 }
  else Step.next { s with ptr := t.2 }

/-- The insertion point after `if (current->parent) current = current->parent;`. -/
def popCurrent (pool : List HtmlNode) (current : Nat) : Nat :=
  match pool[current]? with
  | some n => (match n.parent with
    | some q => q
    | none => current)
  | none => current

/-- One iteration of the main loop `while (*ptr) { ... }` of `html_parse`, entered
with `*ptr` not 0. -/
def step (s : PState) : Step :=
  -- while (*ptr == ' ' || *ptr == '\n' || *ptr == '\r' || *ptr == '\t') ptr++;
  let p0 := s.ptr.dropWhile isWs
  if deref p0 = '<' then
    let p1 := p0.tail
    if deref p1 = '!' ∧ deref p1.tail = '-' ∧ deref p1.tail.tail = '-' then
      -- ptr = kstrstr(ptr, "-->"); if (ptr) ptr += 3; continue;
      match kstrstr p1 "-->".toList with
      | none => Step.fault
      | some k => Step.next { s with ptr := p1.drop (k + 3) }
    else if deref p1 = '/' then
      -- ptr++; skip to '>'; if (current->parent) current = current->parent; continue;
      Step.next { s with ptr := skipGt (skipToGt p1.tail),
                         current := popCurrent s.pool s.current }
    else
      -- the tag name, lower-cased, at most 31 bytes
      let tn := copyWhile tagNameChar 31 p1
      let tag_name := tn.1.map lowerChar
      let tag_id := html_match_tag tag_name
      if tag_id = 0 then
        -- while (*ptr && *ptr != '>') ptr++; if (*ptr == '>') ptr++; continue;
        Step.next { s with ptr := skipGt (skipToGt tn.2) }
      else openTag s p0 (tag_name, tn.2) tag_id
  else textNode s p0

/-- The main loop of `html_parse`.  Every iteration moves the pointer forward, so
the counter `k` is started at the length of the text plus one.  The result is
`none` when an iteration ends with the null pointer in `ptr`. -/
def run : Nat → PState → Option PState
  | 0, s => some s
  | k + 1, s =>
    if deref s.ptr = NUL then some s
    else match step s with
      | Step.next s' => run k s'
      | Step.stop s' => some s'
      | Step.fault => none

/-- The state in which the main loop starts: after `html_reset()` and the
allocation of the root, an element with the tag `TAG_HTML`. -/
def initState (pool : List HtmlNode) (html : List Char) : PState :=
  match html_alloc_node (html_reset pool) with
  | some (root, pool1) =>
    { pool := setNode pool1 root (fun n => { n with type := NODE_ELEMENT, tag := TAG_HTML }),
      current := root, ptr := html }
  | none => { pool := [], current := 0, ptr := html }

/-- The function `html_parse` on the previous contents `pool` of the arena and
the text `html`.  The value is the arena after the call; the pointer returned
is `root`, the node 0 of it.  The value is `none` when the main loop
dereferences the null pointer, which it does behind a comment that is not closed. -/
def html_parse (pool : List HtmlNode) (html : List Char) : Option (List HtmlNode) :=
  (run (html.length + 1) (initState pool html)).map (fun s => s.pool)

/-! ## `render_html.c` -/

/-- The constant `SCREEN_WIDTH`. -/
def SCREEN_WIDTH : Int := 80

/-- The constant `SCREEN_HEIGHT`. -/
def SCREEN_HEIGHT : Int := 25

/-- The structure `RenderState`. -/
structure RenderState where
  x : Int
  y : Int
  width : Int
  indent : Int
  bold : Int
  italic : Int
  link : Int
  color : Nat
deriving DecidableEq

/-- A call that the renderer makes to the display, an external collaborator whose
functions are not part of the sources at hand. -/
inductive DispEvent where
  | set_color (c : Nat)
  | set_cursor (x y : Int)
  | kprint (s : List Char)
  | clear_screen
deriving DecidableEq

/-- The globals of the renderer, `render_state` and `page_title`, and the calls
made to the display so far. -/
structure Renderer where
  st : RenderState
  page_title : List Char
  log : List DispEvent
deriving DecidableEq

/-- The function `render_init`. -/
def render_init (r : Renderer) : Renderer :=
  { r with st := { x := 0, y := 2, width := SCREEN_WIDTH, indent := 0, bold := 0, italic := 0,
                   link := 0, color := 0x0F },
           page_title := [] }

/-- The function `render_newline`; its `if` has an empty body. -/
def render_newline (r : Renderer) : Renderer :=
  { r with st := { r.st with x := r.st.indent, y := wrap32 (r.st.y + 1) } }

/-- The loop `for (int i = 0; text[i]; i++) { ... }` of `render_text`. -/
def renderChars : List Char → Renderer → Renderer
  | [], r => r
  | c :: cs, r =>
    if c = NUL then r
    else
      -- if (render_state.x >= render_state.width) render_newline();
      let r1 := if r.st.x ≥ r.st.width then render_newline r else r
      -- set_cursor(x, y); kprint(buf); render_state.x++;
      renderChars cs
        { r1 with st := { r1.st with x := wrap32 (r1.st.x + 1) },
                  log := r1.log ++ [DispEvent.set_cursor r1.st.x r1.st.y, DispEvent.kprint [c]] }

/-- The function `render_text`. -/
def render_text (text : List Char) (r : Renderer) : Renderer :=
  renderChars text { r with log := r.log ++ [DispEvent.set_color r.st.color] }

/-- The loop `for (int i = 0; i < render_state.width - render_state.indent; i++)
render_text("-");` from the value `i` on; the counter `k` bounds the iterations
that are left. -/
def hrLoop : Nat → Int → Renderer → Renderer
  | 0, _, r => r
  | k + 1, i, r =>
    if i < wrap32 (r.st.width - r.st.indent) then hrLoop k (i + 1) (render_text "-".toList r)
    else r

/-- The first `switch (node->tag)` of `render_node`, for the tags other than
`TAG_TITLE` and `TAG_HEAD`. -/
def preHook (n : HtmlNode) (r : Renderer) : Renderer :=
  if n.tag = TAG_H1 then
    let r1 := render_newline r
    { r1 with st := { r1.st with bold := 1, color := 0x0E } }
  else if n.tag = TAG_H2 then
    let r1 := render_newline r
    { r1 with st := { r1.st with bold := 1, color := 0x0B } }
  else if n.tag = TAG_H3 then
    let r1 := render_newline r
    { r1 with st := { r1.st with bold := 1, color := 0x0F } }
  else if n.tag = TAG_P then render_newline (render_newline r)
  else if n.tag = TAG_A then
    render_text "[".toList { r with st := { r.st with color := 0x09, link := 1 } }
  else if n.tag = TAG_UL then
    { r with st := { r.st with indent := wrap32 (r.st.indent + 2) } }
  else if n.tag = TAG_LI then render_text "* ".toList (render_newline r)
  else if n.tag = TAG_B then { r with st := { r.st with bold := 1, color := 0x0F } }
  else if n.tag = TAG_I then { r with st := { r.st with italic := 1, color := 0x07 } }
  else if n.tag = TAG_HR then
    let r1 := render_newline r
    render_newline (hrLoop (wrap32 (r1.st.width - r1.st.indent)).toNat 0 r1)
  else if n.tag = TAG_BR then render_newline r
  else if n.tag = TAG_PRE ∨ n.tag = TAG_CODE then { r with st := { r.st with color := 0x0A } }
  else if n.tag = TAG_IMG then
    render_text "]".toList (render_text n.src (render_text "[IMG: ".toList r))
  else r

/-- The second `switch (node->tag)` of `render_node`. -/
def postHook (tag : Nat) (r : Renderer) : Renderer :=
  if tag = TAG_A then render_text "]".toList r
  else if tag = TAG_H1 ∨ tag = TAG_H2 ∨ tag = TAG_H3 then render_newline r
  else r

/-- The function `render_node` on the arena `pool` and the node with the index
`node`.  The counter bounds the depth of the recursion; the value is `none` when
it is used up, and when a pointer that is followed does not lead into the arena. -/
def render_node : Nat → List HtmlNode → Nat → Renderer → Option Renderer
  | 0, _, _, _ => none
  | k + 1, pool, node, r =>
    match pool[node]? with
    | none => none
    | some n =>
      if n.type = NODE_TEXT then some (render_text n.text r)
      else if n.tag = TAG_TITLE then
        -- if (node->child_count > 0 && node->children[0]->type == NODE_TEXT) kstrcpy(...); return;
        match n.children.head? with
        | none => some r
        | some c =>
          match pool[c]? with
          | none => none
          | some cn =>
            if cn.type = NODE_TEXT then some { r with page_title := kstrcpy r.page_title cn.text }
            else some r
      else if n.tag = TAG_HEAD then
        n.children.foldlM (fun r' c => render_node k pool c r') r
      else
        match n.children.foldlM (fun r' c => render_node k pool c r') (preHook n r) with
        | none => none
        | some r2 =>
          let r3 := postHook n.tag r2
          -- Restore state
          some { r3 with st := { r3.st with indent := r.st.indent, bold := r.st.bold,
                                            italic := r.st.italic, color := r.st.color } }

/-- The loop `for (int i = 0; i < SCREEN_WIDTH; i++) kprint(" ");`. -/
def blankBar (r : Renderer) : Renderer :=
  { r with log := r.log ++ List.replicate 80 (DispEvent.kprint " ".toList) }

/-- The function `render_page` on the arena `pool` and the node `root`. -/
def render_page (k : Nat) (pool : List HtmlNode) (root : Nat) (r : Renderer) :
    Option Renderer :=
  let r1 := render_init { r with log := r.log ++ [DispEvent.clear_screen] }
  -- Address bar placeholder
  let r2 := blankBar { r1 with log := r1.log ++ [DispEvent.set_cursor 0 0,
    DispEvent.set_color 0x70] }
  let r3 := { r2 with log := r2.log ++ [DispEvent.set_cursor 0 0,
    DispEvent.kprint " FRAY-BROWSER | ".toList] }
  match render_node k pool root r3 with
  | none => none
  | some r4 =>
    -- Update title in address bar
    let r5 := if deref r4.page_title ≠ NUL then
        { r4 with log := r4.log ++ [DispEvent.set_cursor 17 0, DispEvent.set_color 0x70,
                                    DispEvent.kprint (cstr r4.page_title)] }
      else r4
    -- Status bar
    let r6 := blankBar { r5 with log := r5.log ++ [DispEvent.set_cursor 0 (SCREEN_HEIGHT - 1),
      DispEvent.set_color 0x70] }
    some { r6 with log := r6.log ++ [DispEvent.set_cursor 0 (SCREEN_HEIGHT - 1),
      DispEvent.kprint " [Q]uit  [G]o to URL  [B]ack  [R]eload ".toList] }

/-! ## Statement vocabulary -/

/-- The value of a decimal numeral. -/
def decVal (ds : List Char) : Nat :=
  ds.foldl (fun a c => a * 10 + (c.toNat - '0'.toNat)) 0

/-- An optional part of a URL behind its separator: nothing when absent. -/
def optPart (sep : Char) : Option (List Char) → List Char
  | some x => sep :: x
  | none => []

/-- The URL text `scheme ++ host ++ [":" ++ port] ++ [path] ++ ["?" ++ query]`,
an absent optional part being `none`. -/
def urlOf (sch h : List Char) (port path query : Option (List Char)) : List Char :=
  sch ++ (h ++ (optPart ':' port ++ (path.getD [] ++ optPart '?' query)))

/-- The port a scheme prefix implies. -/
def schemePort (sch : List Char) : Int :=
  if sch = "https://".toList then 443 else 80

/-- The port of a URL: the value of its numeral, or the port of its scheme. -/
def portOf (sch : List Char) : Option (List Char) → Int
  | some ds => (decVal ds : Int)
  | none => schemePort sch

/-- The path as the specification words it: the text that starts at the first
`/` and runs up to the next `?` or the end, cut to 255 characters. -/
def specPath (s : List Char) : List Char :=
  ((s.dropWhile (fun c => c != '/')).takeWhile (fun c => c != '?')).take 255

/-- A `/` occurs in the text before any `?`. -/
def slashBeforeQuery (s : List Char) : Bool :=
  (s.dropWhile (fun c => c != '/' && c != '?')).head? == some '/'

/-- The request text the specification describes for a method and a URL. -/
def requestText (m : List Char) (u : ParsedUrl) : List Char :=
  m ++ " ".toList ++ u.path ++ (if u.query ≠ [] then "?".toList ++ u.query else []) ++
    " HTTP/1.1\r\n".toList ++
    "Host: ".toList ++ u.host ++ "\r\n".toList ++
    "User-Agent: FrayBrowser/1.0\r\n".toList ++
    "Accept: text/html,text/plain,*/*\r\n".toList ++
    "Connection: close\r\n".toList ++
    "\r\n".toList

/-- The header lines of a response, each closed by `\r\n`. -/
def headerBlock : List (List Char) → List Char
  | [] => []
  | l :: ls => l ++ CR :: LF :: headerBlock ls

/-- The text of a response: status line, header lines, blank line, body. -/
def responseText (sl : List Char) (hs : List (List Char)) (b : List Char) : List Char :=
  sl ++ CR :: LF :: (headerBlock hs ++ CR :: LF :: b)

/-- The bytes the `body` pointer of a response points at in the buffer. -/
def bodyBytes (data : List Char) (r : HttpResponse) : Option (List Char) :=
  r.body.map (fun o => data.drop o)

/-- The effect of one header line on the response, read off the header loop:
a line that begins with `Content-Type:` sets `content_type` to at most 63 bytes
of its value, a line that begins with `Content-Length:` sets `content_length` to
the number its value starts with, any other line has no effect. -/
def headerEffect (line : List Char) (resp : HttpResponse) : HttpResponse :=
  if "Content-Type:".toList <+: line then
    { resp with
      content_type := ((line.drop 13).dropWhile (fun c => c == ' ')).take 63 }
  else if "Content-Length:".toList <+: line then
    { resp with
      content_length := (parseInt ((line.drop 15).dropWhile (fun c => c == ' ')) 0).1 }
  else resp

/-- The part of a header line that the header loop has not read when it comes to
"Skip to next line". -/
def lineRest (line : List Char) : List Char :=
  if "Content-Type:".toList <+: line then
    ((line.drop 13).dropWhile (fun c => c == ' ')).drop 63
  else if "Content-Length:".toList <+: line then
    (parseInt ((line.drop 15).dropWhile (fun c => c == ' ')) 0).2
  else line

/-- A header line the header loop reads as one line: it is not empty, holds no
`\r` and no terminator, and what the loop has not read of it when it skips to
the next line holds no `\n`. -/
def GoodLine (l : List Char) : Prop :=
  l ≠ [] ∧ CR ∉ l ∧ NUL ∉ l ∧ LF ∉ lineRest l

/-- The status code read off a status line: the number that starts behind the
ninth byte and the spaces that follow it. -/
def statusOf (sl : List Char) : Int :=
  (parseInt (((sl ++ [CR]).drop 9).dropWhile (fun c => c == ' ')) 0).1

/-- The response left by the header lines `hs` behind the status line `sl`. -/
def headersResult (sl : List Char) (hs : List (List Char)) (resp : HttpResponse) :
    HttpResponse :=
  hs.foldl (fun r l => headerEffect l r)
    { resp with status_code := statusOf sl, content_length := 0, body := none }

/-- The response text of the specification's example, with the status code `s`,
the reason phrase, the content type `t`, the content length `n` and the body `b`
left open. -/
def exampleResponse (s reason t n b : List Char) : List Char :=
  "HTTP/1.1 ".toList ++ s ++ " ".toList ++ reason ++ "\r\n".toList ++
    "Content-Type: ".toList ++ t ++ "\r\n".toList ++
    "Content-Length: ".toList ++ n ++ "\r\n\r\n".toList ++ b

/-- The response of the specification's example. -/
def resp404 : List Char :=
  "HTTP/1.1 404 Not Found\r\nContent-Type: text/plain\r\nContent-Length: 5\r\n\r\nhello".toList

/-- A response structure before the call. -/
def resp0 : HttpResponse :=
  { status_code := 7, content_type := "old".toList, content_length := 7, body := some 3,
    body_length := 7 }

/-- The pointer `q` is the pointer `p` moved forward over bytes that are neither
the terminator nor `>`. -/
def Adv (p q : List Char) : Prop :=
  ∃ j, q = p.drop j ∧ ∀ c ∈ p.take j, inTagChar c = true

/-- The state after `n` iterations of the main loop of `html_parse`, each entered
with `*ptr` not 0 and left at the end of the loop body or at a `continue`. -/
def iter : Nat → PState → Option PState
  | 0, s => some s
  | n + 1, s =>
    if deref s.ptr = NUL then none
    else match step s with
      | Step.next s' => iter n s'
      | _ => none

/-- The text `pre` ends outside any tag and comment: whatever text `'<' :: r`
follows it, `n` iterations of the main loop of `html_parse` lead to the arena and
the insertion point of `s`, with the pointer at the byte `<` behind `pre`, or at
white space `s.ptr` in front of it that the next iteration passes over. -/
def AtHead (pool : List HtmlNode) (pre : List Char) (n : Nat) (s : PState) : Prop :=
  (∀ c ∈ s.ptr, isWs c = true) ∧
  ∀ r, iter n (initState pool (pre ++ '<' :: r)) = some { s with ptr := s.ptr ++ '<' :: r }

/-- The characters that a sequence of calls to the display prints, in order. -/
def emitted : List DispEvent → List Char
  | [] => []
  | DispEvent.kprint s :: es => cstr s ++ emitted es
  | _ :: es => emitted es

/-- The renderer before any call: the state of `render_init`, no title, nothing
sent to the display. -/
def freshRenderer : Renderer :=
  render_init { st := { x := 0, y := 0, width := 0, indent := 0, bold := 0, italic := 0,
                        link := 0, color := 0 },
                page_title := [], log := [] }

/-- The node `m` with its list of children left out: the fields that are written
once, when the node is made. -/
def core (m : HtmlNode) : HtmlNode := { m with children := [] }

/-- A node that never is the insertion point: a text node, an element `br`, `hr`
or `img`, or the node with the index `i0`. -/
def Sealed (i0 : Option Nat) (i : Nat) (m : HtmlNode) : Prop :=
  i0 = some i ∨ m.type = NODE_TEXT ∨ m.tag = TAG_BR ∨ m.tag = TAG_HR ∨ m.tag = TAG_IMG

/-- The invariant of the main loop of `html_parse`: the insertion point and the
parent of every node are nodes of the arena that are not sealed, and a sealed
node has no children. -/
def Inv (i0 : Option Nat) (s : PState) : Prop :=
  (∀ i, i0 = some i → i < s.pool.length) ∧
  s.current < s.pool.length ∧
  (∀ (i : Nat) (m : HtmlNode), s.pool[i]? = some m → ∀ q, m.parent = some q →
    q < s.pool.length ∧ ∀ mq : HtmlNode, s.pool[q]? = some mq → ¬ Sealed i0 q mq) ∧
  (∀ m : HtmlNode, s.pool[s.current]? = some m → ¬ Sealed i0 s.current m) ∧
  (∀ (i : Nat) (m : HtmlNode), s.pool[i]? = some m → Sealed i0 i m → m.children = [])

/-- What an iteration of the main loop does to the arena and the insertion
point: either the arena stays and the insertion point stays or moves to its
parent, or one node without children is added, with the insertion point as its
parent, and entered in the children of the insertion point when there is room;
the new node becomes the insertion point only if it is an element other than
`br`, `hr` and `img`. -/
def StepShape (s s' : PState) : Prop :=
  (s'.pool = s.pool ∧
    (s'.current = s.current ∨ s'.current = popCurrent s.pool s.current)) ∨
  (∃ new : HtmlNode, s'.pool = addChild s.pool s.current s.pool.length ++ [new] ∧
    new.parent = some s.current ∧ new.children = [] ∧ new.src = [] ∧
    (s'.current = s.current ∨
      (s'.current = s.pool.length ∧ new.type = NODE_ELEMENT ∧
        new.tag ≠ TAG_BR ∧ new.tag ≠ TAG_HR ∧ new.tag ≠ TAG_IMG)))

/-- The text `<img src="a.png">`. -/
def imgExample : List Char := "<img src=".toList ++ DQ :: "a.png".toList ++ DQ :: ">".toList

/-- How an attribute of a tag is written: `name="value"`, `name='value'`,
`name=value`, or the name alone. -/
inductive AttrKind where
  | dq
  | sq
  | bare
  | flag
deriving DecidableEq

/-- An attribute as it is written in a tag: the spaces in front of it, its name,
the way it is written and its value. -/
structure Attr where
  pad : List Char
  name : List Char
  kind : AttrKind
  value : List Char

/-- The byte that ends the value of an attribute. -/
def AttrKind.quote : AttrKind → Char
  | AttrKind.dq => DQ
  | AttrKind.sq => SQ
  | _ => ' '

/-- The text of an attribute behind the spaces in front of it. -/
def Attr.body (a : Attr) : List Char :=
  a.name ++
    (if a.kind = AttrKind.flag then []
     else if a.kind = AttrKind.bare then '=' :: a.value
     else '=' :: a.kind.quote :: a.value ++ [a.kind.quote])

/-- The spaces in front of the first attribute of a list, and the spaces `trail`
in front of the `>` when the list is empty. -/
def padOf (trail : List Char) : List Attr → List Char
  | [] => trail
  | a :: _ => a.pad

/-- The text of a tag from some point behind its name on: the spaces `sp`, the
attributes `l` without the spaces in front of the first one, the spaces `trail`,
the byte `>`, and the text `post` behind the tag. -/
def tagRest (trail post : List Char) : List Char → List Attr → List Char
  | sp, [] => sp ++ '>' :: post
  | sp, a :: l => sp ++ a.body ++ tagRest trail post (padOf trail l) l

/-- An attribute that `html_parse_attr` reads as one attribute when it looks for
the attribute `nm` with a destination of `ml` bytes: it has spaces in front, a
name of at most 31 bytes without `=`, space and `>`, which is not empty when no
value follows, and a value without `>` and without the byte that ends it, which
does not start with a quote when it is not quoted and fits the destination when
the name is `nm`. -/
def Attr.ok (nm : List Char) (ml : Nat) (a : Attr) : Prop :=
  a.pad ≠ [] ∧ (∀ c ∈ a.pad, c = ' ') ∧
  (∀ c ∈ a.name, c ≠ NUL ∧ attrNameChar c = true) ∧ a.name.length ≤ 31 ∧
  (a.kind = AttrKind.flag → a.name ≠ []) ∧
  (∀ c ∈ a.value, c ≠ NUL ∧ c ≠ a.kind.quote ∧ c ≠ '>') ∧
  (a.kind = AttrKind.bare → deref a.value ≠ DQ ∧ deref a.value ≠ SQ) ∧
  (a.name = nm → a.value.length ≤ ml - 1)

instance (nm : List Char) (ml : Nat) (a : Attr) : Decidable (Attr.ok nm ml a) := by
  unfold Attr.ok
  infer_instance

/-- The value that `html_parse_attr` leaves in its destination behind the
attributes `l`: the value of the last one of them that has the name `nm` and a
value, and `out` when there is none. -/
def attrsOut (nm : List Char) : List Attr → List Char → List Char
  | [], out => out
  | a :: l, out => attrsOut nm l (if a.kind ≠ AttrKind.flag ∧ a.name = nm then a.value else out)

/-- The text of the attributes of a tag, each with the spaces in front of it. -/
def attrsText : List Attr → List Char
  | [] => []
  | a :: l => a.pad ++ a.body ++ attrsText l

/-- The text `<a title=">" href="v">`. -/
def hrefExample1 : List Char :=
  "<a title=".toList ++ DQ :: '>' :: DQ :: " href=".toList ++ DQ :: 'v' :: DQ :: ">".toList

/-- The text `<a href="v" xxxxxxxxxxxxxxxxxxxxxxxxxxxxxxxhref="w">`, in which the
name of the second attribute has 31 times `x` in front of `href`. -/
def hrefExample2 : List Char :=
  "<a href=".toList ++ DQ :: 'v' :: DQ :: ' ' :: List.replicate 31 'x' ++ "href=".toList
    ++ DQ :: 'w' :: DQ :: ">".toList

/-- The content of a text node as the specification has it: not empty, at most
255 bytes, without line feed, carriage return, tabulator and terminator, and
neither beginning nor ending with a space. -/
def TextOk (t : List Char) : Prop :=
  t ≠ [] ∧ t.length ≤ 255 ∧ LF ∉ t ∧ CR ∉ t ∧ TAB ∉ t ∧ NUL ∉ t ∧
  t.head? ≠ some ' ' ∧ t.getLast? ≠ some ' '

/-- A node as an iteration of the main loop makes it: an element with a tag that
is recognized, or a text node with a well-formed text. -/
def NewNode (m : HtmlNode) : Prop :=
  (m.type = NODE_ELEMENT ∧ m.tag ≠ 0) ∨ (m.type = NODE_TEXT ∧ m.tag = 0 ∧ TextOk m.text)

/-- The text of 33 tags `<br>`. -/
def br33 : List Char := (List.replicate 33 "<br>".toList).flatten

/-- The style of a render state: the fields `indent`, `bold`, `italic` and
`color`, which `render_node` saves and restores. -/
def styleOf (st : RenderState) : Int × Int × Int × Nat :=
  (st.indent, st.bold, st.italic, st.color)

/-- The children of every node of the arena are nodes of the arena behind it. -/
def ChildrenAfter (a : List HtmlNode) : Prop :=
  ∀ (i : Nat) (m : HtmlNode), a[i]? = some m → ∀ c ∈ m.children, i < c ∧ c < a.length

/-- The text of four lists `ul` one in the other, each with one item. -/
def ul4 : List Char :=
  "<ul><li>a<ul><li>b<ul><li>c<ul><li>d</li></ul></li></ul></li></ul></li></ul>e".toList

/-- The column of the character with the index `i` of a text that `render_text`
writes from the column `x0`, with the width `w` and the indent `d`. -/
def wrapCol (x0 w d : Int) (i : Nat) : Int :=
  if x0 + i < w then x0 + i else d + ((i - (w - x0)) % (w - d))

/-- The row of the character with the index `i` of a text that `render_text`
writes from the cursor `(x0, y0)`, with the width `w` and the indent `d`. -/
def wrapRow (x0 y0 w d : Int) (i : Nat) : Int :=
  if x0 + i < w then y0 else y0 + 1 + ((i - (w - x0)) / (w - d))

/-- The calls to the display for the characters of a text, of which the first
has the index `i`: the cursor is put where `wrapCol` and `wrapRow` say, and the
character is printed. -/
def cellsFrom (x0 y0 w d : Int) : Nat → List Char → List DispEvent
  | _, [] => []
  | i, c :: cs =>
    DispEvent.set_cursor (wrapCol x0 w d i) (wrapRow x0 y0 w d i) :: DispEvent.kprint [c] ::
      cellsFrom x0 y0 w d (i + 1) cs

/-- The column of the cursor behind `n` characters: one past the last character,
without a wrap. -/
def endCol (x0 w d : Int) (n : Nat) : Int :=
  if n = 0 then x0 else wrapCol x0 w d (n - 1) + 1

/-- The row of the cursor behind `n` characters: the row of the last one. -/
def endRow (x0 y0 w d : Int) (n : Nat) : Int :=
  if n = 0 then y0 else wrapRow x0 y0 w d (n - 1)

/-- A call of `render_node`: the node, the tags of the elements around it, the
innermost first, and the renderer when the call is entered. -/
structure Visit where
  node : Nat
  above : List Nat
  entry : Renderer
deriving DecidableEq

/-- The calls that the loop over the children of a node makes, with `g` the call
for a child and `f` the calls within it: the next child is entered in the state
that the call for the child before it leaves. -/
def chain (g : Nat → Renderer → Option Renderer) (f : Nat → Renderer → List Visit) :
    List Nat → Renderer → List Visit
  | [], _ => []
  | c :: cs, r =>
    f c r ++ (match g c r with
      | none => []
      | some r' => chain g f cs r')

/-- The calls of `render_node` within the call for `node` from the state `r`, in
order, the call itself first; `p` holds the tags of the elements around `node`.
A text node and an element `title` make no further call; the children of `head`
are entered from `r`, those of any other element after the first `switch`. -/
def visits : Nat → List HtmlNode → Nat → List Nat → Renderer → List Visit
  | 0, _, _, _, _ => []
  | k + 1, pool, node, p, r =>
    match pool[node]? with
    | none => []
    | some n =>
      ⟨node, p, r⟩ ::
        (if n.type = NODE_TEXT then []
         else if n.tag = TAG_TITLE then []
         else chain (render_node k pool) (fun c rc => visits k pool c (n.tag :: p) rc)
           n.children (if n.tag = TAG_HEAD then r else preHook n r))

/-- What the first `switch` of `render_node` does to the indent, the flags `bold`
and `italic` and the colour, for the tag `t`. -/
def tagStyle (t : Nat) (s : Int × Int × Int × Nat) : Int × Int × Int × Nat :=
  if t = TAG_H1 then (s.1, 1, s.2.2.1, 0x0E)
  else if t = TAG_H2 then (s.1, 1, s.2.2.1, 0x0B)
  else if t = TAG_H3 then (s.1, 1, s.2.2.1, 0x0F)
  else if t = TAG_A then (s.1, s.2.1, s.2.2.1, 0x09)
  else if t = TAG_UL then (wrap32 (s.1 + 2), s.2.1, s.2.2.1, s.2.2.2)
  else if t = TAG_B then (s.1, 1, s.2.2.1, 0x0F)
  else if t = TAG_I then (s.1, s.2.1, 1, 0x07)
  else if t = TAG_PRE ∨ t = TAG_CODE then (s.1, s.2.1, s.2.2.1, 0x0A)
  else s

/-- The tags whose elements set a colour other than white: `h1`, `h2`, `a`, `i`,
`pre` and `code`. -/
def tints (t : Nat) : Prop :=
  t = TAG_H1 ∨ t = TAG_H2 ∨ t = TAG_A ∨ t = TAG_I ∨ t = TAG_PRE ∨ t = TAG_CODE

/-- The text `<ul><li>a<ul><li>b</li></ul></li></ul>`. -/
def ul2 : List Char := "<ul><li>a<ul><li>b</li></ul></li></ul>".toList

/-- The links of an arena fit: a child of a node lies behind it in the arena and
has it as its parent, the children of a node are listed in the order of the
arena, and the parent of a node lies before it. -/
def TreeOk (a : List HtmlNode) : Prop :=
  (∀ (i : Nat) (m : HtmlNode), a[i]? = some m → ∀ c ∈ m.children,
    i < c ∧ ∃ mc, a[c]? = some mc ∧ mc.parent = some i) ∧
  (∀ (i : Nat) (m : HtmlNode), a[i]? = some m → m.children.Pairwise (fun x y => x < y)) ∧
  (∀ (i : Nat) (m : HtmlNode) (j : Nat), a[i]? = some m → m.parent = some j → j < i)

/-- The node reached from the node `j` by following the field `parent` `n`
times. -/
def up (a : List HtmlNode) : Nat → Nat → Option Nat
  | 0, j => some j
  | n + 1, j => (up a n j).bind (fun x => (a[x]?).bind HtmlNode.parent)

/-- A bound on the rows that the call for a node takes, without the calls for
its children. -/
def cost (n : HtmlNode) : Nat :=
  if n.type = NODE_TEXT then n.text.length else n.src.length + 100

/-- A bound on the rows that a sequence of calls takes. -/
def rows (a : List HtmlNode) (vs : List Visit) : Nat :=
  (vs.map (fun v => cost (a.getD v.node blankNode))).sum

/-- Every position that the cursor is put at has the property `P`. -/
def CursorsIn (P : Int → Int → Prop) (es : List DispEvent) : Prop :=
  ∀ x y, DispEvent.set_cursor x y ∈ es → P x y

/-- The renderer `r'` comes from `r` by calls to the display that put the cursor
at columns from 0 to the larger of 79 and `D` and at rows from that of `r` on,
with the row growing by `n` at most. -/
def Wrote (D : Int) (n : Nat) (r r' : Renderer) : Prop :=
  r'.st.width = r.st.width ∧ 0 ≤ r'.st.x ∧ r'.st.x ≤ 1101 ∧ r.st.y ≤ r'.st.y ∧
  r'.st.y ≤ r.st.y + n ∧
  ∃ ext, r'.log = r.log ++ ext ∧
    CursorsIn (fun x y => 0 ≤ x ∧ x ≤ max 79 D ∧ r.st.y ≤ y) ext

/-- Twelve paragraphs. -/
def p12 : List Char := (List.replicate 12 "<p>x</p>".toList).flatten

/-- An item of a list within forty lists. -/
def ul40 : List Char := (List.replicate 40 "<ul>".toList).flatten ++ "<li>x".toList

/-- The positions that a sequence of calls to the display puts the cursor at. -/
def cursors : List DispEvent → List (Int × Int)
  | [] => []
  | DispEvent.set_cursor x y :: es => (x, y) :: cursors es
  | _ :: es => cursors es

/-- A URL with the host `1.2.3.4`, a path of 255 bytes and a query of 255
bytes. -/
def longUrl : List Char :=
  "1.2.3.4/".toList ++ List.replicate 254 'a' ++ '?' :: List.replicate 255 'b'

/-- A response with one header line that is not recognized. -/
def respPlain : List Char := "HTTP/1.1 200 OK\r\nX-Frame: none\r\n\r\nhi".toList

/-- A byte of a text run without white space: not the terminator, not `<`, not
white space. -/
def runChar (c : Char) : Prop := c ≠ NUL ∧ c ≠ '<' ∧ isWs c = false

/-- The pieces of at most 255 bytes that a text is cut into, from the front; the
counter bounds the number of pieces. -/
def pieces : Nat → List Char → List (List Char)
  | 0, _ => []
  | f + 1, t => if t = [] then [] else t.take 255 :: pieces f (t.drop 255)

/-- The text node with the text `t` and the parent `cur`. -/
def textNodeOf (cur : Nat) (t : List Char) : HtmlNode :=
  { blankNode with type := NODE_TEXT, text := t, parent := some cur }

/-- The arena after text nodes with the given texts have been made, one after the
other, at the insertion point `cur`. -/
def addTexts (pool : List HtmlNode) (cur : Nat) : List (List Char) → List HtmlNode
  | [] => pool
  | c :: cs => addTexts (addChild pool cur pool.length ++ [textNodeOf cur c]) cur cs

/-- A paragraph with a text of 300 bytes. -/
def longText : List Char := "<p>".toList ++ List.replicate 300 'a' ++ "</p>".toList

/-- The nodes that are reached from the node `i` by links to children, in the
order of a walk that takes a node before its children and the children from left
to right; the counter bounds the depth. -/
def below : Nat → List HtmlNode → Nat → List Nat
  | 0, _, _ => []
  | k + 1, a, i =>
    match a[i]? with
    | none => []
    | some n => i :: n.children.flatMap (fun c => below k a c)

/-- The text of 32 tags `<br>`, a `div` with a text, and a text behind it. -/
def br32div : List Char :=
  (List.replicate 32 "<br>".toList).flatten ++ "<div>x</div>y".toList

/-- The calls to the display for `k` dashes in the colour `c`, in the row `y`
from the column `x` on: for each dash the colour is set, the cursor is put, and
the dash is printed. -/
def dashes (c : Nat) (y : Int) : Int → Nat → List DispEvent
  | _, 0 => []
  | x, k + 1 =>
    DispEvent.set_color c :: DispEvent.set_cursor x y :: DispEvent.kprint ['-'] ::
      dashes c y (x + 1) k

/-- An element `hr`. -/
def hrNode : HtmlNode := { blankNode with type := NODE_ELEMENT, tag := TAG_HR }

/-- The text of the node `j` when it is a text node, the empty text else. -/
def nodeText (a : List HtmlNode) (j : Nat) : List Char :=
  match a[j]? with
  | some n => if n.type = NODE_TEXT then cstr n.text else []
  | none => []

/-- The texts of the text nodes that are reached from the node `i`, put together
in the order of the walk `below`. -/
def textsOf (k : Nat) (a : List HtmlNode) (i : Nat) : List Char :=
  (below k a i).flatMap (nodeText a)

/-- A node without hooks in `render_node`: a text node, or an element `html`,
`body`, `div` or `span`. -/
def Plain (n : HtmlNode) : Prop :=
  n.type = NODE_TEXT ∨ n.tag = TAG_HTML ∨ n.tag = TAG_BODY ∨ n.tag = TAG_DIV ∨ n.tag = TAG_SPAN

/-! ## `html.c` on the memory of the arena

The model of `html_parse` above keeps of the arena the nodes
`node_pool[0 .. node_count)` and of every node the C strings and the children
that count.  Here the same code is read on the memory as it is: all the entries
of `node_pool` with the bytes that earlier calls have left in them. -/

/-- The bytes of a `struct HtmlNode` in `node_pool`: the three `char` arrays with
whatever they hold behind the terminator, the array `children` with all its
entries, and the counter `child_count`. -/
structure RawNode where
  type : Nat
  tag : Nat
  text : List Char
  href : List Char
  src : List Char
  children : List Nat
  child_count : Nat
  parent : Option Nat
deriving DecidableEq

/-- The statics `node_pool` and `node_count`. -/
structure Arena where
  node_pool : List RawNode
  node_count : Nat
deriving DecidableEq

/-- The assignment `buf[0] = '\0'`. -/
def pokeNul (buf : List Char) : List Char := NUL :: buf.tail

/-- The array `buf` after the bytes `s` and the terminator have been written at
its start. -/
def pokeStr (buf s : List Char) : List Char := s ++ NUL :: buf.drop (s.length + 1)

/-- Modelled from the spec: `kstrcpy` is a kernel primitive that is not part of
the sources at hand; as above it is the usual `strcpy`, here on the array: the
bytes of the C string of the source and the terminator are written at the start
of the destination, the bytes behind them are left as they are. -/
def kstrcpy_mem (dst src : List Char) : List Char := pokeStr dst (cstr src)

/-- An assignment to fields of the entry `node_pool[i]`. -/
def setRaw : List RawNode → Nat → (RawNode → RawNode) → List RawNode
  | [], _, _ => []
  | n :: ns, 0, f => f n :: ns
  | n :: ns, i + 1, f => n :: setRaw ns i f

/-- The function `html_alloc_node` on the memory: the entry `node_pool[node_count]`
gets its fields reset, the first byte of each string included, and `node_count`
grows by one. -/
def html_alloc_node_mem (A : Arena) : Option (Nat × Arena) :=
  if A.node_count ≥ MAX_NODES then none
  else some (A.node_count,
    { node_pool := setRaw A.node_pool A.node_count (fun n =>
        { n with type := NODE_TEXT, tag := 0, text := pokeNul n.text, href := pokeNul n.href,
                 src := pokeNul n.src, child_count := 0, parent := none }),
      node_count := A.node_count + 1 })

/-- The function `html_reset` on the memory: `node_count = 0`, nothing else. -/
def html_reset_mem (A : Arena) : Arena := { A with node_count := 0 }

/-- The statement
`if (current->child_count < 32) current->children[current->child_count++] = node;`
on the memory. -/
def addChildMem (pool : List RawNode) (current node : Nat) : List RawNode :=
  setRaw pool current (fun n =>
    if n.child_count < 32 then
      { n with children := n.children.set n.child_count node, child_count := n.child_count + 1 }
    else n)

/-- The two loops over an attribute value, with the destination an array: the
bytes of the value and the terminator are written to it when the name is the one
looked for. -/
def attrValueMem (name attr_name : List Char) (max_len : Nat) (quote : Char)
    (p out : List Char) : List Char × List Char :=
  if kstrcmp attr_name name = 0 then
    ((copyWhile (attrValueChar quote) (max_len - 1) p).2,
      pokeStr out (copyWhile (attrValueChar quote) (max_len - 1) p).1)
  else
    (p.dropWhile (fun c => c != NUL && attrValueChar quote c), out)

/-- The body of the loop of `html_parse_attr`, with the destination an array. -/
def attrBodyMem (name : List Char) (max_len : Nat) (p out : List Char) :
    List Char × List Char :=
  let p1 := p.dropWhile (fun c => c == ' ')
  let nm := copyWhile attrNameChar 31 p1
  if deref nm.2 = '=' then
    let v := attrValueMem name nm.1 max_len (attrQuote nm.2.tail) (attrOpen nm.2.tail) out
    (skipQuote (attrQuote nm.2.tail) v.1, v.2)
  else (nm.2, out)

/-- The loop of `html_parse_attr`, with the destination an array. -/
def attrLoopMem (name : List Char) (max_len : Nat) : Nat → List Char → List Char →
    List Char × List Char
  | 0, p, out => (p, out)
  | k + 1, p, out =>
    if deref p ≠ NUL ∧ deref p ≠ '>' then
      attrLoopMem name max_len k (attrBodyMem name max_len p out).1
        (attrBodyMem name max_len p out).2
    else (p, out)

/-- The function `html_parse_attr`, with the destination an array. -/
def html_parse_attr_mem (p name out : List Char) (max_len : Nat) : List Char × List Char :=
  attrLoopMem name max_len (p.length + 1) p out

/-- The state of the main loop of `html_parse` on the memory. -/
structure MState where
  arena : Arena
  current : Nat
  ptr : List Char
deriving DecidableEq

/-- How an iteration of the main loop on the memory ends. -/
inductive MStep where
  | next (s : MState)
  | stop (s : MState)
  | fault
deriving DecidableEq

/-- An entry of `node_pool` that is read through a pointer into the arena. -/
def rawAt (pool : List RawNode) (i : Nat) : RawNode :=
  pool.getD i
    { type := 0, tag := 0, text := [], href := [], src := [], children := [], child_count := 0,
      parent := none }

/-- The branch "Opening tag" of the main loop on the memory. -/
def openTagMem (s : MState) (p0 : List Char) (tn : List Char × List Char) (tag_id : Nat) :
    MStep :=
  -- HtmlNode* node = html_alloc_node(); if (!node) break;
  match html_alloc_node_mem s.arena with
  | none => MStep.stop s
  | some (node, A1) =>
    -- node->type, node->tag, kstrcpy(node->text, tag_name), node->parent
    let pool2 := setRaw A1.node_pool node (fun n =>
      { n with type := NODE_ELEMENT, tag := tag_id, text := kstrcpy_mem n.text tn.1,
               parent := some s.current })
    let pool3 := addChildMem pool2 s.current node
    -- html_parse_attr(&ptr, "href", node->href, 256); html_parse_attr(&ptr, "src", node->src, 256);
    let h := html_parse_attr_mem tn.2 "href".toList (rawAt pool3 node).href 256
    let sr := html_parse_attr_mem h.1 "src".toList (rawAt pool3 node).src 256
    let pool4 := setRaw pool3 node (fun n => { n with href := h.2, src := sr.2 })
    let p4 := skipToGt sr.1
    let self_close := prevChar p0 p4 = '/' ∨ tag_id = TAG_BR ∨ tag_id = TAG_HR ∨ tag_id = TAG_IMG
    MStep.next { arena := { node_pool := pool4, node_count := A1.node_count },
                 current := if self_close then s.current else node, ptr := skipGt p4 }

/-- The branch "Text node" of the main loop on the memory. -/
def textNodeMem (s : MState) (p0 : List Char) : MStep :=
  let t := textLoop p0 []
  let text := trimEnd t.1
  if text ≠ [] then
    match html_alloc_node_mem s.arena with
    | none => MStep.stop s
    | some (node, A1) =>
      let pool2 := setRaw A1.node_pool node (fun n =>
        { n with type := NODE_TEXT, text := kstrcpy_mem n.text text,
                 parent := some s.current })
      MStep.next { arena := { node_pool := addChildMem pool2 s.current node,
                              node_count := A1.node_count },
                   current := s.current, ptr := t.2 }
  else MStep.next { s with ptr := t.2 }

/-- The insertion point after `if (current->parent) current = current->parent;`
on the memory. -/
def popCurrentMem (pool : List RawNode) (current : Nat) : Nat :=
  match pool[current]? with
  | some n => (match n.parent with
    | some q => q
    | none => current)
  | none => current

/-- One iteration of the main loop of `html_parse` on the memory. -/
def stepMem (s : MState) : MStep :=
  let p0 := s.ptr.dropWhile isWs
  if deref p0 = '<' then
    let p1 := p0.tail
    if deref p1 = '!' ∧ deref p1.tail = '-' ∧ deref p1.tail.tail = '-' then
      match kstrstr p1 "-->".toList with
      | none => MStep.fault
      | some k => MStep.next { s with ptr := p1.drop (k + 3) }
    else if deref p1 = '/' then
      MStep.next { s with ptr := skipGt (skipToGt p1.tail),
                          current := popCurrentMem s.arena.node_pool s.current }
    else
      let tn := copyWhile tagNameChar 31 p1
      let tag_name := tn.1.map lowerChar
      let tag_id := html_match_tag tag_name
      if tag_id = 0 then
        MStep.next { s with ptr := skipGt (skipToGt tn.2) }
      else openTagMem s p0 (tag_name, tn.2) tag_id
  else textNodeMem s p0

/-- The main loop of `html_parse` on the memory, with the counter of `run`. -/
def runMem : Nat → MState → Option MState
  | 0, s => some s
  | k + 1, s =>
    if deref s.ptr = NUL then some s
    else match stepMem s with
      | MStep.next s' => runMem k s'
      | MStep.stop s' => some s'
      | MStep.fault => none

/-- The state in which the main loop starts on the memory: after `html_reset()`
and the allocation of the root. -/
def initMem (A : Arena) (html : List Char) : MState :=
  match html_alloc_node_mem (html_reset_mem A) with
  | some (root, A1) =>
    { arena := { node_pool := setRaw A1.node_pool root (fun n =>
                   { n with type := NODE_ELEMENT, tag := TAG_HTML }),
                 node_count := A1.node_count },
      current := root, ptr := html }
  | none => { arena := html_reset_mem A, current := 0, ptr := html }

/-- The function `html_parse` on the memory `A` that earlier calls have left: the
memory after the call, `none` when the loop dereferences the null pointer. -/
def html_parse_mem (A : Arena) (html : List Char) : Option Arena :=
  (runMem (html.length + 1) (initMem A html)).map (fun s => s.arena)

/-- What is seen of an entry of `node_pool`: the type, the tag, the three C
strings, the first `child_count` children and the parent. -/
def viewNode (n : RawNode) : HtmlNode :=
  { type := n.type, tag := n.tag, text := cstr n.text, href := cstr n.href, src := cstr n.src,
    children := n.children.take n.child_count, parent := n.parent }

/-- What is seen of the arena: the nodes `node_pool[0 .. node_count)`. -/
def view (A : Arena) : List HtmlNode := (A.node_pool.take A.node_count).map viewNode

/-- The state of the model above that is seen of a state on the memory. -/
def absState (s : MState) : PState :=
  { pool := view s.arena, current := s.current, ptr := s.ptr }

/-- The end of an iteration of the model above that is seen of one on the
memory. -/
def absStep : MStep → Step
  | MStep.next s => Step.next (absState s)
  | MStep.stop s => Step.stop (absState s)
  | MStep.fault => Step.fault

/-- An arena as the declaration has it: 512 entries, each with an array of 32
children. -/
def ArenaOk (A : Arena) : Prop :=
  A.node_pool.length = MAX_NODES ∧ ∀ n ∈ A.node_pool, n.children.length = 32

/-- The nodes in use are in order: the counters of the children are at most 32,
the parents are nodes in use, and so is the insertion point. -/
def MemOk (s : MState) : Prop :=
  ArenaOk s.arena ∧ s.arena.node_count ≤ MAX_NODES ∧
  (∀ (i : Nat) (n : RawNode), i < s.arena.node_count → s.arena.node_pool[i]? = some n →
    n.child_count ≤ 32 ∧ ∀ q, n.parent = some q → q < s.arena.node_count) ∧
  s.current < s.arena.node_count

/-- An entry that an earlier parse has left in use: strings without terminator,
a counter of children over the cap, a parent. -/
def staleNode : RawNode :=
  { type := NODE_ELEMENT, tag := TAG_A, text := List.replicate 256 'x',
    href := List.replicate 256 'y', src := List.replicate 256 'z',
    children := List.replicate 32 5, child_count := 40, parent := some 3 }

/-- An arena that earlier parses have filled up. -/
def staleArena : Arena := { node_pool := List.replicate 512 staleNode, node_count := 512 }

/-- The arena at the start of the program: zeroed memory. -/
def zeroArena : Arena :=
  { node_pool := List.replicate 512
      { type := 0, tag := 0, text := List.replicate 256 NUL, href := List.replicate 256 NUL,
        src := List.replicate 256 NUL, children := List.replicate 32 0, child_count := 0,
        parent := none },
    node_count := 0 }

/-- The tree of `<div>a<span>b</span>c</div>d`. -/
def walkTree : List HtmlNode :=
  [{ blankNode with type := NODE_ELEMENT, tag := TAG_HTML, children := [1, 6] },
   { blankNode with type := NODE_ELEMENT, tag := TAG_DIV, text := "div".toList,
                    children := [2, 3, 5], parent := some 0 },
   { blankNode with type := NODE_TEXT, text := "a".toList, parent := some 1 },
   { blankNode with type := NODE_ELEMENT, tag := TAG_SPAN, text := "span".toList,
                    children := [4], parent := some 1 },
   { blankNode with type := NODE_TEXT, text := "b".toList, parent := some 3 },
   { blankNode with type := NODE_TEXT, text := "c".toList, parent := some 1 },
   { blankNode with type := NODE_TEXT, text := "d".toList, parent := some 0 }]

/-- The tree of `<div><p>a</p>b</div>c`. -/
def nestTree : List HtmlNode :=
  [{ blankNode with type := NODE_ELEMENT, tag := TAG_HTML, children := [1, 5] },
   { blankNode with type := NODE_ELEMENT, tag := TAG_DIV, text := "div".toList,
                    children := [2, 4], parent := some 0 },
   { blankNode with type := NODE_ELEMENT, tag := TAG_P, text := "p".toList,
                    children := [3], parent := some 1 },
   { blankNode with type := NODE_TEXT, text := "a".toList, parent := some 2 },
   { blankNode with type := NODE_TEXT, text := "b".toList, parent := some 1 },
   { blankNode with type := NODE_TEXT, text := "c".toList, parent := some 0 }]

/-- The arena after `<div>` has been read: the root and the element `div`. -/
def divArena : List HtmlNode :=
  [{ blankNode with type := NODE_ELEMENT, tag := TAG_HTML, children := [1] },
   { blankNode with type := NODE_ELEMENT, tag := TAG_DIV, text := "div".toList,
                    parent := some 0 }]

/-- The arena after 32 tags `<br>` have been read: the root with its 32
children. -/
def brArena : List HtmlNode :=
  { blankNode with type := NODE_ELEMENT, tag := TAG_HTML, children := List.range' 1 32 } ::
    List.replicate 32
      { blankNode with type := NODE_ELEMENT, tag := TAG_BR, text := "br".toList,
                       parent := some 0 }

/-- The arena after `<p>` has been read: the root and the element `p`. -/
def pArena : List HtmlNode :=
  [{ blankNode with type := NODE_ELEMENT, tag := TAG_HTML, children := [1] },
   { blankNode with type := NODE_ELEMENT, tag := TAG_P, text := "p".toList, parent := some 0 }]

/-! ## Lemmas on the loops of `parse_url` -/

theorem isDigit_iff (c : Char) : isDigit c = true ↔ 48 ≤ c.toNat ∧ c.toNat ≤ 57 := by
  simp [isDigit]

theorem copyWhile_fst (cond : Char → Bool) (n : Nat) (p : List Char) :
    (copyWhile cond n p).1 = (p.takeWhile (fun c => decide (c ≠ NUL) && cond c)).take n := by
  induction n generalizing p with
  | zero => simp [copyWhile]
  | succ n ih =>
    cases p with
    | nil => simp [copyWhile]
    | cons c cs =>
      by_cases hc : c ≠ NUL ∧ cond c = true
      · have : (decide (c ≠ NUL) && cond c) = true := by simpa using hc
        simp [copyWhile, hc, ih, List.takeWhile_cons, this]
      · have : (decide (c ≠ NUL) && cond c) = false := by
          cases h1 : cond c <;> simp_all
        simp [copyWhile, hc, List.takeWhile_cons, this]

theorem copyWhile_snd (cond : Char → Bool) (n : Nat) (p : List Char) :
    (copyWhile cond n p).2 = p.drop (copyWhile cond n p).1.length := by
  induction n generalizing p with
  | zero => simp [copyWhile]
  | succ n ih =>
    cases p with
    | nil => simp [copyWhile]
    | cons c cs =>
      by_cases hc : c ≠ NUL ∧ cond c = true
      · simp [copyWhile, hc, ih cs]
      · simp [copyWhile, hc]

/-- A copy loop run on `h ++ rest`, where every byte of `h` passes the test, `h`
fits the room and `rest` starts with a byte that stops the loop, copies `h` and
stops at `rest`. -/
theorem copyWhile_append (cond : Char → Bool) (n : Nat) (h rest : List Char)
    (hh : ∀ c ∈ h, c ≠ NUL ∧ cond c = true) (hn : h.length ≤ n)
    (hrest : h.length = n ∨ rest = [] ∨ deref rest = NUL ∨ cond (deref rest) = false) :
    copyWhile cond n (h ++ rest) = (h, rest) := by
  induction h generalizing n with
  | nil =>
    cases n with
    | zero => simp [copyWhile]
    | succ n =>
      cases rest with
      | nil => simp [copyWhile]
      | cons c cs =>
        have : ¬ (c ≠ NUL ∧ cond c = true) := by
          rcases hrest with h | h | h | h
          · simp at h
          · simp at h
          · simp [deref] at h; simp [h]
          · simp [deref] at h; simp [h]
        simp [copyWhile, this]
  | cons a h ih =>
    cases n with
    | zero => simp at hn
    | succ n =>
      have ha := hh a (by simp)
      have ih' := ih n (fun c hc => hh c (by simp [hc])) (by simpa using hn)
        (by rcases hrest with h | h
            · left; simpa using h
            · right; exact h)
      simp [copyWhile, ha, ih']

theorem toNat_inj {a b : Char} (h : a.toNat = b.toNat) : a = b := by
  have := congrArg Char.ofNat h
  simpa using this

theorem wrap32_eq (x : Int) (h0 : 0 ≤ x) (h1 : x < 2147483648) : wrap32 x = x := by
  unfold wrap32; omega

theorem digitVal_eq (c : Char) (h : isDigit c = true) :
    digitVal c = ((c.toNat - '0'.toNat : Nat) : Int) ∧ c.toNat - '0'.toNat ≤ 9 := by
  rw [isDigit_iff] at h
  have h48 : '0'.toNat = 48 := by decide
  unfold digitVal
  rw [h48]
  omega

theorem foldl_dec (ds : List Char) (a : Nat) :
    ds.foldl (fun a c => a * 10 + (c.toNat - '0'.toNat)) a = a * 10 ^ ds.length + decVal ds := by
  induction ds generalizing a with
  | nil => simp [decVal]
  | cons d ds ih =>
    simp only [List.foldl_cons, List.length_cons, decVal]
    rw [ih, ih (0 * 10 + _)]
    ring

theorem decVal_cons (d : Char) (ds : List Char) :
    decVal (d :: ds) = (d.toNat - '0'.toNat) * 10 ^ ds.length + decVal ds := by
  simp only [decVal, List.foldl_cons]
  rw [foldl_dec]
  simp [decVal]

/-- The digit loop stops at once on a byte that is not a digit. -/
theorem parseInt_stop (rest : List Char) (v : Int) (hrest : isDigit (deref rest) = false) :
    parseInt rest v = (v, rest) := by
  cases rest with
  | nil => simp [parseInt]
  | cons c cs =>
    simp only [deref, List.headD_cons] at hrest
    simp [parseInt, hrest]

/-- The digit loop on a numeral followed by a byte that is not a digit yields
the value of the numeral, provided it fits an `int`. -/
theorem parseInt_digits (ds rest : List Char) (v : Nat)
    (hds : ∀ c ∈ ds, isDigit c = true) (hrest : isDigit (deref rest) = false)
    (hb : v * 10 ^ ds.length + decVal ds < 2147483648) :
    parseInt (ds ++ rest) (v : Int) = (((v * 10 ^ ds.length + decVal ds : Nat) : Int), rest) := by
  induction ds generalizing v with
  | nil => simpa [decVal] using parseInt_stop rest v hrest
  | cons d ds ih =>
    have hd := hds d (by simp)
    obtain ⟨hdv, hd9⟩ := digitVal_eq d hd
    have hpos : 1 ≤ 10 ^ ds.length := Nat.one_le_pow _ _ (by norm_num)
    rw [decVal_cons] at hb ⊢
    simp only [List.length_cons, pow_succ] at hb ⊢
    have hb' : (v * 10 + (d.toNat - '0'.toNat)) * 10 ^ ds.length + decVal ds < 2147483648 := by
      have : (v * 10 + (d.toNat - '0'.toNat)) * 10 ^ ds.length
          = v * (10 ^ ds.length * 10) + (d.toNat - '0'.toNat) * 10 ^ ds.length := by ring
      omega
    have hsmall : v * 10 + (d.toNat - '0'.toNat) < 2147483648 := by
      have : v * 10 + (d.toNat - '0'.toNat)
          ≤ (v * 10 + (d.toNat - '0'.toNat)) * 10 ^ ds.length := Nat.le_mul_of_pos_right _ hpos
      omega
    have hw : wrap32 ((v : Int) * 10 + digitVal d)
        = ((v * 10 + (d.toNat - '0'.toNat) : Nat) : Int) := by
      rw [hdv, wrap32_eq]
      · push_cast; ring
      · positivity
      · have : ((v * 10 + (d.toNat - '0'.toNat) : Nat) : Int) < 2147483648 := by exact_mod_cast hsmall
        push_cast at this ⊢
        linarith
    have hstep : parseInt ((d :: ds) ++ rest) (v : Int)
        = parseInt (ds ++ rest) (wrap32 ((v : Int) * 10 + digitVal d)) := by
      simp [parseInt, hd]
    rw [hstep, hw, ih _ (fun c hc => hds c (by simp [hc])) hb']
    congr 2
    ring

/-- A value `kstrncmp` returns for two bytes that differ is not 0. -/
theorem kstrncmp_eq_zero_iff (pre : List Char) (hpre : NUL ∉ pre) (u : List Char) :
    kstrncmp u pre pre.length = 0 ↔ pre <+: u := by
  induction pre generalizing u with
  | nil => simp [kstrncmp]
  | cons a pre ih =>
    have ha : a ≠ NUL := fun h => hpre (by simp [h])
    have hpre' : NUL ∉ pre := fun h => hpre (by simp [h])
    cases u with
    | nil =>
      have : (NUL.toNat : Int) - (a.toNat : Int) ≠ 0 := by
        intro h
        have : a.toNat = NUL.toNat := by omega
        exact ha (toNat_inj this)
      simp [kstrncmp, deref, Ne.symm ha, this]
    | cons c cs =>
      by_cases hca : c = a
      · subst hca
        simp [kstrncmp, deref, ha, ih hpre' cs, List.cons_prefix_cons]
      · have : (c.toNat : Int) - (a.toNat : Int) ≠ 0 := by
          intro h
          have : c.toNat = a.toNat := by omega
          exact hca (toNat_inj this)
        simp [kstrncmp, deref, hca, this, List.cons_prefix_cons, Ne.symm hca]

theorem skipProtocol_http (s : List Char) :
    skipProtocol ("http://".toList ++ s) = (s, 80) := by
  have h : kstrncmp ("http://".toList ++ s) "http://".toList 7 = 0 :=
    (kstrncmp_eq_zero_iff "http://".toList (by decide) _).2 (List.prefix_append _ _)
  unfold skipProtocol
  rw [if_pos h]
  rfl

theorem skipProtocol_https (s : List Char) :
    skipProtocol ("https://".toList ++ s) = (s, 443) := by
  have h1 : kstrncmp ("https://".toList ++ s) "http://".toList 7 ≠ 0 := by
    intro h
    have := (kstrncmp_eq_zero_iff "http://".toList (by decide) _).1 h
    simp [List.cons_prefix_cons] at this
  have h2 : kstrncmp ("https://".toList ++ s) "https://".toList 8 = 0 :=
    (kstrncmp_eq_zero_iff "https://".toList (by decide) _).2 (List.prefix_append _ _)
  unfold skipProtocol
  rw [if_neg h1, if_pos h2]
  rfl

theorem skipProtocol_none (u : List Char) (h1 : ¬ "http://".toList <+: u)
    (h2 : ¬ "https://".toList <+: u) : skipProtocol u = (u, 80) := by
  have h1' : kstrncmp u "http://".toList 7 ≠ 0 := fun h =>
    h1 ((kstrncmp_eq_zero_iff "http://".toList (by decide) _).1 h)
  have h2' : kstrncmp u "https://".toList 8 ≠ 0 := fun h =>
    h2 ((kstrncmp_eq_zero_iff "https://".toList (by decide) _).1 h)
  unfold skipProtocol
  rw [if_neg h1', if_neg h2']

/-- The first two steps of `parse_url` on `sch ++ h ++ R`: for a scheme prefix
`sch`, a host `h` and a tail `R` that is empty or starts with a delimiter (and,
without a scheme, not with `:/`), the protocol step skips `sch` and the host loop
copies `h` and stops at `R`. -/
theorem scheme_host_steps (sch h R : List Char)
    (hsch : sch = [] ∨ sch = "http://".toList ∨ sch = "https://".toList)
    (hlen : h.length ≤ 127)
    (hh : ∀ c ∈ h, c ≠ NUL ∧ c ≠ '/' ∧ c ≠ ':' ∧ c ≠ '?')
    (d1 : deref R = NUL ∨ deref R = '/' ∨ deref R = '?' ∨
      (deref R = ':' ∧ (sch = [] → ∃ d t, R = ':' :: d :: t ∧ isDigit d = true))) :
    skipProtocol (sch ++ (h ++ R)) = (h ++ R, schemePort sch) ∧
      copyWhile hostChar 127 (h ++ R) = (h, R) := by
  have q2 : copyWhile hostChar 127 (h ++ R) = (h, R) := by
    apply copyWhile_append hostChar 127 h R _ hlen
    · rcases d1 with h | h | h | ⟨h, -⟩
      · exact Or.inr (Or.inr (Or.inl h))
      all_goals exact Or.inr (Or.inr (Or.inr (by rw [h]; decide)))
    · intro c hc
      obtain ⟨h0, h1, h2, h3⟩ := hh c hc
      exact ⟨h0, by simp [hostChar, h1, h2, h3]⟩
  refine ⟨?_, q2⟩
  rcases hsch with rfl | rfl | rfl
  · have hstop : ∀ t, ¬ (R = ':' :: '/' :: t) := by
      intro t ht
      rcases d1 with h | h | h | ⟨-, h⟩
      · rw [ht] at h; revert h; simp only [deref, List.headD_cons]; decide
      · rw [ht] at h; revert h; simp only [deref, List.headD_cons]; decide
      · rw [ht] at h; revert h; simp only [deref, List.headD_cons]; decide
      · obtain ⟨d, t', h, hd⟩ := h rfl
        rw [ht] at h
        simp only [List.cons.injEq, true_and] at h
        rw [← h.1] at hd
        revert hd; decide
    rw [List.nil_append]
    have key : ∀ (pre t : List Char), (∀ c ∈ pre, c ≠ NUL ∧ hostChar c = true) →
        pre.length ≤ 127 → h ++ R = pre ++ ':' :: '/' :: t → False := by
      intro pre t hpre hl he
      have := copyWhile_append hostChar 127 pre (':' :: '/' :: t) hpre hl
        (Or.inr (Or.inr (Or.inr (by simp only [deref, List.headD_cons]; decide))))
      rw [← he, q2] at this
      exact hstop t (Prod.mk.inj this).2
    rw [skipProtocol_none]
    · rfl
    · rintro ⟨t, ht⟩
      exact key "http".toList ('/' :: t) (by decide) (by decide) (by rw [← ht]; rfl)
    · rintro ⟨t, ht⟩
      exact key "https".toList ('/' :: t) (by decide) (by decide) (by rw [← ht]; rfl)
  · rw [skipProtocol_http]; rfl
  · rw [skipProtocol_https]; rfl

/-! ## `parse_url`: round trip -/

/-- C1. `parse_url` round trip: for a scheme prefix `sch` (none, `http://` or
`https://`), a host `h` of at most 127 characters without `/`, `:`, `?`, an
optional port given as a non-empty decimal numeral of value at most 65535, an
optional path of at most 255 characters that starts with `/` and has no `?`, and
an optional query of at most 255 characters, `parse_url` on
`sch ++ h ++ [":" ++ port] ++ [path] ++ ["?" ++ query]` returns 1 with host `h`,
the port's value (80, or 443 for `https://`, when the port is omitted), the path
(`/` when omitted) and the query (empty when omitted).  The strings are C
strings: they hold no terminator byte. -/
theorem parse_url_round_trip (sch h : List Char) (port path query : Option (List Char))
    (hsch : sch = [] ∨ sch = "http://".toList ∨ sch = "https://".toList)
    (hlen : h.length ≤ 127)
    (hh : ∀ c ∈ h, c ≠ NUL ∧ c ≠ '/' ∧ c ≠ ':' ∧ c ≠ '?')
    (hport : ∀ ds, port = some ds →
      ds ≠ [] ∧ (∀ c ∈ ds, isDigit c = true) ∧ decVal ds ≤ 65535)
    (hpath : ∀ q, path = some q →
      q.length ≤ 255 ∧ q.head? = some '/' ∧ ∀ c ∈ q, c ≠ NUL ∧ c ≠ '?')
    (hquery : ∀ r, query = some r → r.length ≤ 255 ∧ ∀ c ∈ r, c ≠ NUL) :
    parse_url (urlOf sch h port path query) =
      (1, { host := h,
            port := portOf sch port,
            path := path.getD ['/'],
            query := query.getD [] }) := by
  -- the three tails of the text
  generalize hR3 : optPart '?' query = R3
  generalize hR2 : path.getD [] ++ R3 = R2
  generalize hR : optPart ':' port ++ R2 = R
  have hurl : urlOf sch h port path query = sch ++ (h ++ R) := by
    simp only [urlOf, hR3, hR2, hR]
  have d3 : deref R3 = NUL ∨ deref R3 = '?' := by
    subst hR3; cases query <;> simp [deref, optPart]
  have d2 : deref R2 = NUL ∨ deref R2 = '/' ∨ deref R2 = '?' := by
    subst hR2
    cases hp : path with
    | none => rcases d3 with h | h <;> simp [h]
    | some q =>
      obtain ⟨-, hq, -⟩ := hpath q hp
      cases q with
      | nil => simp at hq
      | cons a q => simp at hq; simp [deref, hq]
  have d1 : deref R = NUL ∨ deref R = '/' ∨ deref R = '?' ∨
      (deref R = ':' ∧ ∃ d t, R = ':' :: d :: t ∧ isDigit d = true) := by
    subst hR
    cases hp : port with
    | none => rcases d2 with h | h | h <;> simp [h, optPart]
    | some ds =>
      obtain ⟨hne, hd, -⟩ := hport ds hp
      cases ds with
      | nil => exact absurd rfl hne
      | cons d ds =>
        right; right; right
        exact ⟨by simp [deref, optPart], d, ds ++ R2, by simp [optPart], hd d (by simp)⟩
  -- the query
  have q5 : (if deref R3 = '?' then copyWhile (fun _ => true) 255 R3.tail
      else ([], R3)).1 = query.getD [] := by
    subst hR3
    cases hq : query with
    | none =>
      have : ¬ (NUL = '?') := by decide
      simp [deref, this, optPart]
    | some r =>
      obtain ⟨hl, hr⟩ := hquery r hq
      have := copyWhile_append (fun _ => true) 255 r [] (fun c hc => ⟨hr c hc, rfl⟩) hl
        (Or.inr (Or.inl rfl))
      rw [List.append_nil] at this
      simp [deref, this, optPart]
  -- the path
  have q4 : (if deref R2 = '/' then copyWhile pathChar 255 R2 else (['/'], R2))
      = (path.getD ['/'], R3) := by
    subst hR2
    cases hp : path with
    | none =>
      have h1 : ¬ (NUL = '/') := by decide
      rcases d3 with h | h <;> simp [h, h1]
    | some q =>
      obtain ⟨hl, hq, hc⟩ := hpath q hp
      have hd : deref (q ++ R3) = '/' := by
        cases q with
        | nil => simp at hq
        | cons a q => simp at hq; simp [deref, hq]
      have := copyWhile_append pathChar 255 q R3
        (fun c h => ⟨(hc c h).1, by simp [pathChar, (hc c h).2]⟩) hl
        (by rcases d3 with h | h
            · exact Or.inr (Or.inr (Or.inl h))
            · exact Or.inr (Or.inr (Or.inr (by rw [h]; decide))))
      simp [hd, this]
  -- the port
  have q3 : (if deref R = ':' then parseInt R.tail 0 else (schemePort sch, R))
      = (portOf sch port, R2) := by
    subst hR
    have hnd : isDigit (deref R2) = false := by
      rcases d2 with h | h | h <;> rw [h] <;> decide
    cases hp : port with
    | none =>
      have h1 : ¬ (NUL = ':') := by decide
      rcases d2 with h | h | h <;> simp [h, h1, optPart, portOf]
    | some ds =>
      obtain ⟨-, hd, hv⟩ := hport ds hp
      have := parseInt_digits ds R2 0 hd hnd (by omega)
      simp only [Nat.cast_zero] at this
      simp [deref, this, optPart, portOf]
  -- the scheme and the host
  obtain ⟨q1, q2⟩ := scheme_host_steps sch h R hsch hlen hh (by
    rcases d1 with h | h | h | ⟨h, h'⟩
    · exact Or.inl h
    · exact Or.inr (Or.inl h)
    · exact Or.inr (Or.inr (Or.inl h))
    · exact Or.inr (Or.inr (Or.inr ⟨h, fun _ => h'⟩)))
  rw [hurl]
  simp only [parse_url, q1, q2, q3, q4, q5]

/-- C1, the witness of the specification: `http://localhost:8080/a/b?x=1`. -/
theorem parse_url_round_trip_witness :
    parse_url "http://localhost:8080/a/b?x=1".toList =
      (1, { host := "localhost".toList, port := 8080, path := "/a/b".toList,
            query := "x=1".toList }) := by
  have h := parse_url_round_trip "http://".toList "localhost".toList (some "8080".toList)
    (some "/a/b".toList) (some "x=1".toList) (by decide) (by decide) (by decide)
    (by intro ds h; cases h; decide) (by intro q h; cases h; decide)
    (by intro r h; cases h; decide)
  exact h

/-! ## `parse_url`: the path -/

theorem deref_eq_cons {p : List Char} {c : Char} (h : deref p = c) (hc : c ≠ NUL) :
    p = c :: p.tail := by
  cases p with
  | nil => exact absurd h.symm hc
  | cons a t => simp only [deref, List.headD_cons] at h; simp [h]

/-- The path step leaves a path that starts with `/`, wherever it starts. -/
theorem path_step_head (p : List Char) :
    ∃ t, (if deref p = '/' then copyWhile pathChar 255 p else (['/'], p)).1 = '/' :: t := by
  by_cases hd : deref p = '/'
  · rw [if_pos hd, deref_eq_cons hd (by decide)]
    have h1 : ('/' : Char) ≠ NUL ∧ pathChar '/' = true := by decide
    refine ⟨(copyWhile pathChar 254 p.tail).1, ?_⟩
    show (copyWhile pathChar (254 + 1) ('/' :: p.tail)).1 = _
    rw [copyWhile, if_pos h1]
  · rw [if_neg hd]
    exact ⟨[], rfl⟩

/-- C2. For every input string, the path that `parse_url` produces is not empty
and its first character is `/`. -/
theorem parse_url_path_starts_with_slash (url : List Char) :
    (parse_url url).2.path ≠ [] ∧ (parse_url url).2.path.head? = some '/' := by
  simp only [parse_url]
  obtain ⟨t, ht⟩ := path_step_head
    (if deref (copyWhile hostChar 127 (skipProtocol url).1).2 = ':' then
      parseInt (copyWhile hostChar 127 (skipProtocol url).1).2.tail 0
    else ((skipProtocol url).2, (copyWhile hostChar 127 (skipProtocol url).1).2)).2
  rw [ht]
  simp

/-- The digit loop stops behind the digits, whatever value it accumulates. -/
theorem parseInt_snd_digits (ds rest : List Char) (v : Int)
    (hds : ∀ c ∈ ds, isDigit c = true) (hrest : isDigit (deref rest) = false) :
    (parseInt (ds ++ rest) v).2 = rest := by
  induction ds generalizing v with
  | nil => rw [List.nil_append, parseInt_stop rest v hrest]
  | cons d ds ih =>
    have hd := hds d (by simp)
    have hstep : parseInt ((d :: ds) ++ rest) v
        = parseInt (ds ++ rest) (wrap32 (v * 10 + digitVal d)) := by
      simp [parseInt, hd]
    rw [hstep, ih _ (fun c hc => hds c (by simp [hc]))]

/-- The digit loop only moves the pointer forward. -/
theorem parseInt_suffix (p : List Char) (v : Int) : (parseInt p v).2 <:+ p := by
  induction p generalizing v with
  | nil => simp [parseInt]
  | cons c cs ih =>
    by_cases hc : isDigit c = true
    · simp only [parseInt, hc, if_true]
      exact (ih _).trans (List.suffix_cons c cs)
    · simp [parseInt, hc]

theorem takeWhile_congr_mem {f g : Char → Bool} (l : List Char) (h : ∀ c ∈ l, f c = g c) :
    l.takeWhile f = l.takeWhile g := by
  induction l with
  | nil => rfl
  | cons a l ih =>
    rw [List.takeWhile_cons, List.takeWhile_cons, h a (by simp),
      ih (fun c hc => h c (by simp [hc]))]

/-- A byte read through a pointer into a text is a byte of the text. -/
theorem deref_mem_of_suffix {p s : List Char} {c : Char} (hp : p <:+ s) (hd : deref p = c)
    (hc : c ≠ NUL) : c ∈ s := by
  rw [deref_eq_cons hd hc] at hp
  exact hp.subset (by simp)

/-- C3, as amended. When the text after the scheme prefix (none, `http://` or
`https://`) is a host of at most 127 characters without `/`, `:`, `?`,
optionally followed by `:` and decimal digits (at least one when there is no
scheme prefix), followed by `/` and any text `t`, the path that `parse_url`
produces is the text from that `/` up to the next `?` or the end, cut to 255
characters; and when no `/` occurs in the text `rest` after the prefix, the path
is `/`. -/
theorem parse_url_path (sch h : List Char) (port : Option (List Char)) (t rest : List Char)
    (hsch : sch = [] ∨ sch = "http://".toList ∨ sch = "https://".toList)
    (hlen : h.length ≤ 127)
    (hh : ∀ c ∈ h, c ≠ NUL ∧ c ≠ '/' ∧ c ≠ ':' ∧ c ≠ '?')
    (hport : ∀ ds, port = some ds → (∀ c ∈ ds, isDigit c = true) ∧ (sch = [] → ds ≠ []))
    (ht : NUL ∉ t) (hrest : '/' ∉ rest) :
    (parse_url (sch ++ (h ++ (optPart ':' port ++ '/' :: t)))).2.path
        = (('/' :: t).takeWhile (fun c => c != '?')).take 255 ∧
      (parse_url (sch ++ rest)).2.path = ['/'] := by
  constructor
  · generalize hR : optPart ':' port ++ '/' :: t = R
    have hnd : isDigit (deref ('/' :: t)) = false := by
      simp only [deref, List.headD_cons]; decide
    have d1 : deref R = NUL ∨ deref R = '/' ∨ deref R = '?' ∨
        (deref R = ':' ∧ (sch = [] → ∃ d t, R = ':' :: d :: t ∧ isDigit d = true)) := by
      subst hR
      cases hp : port with
      | none => right; left; simp [optPart, deref]
      | some ds =>
        obtain ⟨hd, hne⟩ := hport ds hp
        right; right; right
        refine ⟨by simp [deref, optPart], fun hs => ?_⟩
        cases ds with
        | nil => exact absurd rfl (hne hs)
        | cons d ds => exact ⟨d, ds ++ '/' :: t, by simp [optPart], hd d (by simp)⟩
    obtain ⟨q1, q2⟩ := scheme_host_steps sch h R hsch hlen hh d1
    have q3 : (if deref R = ':' then parseInt R.tail 0 else (schemePort sch, R)).2
        = '/' :: t := by
      subst hR
      cases hp : port with
      | none =>
        have h1 : ¬ (('/' : Char) = ':') := by decide
        simp [optPart, deref, h1]
      | some ds =>
        obtain ⟨hd, -⟩ := hport ds hp
        simp [optPart, deref, parseInt_snd_digits ds ('/' :: t) 0 hd hnd]
    have q4 : (copyWhile pathChar 255 ('/' :: t)).1
        = (('/' :: t).takeWhile (fun c => c != '?')).take 255 := by
      rw [copyWhile_fst]
      congr 1
      apply takeWhile_congr_mem
      intro c hc
      have : c ≠ NUL := by
        rcases List.mem_cons.1 hc with h | h
        · rw [h]; decide
        · exact fun h' => ht (h' ▸ h)
      simp [pathChar, this]
    have hd : deref ('/' :: t) = '/' := rfl
    simp only [parse_url, q1, q2, q3, hd, if_true, q4]
  · have hskip : (skipProtocol (sch ++ rest)).1 = rest := by
      rcases hsch with rfl | rfl | rfl
      · rw [List.nil_append, skipProtocol_none]
        · rintro ⟨t, ht⟩
          exact hrest (by rw [← ht]; simp)
        · rintro ⟨t, ht⟩
          exact hrest (by rw [← ht]; simp)
      · rw [skipProtocol_http]
      · rw [skipProtocol_https]
    have h2 : (copyWhile hostChar 127 rest).2 <:+ rest := by
      rw [copyWhile_snd]; exact List.drop_suffix _ _
    have h3 : (if deref (copyWhile hostChar 127 rest).2 = ':'
        then parseInt (copyWhile hostChar 127 rest).2.tail 0
        else ((skipProtocol (sch ++ rest)).2, (copyWhile hostChar 127 rest).2)).2 <:+ rest := by
      split
      · exact ((parseInt_suffix _ _).trans (List.tail_suffix _)).trans h2
      · exact h2
    have h4 : ¬ deref (if deref (copyWhile hostChar 127 rest).2 = ':'
        then parseInt (copyWhile hostChar 127 rest).2.tail 0
        else ((skipProtocol (sch ++ rest)).2, (copyWhile hostChar 127 rest).2)).2 = '/' :=
      fun hd => hrest (deref_mem_of_suffix h3 hd (by decide))
    simp only [parse_url, hskip, h4, if_false]

/-- C3, witness of the amended statement: `http://h:80/a/b?x` and `https://h?x`. -/
theorem parse_url_path_witness :
    (parse_url "http://h:80/a/b?x".toList).2.path = "/a/b".toList ∧
      (parse_url "https://h?x".toList).2.path = "/".toList := by
  have h := parse_url_path "http://".toList "h".toList (some "80".toList) "a/b?x".toList
    "h?x".toList (by decide) (by decide) (by decide) (by intro ds h; cases h; decide)
    (by decide) (by decide)
  have h2 := parse_url_path "https://".toList "h".toList none "a".toList
    "h?x".toList (by decide) (by decide) (by decide) (by intro ds h; cases h)
    (by decide) (by decide)
  exact ⟨h.1, h2.2⟩

/-- C3, as stated, fails.  In `http://h:80x/a` a `/` occurs after the prefix
before any `?` and the text from it on is `/a`, but the path produced is `/`:
the byte after the port digits is not `/`.  The same happens behind a host of
more than 127 characters, here 128 times `a` followed by `/x`. -/
theorem parse_url_path_counterexample :
    (slashBeforeQuery "h:80x/a".toList = true ∧
      specPath "h:80x/a".toList = "/a".toList ∧
      (parse_url ("http://".toList ++ "h:80x/a".toList)).2.path = "/".toList ∧
      (parse_url ("http://".toList ++ "h:80x/a".toList)).2.path
        ≠ specPath "h:80x/a".toList) ∧
    (slashBeforeQuery (List.replicate 128 'a' ++ "/x".toList) = true ∧
      specPath (List.replicate 128 'a' ++ "/x".toList) = "/x".toList ∧
      (parse_url ("http://".toList ++ (List.replicate 128 'a' ++ "/x".toList))).2.path
        = "/".toList ∧
      (parse_url ("http://".toList ++ (List.replicate 128 'a' ++ "/x".toList))).2.path
        ≠ specPath (List.replicate 128 'a' ++ "/x".toList)) := by
  decide

/-! ## `dns_resolve` -/

theorem kstrcmp_eq_zero (a b : List Char) (ha : NUL ∉ a) (hb : NUL ∉ b)
    (h : kstrcmp a b = 0) : a = b := by
  induction a generalizing b with
  | nil =>
    cases b with
    | nil => rfl
    | cons c cs =>
      have hc : NUL ≠ c := fun h' => hb (by simp [h'])
      simp only [kstrcmp, deref, List.headD_cons, hc, ne_eq, not_false_eq_true, if_true] at h
      exact absurd (toNat_inj (by omega)) hc
  | cons x xs ih =>
    have hx : x ≠ NUL := fun h' => ha (by simp [h'])
    cases b with
    | nil =>
      simp only [kstrcmp, deref, List.headD_nil, hx, ne_eq, not_false_eq_true, if_true] at h
      exact absurd (toNat_inj (by omega)) hx
    | cons c cs =>
      by_cases hxc : x = c
      · subst hxc
        simp only [kstrcmp, deref, List.headD_cons, ne_eq, not_true_eq_false, if_false, hx,
          List.tail_cons] at h
        rw [ih cs (fun h' => ha (by simp [h'])) (fun h' => hb (by simp [h'])) h]
      · simp only [kstrcmp, deref, List.headD_cons, ne_eq, hxc, not_false_eq_true, if_true] at h
        exact absurd (toNat_inj (by omega)) hxc

theorem shiftIn_eq (ip v : Nat) (hip : ip < 16777216) (hv : v ≤ 255) :
    shiftIn ip (v : Int) = ip * 256 + v := by
  unfold shiftIn
  have h1 : ((v : Int) % 256).toNat = v := by omega
  have h2 : (ip <<< 8) % 4294967296 = 2 ^ 8 * ip := by
    rw [Nat.shiftLeft_eq]; omega
  rw [h1, h2, ← Nat.mul_add_lt_is_or (by omega)]
  omega

/-- The loop of `dns_resolve` on a numeral that fits an `int`. -/
theorem dnsLoop_digits (ds rest : List Char) (ip v parts : Nat)
    (hds : ∀ c ∈ ds, isDigit c = true) (hparts : parts < 4)
    (hb : v * 10 ^ ds.length + decVal ds < 2147483648) :
    dnsLoop (ds ++ rest) ip (v : Int) parts
      = dnsLoop rest ip ((v * 10 ^ ds.length + decVal ds : Nat) : Int) parts := by
  induction ds generalizing v with
  | nil => simp [decVal]
  | cons d ds ih =>
    have hd := hds d (by simp)
    obtain ⟨hdv, hd9⟩ := digitVal_eq d hd
    have hd0 : d ≠ NUL := by
      intro h; rw [h] at hd; revert hd; decide
    have hpos : 1 ≤ 10 ^ ds.length := Nat.one_le_pow _ _ (by norm_num)
    rw [decVal_cons] at hb ⊢
    simp only [List.length_cons, pow_succ] at hb ⊢
    have hb' : (v * 10 + (d.toNat - '0'.toNat)) * 10 ^ ds.length + decVal ds < 2147483648 := by
      have : (v * 10 + (d.toNat - '0'.toNat)) * 10 ^ ds.length
          = v * (10 ^ ds.length * 10) + (d.toNat - '0'.toNat) * 10 ^ ds.length := by ring
      omega
    have hsmall : v * 10 + (d.toNat - '0'.toNat) < 2147483648 := by
      have : v * 10 + (d.toNat - '0'.toNat)
          ≤ (v * 10 + (d.toNat - '0'.toNat)) * 10 ^ ds.length := Nat.le_mul_of_pos_right _ hpos
      omega
    have hw : wrap32 ((v : Int) * 10 + digitVal d)
        = ((v * 10 + (d.toNat - '0'.toNat) : Nat) : Int) := by
      rw [hdv, wrap32_eq]
      · push_cast; ring
      · positivity
      · have : ((v * 10 + (d.toNat - '0'.toNat) : Nat) : Int) < 2147483648 := by
          exact_mod_cast hsmall
        push_cast at this ⊢
        linarith
    have hstep : dnsLoop ((d :: ds) ++ rest) ip (v : Int) parts
        = dnsLoop (ds ++ rest) ip (wrap32 ((v : Int) * 10 + digitVal d)) parts := by
      simp [dnsLoop, hd, hd0, hparts]
    rw [hstep, hw, ih _ (fun c hc => hds c (by simp [hc])) hb']
    congr 2
    ring

/-- The loop of `dns_resolve` on a dot. -/
theorem dnsLoop_dot (rest : List Char) (ip : Nat) (part : Int) (parts : Nat)
    (hparts : parts < 4) :
    dnsLoop ('.' :: rest) ip part parts = dnsLoop rest (shiftIn ip part) 0 (parts + 1) := by
  have h1 : ('.' : Char) ≠ NUL := by decide
  have h2 : isDigit '.' = false := by decide
  simp [dnsLoop, h1, h2, hparts]

/-- The loop of `dns_resolve` on a numeral of value at most 255, read from `part = 0`. -/
theorem dnsLoop_octet (ds rest : List Char) (ip parts : Nat)
    (hds : ∀ c ∈ ds, isDigit c = true) (hparts : parts < 4) (hv : decVal ds ≤ 255) :
    dnsLoop (ds ++ rest) ip 0 parts = dnsLoop rest ip (decVal ds : Int) parts := by
  have h := dnsLoop_digits ds rest ip 0 parts hds hparts (by omega)
  simpa using h

/-- C4. For four decimal numerals `a`, `b`, `c`, `d`, each a non-empty digit
string of value at most 255, `dns_resolve` on `a.b.c.d` is
`a * 2^24 + b * 2^16 + c * 2^8 + d`; and `dns_resolve` on `localhost` is
`0x7F000001`, the value the formula gives for `127.0.0.1`. -/
theorem dns_resolve_dotted_quad (a b c d : List Char)
    (ha : a ≠ [] ∧ (∀ x ∈ a, isDigit x = true) ∧ decVal a ≤ 255)
    (hb : b ≠ [] ∧ (∀ x ∈ b, isDigit x = true) ∧ decVal b ≤ 255)
    (hc : c ≠ [] ∧ (∀ x ∈ c, isDigit x = true) ∧ decVal c ≤ 255)
    (hd : d ≠ [] ∧ (∀ x ∈ d, isDigit x = true) ∧ decVal d ≤ 255) :
    dns_resolve (a ++ '.' :: (b ++ '.' :: (c ++ '.' :: d)))
        = decVal a * 2 ^ 24 + decVal b * 2 ^ 16 + decVal c * 2 ^ 8 + decVal d ∧
      dns_resolve "localhost".toList = 0x7F000001 ∧
      127 * 2 ^ 24 + 0 * 2 ^ 16 + 0 * 2 ^ 8 + 1 = 0x7F000001 := by
  refine ⟨?_, by decide, by norm_num⟩
  have hne : kstrcmp (a ++ '.' :: (b ++ '.' :: (c ++ '.' :: d))) "localhost".toList ≠ 0 := by
    obtain ⟨hne, hdig, -⟩ := ha
    cases a with
    | nil => exact absurd rfl hne
    | cons x xs =>
      have hx := hdig x (by simp)
      have hxl : x ≠ 'l' := by
        intro h; rw [h] at hx; revert hx; decide
      have hl : deref "localhost".toList = 'l' := rfl
      simp only [List.cons_append, kstrcmp, hl, ne_eq, hxl, not_false_eq_true, if_true]
      intro h
      exact hxl (toNat_inj (by omega))
  have h3 : (3 : Nat) < 4 := by norm_num
  have e4 := dnsLoop_octet d [] (shiftIn (shiftIn (shiftIn 0 (decVal a)) (decVal b)) (decVal c))
    3 hd.2.1 h3 hd.2.2
  rw [List.append_nil] at e4
  have s1 : shiftIn 0 (decVal a : Int) = decVal a := by
    rw [shiftIn_eq 0 _ (by norm_num) ha.2.2]; omega
  have s2 : shiftIn (decVal a) (decVal b : Int) = decVal a * 256 + decVal b :=
    shiftIn_eq _ _ (by omega) hb.2.2
  have s3 : shiftIn (decVal a * 256 + decVal b) (decVal c : Int)
      = (decVal a * 256 + decVal b) * 256 + decVal c :=
    shiftIn_eq _ _ (by omega) hc.2.2
  have s4 : shiftIn ((decVal a * 256 + decVal b) * 256 + decVal c) (decVal d : Int)
      = ((decVal a * 256 + decVal b) * 256 + decVal c) * 256 + decVal d :=
    shiftIn_eq _ _ (by omega) hd.2.2
  unfold dns_resolve
  rw [if_neg hne]
  simp only []
  rw [dnsLoop_octet a _ 0 0 ha.2.1 (by norm_num) ha.2.2, dnsLoop_dot _ _ _ _ (by norm_num),
    dnsLoop_octet b _ _ _ hb.2.1 (by norm_num) hb.2.2, dnsLoop_dot _ _ _ _ (by norm_num),
    dnsLoop_octet c _ _ _ hc.2.1 (by norm_num) hc.2.2, dnsLoop_dot _ _ _ _ (by norm_num), e4]
  simp only [dnsLoop, s1, s2, s3, s4, Nat.reduceAdd, if_true]
  ring

/-- C4, witness: `127.0.0.1` resolves to `0x7F000001`. -/
theorem dns_resolve_dotted_quad_witness :
    dns_resolve "127.0.0.1".toList = 0x7F000001 := by
  have h := (dns_resolve_dotted_quad "127".toList "0".toList "0".toList "1".toList
    (by decide) (by decide) (by decide) (by decide)).1
  have hv : decVal "127".toList * 2 ^ 24 + decVal "0".toList * 2 ^ 16
      + decVal "0".toList * 2 ^ 8 + decVal "1".toList = 0x7F000001 := by decide
  rw [hv] at h
  exact h

/-- The number of dots the loop of `dns_resolve` has counted when it stops: the
dots of the C string, up to 4. -/
theorem dnsLoop_parts (s : List Char) (ip : Nat) (part : Int) (parts : Nat)
    (hs : NUL ∉ s) (hp : parts ≤ 4) :
    (dnsLoop s ip part parts).2.2 = min 4 (parts + s.count '.') := by
  induction s generalizing ip part parts with
  | nil => simp [dnsLoop]; omega
  | cons c cs ih =>
    have hc : c ≠ NUL := fun h => hs (by simp [h])
    have hcs : NUL ∉ cs := fun h => hs (by simp [h])
    by_cases h4 : parts < 4
    · by_cases hd : isDigit c = true
      · have hdot : c ≠ '.' := by
          intro h; rw [h] at hd; revert hd; decide
        simp only [dnsLoop, hc, h4, hd, ne_eq, not_false_eq_true, and_self, if_true]
        rw [ih _ _ _ hcs hp, List.count_cons_of_ne (Ne.symm hdot)]
      · by_cases hdot : c = '.'
        · subst hdot
          simp only [dnsLoop, hc, h4, hd, ne_eq, not_false_eq_true, and_self, if_true, if_false,
            Bool.false_eq_true]
          rw [ih _ _ _ hcs (by omega), List.count_cons_self]
          omega
        · simp only [dnsLoop, hc, h4, hd, hdot, ne_eq, not_false_eq_true, and_self, if_true,
            if_false, Bool.false_eq_true]
          rw [ih _ _ _ hcs hp, List.count_cons_of_ne (Ne.symm hdot)]
    · simp only [dnsLoop, h4, and_false, if_false]
      omega

/-- C5. For every hostname (a C string) other than `localhost` whose number of
`.` characters is not exactly three, `dns_resolve` returns the unresolved value 0. -/
theorem dns_resolve_dot_count (hostname : List Char) (hnul : NUL ∉ hostname)
    (hne : hostname ≠ "localhost".toList) (hdots : hostname.count '.' ≠ 3) :
    dns_resolve hostname = 0 := by
  have h1 : kstrcmp hostname "localhost".toList ≠ 0 := fun h =>
    hne (kstrcmp_eq_zero _ _ hnul (by decide) h)
  have h2 := dnsLoop_parts hostname 0 0 0 hnul (by norm_num)
  have h3 : (dnsLoop hostname 0 0 0).2.2 ≠ 3 := by
    rw [h2]; omega
  unfold dns_resolve
  rw [if_neg h1]
  simp only [h3, if_false]

/-- C5, witness: `not-an-ip` does not resolve. -/
theorem dns_resolve_dot_count_witness : dns_resolve "not-an-ip".toList = 0 :=
  dns_resolve_dot_count "not-an-ip".toList (by decide) (by decide) (by decide)

/-- C6, the code at a failing input.  The hostname `a1.2.3.4` is not
`localhost` and is not numeric, since `a` is neither a digit nor a dot; the loop
of `dns_resolve` passes over that byte and the result is the address 1.2.3.4,
not the unresolved value 0. -/
theorem dns_resolve_passes_over_letters :
    "a1.2.3.4".toList ≠ "localhost".toList ∧
      (∃ c ∈ "a1.2.3.4".toList, isDigit c = false ∧ c ≠ '.') ∧
      dns_resolve "a1.2.3.4".toList = 0x01020304 ∧
      dns_resolve "a1.2.3.4".toList ≠ 0 := by
  refine ⟨by decide, ⟨'a', by decide, by decide, by decide⟩, by decide, by decide⟩

/-! ## `build_request` -/

theorem cstr_eq_self (l : List Char) (h : NUL ∉ l) : cstr l = l := by
  unfold cstr
  rw [List.takeWhile_eq_self_iff]
  intro x hx
  have : x ≠ NUL := fun h' => h (h' ▸ hx)
  simpa using this

theorem emit_first (buf t : List Char) : emit (0, buf) t = (t.length, t) := by
  simp [emit, writeAt]

theorem emit_next (b t : List Char) : emit (b.length, b) t = ((b ++ t).length, b ++ t) := by
  simp [emit, writeAt]

/-- C7. For every method `m` and `ParsedUrl` `u` (C strings), `build_request`
leaves in the buffer exactly
`m ++ " " ++ u.path ++ ["?" ++ u.query] ++ " HTTP/1.1\r\n" ++ "Host: " ++ u.host ++ "\r\n"`
followed by the `User-Agent`, `Accept` and `Connection: close` lines and the
blank line, the query part being present exactly when the query is not empty,
and returns the length of that text; whatever the buffer held before and
whatever `buf_size` is. -/
theorem build_request_text (buf : List Char) (buf_size : Int) (m : List Char) (u : ParsedUrl)
    (hm : NUL ∉ m) (hhost : NUL ∉ u.host) (hpath : NUL ∉ u.path) (hquery : NUL ∉ u.query) :
    build_request buf buf_size m u = ((requestText m u).length, requestText m u) := by
  have c1 := cstr_eq_self m hm
  have c2 := cstr_eq_self u.host hhost
  have c3 := cstr_eq_self u.path hpath
  have c4 := cstr_eq_self u.query hquery
  have k1 : ksprintf "%s %s".toList [m, u.path] = m ++ " ".toList ++ u.path := by
    simp [ksprintf, c1, c3]
  have k2 : ksprintf "?%s".toList [u.query] = "?".toList ++ u.query := by
    simp [ksprintf, c4]
  have k4 : ksprintf "Host: %s\r\n".toList [u.host] = "Host: ".toList ++ u.host ++ "\r\n".toList := by
    simp [ksprintf, c2]
  have k3 : ksprintf " HTTP/1.1\r\n".toList [] = " HTTP/1.1\r\n".toList := by decide
  have k5 : ksprintf "User-Agent: FrayBrowser/1.0\r\n".toList []
      = "User-Agent: FrayBrowser/1.0\r\n".toList := by decide
  have k6 : ksprintf "Accept: text/html,text/plain,*/*\r\n".toList []
      = "Accept: text/html,text/plain,*/*\r\n".toList := by decide
  have k7 : ksprintf "Connection: close\r\n".toList [] = "Connection: close\r\n".toList := by
    decide
  have k8 : ksprintf "\r\n".toList [] = "\r\n".toList := by decide
  have hd : deref u.query ≠ NUL ↔ u.query ≠ [] := by
    cases hq : u.query with
    | nil => simp [deref]
    | cons q qs =>
      have : q ≠ NUL := fun h => hquery (by rw [hq]; simp [h])
      simp [deref, this]
  unfold build_request requestText
  simp only [k1, k2, k3, k4, k5, k6, k7, k8, emit_first, hd]
  by_cases hq : u.query = []
  · simp only [hq, ne_eq, not_true_eq_false, if_false, emit_next, List.append_nil,
      List.append_assoc]
  · simp only [hq, ne_eq, not_false_eq_true, if_true, emit_next, List.append_assoc]

/-- C7, witness: `GET` with the parse of `http://x/a`.  The request starts with
`GET /a HTTP/1.1\r\nHost: x\r\n`, ends with `\r\n\r\n`, and has no `?`. -/
theorem build_request_text_witness :
    build_request [] 512 "GET".toList (parse_url "http://x/a".toList).2 =
      (110, ("GET /a HTTP/1.1\r\nHost: x\r\nUser-Agent: FrayBrowser/1.0\r\n" ++
        "Accept: text/html,text/plain,*/*\r\nConnection: close\r\n\r\n").toList) := by
  have h := build_request_text [] 512 "GET".toList (parse_url "http://x/a".toList).2
    (by decide) (by decide) (by decide) (by decide)
  rw [h]
  decide

/-! ## `parse_response` -/

theorem cstr_cons (c : Char) (cs : List Char) :
    cstr (c :: cs) = if c = NUL then [] else c :: cstr cs := by
  by_cases h : c = NUL <;> simp [cstr, List.takeWhile_cons, h]

theorem cstr_isPrefix_self (l : List Char) : cstr l <+: l := List.takeWhile_prefix _

/-- When the text occurs in the C string, `kstrstr` does not return the null pointer. -/
theorem kstrstr_isSome (hay nd : List Char) (hnd : NUL ∉ nd) (h : nd <:+: cstr hay) :
    ∃ k, kstrstr hay nd = some k := by
  have hc := cstr_eq_self nd hnd
  induction hay with
  | nil =>
    have : nd = [] := by simpa [cstr] using h
    exact ⟨0, by simp [kstrstr, this, cstr]⟩
  | cons c cs ih =>
    by_cases hp : (cstr nd).isPrefixOf (c :: cs) = true
    · exact ⟨0, by simp only [kstrstr, hp, if_true]⟩
    · have hp' : ¬ nd <+: c :: cs := by
        rw [hc] at hp
        simpa using hp
      by_cases hcn : c = NUL
      · rw [cstr_cons, if_pos hcn] at h
        have : nd = [] := by simpa using h
        exact absurd (this ▸ List.nil_prefix) hp'
      · rw [cstr_cons, if_neg hcn, List.infix_cons_iff] at h
        rcases h with h | h
        · exact absurd (h.trans ((List.prefix_cons_inj c).2 (cstr_isPrefix_self cs))) hp'
        · obtain ⟨k, hk⟩ := ih h
          exact ⟨k + 1, by simp [kstrstr, hp, hcn, hk]⟩

/-- The search for a text that starts with `\r` passes over bytes that are
neither `\r` nor the terminator. -/
theorem kstrstr_skip (seg rest nd : List Char) (hnd : NUL ∉ CR :: nd)
    (h1 : CR ∉ seg) (h2 : NUL ∉ seg) :
    kstrstr (seg ++ rest) (CR :: nd) = (kstrstr rest (CR :: nd)).map (fun k => k + seg.length) := by
  have hc := cstr_eq_self _ hnd
  induction seg with
  | nil => simp
  | cons c seg ih =>
    have hc1 : c ≠ CR := fun h => h1 (by simp [h])
    have hc2 : c ≠ NUL := fun h => h2 (by simp [h])
    have hp : ¬ ((cstr (CR :: nd)).isPrefixOf (c :: (seg ++ rest)) = true) := by
      rw [hc]
      simp [Ne.symm hc1]
    rw [List.cons_append, kstrstr, if_neg hp, if_neg hc2,
      ih (fun h => h1 (by simp [h])) (fun h => h2 (by simp [h]))]
    cases kstrstr rest (CR :: nd) with
    | none => rfl
    | some k => simp only [Option.map_some', List.length_cons, Nat.add_assoc]

/-- The search stops where the text stands. -/
theorem kstrstr_here (hay nd : List Char) (hnd : NUL ∉ nd) (hne : hay ≠ [])
    (h : nd <+: hay) : kstrstr hay nd = some 0 := by
  cases hay with
  | nil => exact absurd rfl hne
  | cons c cs =>
    have : (cstr nd).isPrefixOf (c :: cs) = true := by
      rw [cstr_eq_self _ hnd]; simpa using h
    simp only [kstrstr, this, if_true]

/-- The first line end of a response is the end of its status line. -/
theorem kstrstr_line_end (sl rest : List Char) (h1 : CR ∉ sl) (h2 : NUL ∉ sl) :
    kstrstr (sl ++ CR :: LF :: rest) [CR, LF] = some sl.length := by
  rw [kstrstr_skip sl _ [LF] (by decide) h1 h2,
    kstrstr_here (CR :: LF :: rest) [CR, LF] (by decide) (by simp) ⟨rest, rfl⟩]
  simp

/-- The first blank line of a response is behind its header lines. -/
theorem kstrstr_blank_line (hs : List (List Char)) (b : List Char)
    (hgood : ∀ l ∈ hs, l ≠ [] ∧ CR ∉ l ∧ NUL ∉ l) (sl : List Char)
    (h1 : CR ∉ sl) (h2 : NUL ∉ sl) :
    kstrstr (sl ++ CR :: LF :: (headerBlock hs ++ CR :: LF :: b)) [CR, LF, CR, LF]
      = some (sl.length + (headerBlock hs).length) := by
  induction hs generalizing sl with
  | nil =>
    rw [kstrstr_skip sl _ [LF, CR, LF] (by decide) h1 h2]
    simp only [headerBlock, List.nil_append, List.length_nil, Nat.add_zero]
    rw [kstrstr_here (CR :: LF :: CR :: LF :: b) [CR, LF, CR, LF] (by decide) (by simp)
      ⟨b, rfl⟩]
    simp
  | cons l ls ih =>
    obtain ⟨hne, hcr, hnul⟩ := hgood l (by simp)
    cases l with
    | nil => exact absurd rfl hne
    | cons c l' =>
      have hc1 : c ≠ CR := fun h => hcr (by simp [h])
      have hp1 : ¬ ((cstr [CR, LF, CR, LF]).isPrefixOf
          (CR :: LF :: (headerBlock ((c :: l') :: ls) ++ CR :: LF :: b)) = true) := by
        rw [cstr_eq_self _ (by decide)]
        simp [headerBlock, Ne.symm hc1]
      have hp2 : ¬ ((cstr [CR, LF, CR, LF]).isPrefixOf
          (LF :: (headerBlock ((c :: l') :: ls) ++ CR :: LF :: b)) = true) := by
        rw [cstr_eq_self _ (by decide)]
        have : ¬ (CR = LF) := by decide
        simp [this]
      have hcr0 : ¬ (CR = NUL) := by decide
      have hlf0 : ¬ (LF = NUL) := by decide
      have hih := ih (fun x hx => hgood x (by simp [hx])) (c :: l') hcr hnul
      rw [kstrstr_skip sl _ [LF, CR, LF] (by decide) h1 h2, kstrstr, if_neg hp1, if_neg hcr0,
        kstrstr, if_neg hp2, if_neg hlf0]
      have hb : headerBlock ((c :: l') :: ls) ++ CR :: LF :: b
          = (c :: l') ++ CR :: LF :: (headerBlock ls ++ CR :: LF :: b) := by
        simp [headerBlock]
      rw [hb, hih]
      simp only [Option.map_some', headerBlock, List.length_append, List.length_cons]
      congr 1
      omega

theorem prefix_of_prefix_append_stop (pre line rest : List Char) (c : Char) (hc : c ∉ pre)
    (h : pre <+: line ++ c :: rest) : pre <+: line := by
  induction pre generalizing line with
  | nil => exact List.nil_prefix
  | cons a pre ih =>
    cases line with
    | nil =>
      rw [List.nil_append, List.cons_prefix_cons] at h
      exact absurd h.1 (fun h' => hc (by simp [h']))
    | cons x line =>
      rw [List.cons_append, List.cons_prefix_cons] at h
      rw [List.cons_prefix_cons]
      exact ⟨h.1, ih line (fun h' => hc (by simp [h'])) h.2⟩

/-- The test for a header name on a line closed by `\r` sees the line only. -/
theorem kstrncmp_line (pre line rest : List Char) (h0 : NUL ∉ pre) (h1 : CR ∉ pre) :
    kstrncmp (line ++ CR :: rest) pre pre.length = 0 ↔ pre <+: line := by
  rw [kstrncmp_eq_zero_iff pre h0]
  exact ⟨prefix_of_prefix_append_stop pre line rest CR h1,
    fun h => h.trans (List.prefix_append _ _)⟩

theorem takeWhile_append_stop (f : Char → Bool) (v rest : List Char) (c : Char)
    (hc : f c = false) : (v ++ c :: rest).takeWhile f = v.takeWhile f := by
  induction v with
  | nil => simp [List.takeWhile_cons, hc]
  | cons a v ih => simp [List.takeWhile_cons, ih]

theorem drop_takeWhile_length (f : Char → Bool) (v : List Char) :
    v.drop (v.takeWhile f).length = v.dropWhile f := by
  induction v with
  | nil => rfl
  | cons a v ih =>
    by_cases h : f a = true
    · simp [List.takeWhile_cons, List.dropWhile_cons, h, ih]
    · simp [List.takeWhile_cons, List.dropWhile_cons, h]

theorem length_takeWhile_add (f : Char → Bool) (v : List Char) :
    (v.takeWhile f).length + (v.dropWhile f).length = v.length := by
  rw [← List.length_append, List.takeWhile_append_dropWhile]

/-- The loop over spaces in front of a text closed by a byte that is no space. -/
theorem skipSpaces_stop (o : Nat) (v rest : List Char) (x : Char)
    (hx : (fun c : Char => c == ' ') x = false) :
    skipSpaces ⟨o, v ++ x :: rest⟩
      = ⟨o + (v.length - (v.dropWhile (fun c => c == ' ')).length),
          v.dropWhile (fun c => c == ' ') ++ x :: rest⟩ := by
  have hlen := length_takeWhile_add (fun c => c == ' ') v
  have tw := takeWhile_append_stop (fun c => c == ' ') v rest x hx
  simp only [skipSpaces, Ptr.add, tw]
  rw [List.drop_append_of_le_length (by omega), drop_takeWhile_length]
  congr 2
  omega

/-- The loop over spaces in front of a text closed by `\r`. -/
theorem skipSpaces_line (o : Nat) (v rest : List Char) :
    skipSpaces ⟨o, v ++ CR :: rest⟩
      = ⟨o + (v.length - (v.dropWhile (fun c => c == ' ')).length),
          v.dropWhile (fun c => c == ' ') ++ CR :: rest⟩ := by
  have hcr : (fun c : Char => c == ' ') CR = false := by decide
  have hlen := length_takeWhile_add (fun c => c == ' ') v
  have tw := takeWhile_append_stop (fun c => c == ' ') v rest CR hcr
  simp only [skipSpaces, Ptr.add, tw]
  rw [List.drop_append_of_le_length (by omega), drop_takeWhile_length]
  congr 2
  omega

/-- The copy loop of `Content-Type` on a value closed by `\r`. -/
theorem copyLine_line (n : Nat) (v rest : List Char) (hcr : CR ∉ v) :
    copyLine n (v ++ CR :: rest) = (v.take n, v.drop n ++ CR :: rest) := by
  induction n generalizing v with
  | zero => simp [copyLine]
  | succ n ih =>
    cases v with
    | nil => simp [copyLine, deref]
    | cons a v =>
      have ha : a ≠ CR := fun h => hcr (by simp [h])
      have := ih v (fun h => hcr (by simp [h]))
      simp [copyLine, deref, ha, this]

/-- The digit loop in front of a byte that is not a digit. -/
theorem parseInt_append_stop (v rest : List Char) (c : Char) (a : Int)
    (hc : isDigit c = false) :
    parseInt (v ++ c :: rest) a = ((parseInt v a).1, (parseInt v a).2 ++ c :: rest) := by
  induction v generalizing a with
  | nil => simp [parseInt, hc]
  | cons x v ih =>
    by_cases hx : isDigit x = true
    · simp [parseInt, hx, ih]
    · simp [parseInt, hx]

theorem parseInt_length_le (v : List Char) (a : Int) : (parseInt v a).2.length ≤ v.length :=
  (parseInt_suffix v a).length_le

/-- The two tests of the header loop on a line closed by `\r`: the response
after them is `headerEffect` of the line, and the pointer stands in front of
`lineRest` of the line. -/
theorem headerStep_line (o : Nat) (line rest : List Char) (resp : HttpResponse)
    (hcr : CR ∉ line) :
    headerStep ⟨o, line ++ CR :: rest⟩ resp
      = (⟨o + (line.length - (lineRest line).length), lineRest line ++ CR :: rest⟩,
          headerEffect line resp) := by
  have e1 : kstrncmp (line ++ CR :: rest) "Content-Type:".toList 13 = 0
      ↔ "Content-Type:".toList <+: line :=
    kstrncmp_line "Content-Type:".toList line rest (by decide) (by decide)
  have e2 : kstrncmp (line ++ CR :: rest) "Content-Length:".toList 15 = 0
      ↔ "Content-Length:".toList <+: line :=
    kstrncmp_line "Content-Length:".toList line rest (by decide) (by decide)
  have hdrop : ∀ n, n ≤ line.length →
      (Ptr.add ⟨o, line ++ CR :: rest⟩ n) = ⟨o + n, line.drop n ++ CR :: rest⟩ := by
    intro n hn
    simp only [Ptr.add, List.drop_append_of_le_length hn]
  have hcrd : ∀ n, CR ∉ (line.drop n).dropWhile (fun c => c == ' ') := fun n h =>
    hcr ((List.drop_sublist n line).subset ((List.dropWhile_sublist _).subset h))
  by_cases h1 : "Content-Type:".toList <+: line
  · have hlen : 13 ≤ line.length := h1.length_le
    have hl2 := length_takeWhile_add (fun c => c == ' ') (line.drop 13)
    have hl3 : (line.drop 13).length = line.length - 13 := List.length_drop _ _
    simp only [headerStep, e1, h1, if_true, hdrop 13 hlen, skipSpaces_line,
      copyLine_line _ _ _ (hcrd 13), lineRest, headerEffect]
    congr 2
    simp only [List.length_take, List.length_drop] at hl2 hl3 ⊢
    omega
  · by_cases h2 : "Content-Length:".toList <+: line
    · have hlen : 15 ≤ line.length := h2.length_le
      have hl2 := length_takeWhile_add (fun c => c == ' ') (line.drop 15)
      have hl3 : (line.drop 15).length = line.length - 15 := List.length_drop _ _
      have hl4 := parseInt_length_le ((line.drop 15).dropWhile (fun c => c == ' ')) 0
      have hcrdig : isDigit CR = false := by decide
      simp only [headerStep, e1, e2, h1, h2, if_true, if_false, hdrop 15 hlen, skipSpaces_line,
        parseIntAt, parseInt_append_stop _ _ CR _ hcrdig, lineRest, headerEffect]
      congr 2
      simp only [List.length_append, List.length_cons, List.length_drop] at hl2 hl3 hl4 ⊢
      omega
    · simp only [headerStep, e1, e2, h1, h2, if_false, lineRest, headerEffect]
      congr 2
      omega

/-! ### The counters of the two bounded loops are large enough -/

theorem skipLine_off_le (data_len : Int) (k : Nat) (p : Ptr) :
    p.off ≤ (skipLine data_len k p).off := by
  induction k generalizing p with
  | zero => simp [skipLine]
  | succ k ih =>
    simp only [skipLine]
    split
    · exact Nat.le_trans (by simp [Ptr.add]) (ih (p.add 1))
    · exact Nat.le_refl _

theorem headerStep_off_le (p : Ptr) (resp : HttpResponse) :
    p.off ≤ (headerStep p resp).1.off := by
  simp only [headerStep]
  split
  · simp only [skipSpaces, Ptr.add]; omega
  · split
    · simp only [parseIntAt, skipSpaces, Ptr.add]; omega
    · exact Nat.le_refl _

/-- The loop "Skip to next line" does the same with every counter that is at
least `data_len - (ptr - data)`: the counter never ends the loop early. -/
theorem skipLine_fuel (data_len : Int) (k1 k2 : Nat) (p : Ptr)
    (h1 : (data_len - (p.off : Int)).toNat ≤ k1) (h2 : (data_len - (p.off : Int)).toNat ≤ k2) :
    skipLine data_len k1 p = skipLine data_len k2 p := by
  induction k1 generalizing k2 p with
  | zero =>
    have hc : ¬ ((p.off : Int) < data_len ∧ p.get ≠ LF) := fun h => by omega
    cases k2 with
    | zero => rfl
    | succ k2 => simp only [skipLine, hc, if_false]
  | succ k1 ih =>
    cases k2 with
    | zero =>
      have hc : ¬ ((p.off : Int) < data_len ∧ p.get ≠ LF) := fun h => by omega
      simp only [skipLine, hc, if_false]
    | succ k2 =>
      simp only [skipLine]
      split
      · exact ih k2 (p.add 1) (by simp only [Ptr.add]; omega) (by simp only [Ptr.add]; omega)
      · rfl

/-- The header loop does the same with every counter that is at least
`data_len - (ptr - data)`: the counter never ends the loop early. -/
theorem headerLoop_fuel (data_len : Int) (k1 k2 : Nat) (p : Ptr) (resp : HttpResponse)
    (h1 : (data_len - (p.off : Int)).toNat ≤ k1) (h2 : (data_len - (p.off : Int)).toNat ≤ k2) :
    headerLoop data_len k1 p resp = headerLoop data_len k2 p resp := by
  induction k1 generalizing k2 p resp with
  | zero =>
    have hc : ¬ ((p.off : Int) < data_len ∧ p.get ≠ CR) := fun h => by omega
    cases k2 with
    | zero => rfl
    | succ k2 => simp only [headerLoop, hc, if_false]
  | succ k1 ih =>
    cases k2 with
    | zero =>
      have hc : ¬ ((p.off : Int) < data_len ∧ p.get ≠ CR) := fun h => by omega
      simp only [headerLoop, hc, if_false]
    | succ k2 =>
      simp only [headerLoop]
      split
      · have hle := Nat.le_trans (headerStep_off_le p resp)
          (skipLine_off_le data_len
            (data_len - ((headerStep p resp).1.off : Int)).toNat (headerStep p resp).1)
        exact ih k2 _ _ (by simp only [Ptr.add]; omega) (by simp only [Ptr.add]; omega)
      · rfl

theorem lineRest_suffix (line : List Char) : lineRest line <:+ line := by
  unfold lineRest
  split
  · exact ((List.drop_suffix _ _).trans (List.dropWhile_suffix _)).trans (List.drop_suffix _ _)
  · split
    · exact ((parseInt_suffix _ _).trans (List.dropWhile_suffix _)).trans
        (List.drop_suffix _ _)
    · exact List.suffix_refl _

/-- The loop "Skip to next line" stops at the first `\n`. -/
theorem skipLine_to_lf (data_len : Int) (seg tl : List Char) (off k : Nat)
    (hlf : LF ∉ seg) (hlen : ((off + seg.length : Nat) : Int) < data_len)
    (hk : seg.length < k) :
    skipLine data_len k ⟨off, seg ++ LF :: tl⟩ = ⟨off + seg.length, LF :: tl⟩ := by
  induction seg generalizing off k with
  | nil =>
    cases k with
    | zero => simp at hk
    | succ k => simp [skipLine, Ptr.get, deref]
  | cons a seg ih =>
    cases k with
    | zero => simp at hk
    | succ k =>
      have ha : a ≠ LF := fun h => hlf (by simp [h])
      have hoff : (off : Int) < data_len := by
        simp only [List.length_cons] at hlen; omega
      have := ih (off + 1) k (fun h => hlf (by simp [h]))
        (by simp only [List.length_cons] at hlen; omega)
        (by simp only [List.length_cons] at hk; omega)
      simp only [List.cons_append, skipLine, Ptr.get, deref, List.headD_cons, hoff, ha, ne_eq,
        not_false_eq_true, and_self, if_true, Ptr.add, List.drop_one, List.tail_cons, this,
        List.length_cons]
      congr 1
      omega

/-- One iteration of the header loop on a good line. -/
theorem headerLoop_line (data_len : Int) (k o : Nat) (line rest : List Char)
    (resp : HttpResponse) (hgood : GoodLine line)
    (hlen : ((o + line.length + 2 : Nat) : Int) ≤ data_len) :
    headerLoop data_len (k + 1) ⟨o, line ++ CR :: LF :: rest⟩ resp
      = headerLoop data_len k ⟨o + line.length + 2, rest⟩ (headerEffect line resp) := by
  obtain ⟨hne, hcr, -, hlf⟩ := hgood
  have hw := (lineRest_suffix line).length_le
  have hget : Ptr.get ⟨o, line ++ CR :: LF :: rest⟩ ≠ CR := by
    cases line with
    | nil => exact absurd rfl hne
    | cons a l =>
      simp only [Ptr.get, deref, List.cons_append, List.headD_cons]
      exact fun h => hcr (by simp [h])
  have hoff : (o : Int) < data_len := by omega
  have hmem : lineRest line ++ CR :: LF :: rest = (lineRest line ++ [CR]) ++ LF :: rest := by
    simp
  have hlf' : LF ∉ lineRest line ++ [CR] := by
    intro h
    rcases List.mem_append.1 h with h | h
    · exact hlf h
    · simp only [List.mem_singleton] at h
      revert h; decide
  have hskip := skipLine_to_lf data_len (lineRest line ++ [CR]) rest
    (o + (line.length - (lineRest line).length))
    (data_len - ((o + (line.length - (lineRest line).length) : Nat) : Int)).toNat hlf'
    (by simp only [List.length_append, List.length_singleton]; omega)
    (by simp only [List.length_append, List.length_singleton]; omega)
  rw [headerLoop, if_pos ⟨hoff, hget⟩]
  simp only [headerStep_line o line (LF :: rest) resp hcr]
  rw [hmem, hskip]
  simp only [Ptr.add, List.drop_one, List.tail_cons, List.length_append, List.length_singleton]
  congr 2
  omega

theorem headerBlock_cons_append (l : List Char) (ls : List (List Char)) (x : List Char) :
    headerBlock (l :: ls) ++ x = l ++ CR :: LF :: (headerBlock ls ++ x) := by
  simp [headerBlock]

theorem headerBlock_length_ge (hs : List (List Char)) : hs.length ≤ (headerBlock hs).length := by
  induction hs with
  | nil => simp
  | cons l ls ih => simp only [headerBlock, List.length_cons, List.length_append]; omega

/-- The header loop on good lines followed by the blank line: it stops at the
blank line with the effects of the lines applied in order. -/
theorem headerLoop_lines (data_len : Int) (b : List Char) (hs : List (List Char)) (k o : Nat)
    (resp : HttpResponse) (hgood : ∀ l ∈ hs, GoodLine l) (hk : hs.length ≤ k)
    (hlen : ((o + (headerBlock hs).length + 2 : Nat) : Int) ≤ data_len) :
    headerLoop data_len k ⟨o, headerBlock hs ++ CR :: LF :: b⟩ resp
      = (⟨o + (headerBlock hs).length, CR :: LF :: b⟩,
          hs.foldl (fun r l => headerEffect l r) resp) := by
  induction hs generalizing k o resp with
  | nil =>
    cases k with
    | zero => simp [headerLoop, headerBlock]
    | succ k => simp [headerLoop, headerBlock, Ptr.get, deref]
  | cons l ls ih =>
    cases k with
    | zero => simp at hk
    | succ k =>
      have hl : ((o + l.length + 2 : Nat) : Int) ≤ data_len := by
        simp only [headerBlock, List.length_append, List.length_cons] at hlen
        omega
      rw [headerBlock_cons_append, headerLoop_line data_len k o l _ resp (hgood l (by simp)) hl,
        ih k (o + l.length + 2) (headerEffect l resp) (fun x hx => hgood x (by simp [hx]))
          (by simp only [List.length_cons] at hk; omega)
          (by simp only [headerBlock, List.length_append, List.length_cons] at hlen ⊢; omega)]
      simp only [headerBlock, List.length_append, List.length_cons, List.foldl_cons]
      congr 2
      omega

/-- The status code that `parse_response` reads depends on the status line only. -/
theorem status_of_line (sl x : List Char) (h8 : 8 ≤ sl.length) :
    (parseIntAt (skipSpaces (Ptr.add ⟨0, sl ++ CR :: LF :: x⟩ 9)) 0).1 = statusOf sl := by
  have e : sl ++ CR :: LF :: x = (sl ++ [CR]) ++ LF :: x := by simp
  have hsp : (fun c : Char => c == ' ') LF = false := by decide
  have hdig : isDigit LF = false := by decide
  have h9 : 9 ≤ (sl ++ [CR]).length := by
    simp only [List.length_append, List.length_singleton]; omega
  simp only [Ptr.add]
  rw [e, List.drop_append_of_le_length h9, skipSpaces_stop _ _ _ LF hsp]
  simp only [parseIntAt, parseInt_append_stop _ _ LF _ hdig, statusOf]

/-- The result of `parse_response` on a well-formed response: a status line
that begins with `HTTP/1.`, has at least 8 bytes and no `\r`, good header lines,
the blank line and a body.  The call succeeds; the status code is that of the
status line, the header lines have their effects in order, and the body starts
behind the blank line and has the length of the body text. -/
theorem parse_response_wellformed (sl : List Char) (hs : List (List Char)) (b : List Char)
    (resp : HttpResponse) (hpre : "HTTP/1.".toList <+: sl) (h8 : 8 ≤ sl.length)
    (hcr : CR ∉ sl) (hnul : NUL ∉ sl) (hgood : ∀ l ∈ hs, GoodLine l) :
    parse_response (responseText sl hs b) (responseText sl hs b).length resp
      = some (1, { headersResult sl hs resp with
                   body := some (sl.length + (headerBlock hs).length + 4),
                   body_length := b.length }) := by
  have h1 : kstrncmp (responseText sl hs b) "HTTP/1.".toList 7 = 0 :=
    (kstrncmp_eq_zero_iff "HTTP/1.".toList (by decide) _).2
      (hpre.trans (List.prefix_append _ _))
  have h2 : kstrstr (responseText sl hs b) [CR, LF] = some sl.length :=
    kstrstr_line_end sl _ hcr hnul
  have h3 : kstrstr (responseText sl hs b) [CR, LF, CR, LF]
      = some (sl.length + (headerBlock hs).length) :=
    kstrstr_blank_line hs b (fun l hl => ⟨(hgood l hl).1, (hgood l hl).2.1, (hgood l hl).2.2.1⟩)
      sl hcr hnul
  have h4 : (parseIntAt (skipSpaces (Ptr.add ⟨0, responseText sl hs b⟩ 9)) 0).1 = statusOf sl :=
    status_of_line sl _ h8
  have h5 : Ptr.add ⟨0, responseText sl hs b⟩ (sl.length + 2)
      = ⟨sl.length + 2, headerBlock hs ++ CR :: LF :: b⟩ := by
    have e : responseText sl hs b = (sl ++ [CR, LF]) ++ (headerBlock hs ++ CR :: LF :: b) := by
      simp [responseText]
    simp only [Ptr.add, Nat.zero_add]
    rw [e, List.drop_left' (by simp)]
  have hlen : (responseText sl hs b).length
      = sl.length + 2 + (headerBlock hs).length + 2 + b.length := by
    simp only [responseText, List.length_append, List.length_cons]; omega
  have h6 := headerLoop_lines ((responseText sl hs b).length : Int) b hs
    (((responseText sl hs b).length : Int) - ((sl.length + 2 : Nat) : Int)).toNat
    (sl.length + 2)
    { resp with status_code := statusOf sl, content_length := 0, body := none } hgood
    (by have := headerBlock_length_ge hs; omega) (by omega)
  simp only [parse_response, h1, ne_eq, not_true_eq_false, if_false, h2, h3, h4, h5, h6,
    headersResult]
  congr 3
  omega

theorem dropWhile_space_eq (t : List Char) (h : t.head? ≠ some ' ') :
    t.dropWhile (fun c => c == ' ') = t := by
  cases t with
  | nil => rfl
  | cons a t =>
    have : a ≠ ' ' := fun h' => h (by simp [h'])
    simp [List.dropWhile_cons, this]

theorem digits_head (n : List Char) (hn : ∀ c ∈ n, isDigit c = true) : n.head? ≠ some ' ' := by
  cases n with
  | nil => simp
  | cons a n =>
    have ha := hn a (by simp)
    intro h
    simp only [List.head?_cons, Option.some.injEq] at h
    rw [h] at ha
    revert ha; decide

theorem digits_not_mem (n : List Char) (hn : ∀ c ∈ n, isDigit c = true) (x : Char)
    (hx : isDigit x = false) : x ∉ n := by
  intro h
  rw [hn x h] at hx
  exact absurd hx (by decide)

/-- The effect of a `Content-Type` line whose value fits the field. -/
theorem headerEffect_content_type (t : List Char) (resp : HttpResponse)
    (hlen : t.length ≤ 63) (hsp : t.head? ≠ some ' ') :
    headerEffect ("Content-Type: ".toList ++ t) resp = { resp with content_type := t } ∧
      lineRest ("Content-Type: ".toList ++ t) = [] := by
  have p1 : "Content-Type:".toList <+: "Content-Type: ".toList ++ t := ⟨' ' :: t, rfl⟩
  have d1 : ("Content-Type: ".toList ++ t).drop 13 = ' ' :: t := rfl
  have d2 : (' ' :: t).dropWhile (fun c => c == ' ') = t := by
    rw [List.dropWhile_cons]
    simpa using dropWhile_space_eq t hsp
  simp only [headerEffect, lineRest, p1, if_true, d1, d2, List.take_of_length_le hlen,
    List.drop_eq_nil_of_le hlen, and_self]

/-- The effect of a `Content-Length` line whose value is a numeral that fits an `int`. -/
theorem headerEffect_content_length (n : List Char) (resp : HttpResponse)
    (hn : ∀ c ∈ n, isDigit c = true) (hv : decVal n < 2147483648) :
    headerEffect ("Content-Length: ".toList ++ n) resp
        = { resp with content_length := (decVal n : Int) } ∧
      lineRest ("Content-Length: ".toList ++ n) = [] := by
  have p1 : ¬ "Content-Type:".toList <+: "Content-Length: ".toList ++ n := by
    simp [List.cons_prefix_cons]
  have p2 : "Content-Length:".toList <+: "Content-Length: ".toList ++ n := ⟨' ' :: n, rfl⟩
  have d1 : ("Content-Length: ".toList ++ n).drop 15 = ' ' :: n := rfl
  have d2 : (' ' :: n).dropWhile (fun c => c == ' ') = n := by
    rw [List.dropWhile_cons]
    simpa using dropWhile_space_eq n (digits_head n hn)
  have d3 := parseInt_digits n [] 0 hn (by decide) (by omega)
  simp only [List.append_nil, Nat.cast_zero, Nat.zero_mul, Nat.zero_add] at d3
  simp only [headerEffect, lineRest, p1, p2, if_true, if_false, d1, d2, d3, and_self]

/-- The status code of a status line `HTTP/1.1 s reason` for a numeral `s` that
fits an `int`. -/
theorem statusOf_example (s reason : List Char) (hne : s ≠ [])
    (hs : ∀ c ∈ s, isDigit c = true) (hv : decVal s < 2147483648) :
    statusOf ("HTTP/1.1 ".toList ++ s ++ ' ' :: reason) = (decVal s : Int) := by
  have d1 : (("HTTP/1.1 ".toList ++ s ++ ' ' :: reason) ++ [CR]).drop 9
      = s ++ ' ' :: (reason ++ [CR]) := by
    simp
  have hh : (s ++ ' ' :: (reason ++ [CR])).head? ≠ some ' ' := by
    cases s with
    | nil => exact absurd rfl hne
    | cons a s => exact digits_head (a :: s) hs
  have hsp : isDigit (deref (' ' :: (reason ++ [CR]))) = false := by
    simp only [deref, List.headD_cons]; decide
  have d3 := parseInt_digits s (' ' :: (reason ++ [CR])) 0 hs hsp (by omega)
  simp only [Nat.cast_zero, Nat.zero_mul, Nat.zero_add] at d3
  simp only [statusOf, d1, dropWhile_space_eq _ hh, d3]

theorem exampleResponse_eq (s reason t n b : List Char) :
    exampleResponse s reason t n b
      = responseText ("HTTP/1.1 ".toList ++ s ++ ' ' :: reason)
          ["Content-Type: ".toList ++ t, "Content-Length: ".toList ++ n] b := by
  have e1 : "\r\n".toList = [CR, LF] := by decide
  have e2 : "\r\n\r\n".toList = [CR, LF, CR, LF] := by decide
  have e3 : " ".toList = [' '] := rfl
  simp only [exampleResponse, responseText, headerBlock, e1, e2, e3, List.append_assoc,
    List.cons_append, List.nil_append, List.append_nil]

/-- C8. For every response buffer whose C string contains a line end `\r\n`,
whatever `data_len` and the previous contents of the response structure,
`parse_response` returns, its return value is 0 or 1, and it is 0 (failure)
exactly when the buffer does not begin with the seven bytes `HTTP/1.`; on
failure `status_code` and `content_length` are 0 and `body` is the null pointer.
The status code has no part in the outcome. -/
theorem parse_response_fails_iff (data : List Char) (data_len : Int) (resp : HttpResponse)
    (hcrlf : [CR, LF] <:+: cstr data) :
    ∃ ret r, parse_response data data_len resp = some (ret, r) ∧
      (ret = 0 ∨ ret = 1) ∧
      (ret = 0 ↔ ¬ "HTTP/1.".toList <+: data) ∧
      (ret = 0 → r.status_code = 0 ∧ r.content_length = 0 ∧ r.body = none) := by
  obtain ⟨k, hk⟩ := kstrstr_isSome data [CR, LF] (by decide) hcrlf
  have hiff := kstrncmp_eq_zero_iff "HTTP/1.".toList (by decide) data
  by_cases hp : kstrncmp data "HTTP/1.".toList 7 = 0
  · have hpre : "HTTP/1.".toList <+: data := hiff.1 hp
    have hex : ∃ r, parse_response data data_len resp = some (1, r) := by
      simp only [parse_response, hp, hk, ne_eq, not_true_eq_false, if_false]
      cases kstrstr data [CR, LF, CR, LF] with
      | none => exact ⟨_, rfl⟩
      | some b => exact ⟨_, rfl⟩
    obtain ⟨r, hr⟩ := hex
    refine ⟨1, r, hr, Or.inr rfl, ?_, ?_⟩
    · exact ⟨fun h => absurd h (by norm_num), fun h => absurd hpre h⟩
    · intro h; exact absurd h (by norm_num)
  · have hpre : ¬ "HTTP/1.".toList <+: data := fun h => hp (hiff.2 h)
    have hr : parse_response data data_len resp
        = some (0, { resp with status_code := 0, content_length := 0, body := none }) := by
      simp only [parse_response, hp, ne_eq, not_false_eq_true, if_true]
    exact ⟨0, _, hr, Or.inl rfl, ⟨fun _ => hpre, fun _ => rfl⟩, fun _ => ⟨rfl, rfl, rfl⟩⟩

/-- C8, witness: the response of the specification's example, with status 404,
is parsed successfully. -/
theorem parse_response_fails_iff_witness :
    [CR, LF] <:+: cstr resp404 ∧
    ∃ ret r, parse_response resp404 resp404.length resp0 = some (ret, r) ∧
      (ret = 0 ∨ ret = 1) ∧
      (ret = 0 ↔ ¬ "HTTP/1.".toList <+: resp404) ∧
      (ret = 0 → r.status_code = 0 ∧ r.content_length = 0 ∧ r.body = none) :=
  have h : [CR, LF] <:+: cstr resp404 :=
    ⟨"HTTP/1.1 404 Not Found".toList,
      "Content-Type: text/plain\r\nContent-Length: 5\r\n\r\nhello".toList, by decide⟩
  ⟨h, parse_response_fails_iff resp404 resp404.length resp0 h⟩

theorem responseText_drop (sl : List Char) (hs : List (List Char)) (b : List Char) :
    (responseText sl hs b).drop (sl.length + (headerBlock hs).length + 4) = b := by
  have e : responseText sl hs b = (sl ++ CR :: LF :: (headerBlock hs ++ [CR, LF])) ++ b := by
    simp [responseText]
  have hl : (sl ++ CR :: LF :: (headerBlock hs ++ [CR, LF])).length
      = sl.length + (headerBlock hs).length + 4 := by
    simp only [List.length_append, List.length_cons, List.length_nil]; omega
  rw [e, List.drop_left' hl]

theorem not_mem_append3 {x : Char} {a b c : List Char} (ha : x ∉ a) (hb : x ∉ b) (hc : x ∉ c) :
    x ∉ a ++ b ++ c := by
  simp only [List.mem_append, not_or]
  exact ⟨⟨ha, hb⟩, hc⟩

/-- C9, as amended. For every status code `s` written as a non-empty decimal
numeral of value below `2^31`, every reason phrase without `\r`, every content
type `t` of at most 63 characters without `\r` that does not begin with a space,
every content length `n` written as a decimal numeral of value below `2^31` and
every body `b`, `parse_response` on
`HTTP/1.1 s reason\r\nContent-Type: t\r\nContent-Length: n\r\n\r\nb`, with
`data_len` the full length, succeeds with `status_code = s`, `content_type = t`,
`content_length = n`, `body` pointing at `b` and `body_length` the length of `b`.
The header text is a C string: it holds no terminator byte. -/
theorem parse_response_example (s reason t n b : List Char) (resp : HttpResponse)
    (hs : s ≠ [] ∧ (∀ c ∈ s, isDigit c = true) ∧ decVal s < 2147483648)
    (hreason : CR ∉ reason ∧ NUL ∉ reason)
    (ht : t.length ≤ 63 ∧ CR ∉ t ∧ NUL ∉ t ∧ t.head? ≠ some ' ')
    (hn : (∀ c ∈ n, isDigit c = true) ∧ decVal n < 2147483648) :
    ∃ r, parse_response (exampleResponse s reason t n b)
          (exampleResponse s reason t n b).length resp = some (1, r) ∧
      r.status_code = (decVal s : Int) ∧ r.content_type = t ∧
      r.content_length = (decVal n : Int) ∧
      bodyBytes (exampleResponse s reason t n b) r = some b ∧
      r.body_length = (b.length : Int) := by
  obtain ⟨hsne, hsd, hsv⟩ := hs
  obtain ⟨htl, htcr, htnul, htsp⟩ := ht
  have hcrd : isDigit CR = false := by decide
  have hnuld : isDigit NUL = false := by decide
  have hpre : "HTTP/1.".toList <+: "HTTP/1.1 ".toList ++ s ++ ' ' :: reason :=
    ⟨"1 ".toList ++ s ++ ' ' :: reason, by simp⟩
  have h8 : 8 ≤ ("HTTP/1.1 ".toList ++ s ++ ' ' :: reason).length := by
    have : ("HTTP/1.1 ".toList).length = 9 := rfl
    simp only [List.length_append, List.length_cons]
    omega
  have hcr : CR ∉ "HTTP/1.1 ".toList ++ s ++ ' ' :: reason :=
    not_mem_append3 (by decide) (digits_not_mem s hsd CR hcrd)
      (by simp only [List.mem_cons, not_or]; exact ⟨by decide, hreason.1⟩)
  have hnul : NUL ∉ "HTTP/1.1 ".toList ++ s ++ ' ' :: reason :=
    not_mem_append3 (by decide) (digits_not_mem s hsd NUL hnuld)
      (by simp only [List.mem_cons, not_or]; exact ⟨by decide, hreason.2⟩)
  have e1 := fun r => headerEffect_content_type t r htl htsp
  have e2 := fun r => headerEffect_content_length n r hn.1 hn.2
  have hgood : ∀ l ∈ ["Content-Type: ".toList ++ t, "Content-Length: ".toList ++ n],
      GoodLine l := by
    intro l hl
    simp only [List.mem_cons, List.mem_singleton, List.not_mem_nil, or_false] at hl
    rcases hl with rfl | rfl
    · refine ⟨by simp, ?_, ?_, by rw [(e1 resp).2]; simp⟩
      · simp only [List.mem_append, not_or]; exact ⟨by decide, htcr⟩
      · simp only [List.mem_append, not_or]; exact ⟨by decide, htnul⟩
    · refine ⟨by simp, ?_, ?_, by rw [(e2 resp).2]; simp⟩
      · simp only [List.mem_append, not_or]
        exact ⟨by decide, digits_not_mem n hn.1 CR hcrd⟩
      · simp only [List.mem_append, not_or]
        exact ⟨by decide, digits_not_mem n hn.1 NUL hnuld⟩
  have hw := parse_response_wellformed ("HTTP/1.1 ".toList ++ s ++ ' ' :: reason)
    ["Content-Type: ".toList ++ t, "Content-Length: ".toList ++ n] b resp hpre h8 hcr hnul hgood
  rw [exampleResponse_eq]
  refine ⟨_, hw, ?_, ?_, ?_, ?_, rfl⟩
  · simp only [headersResult, List.foldl_cons, List.foldl_nil, (e1 _).1, (e2 _).1,
      statusOf_example s reason hsne hsd hsv]
  · simp only [headersResult, List.foldl_cons, List.foldl_nil, (e1 _).1, (e2 _).1]
  · simp only [headersResult, List.foldl_cons, List.foldl_nil, (e1 _).1, (e2 _).1]
  · simp only [bodyBytes, Option.map_some', responseText_drop]

/-- C9, witness of the amended statement: the example of the specification,
`HTTP/1.1 404 Not Found`, `text/plain`, length 5, body `hello`. -/
theorem parse_response_example_witness :
    ∃ r, parse_response resp404 resp404.length resp0 = some (1, r) ∧
      r.status_code = 404 ∧ r.content_type = "text/plain".toList ∧
      r.content_length = 5 ∧
      bodyBytes resp404 r = some "hello".toList ∧
      r.body_length = 5 :=
  parse_response_example "404".toList "Not Found".toList "text/plain".toList "5".toList
    "hello".toList resp0 (by decide) (by decide) (by decide) (by decide)

/-- C9, as stated, fails.  A content type that begins with a space loses it: the
loop over the spaces behind `Content-Type:` takes it for a separator.  A status
code or a content length of `2^32 + 404` is not the value of the `int` field
that is to hold it. -/
theorem parse_response_example_counterexample :
    ((parse_response
        (exampleResponse "200".toList "OK".toList " x".toList "1".toList "b".toList)
        (exampleResponse "200".toList "OK".toList " x".toList "1".toList "b".toList).length
        resp0).map (fun x => x.2.content_type) = some "x".toList ∧
      "x".toList ≠ " x".toList) ∧
    (parse_response
        (exampleResponse "4294967700".toList "OK".toList "x".toList "1".toList "b".toList)
        (exampleResponse "4294967700".toList "OK".toList "x".toList "1".toList "b".toList).length
        resp0).map (fun x => x.2.status_code) ≠ some 4294967700 ∧
    (parse_response
        (exampleResponse "200".toList "OK".toList "x".toList "4294967700".toList "b".toList)
        (exampleResponse "200".toList "OK".toList "x".toList "4294967700".toList "b".toList).length
        resp0).map (fun x => x.2.content_length) ≠ some 4294967700 := by
  decide

/-- C10. Unrecognized headers have no effect on `parse_response`.  Take a
well-formed response: a status line that begins with `HTTP/1.`, has at least 8
bytes and no `\r`, header lines that are not empty and hold no `\r` and no
`\n`, the blank line and a body.  Inserting anywhere among the header lines a
line `L` that is not empty, holds no `\r` and no `\n` and begins with neither
`Content-Type:` nor `Content-Length:` leaves the return value, `status_code`,
`content_type`, `content_length`, the bytes that `body` points at and
`body_length` unchanged. -/
theorem parse_response_unrecognized_header (sl : List Char) (h1 h2 : List (List Char))
    (L b : List Char) (resp : HttpResponse)
    (hpre : "HTTP/1.".toList <+: sl) (h8 : 8 ≤ sl.length) (hcr : CR ∉ sl) (hnul : NUL ∉ sl)
    (hlines : ∀ l ∈ h1 ++ h2, l ≠ [] ∧ CR ∉ l ∧ LF ∉ l ∧ NUL ∉ l)
    (hL : L ≠ [] ∧ CR ∉ L ∧ LF ∉ L ∧ NUL ∉ L)
    (hL1 : ¬ "Content-Type:".toList <+: L) (hL2 : ¬ "Content-Length:".toList <+: L) :
    ∃ r r', parse_response (responseText sl (h1 ++ h2) b)
          (responseText sl (h1 ++ h2) b).length resp = some (1, r) ∧
      parse_response (responseText sl (h1 ++ L :: h2) b)
          (responseText sl (h1 ++ L :: h2) b).length resp = some (1, r') ∧
      r'.status_code = r.status_code ∧ r'.content_type = r.content_type ∧
      r'.content_length = r.content_length ∧
      bodyBytes (responseText sl (h1 ++ L :: h2) b) r'
        = bodyBytes (responseText sl (h1 ++ h2) b) r ∧
      bodyBytes (responseText sl (h1 ++ h2) b) r = some b ∧
      r'.body_length = r.body_length := by
  have hgl : ∀ l, l ≠ [] ∧ CR ∉ l ∧ LF ∉ l ∧ NUL ∉ l → GoodLine l := fun l h =>
    ⟨h.1, h.2.1, h.2.2.2, fun hm => h.2.2.1 ((lineRest_suffix l).subset hm)⟩
  have hg : ∀ l ∈ h1 ++ h2, GoodLine l := fun l hl => hgl l (hlines l hl)
  have hg' : ∀ l ∈ h1 ++ L :: h2, GoodLine l := by
    intro l hl
    rcases List.mem_append.1 hl with h | h
    · exact hg l (List.mem_append.2 (Or.inl h))
    · rcases List.mem_cons.1 h with h | h
      · rw [h]; exact hgl L hL
      · exact hg l (List.mem_append.2 (Or.inr h))
  have hw := parse_response_wellformed sl (h1 ++ h2) b resp hpre h8 hcr hnul hg
  have hw' := parse_response_wellformed sl (h1 ++ L :: h2) b resp hpre h8 hcr hnul hg'
  have heff : ∀ r, headerEffect L r = r := fun r => by
    simp only [headerEffect, hL1, hL2, if_false]
  have hres : headersResult sl (h1 ++ L :: h2) resp = headersResult sl (h1 ++ h2) resp := by
    simp only [headersResult, List.foldl_append, List.foldl_cons, heff]
  refine ⟨_, _, hw, hw', ?_, ?_, ?_, ?_, ?_, rfl⟩
  · simp only [hres]
  · simp only [hres]
  · simp only [hres]
  · simp only [bodyBytes, Option.map_some', responseText_drop]
  · simp only [bodyBytes, Option.map_some', responseText_drop]

/-- C10, witness: the lower-case line `content-type: x` inserted between the
two recognized headers of a response. -/
theorem parse_response_unrecognized_header_witness :
    (responseText "HTTP/1.1 200 OK".toList
        (["Content-Type: text/html".toList] ++ ["Content-Length: 2".toList]) "hi".toList
      = ("HTTP/1.1 200 OK\r\nContent-Type: text/html\r\n" ++
          "Content-Length: 2\r\n\r\nhi").toList ∧
    responseText "HTTP/1.1 200 OK".toList
        (["Content-Type: text/html".toList] ++
          "content-type: x".toList :: ["Content-Length: 2".toList]) "hi".toList
      = ("HTTP/1.1 200 OK\r\nContent-Type: text/html\r\ncontent-type: x\r\n" ++
          "Content-Length: 2\r\n\r\nhi").toList) ∧
    ∃ r r', parse_response (responseText "HTTP/1.1 200 OK".toList
          (["Content-Type: text/html".toList] ++ ["Content-Length: 2".toList]) "hi".toList)
          (responseText "HTTP/1.1 200 OK".toList
            (["Content-Type: text/html".toList] ++ ["Content-Length: 2".toList])
            "hi".toList).length resp0 = some (1, r) ∧
      parse_response (responseText "HTTP/1.1 200 OK".toList
          (["Content-Type: text/html".toList] ++
            "content-type: x".toList :: ["Content-Length: 2".toList]) "hi".toList)
          (responseText "HTTP/1.1 200 OK".toList
            (["Content-Type: text/html".toList] ++
              "content-type: x".toList :: ["Content-Length: 2".toList])
            "hi".toList).length resp0 = some (1, r') ∧
      r'.status_code = r.status_code ∧ r'.content_type = r.content_type ∧
      r'.content_length = r.content_length ∧
      bodyBytes (responseText "HTTP/1.1 200 OK".toList
          (["Content-Type: text/html".toList] ++
            "content-type: x".toList :: ["Content-Length: 2".toList]) "hi".toList) r'
        = bodyBytes (responseText "HTTP/1.1 200 OK".toList
          (["Content-Type: text/html".toList] ++ ["Content-Length: 2".toList]) "hi".toList) r ∧
      bodyBytes (responseText "HTTP/1.1 200 OK".toList
          (["Content-Type: text/html".toList] ++ ["Content-Length: 2".toList]) "hi".toList) r
        = some "hi".toList ∧
      r'.body_length = r.body_length :=
  ⟨by decide, parse_response_unrecognized_header "HTTP/1.1 200 OK".toList
    ["Content-Type: text/html".toList] ["Content-Length: 2".toList] "content-type: x".toList
    "hi".toList resp0 (by decide) (by decide) (by decide) (by decide) (by decide) (by decide)
    (by decide) (by decide)⟩

/-! ## `parse_response`: the body -/

theorem cstr_isPrefix_of_isPrefix (nd l : List Char) (hnd : NUL ∉ nd) (h : nd <+: l) :
    nd <+: cstr l := by
  induction nd generalizing l with
  | nil => exact List.nil_prefix
  | cons x nd ih =>
    cases l with
    | nil => simp at h
    | cons c cs =>
      rw [List.cons_prefix_cons] at h
      have hx : x ≠ NUL := fun h' => hnd (by simp [h'])
      rw [cstr_cons, if_neg (h.1 ▸ hx), List.cons_prefix_cons]
      exact ⟨h.1, ih cs (fun h' => hnd (by simp [h'])) h.2⟩

/-- The search finds the text at the first place where it stands. -/
theorem kstrstr_first (a nd rest : List Char) (hnd : NUL ∉ nd) (hne : nd ≠ [])
    (ha : NUL ∉ a) (h : ∀ j, j < a.length → ¬ nd <+: (a ++ nd ++ rest).drop j) :
    kstrstr (a ++ nd ++ rest) nd = some a.length := by
  induction a with
  | nil =>
    exact kstrstr_here _ nd hnd (by simp [hne]) ⟨rest, by simp⟩
  | cons x a ih =>
    have hx : x ≠ NUL := fun h' => ha (by simp [h'])
    have h0 : ¬ ((cstr nd).isPrefixOf (x :: (a ++ nd ++ rest)) = true) := by
      rw [cstr_eq_self nd hnd]
      have := h 0 (by simp)
      simpa using this
    have ih' := ih (fun h' => ha (by simp [h'])) (fun j hj => by
      have := h (j + 1) (by simpa using hj)
      simpa using this)
    rw [List.cons_append, List.cons_append, kstrstr, if_neg h0, if_neg hx, ih']
    simp

/-- The search returns the null pointer when the text does not occur in the C string. -/
theorem kstrstr_none (hay nd : List Char) (hnd : NUL ∉ nd) (h : ¬ nd <:+: cstr hay) :
    kstrstr hay nd = none := by
  have hc := cstr_eq_self nd hnd
  induction hay with
  | nil =>
    have hne : nd ≠ [] := by
      intro h'; apply h; rw [h']; exact List.nil_infix
    simp [kstrstr, hc, hne]
  | cons c cs ih =>
    have hp : ¬ ((cstr nd).isPrefixOf (c :: cs) = true) := by
      rw [hc]
      intro hp
      have hp' : nd <+: c :: cs := by simpa using hp
      exact h (cstr_isPrefix_of_isPrefix nd _ hnd hp').isInfix
    by_cases hcn : c = NUL
    · rw [kstrstr, if_neg hp, if_pos hcn]
    · have : ¬ nd <:+: cstr cs := by
        intro h'
        apply h
        rw [cstr_cons, if_neg hcn, List.infix_cons_iff]
        exact Or.inr h'
      rw [kstrstr, if_neg hp, if_neg hcn, ih this]
      rfl

theorem headerStep_body (p : Ptr) (resp : HttpResponse) :
    (headerStep p resp).2.body = resp.body := by
  simp only [headerStep]
  split
  · rfl
  · split <;> rfl

/-- The header loop does not write the `body` field. -/
theorem headerLoop_body (data_len : Int) (k : Nat) (p : Ptr) (resp : HttpResponse) :
    (headerLoop data_len k p resp).2.body = resp.body := by
  induction k generalizing p resp with
  | zero => rfl
  | succ k ih =>
    simp only [headerLoop]
    split
    · rw [ih, headerStep_body]
    · rfl

/-- C11. For every buffer that begins with `HTTP/1.`, whatever `data_len`:
when `\r\n\r\n` stands in it and `a` is the text in front of its first occurrence,
`parse_response` succeeds, `body` points at offset `|a| + 4`, the bytes behind
the occurrence, and `body_length` is `data_len - (|a| + 4)`; when `\r\n\r\n` does
not occur in the C string, `body` is the null pointer whenever the function
returns.  The `Content-Length` header has no part in it: a response that
declares `Content-Length: 5` with a body of 2 bytes has `content_length = 5` and
`body_length = 2`. -/
theorem parse_response_body (data : List Char) (data_len : Int) (resp : HttpResponse)
    (hpre : "HTTP/1.".toList <+: data) :
    (∀ a rest, data = a ++ [CR, LF, CR, LF] ++ rest → NUL ∉ a →
      (∀ j, j < a.length → ¬ [CR, LF, CR, LF] <+: data.drop j) →
      ∃ r, parse_response data data_len resp = some (1, r) ∧
        r.body = some (a.length + 4) ∧ bodyBytes data r = some rest ∧
        r.body_length = data_len - ((a.length + 4 : Nat) : Int)) ∧
    (¬ [CR, LF, CR, LF] <:+: cstr data →
      ∀ ret r, parse_response data data_len resp = some (ret, r) → r.body = none) ∧
    (parse_response (exampleResponse "200".toList "OK".toList "t".toList "5".toList
        "hi".toList)
      (exampleResponse "200".toList "OK".toList "t".toList "5".toList "hi".toList).length
      resp0).map (fun x => (x.2.content_length, x.2.body_length)) = some (5, 2) := by
  have hp : kstrncmp data "HTTP/1.".toList 7 = 0 :=
    (kstrncmp_eq_zero_iff "HTTP/1.".toList (by decide) data).2 hpre
  refine ⟨?_, ?_, by decide⟩
  · intro a rest hd ha hfirst
    have hk : kstrstr data [CR, LF, CR, LF] = some a.length := by
      rw [hd]
      exact kstrstr_first a [CR, LF, CR, LF] rest (by decide) (by simp) ha
        (fun j hj => by rw [← hd]; exact hfirst j hj)
    have hin : [CR, LF] <:+: cstr data := by
      have h1 : a ++ [CR, LF, CR, LF] <+: cstr data :=
        cstr_isPrefix_of_isPrefix _ data
          (by simp only [List.mem_append, not_or]; exact ⟨ha, by decide⟩)
          ⟨rest, by rw [hd]⟩
      have h2 : [CR, LF] <:+: a ++ [CR, LF, CR, LF] := ⟨a, [CR, LF], by simp⟩
      exact h2.trans h1.isInfix
    obtain ⟨k, hk2⟩ := kstrstr_isSome data [CR, LF] (by decide) hin
    simp only [parse_response, hp, ne_eq, not_true_eq_false, if_false, hk2, hk]
    refine ⟨_, rfl, rfl, ?_, rfl⟩
    simp only [bodyBytes, Option.map_some']
    rw [hd, List.append_assoc, List.drop_append]
    rfl
  · intro hno ret r hr
    have hk := kstrstr_none data [CR, LF, CR, LF] (by decide) hno
    simp only [parse_response, hp, ne_eq, not_true_eq_false, if_false, hk] at hr
    cases h2 : kstrstr data [CR, LF] with
    | none => simp [h2] at hr
    | some k =>
      simp only [h2, Option.some.injEq, Prod.mk.injEq] at hr
      rw [← hr.2, headerLoop_body]

/-- C11, witness: in the response of the specification's example the first
`\r\n\r\n` stands behind 67 bytes and the body `hello` starts at offset 71. -/
theorem parse_response_body_witness :
    ∃ r, parse_response resp404 resp404.length resp0 = some (1, r) ∧
      r.body = some (67 + 4) ∧ bodyBytes resp404 r = some "hello".toList ∧
      r.body_length = (resp404.length : Int) - ((67 + 4 : Nat) : Int) :=
  (parse_response_body resp404 resp404.length resp0 (by decide)).1
    "HTTP/1.1 404 Not Found\r\nContent-Type: text/plain\r\nContent-Length: 5".toList
    "hello".toList (by decide) (by decide) (by decide)

/-! ## `http_get` -/

theorem parse_url_ret (url : List Char) : (parse_url url).1 = 1 := rfl

/-- C12. With the transport as an external collaborator, a parameter of
`http_get`: when `dns_resolve` of the parsed host is 0, `http_get` returns 0
and has made no call to the transport (no connect is attempted); when the host
resolves and `tcp_connect` returns a negative handle, `http_get` returns 0 and
its only call to the transport is that `tcp_connect` (nothing is sent or
received); and whenever `http_get` returns, it returns success (1) exactly when
the host resolves, the handle is not negative, and `parse_response` accepts the
bytes accumulated by the receive loop. -/
theorem http_get_success_iff {σ : Type} (net : Transport σ) (k : Nat) (st : σ)
    (response_buf url : List Char) (resp : HttpResponse) (ip : Nat) (c : Int × σ)
    (hip : ip = dns_resolve (parse_url url).2.host)
    (hcon : c = net.tcp_connect st ip (parse_url url).2.port) :
    (ip = 0 →
      http_get net k st response_buf url resp
        = some ⟨0, resp, st, [NetEvent.print "[HTTP] DNS resolution failed\n".toList 0x0C]⟩) ∧
    (ip ≠ 0 → c.1 < 0 →
      http_get net k st response_buf url resp
        = some ⟨0, resp, c.2, [NetEvent.connect ip (parse_url url).2.port,
              NetEvent.print "[HTTP] Connection failed\n".toList 0x0C]⟩) ∧
    (∀ g, http_get net k st response_buf url resp = some g →
      (g.ret = 1 ↔
        ip ≠ 0 ∧ 0 ≤ c.1 ∧
        ∃ r, recvLoop net c.1 k (afterSend net c ip (parse_url url).2 response_buf) = some r ∧
          (parse_response (pokeAt r.buf r.total [NUL]) (r.total : Int) resp).map (fun x => x.1)
            = some 1)) := by
  have h1 : ¬ ((parse_url url).1 = 0) := by rw [parse_url_ret]; norm_num
  subst hip hcon
  refine ⟨?_, ?_, ?_⟩
  · intro hd
    simp only [http_get, h1, if_false, hd, if_true]
  · intro hd hc
    simp only [http_get, h1, if_false, hd, hc, if_true]
  · intro g hg
    simp only [http_get, h1, if_false] at hg
    split at hg
    · rename_i hd
      simp only [Option.some.injEq] at hg
      rw [← hg]
      exact ⟨fun h => absurd h (by norm_num), fun h => absurd hd h.1⟩
    · rename_i hd
      split at hg
      · rename_i hc
        simp only [Option.some.injEq] at hg
        rw [← hg]
        exact ⟨fun h => absurd h (by norm_num), fun h => absurd hc (by have := h.2.1; omega)⟩
      · rename_i hc
        split at hg
        · exact absurd hg (by simp)
        · rename_i r hr
          split at hg
          · exact absurd hg (by simp)
          · rename_i pr hp
            simp only [Option.some.injEq] at hg
            rw [← hg]
            constructor
            · intro h
              refine ⟨hd, by omega, r, hr, ?_⟩
              rw [hp]
              simp only [Option.map_some', Option.some.injEq]
              exact h
            · rintro ⟨-, -, r', hr', hp'⟩
              rw [hr] at hr'
              simp only [Option.some.injEq] at hr'
              rw [← hr', hp] at hp'
              simpa using hp'

/-- C12, witness: a peer that sends the response of the specification's example
in two chunks to `http://127.0.0.1/x`.  The call succeeds, so the host has
resolved and the handle is not negative. -/
theorem http_get_success_iff_witness :
    (http_get chunkTransport 5 [resp404.take 30, resp404.drop 30] []
        "http://127.0.0.1/x".toList resp0).map
        (fun g => (g.ret, g.resp.status_code, g.log.length, g.log.getLast?))
      = some (1, 404, 6, some (NetEvent.close 3)) ∧
    (2130706433 ≠ 0 ∧ (0 : Int) ≤ 3) := by
  refine ⟨by decide, ?_⟩
  have h := (http_get_success_iff chunkTransport 5 [resp404.take 30, resp404.drop 30] []
    "http://127.0.0.1/x".toList resp0 2130706433 (3, [resp404.take 30, resp404.drop 30])
    (by decide) (by decide)).2.2
  have e : (http_get chunkTransport 5 [resp404.take 30, resp404.drop 30] []
      "http://127.0.0.1/x".toList resp0).map (fun r => r.ret) = some 1 := by decide
  cases hg : http_get chunkTransport 5 [resp404.take 30, resp404.drop 30] []
      "http://127.0.0.1/x".toList resp0 with
  | none => rw [hg] at e; exact absurd e (by simp)
  | some g =>
    rw [hg] at e
    have hr := (h g hg).1 (by simpa using e)
    exact ⟨hr.1, hr.2.1⟩

/-! ## `html_parse` -/

/-! ### Pointers that move forward inside a tag -/

theorem Adv.refl (p : List Char) : Adv p p := ⟨0, by simp, by simp⟩

theorem Adv.trans {p q r : List Char} (h1 : Adv p q) (h2 : Adv q r) : Adv p r := by
  obtain ⟨j, rfl, hj⟩ := h1
  obtain ⟨i, rfl, hi⟩ := h2
  refine ⟨j + i, by rw [List.drop_drop, Nat.add_comm], ?_⟩
  intro c hc
  rw [List.take_add, List.mem_append] at hc
  rcases hc with hc | hc
  · exact hj c hc
  · exact hi c hc

theorem Adv.length_le {p q : List Char} (h : Adv p q) : q.length ≤ p.length := by
  obtain ⟨j, rfl, -⟩ := h
  simp

theorem Adv.suffix {p q : List Char} (h : Adv p q) : q <:+ p := by
  obtain ⟨j, rfl, -⟩ := h
  exact List.drop_suffix _ _

theorem Adv.skipToGt_eq {p q : List Char} (h : Adv p q) : skipToGt q = skipToGt p := by
  obtain ⟨j, rfl, hj⟩ := h
  conv_rhs => rw [← List.take_append_drop j p]
  unfold skipToGt
  rw [List.dropWhile_append_of_pos hj]

theorem adv_dropWhile (f : Char → Bool) (p : List Char)
    (hf : ∀ c, f c = true → inTagChar c = true) : Adv p (p.dropWhile f) := by
  refine ⟨(p.takeWhile f).length, (drop_takeWhile_length f p).symm, ?_⟩
  intro c hc
  have : p.take (p.takeWhile f).length = p.takeWhile f :=
    (List.prefix_iff_eq_take.1 (List.takeWhile_prefix f)).symm
  rw [this] at hc
  exact hf c (by simpa using (List.mem_takeWhile_imp hc))

theorem adv_copyWhile (cond : Char → Bool) (n : Nat) (p : List Char)
    (hf : ∀ c, cond c = true → c ≠ '>') : Adv p (copyWhile cond n p).2 := by
  refine ⟨(copyWhile cond n p).1.length, copyWhile_snd cond n p, ?_⟩
  have h1 : (copyWhile cond n p).1 <+: p := by
    rw [copyWhile_fst]
    exact (List.take_prefix _ _).trans (List.takeWhile_prefix _)
  have h2 : p.take (copyWhile cond n p).1.length = (copyWhile cond n p).1 :=
    (List.prefix_iff_eq_take.1 h1).symm
  rw [h2, copyWhile_fst]
  intro c hc
  have hc' := List.mem_takeWhile_imp ((List.take_subset _ _) hc)
  simp only [Bool.and_eq_true, decide_eq_true_eq] at hc'
  simp only [inTagChar, Bool.and_eq_true, bne_iff_ne, ne_eq]
  exact ⟨hc'.1, hf c hc'.2⟩

theorem adv_tail (p : List Char) (h : inTagChar (deref p) = true) : Adv p p.tail := by
  cases p with
  | nil => exact Adv.refl _
  | cons c cs =>
    refine ⟨1, by simp, ?_⟩
    intro x hx
    simp only [List.take_succ_cons, List.take_zero, List.mem_singleton] at hx
    rw [hx]
    simpa [deref] using h

theorem skipToGt_eq_self (p : List Char) (h : inTagChar (deref p) = false) :
    skipToGt p = p := by
  cases p with
  | nil => rfl
  | cons c cs =>
    simp only [deref, List.headD_cons] at h
    simp [skipToGt, List.dropWhile_cons, h]

theorem skipToGt_deref (p : List Char) : inTagChar (deref (skipToGt p)) = false := by
  induction p with
  | nil => simp [skipToGt, deref, inTagChar]
  | cons c cs ih =>
    by_cases h : inTagChar c = true
    · simpa [skipToGt, List.dropWhile_cons, h] using ih
    · simp only [skipToGt, List.dropWhile_cons, h, if_false, Bool.false_eq_true]
      simpa [deref] using h

theorem skipToGt_adv (p : List Char) : Adv p (skipToGt p) :=
  adv_dropWhile inTagChar p (fun _ h => h)

theorem inTagChar_deref_iff (p : List Char) :
    inTagChar (deref p) = true ↔ deref p ≠ NUL ∧ deref p ≠ '>' := by
  simp [inTagChar]

theorem attrQuote_inTag (p : List Char) : inTagChar (attrQuote p) = true := by
  unfold attrQuote
  split
  · rename_i h
    rcases h with h | h <;> rw [h] <;> decide
  · decide

theorem attrOpen_adv (p : List Char) : Adv p (attrOpen p) := by
  unfold attrOpen
  split
  · rename_i h
    exact adv_tail _ (by rcases h with h | h <;> rw [h] <;> decide)
  · exact Adv.refl _

theorem attrValue_adv (name an : List Char) (ml : Nat) (quote : Char) (p out : List Char) :
    Adv p (attrValue name an ml quote p out).1 := by
  unfold attrValue
  split
  · exact adv_copyWhile _ _ _ (fun c h => by
      simp only [attrValueChar, Bool.and_eq_true, bne_iff_ne, ne_eq] at h
      exact h.2)
  · exact adv_dropWhile _ _ (fun c h => by
      simp only [attrValueChar, Bool.and_eq_true, bne_iff_ne, ne_eq] at h
      simp only [inTagChar, Bool.and_eq_true, bne_iff_ne, ne_eq]
      exact ⟨h.1, h.2.2⟩)

theorem skipQuote_adv (quote : Char) (p : List Char) (hq : inTagChar quote = true) :
    Adv p (skipQuote quote p) := by
  unfold skipQuote
  split
  · rename_i h
    exact adv_tail _ (by rw [h]; exact hq)
  · exact Adv.refl _

theorem attrSpaces_adv (p : List Char) : Adv p (p.dropWhile (fun c => c == ' ')) :=
  adv_dropWhile _ p (fun c h => by
    have : c = ' ' := by simpa using h
    rw [this]; decide)

theorem attrName_adv (p : List Char) : Adv p (copyWhile attrNameChar 31 p).2 :=
  adv_copyWhile attrNameChar 31 p (fun c h => by
    simp only [attrNameChar, Bool.and_eq_true, bne_iff_ne, ne_eq] at h
    exact h.2)

/-- What follows the byte `=` of an attribute only moves the pointer forward. -/
theorem attrRest_adv (name an : List Char) (ml : Nat) (p3 out : List Char) :
    Adv p3 (skipQuote (attrQuote p3) (attrValue name an ml (attrQuote p3) (attrOpen p3) out).1) :=
  ((attrOpen_adv p3).trans (attrValue_adv _ _ _ _ _ _)).trans
    (skipQuote_adv _ _ (attrQuote_inTag p3))

theorem attrBody_adv (name : List Char) (ml : Nat) (p out : List Char) :
    Adv p (attrBody name ml p out).1 := by
  have a12 := (attrSpaces_adv p).trans (attrName_adv _)
  simp only [attrBody]
  split
  · rename_i heq
    exact (a12.trans (adv_tail _ (by rw [heq]; decide))).trans (attrRest_adv _ _ _ _ _)
  · exact a12

theorem copyWhile_snd_length_lt (cond : Char → Bool) (n : Nat) (c : Char) (cs : List Char)
    (hc : c ≠ NUL ∧ cond c = true) :
    (copyWhile cond (n + 1) (c :: cs)).2.length < (c :: cs).length := by
  have h : (copyWhile cond (n + 1) (c :: cs)).2 = (copyWhile cond n cs).2 := by
    rw [copyWhile, if_pos hc]
  rw [h, copyWhile_snd]
  simp only [List.length_drop, List.length_cons]
  omega

theorem attrBody_length_lt (name : List Char) (ml : Nat) (p out : List Char)
    (h : deref p ≠ NUL ∧ deref p ≠ '>') :
    (attrBody name ml p out).1.length < p.length := by
  have a1 := attrSpaces_adv p
  have a2 := attrName_adv (p.dropWhile (fun c => c == ' '))
  by_cases heq : deref (copyWhile attrNameChar 31 (p.dropWhile (fun c => c == ' '))).2 = '='
  · -- the byte `=` is passed
    have hne : (copyWhile attrNameChar 31 (p.dropWhile (fun c => c == ' '))).2 ≠ [] := by
      intro h'
      rw [h'] at heq
      revert heq; simp only [deref, List.headD_nil]; decide
    have hlt : (copyWhile attrNameChar 31 (p.dropWhile (fun c => c == ' '))).2.tail.length
        < p.length := by
      have := (a1.trans a2).length_le
      have h2 := List.length_pos.2 hne
      simp only [List.length_tail]
      omega
    simp only [attrBody, heq, if_true]
    exact Nat.lt_of_le_of_lt (attrRest_adv _ _ _ _ _).length_le hlt
  · simp only [attrBody, heq, if_false]
    cases hp : p with
    | nil =>
      rw [hp] at h
      exact absurd rfl h.1
    | cons c cs =>
      rw [hp] at h heq a1 a2
      simp only [deref, List.headD_cons] at h
      by_cases hsp : c = ' '
      · -- a space is passed
        have : ((c :: cs).dropWhile (fun c => c == ' ')).length ≤ cs.length := by
          rw [List.dropWhile_cons, if_pos (by simpa using hsp)]
          exact (List.dropWhile_suffix _).length_le
        have := a2.length_le
        simp only [List.length_cons]
        omega
      · have hd : (c :: cs).dropWhile (fun c => c == ' ') = c :: cs := by
          rw [List.dropWhile_cons, if_neg (by simpa using hsp)]
        rw [hd] at heq ⊢
        by_cases hcn : attrNameChar c = true
        · exact copyWhile_snd_length_lt attrNameChar 30 c cs ⟨h.1, hcn⟩
        · exfalso
          apply heq
          have hc2 : (copyWhile attrNameChar 31 (c :: cs)).2 = c :: cs := by
            rw [copyWhile, if_neg (fun hh => hcn hh.2)]
          rw [hc2]
          simp only [deref, List.headD_cons]
          simp only [attrNameChar, Bool.and_eq_true, bne_iff_ne, ne_eq, not_and, not_not] at hcn
          by_contra hne
          exact h.2 (hcn ⟨hne, hsp⟩)

theorem attrLoop_adv (name : List Char) (ml : Nat) :
    ∀ (k : Nat) (p out : List Char), Adv p (attrLoop name ml k p out).1
  | 0, p, out => Adv.refl p
  | k + 1, p, out => by
    simp only [attrLoop]
    split
    · exact (attrBody_adv name ml p out).trans (attrLoop_adv name ml k _ _)
    · exact Adv.refl p

theorem attrLoop_end (name : List Char) (ml : Nat) :
    ∀ (k : Nat) (p out : List Char), p.length < k →
      inTagChar (deref (attrLoop name ml k p out).1) = false
  | 0, p, out, h => absurd h (Nat.not_lt_zero _)
  | k + 1, p, out, h => by
    simp only [attrLoop]
    split
    · rename_i hc
      have := attrBody_length_lt name ml p out hc
      exact attrLoop_end name ml k _ _ (by omega)
    · rename_i hc
      rw [← Bool.not_eq_true, inTagChar_deref_iff]
      exact hc

/-- The pointer `html_parse_attr` writes back is the first `>` or the end of the
text, whatever the attribute looked for. -/
theorem html_parse_attr_ptr (p name out : List Char) (ml : Nat) :
    (html_parse_attr p name out ml).1 = skipToGt p :=
  by
    rw [← (attrLoop_adv name ml (p.length + 1) p out).skipToGt_eq]
    exact (skipToGt_eq_self _
      (attrLoop_end name ml (p.length + 1) p out (Nat.lt_succ_self _))).symm

/-- At a `>` or at the end of the text `html_parse_attr` does nothing. -/
theorem html_parse_attr_at_end (p name out : List Char) (ml : Nat)
    (h : inTagChar (deref p) = false) : html_parse_attr p name out ml = (p, out) := by
  unfold html_parse_attr
  simp only [attrLoop]
  rw [if_neg]
  rw [← inTagChar_deref_iff, h]
  decide

/-! ### The main loop moves forward -/
theorem textLoop_suffix : ∀ (p text : List Char), (textLoop p text).2 <:+ p
  | [], text => by simp [textLoop]
  | c :: cs, text => by
    simp only [textLoop]
    split
    · split
      · split
        · exact (textLoop_suffix cs _).trans (List.suffix_cons c cs)
        · exact (textLoop_suffix cs _).trans (List.suffix_cons c cs)
      · exact (textLoop_suffix cs _).trans (List.suffix_cons c cs)
    · exact List.suffix_refl _

theorem skipGt_length_le (p : List Char) : (skipGt p).length ≤ p.length := by
  unfold skipGt
  split
  · simp
  · exact Nat.le_refl _

theorem skipToGt_length_le (p : List Char) : (skipToGt p).length ≤ p.length :=
  (List.dropWhile_suffix _).length_le

theorem copyWhile_snd_length_le (cond : Char → Bool) (n : Nat) (p : List Char) :
    (copyWhile cond n p).2.length ≤ p.length := by
  rw [copyWhile_snd]
  simp

theorem deref_ne_nul_cons {p : List Char} (h : deref p ≠ NUL) :
    ∃ c cs, p = c :: cs ∧ c ≠ NUL := by
  cases p with
  | nil => exact absurd rfl h
  | cons c cs => exact ⟨c, cs, rfl, h⟩

theorem deref_eq_lt {p : List Char} (h : deref p = '<') : ∃ q, p = '<' :: q := by
  cases p with
  | nil => exact absurd h (by decide)
  | cons c cs =>
    simp only [deref, List.headD_cons] at h
    exact ⟨cs, by rw [h]⟩

/-- The pointer after the branch "Opening tag" for a recognized tag. -/
theorem openTag_ptr (s : PState) (p0 : List Char) (tn : List Char × List Char) (tag_id : Nat)
    (s' : PState) (h : openTag s p0 tn tag_id = Step.next s') :
    s'.ptr = skipGt (skipToGt tn.2) := by
  unfold openTag at h
  split at h
  · exact absurd h (by simp)
  · simp only [Step.next.injEq] at h
    rw [← h]
    simp only [html_parse_attr_ptr]
    rw [skipToGt_eq_self (skipToGt (skipToGt tn.2)) (skipToGt_deref _),
      skipToGt_eq_self (skipToGt tn.2) (skipToGt_deref _)]

theorem textNode_ptr (s : PState) (p0 : List Char) (s' : PState)
    (h : textNode s p0 = Step.next s') : s'.ptr = (textLoop p0 []).2 := by
  simp only [textNode] at h
  by_cases ht : trimEnd (textLoop p0 []).1 ≠ []
  · rw [if_pos ht] at h
    cases ha : html_alloc_node s.pool with
    | none => rw [ha] at h; exact absurd h (by simp)
    | some x =>
      rw [ha] at h
      simp only [Step.next.injEq] at h
      rw [← h]
  · rw [if_neg ht] at h
    simp only [Step.next.injEq] at h
    rw [← h]

/-- Every iteration of the main loop moves the pointer forward. -/
theorem step_length_lt (s s' : PState) (hs : deref s.ptr ≠ NUL) (h : step s = Step.next s') :
    s'.ptr.length < s.ptr.length := by
  have hsuf : (s.ptr.dropWhile isWs).length ≤ s.ptr.length := (List.dropWhile_suffix _).length_le
  simp only [step] at h
  split at h
  · rename_i hlt
    obtain ⟨q, hq⟩ := deref_eq_lt hlt
    rw [hq] at h
    simp only [List.tail_cons] at h
    have hq' : q.length < s.ptr.length := by
      have := congrArg List.length hq
      simp only [List.length_cons] at this
      omega
    split at h
    · split at h
      · exact absurd h (by simp)
      · simp only [Step.next.injEq] at h
        rw [← h]
        simp only [List.length_drop]
        omega
    · split at h
      · simp only [Step.next.injEq] at h
        rw [← h]
        have := skipGt_length_le (skipToGt q.tail)
        have := skipToGt_length_le q.tail
        simp only [List.length_tail] at *
        omega
      · split at h
        · simp only [Step.next.injEq] at h
          rw [← h]
          have := skipGt_length_le (skipToGt (copyWhile tagNameChar 31 q).2)
          have := skipToGt_length_le (copyWhile tagNameChar 31 q).2
          have := copyWhile_snd_length_le tagNameChar 31 q
          simp only at *
          omega
        · rw [openTag_ptr _ _ _ _ _ h]
          have := skipGt_length_le (skipToGt (copyWhile tagNameChar 31 q).2)
          have := skipToGt_length_le (copyWhile tagNameChar 31 q).2
          have := copyWhile_snd_length_le tagNameChar 31 q
          simp only at *
          omega
  · rename_i hlt
    rw [textNode_ptr _ _ _ h]
    have hsuf2 := (textLoop_suffix (s.ptr.dropWhile isWs) []).length_le
    by_cases hd : (s.ptr.dropWhile isWs).length < s.ptr.length
    · omega
    · have heq : s.ptr.dropWhile isWs = s.ptr :=
        List.IsSuffix.eq_of_length (List.dropWhile_suffix _) (by omega)
      rw [heq] at hlt ⊢
      obtain ⟨c, cs, hp, hc⟩ := deref_ne_nul_cons hs
      rw [hp] at hlt ⊢
      simp only [deref, List.headD_cons] at hlt
      have : (textLoop (c :: cs) []).2 <:+ cs := by
        simp only [textLoop]
        rw [if_pos ⟨hc, hlt, by decide⟩]
        split
        · split
          · exact textLoop_suffix cs _
          · exact textLoop_suffix cs _
        · exact textLoop_suffix cs _
      have := this.length_le
      simp only [List.length_cons]
      omega

theorem run_fuel : ∀ (k k' : Nat) (s : PState), s.ptr.length < k → s.ptr.length < k' →
    run k s = run k' s
  | 0, _, s, h, _ => absurd h (Nat.not_lt_zero _)
  | _, 0, s, _, h => absurd h (Nat.not_lt_zero _)
  | k + 1, k' + 1, s, h, h' => by
    simp only [run]
    split
    · rfl
    · rename_i hs
      cases hst : step s with
      | next s' =>
        have := step_length_lt s s' hs hst
        exact run_fuel k k' s' (by omega) (by omega)
      | stop s' => rfl
      | fault => rfl

theorem run_succ_next (k : Nat) (s s' : PState) (hs : deref s.ptr ≠ NUL)
    (hst : step s = Step.next s') : run (k + 1) s = run k s' := by
  simp only [run, if_neg hs, hst]

theorem run_iter : ∀ (n k : Nat) (s s' : PState), iter n s = some s' → s.ptr.length < k →
    run k s = run (s'.ptr.length + 1) s'
  | 0, k, s, s', h, hk => by
    simp only [iter, Option.some.injEq] at h
    rw [← h]
    exact run_fuel _ _ _ hk (Nat.lt_succ_self _)
  | n + 1, 0, s, s', h, hk => absurd hk (Nat.not_lt_zero _)
  | n + 1, k + 1, s, s', h, hk => by
    simp only [iter] at h
    split at h
    · exact absurd h (by simp)
    · rename_i hs
      simp only [run, if_neg hs]
      cases hst : step s with
      | next s1 =>
        rw [hst] at h
        have := step_length_lt s s1 hs hst
        exact run_iter n k s1 s' h (by omega)
      | stop s1 => rw [hst] at h; exact absurd h (by simp)
      | fault => rw [hst] at h; exact absurd h (by simp)

theorem initState_ptr (pool : List HtmlNode) (html : List Char) :
    (initState pool html).ptr = html := by
  unfold initState
  split <;> rfl

theorem ws_ne_nul {c : Char} (h : isWs c = true) : c ≠ NUL := by
  intro hc
  rw [hc] at h
  revert h
  decide

theorem ws_deref (w : List Char) (hw : ∀ c ∈ w, isWs c = true) (q : List Char) :
    deref (w ++ '<' :: q) ≠ NUL := by
  cases w with
  | nil => simp only [List.nil_append, deref, List.headD_cons]; decide
  | cons c cs =>
    simp only [List.cons_append, deref, List.headD_cons]
    exact ws_ne_nul (hw c (List.mem_cons_self _ _))

/-- The parse of a text whose front part ends outside any tag: the iteration at
the byte `<` behind the front part decides the rest. -/
theorem html_parse_at_head (pool : List HtmlNode) (pre : List Char) (n : Nat) (s : PState)
    (h : AtHead pool pre n s) (r : List Char) (s' : PState)
    (hst : step { s with ptr := s.ptr ++ '<' :: r } = Step.next s') :
    html_parse pool (pre ++ '<' :: r) = (run (s'.ptr.length + 1) s').map (fun t => t.pool) := by
  unfold html_parse
  rw [run_iter n _ _ _ (h.2 r) (by rw [initState_ptr]; exact Nat.lt_succ_self _)]
  rw [run_succ_next _ _ s' (ws_deref s.ptr h.1 r) hst]
  have := step_length_lt _ _ (ws_deref s.ptr h.1 r) hst
  rw [run_fuel _ (s'.ptr.length + 1) s' (by simpa using this) (Nat.lt_succ_self _)]

/-! ### The branches at a closing tag and at a comment -/
theorem dropWhile_isWs_lt (w q : List Char) (hw : ∀ c ∈ w, isWs c = true) :
    (w ++ '<' :: q).dropWhile isWs = '<' :: q := by
  rw [List.dropWhile_append_of_pos hw]
  rfl

/-- An iteration of the main loop that finds the byte `<` behind white space. -/
theorem step_at_lt (s : PState) (w q : List Char) (hw : ∀ c ∈ w, isWs c = true)
    (hp : s.ptr = w ++ '<' :: q) :
    step s =
      if deref q = '!' ∧ deref q.tail = '-' ∧ deref q.tail.tail = '-' then
        match kstrstr q "-->".toList with
        | none => Step.fault
        | some k => Step.next { s with ptr := q.drop (k + 3) }
      else if deref q = '/' then
        Step.next { s with ptr := skipGt (skipToGt q.tail),
                           current := popCurrent s.pool s.current }
      else if html_match_tag ((copyWhile tagNameChar 31 q).1.map lowerChar) = 0 then
        Step.next { s with ptr := skipGt (skipToGt (copyWhile tagNameChar 31 q).2) }
      else openTag s ('<' :: q)
        ((copyWhile tagNameChar 31 q).1.map lowerChar, (copyWhile tagNameChar 31 q).2)
        (html_match_tag ((copyWhile tagNameChar 31 q).1.map lowerChar)) := by
  simp only [step, hp, dropWhile_isWs_lt w q hw]
  rw [if_pos (show deref ('<' :: q) = '<' from rfl)]
  rfl

theorem skipToGt_append_gt (n post : List Char) (hn : ∀ c ∈ n, inTagChar c = true) :
    skipToGt (n ++ '>' :: post) = '>' :: post := by
  unfold skipToGt
  rw [List.dropWhile_append_of_pos hn]
  rfl

theorem skipGt_gt (post : List Char) : skipGt ('>' :: post) = post := rfl

/-- The iteration at a closing tag: the tag is passed up to its `>`, the arena is
left as it is and the insertion point moves to its parent, whatever the name. -/
theorem step_close (s : PState) (w n post : List Char) (hw : ∀ c ∈ w, isWs c = true)
    (hn : ∀ c ∈ n, inTagChar c = true) (hp : s.ptr = w ++ '<' :: '/' :: n ++ '>' :: post) :
    step s = Step.next { s with ptr := post, current := popCurrent s.pool s.current } := by
  have hp' : s.ptr = w ++ '<' :: ('/' :: (n ++ '>' :: post)) := by
    rw [hp]; simp
  rw [step_at_lt s w _ hw hp']
  rw [if_neg (fun h => absurd (show '/' = '!' from h.1) (by decide)),
    if_pos (show deref ('/' :: (n ++ '>' :: post)) = '/' from rfl)]
  simp only [List.tail_cons, skipToGt_append_gt n post hn, skipGt_gt]

theorem infix_of_append_last (m : List Char) (x : Char) (a b : List Char) (hx : x ∉ b)
    (h : m ++ [x] <:+: a ++ b) : m ++ [x] <:+: a := by
  obtain ⟨s, t, hst⟩ := h
  -- the occurrence ends inside `a`
  by_cases hlen : (s ++ m).length < a.length
  · refine ⟨s, a.drop ((s ++ m).length + 1), ?_⟩
    have h1 : (s ++ (m ++ [x]) ++ t).take ((s ++ m).length + 1) = s ++ (m ++ [x]) := by
      have : (s ++ (m ++ [x])).length = (s ++ m).length + 1 := by simp; omega
      rw [← this, List.take_left']
      rfl
    have h2 : (a ++ b).take ((s ++ m).length + 1) = a.take ((s ++ m).length + 1) := by
      rw [List.take_append_of_le_length (by omega)]
    rw [hst, h2] at h1
    rw [← h1, List.take_append_drop]
  · exfalso
    apply hx
    have h1 : (s ++ (m ++ [x]) ++ t)[(s ++ m).length]? = some x := by
      have : s ++ (m ++ [x]) ++ t = (s ++ m) ++ x :: t := by simp
      rw [this, List.getElem?_append_right (Nat.le_refl _)]
      simp
    rw [hst, List.getElem?_append_right (by omega)] at h1
    exact List.mem_iff_getElem?.2 ⟨_, h1⟩

theorem no_early_occurrence (a nd rest : List Char) (hne : nd ≠ [])
    (h : ¬ nd <:+: a ++ nd.dropLast) :
    ∀ j, j < a.length → ¬ nd <+: (a ++ nd ++ rest).drop j := by
  intro j hj hpre
  apply h
  obtain ⟨t, ht⟩ := hpre
  have hlen : 0 < nd.length := List.length_pos.2 hne
  have e0 : nd.dropLast ++ nd.drop (nd.length - 1) = nd := by
    rw [List.dropLast_eq_take, List.take_append_drop]
  have e1 : a ++ nd ++ rest = (a ++ nd.dropLast) ++ (nd.drop (nd.length - 1) ++ rest) := by
    rw [List.append_assoc a, List.append_assoc a, ← List.append_assoc nd.dropLast, e0]
  have hl : (a ++ nd.dropLast).length = a.length + (nd.length - 1) := by
    simp [List.length_dropLast]
  generalize a ++ nd.dropLast = X at e1 hl ⊢
  have e2 : (X.drop j).take nd.length = nd := by
    have := congrArg (List.take nd.length) ht
    rw [List.take_left' rfl, e1, List.drop_append_of_le_length (by omega),
      List.take_append_of_le_length (by simp only [List.length_drop]; omega)] at this
    exact this.symm
  have e3 : X.take j ++ ((X.drop j).take nd.length ++ (X.drop j).drop nd.length) = X := by
    rw [List.take_append_drop, List.take_append_drop]
  rw [e2] at e3
  exact ⟨X.take j, (X.drop j).drop nd.length, by rw [List.append_assoc]; exact e3⟩

theorem comment_first (c post : List Char) (hc : NUL ∉ c)
    (h : ¬ "-->".toList <:+: "--".toList ++ c) :
    kstrstr ('!' :: '-' :: '-' :: (c ++ "-->".toList ++ post)) "-->".toList
      = some (c.length + 3) := by
  have e : '!' :: '-' :: '-' :: (c ++ "-->".toList ++ post)
      = ("!--".toList ++ c) ++ "-->".toList ++ post := by simp
  rw [e, kstrstr_first ("!--".toList ++ c) "-->".toList post (by decide) (by decide)]
  · simp
  · intro hm
    rcases List.mem_append.1 hm with h' | h'
    · revert h'; decide
    · exact hc h'
  · apply no_early_occurrence _ _ _ (by decide)
    intro hin
    apply h
    have hin' : ['-', '-'] ++ ['>'] <:+: ('!' :: ("--".toList ++ c)) ++ ['-', '-'] := by
      simpa using hin
    have h2 := infix_of_append_last _ _ _ _ (by decide) hin'
    rcases List.infix_cons_iff.1 h2 with h3 | h3
    · exfalso
      obtain ⟨t, ht⟩ := h3
      simp at ht
    · simpa using h3

/-- The iteration at a comment: parsing goes on behind the first `-->`, and the
arena and the insertion point are left as they are. -/
theorem step_comment (s : PState) (w c post : List Char) (hw : ∀ c ∈ w, isWs c = true)
    (hc : NUL ∉ c) (h : ¬ "-->".toList <:+: "--".toList ++ c)
    (hp : s.ptr = w ++ "<!--".toList ++ c ++ "-->".toList ++ post) :
    step s = Step.next { s with ptr := post } := by
  have hp' : s.ptr = w ++ '<' :: ('!' :: '-' :: '-' :: (c ++ "-->".toList ++ post)) := by
    rw [hp]; simp
  rw [step_at_lt s w _ hw hp']
  rw [if_pos ⟨rfl, rfl, rfl⟩, comment_first c post hc h]
  simp only [Step.next.injEq, PState.mk.injEq, true_and]
  have : '!' :: '-' :: '-' :: (c ++ "-->".toList ++ post)
      = ('!' :: '-' :: '-' :: c ++ "-->".toList) ++ post := by simp
  rw [this, List.drop_left']
  simp

/-! ### The arena and the branches that allocate a node -/
theorem setNode_length (f : HtmlNode → HtmlNode) :
    ∀ (l : List HtmlNode) (i : Nat), (setNode l i f).length = l.length
  | [], _ => rfl
  | _ :: _, 0 => rfl
  | _ :: ns, i + 1 => by simp [setNode, setNode_length f ns i]

theorem setNode_getElem? (f : HtmlNode → HtmlNode) :
    ∀ (l : List HtmlNode) (i j : Nat),
      (setNode l i f)[j]? = if j = i then l[j]?.map f else l[j]?
  | [], _, _ => by simp [setNode]
  | n :: ns, 0, 0 => by simp [setNode]
  | n :: ns, 0, j + 1 => by simp [setNode]
  | n :: ns, i + 1, 0 => by simp [setNode]
  | n :: ns, i + 1, j + 1 => by simp [setNode, setNode_getElem? f ns i j]

theorem setNode_append_last (f : HtmlNode → HtmlNode) (x : HtmlNode) :
    ∀ (l : List HtmlNode), setNode (l ++ [x]) l.length f = l ++ [f x]
  | [] => rfl
  | n :: ns => by simp [setNode, setNode_append_last f x ns]

theorem setNode_append_at (f : HtmlNode → HtmlNode) (x : HtmlNode) (l : List HtmlNode)
    (k : Nat) (hk : k = l.length) : setNode (l ++ [x]) k f = l ++ [f x] := by
  rw [hk]
  exact setNode_append_last f x l

theorem setNode_append_lt (f : HtmlNode → HtmlNode) (x : HtmlNode) :
    ∀ (l : List HtmlNode) (i : Nat), i < l.length →
      setNode (l ++ [x]) i f = setNode l i f ++ [x]
  | [], _, h => absurd h (Nat.not_lt_zero _)
  | _ :: _, 0, _ => rfl
  | n :: ns, i + 1, h => by
    simp only [List.cons_append, setNode, List.cons.injEq, true_and]
    exact setNode_append_lt f x ns i (by simpa using h)

theorem prevChar_append (a : List Char) (x : Char) (p : List Char) :
    prevChar (a ++ x :: p) p = x := by
  unfold prevChar
  have : (a ++ x :: p).length - p.length - 1 = a.length := by
    simp only [List.length_append, List.length_cons]; omega
  rw [this, List.drop_left]
  rfl

/-- The byte in front of the `>` of a tag `<body>`: the last byte of `body`, and
`<` when `body` is empty. -/
theorem prevChar_tag (body post : List Char) :
    prevChar ('<' :: body ++ '>' :: post) ('>' :: post) = (body.getLast?).getD '<' := by
  rcases List.eq_nil_or_concat body with h | ⟨b, x, h⟩
  · rw [h]
    exact prevChar_append [] '<' ('>' :: post)
  · rw [h, List.concat_eq_append]
    have : '<' :: (b ++ [x]) ++ '>' :: post = ('<' :: b) ++ x :: ('>' :: post) := by simp
    rw [this, prevChar_append]
    simp

/-- The branch "Opening tag" for a recognized tag while the arena has room: the
arena gets one more node, an element without children, which is appended to the
children of the insertion point when there are less than 32 of them. -/
theorem openTag_eq (s : PState) (p0 : List Char) (tn : List Char × List Char) (tag_id : Nat)
    (hfull : s.pool.length < MAX_NODES) (hcur : s.current < s.pool.length) :
    openTag s p0 tn tag_id = Step.next
      { pool := addChild s.pool s.current s.pool.length ++
          [{ blankNode with type := NODE_ELEMENT, tag := tag_id, text := cstr tn.1,
                            parent := some s.current,
                            href := (html_parse_attr tn.2 "href".toList [] 256).2 }],
        current := if prevChar p0 (skipToGt tn.2) = '/' ∨ tag_id = TAG_BR ∨ tag_id = TAG_HR ∨
            tag_id = TAG_IMG then s.current else s.pool.length,
        ptr := skipGt (skipToGt tn.2) } := by
  unfold openTag
  simp only [html_alloc_node, if_neg (Nat.not_le.2 hfull)]
  simp only [html_parse_attr_ptr]
  rw [skipToGt_eq_self (skipToGt (skipToGt tn.2)) (skipToGt_deref _),
    skipToGt_eq_self (skipToGt tn.2) (skipToGt_deref _),
    html_parse_attr_at_end (skipToGt tn.2) _ _ _ (skipToGt_deref _)]
  simp only [addChild, setNode_append_last, setNode_append_lt _ _ _ _ hcur]
  rw [setNode_append_at _ _ _ _ (setNode_length _ _ _).symm]
  rfl

/-- The branch "Text node" when the text is not empty and the arena has room. -/
theorem textNode_eq (s : PState) (p0 : List Char)
    (ht : trimEnd (textLoop p0 []).1 ≠ [])
    (hfull : s.pool.length < MAX_NODES) (hcur : s.current < s.pool.length) :
    textNode s p0 = Step.next
      { pool := addChild s.pool s.current s.pool.length ++
          [{ blankNode with type := NODE_TEXT, text := cstr (trimEnd (textLoop p0 []).1),
                            parent := some s.current }],
        current := s.current, ptr := (textLoop p0 []).2 } := by
  unfold textNode
  simp only [if_pos ht, html_alloc_node, if_neg (Nat.not_le.2 hfull)]
  simp only [addChild, setNode_append_last, setNode_append_lt _ _ _ _ hcur]
  rfl

/-- The iteration at an opening tag `<name attrs>` with a recognized name. -/
theorem step_open (s : PState) (w name attrs post : List Char)
    (hw : ∀ c ∈ w, isWs c = true)
    (hname : ∀ c ∈ name, c ≠ NUL ∧ tagNameChar c = true) (hlen : name.length ≤ 31)
    (hnc : ¬ "!--".toList <+: name)
    (hattrs : ∀ c ∈ attrs, inTagChar c = true)
    (hdelim : tagNameChar (deref (attrs ++ ['>'])) = false)
    (htag : html_match_tag (name.map lowerChar) ≠ 0)
    (hfull : s.pool.length < MAX_NODES) (hcur : s.current < s.pool.length)
    (hp : s.ptr = w ++ '<' :: name ++ attrs ++ '>' :: post) :
    step s = Step.next
      { pool := addChild s.pool s.current s.pool.length ++
          [{ blankNode with type := NODE_ELEMENT, tag := html_match_tag (name.map lowerChar),
                            text := cstr (name.map lowerChar),
                            parent := some s.current,
                            href := (html_parse_attr (attrs ++ '>' :: post) "href".toList [] 256).2 }],
        current := if (name ++ attrs).getLast? = some '/' ∨
            html_match_tag (name.map lowerChar) = TAG_BR ∨
            html_match_tag (name.map lowerChar) = TAG_HR ∨
            html_match_tag (name.map lowerChar) = TAG_IMG then s.current else s.pool.length,
        ptr := post } := by
  have hp' : s.ptr = w ++ '<' :: (name ++ (attrs ++ '>' :: post)) := by
    rw [hp]; simp
  have hd : deref (attrs ++ '>' :: post) = deref (attrs ++ ['>']) := by
    cases attrs <;> rfl
  have hcw : copyWhile tagNameChar 31 (name ++ (attrs ++ '>' :: post))
      = (name, attrs ++ '>' :: post) :=
    copyWhile_append tagNameChar 31 name _ hname hlen (Or.inr (Or.inr (Or.inr (by rw [hd]; exact hdelim))))
  have hne : name ≠ [] := by
    intro h
    rw [h] at htag
    exact htag (by decide)
  have hnot : ¬ (deref (name ++ (attrs ++ '>' :: post)) = '!' ∧
      deref (name ++ (attrs ++ '>' :: post)).tail = '-' ∧
      deref (name ++ (attrs ++ '>' :: post)).tail.tail = '-') := by
    have hdash : ¬ deref (attrs ++ '>' :: post) = '-' := by
      intro h'
      rw [hd] at h'
      rw [h'] at hdelim
      revert hdelim
      decide
    intro ⟨h1, h2, h3⟩
    match name, hne, hnc with
    | [_], _, _ => exact hdash h2
    | [_, _], _, _ => exact hdash h3
    | a :: b :: c :: l, _, hnc =>
      simp only [List.cons_append, deref, List.headD_cons, List.tail_cons] at h1 h2 h3
      apply hnc
      rw [h1, h2, h3]
      exact ⟨l, rfl⟩
  have hns : ¬ deref (name ++ (attrs ++ '>' :: post)) = '/' := by
    obtain ⟨c, cs, hc⟩ := List.exists_cons_of_ne_nil hne
    rw [hc]
    simp only [List.cons_append, deref, List.headD_cons]
    intro h'
    have := (hname c (by rw [hc]; exact List.mem_cons_self _ _)).2
    rw [h'] at this
    revert this
    decide
  rw [step_at_lt s w _ hw hp', if_neg hnot, if_neg hns, hcw, if_neg htag,
    openTag_eq s _ _ _ hfull hcur]
  simp only [skipToGt_append_gt attrs post hattrs, skipGt_gt]
  have hpc : prevChar ('<' :: (name ++ (attrs ++ '>' :: post))) ('>' :: post)
      = ((name ++ attrs).getLast?).getD '<' := by
    have := prevChar_tag (name ++ attrs) post
    simpa using this
  rw [hpc]
  have hiff : (((name ++ attrs).getLast?).getD '<' = '/') ↔ (name ++ attrs).getLast? = some '/' := by
    cases h : (name ++ attrs).getLast? with
    | none => simp
    | some x => simp
  simp only [hiff]

/-! ### The branches at an opening tag and at a text run -/
theorem textLoop_append (r : List Char) :
    ∀ (t acc : List Char), (∀ c ∈ t, c ≠ NUL ∧ c ≠ '<') → acc.length + t.length ≤ 255 →
      textLoop (t ++ '<' :: r) acc = ((textLoop t acc).1, '<' :: r)
  | [], acc, _, _ => by
    simp only [List.nil_append, textLoop]
    rw [if_neg (fun h => h.2.1 rfl)]
  | c :: t, acc, ht, hlen => by
    have hc := ht c (List.mem_cons_self _ _)
    have ht' : ∀ c ∈ t, c ≠ NUL ∧ c ≠ '<' := fun x hx => ht x (List.mem_cons_of_mem _ hx)
    simp only [List.length_cons] at hlen
    have hcond : c ≠ NUL ∧ c ≠ '<' ∧ acc.length < 255 := ⟨hc.1, hc.2, by omega⟩
    simp only [List.cons_append, textLoop]
    rw [if_pos hcond, if_pos hcond]
    split
    · split
      · exact textLoop_append r t _ ht' (by simp only [List.length_append, List.length_singleton]; omega)
      · exact textLoop_append r t _ ht' (by omega)
    · exact textLoop_append r t _ ht' (by simp only [List.length_append, List.length_singleton]; omega)

/-- The iteration at a text run `t` in front of a tag: one text node with the
text `t`, white space normalised and trimmed at the end, is appended to the
children of the insertion point, which stays where it is. -/
theorem step_text (s : PState) (w t r : List Char) (c : Char) (t' : List Char)
    (hw : ∀ c ∈ w, isWs c = true) (htc : t = c :: t') (hc : isWs c = false)
    (ht : ∀ c ∈ t, c ≠ NUL ∧ c ≠ '<') (hlen : t.length ≤ 255)
    (hne : trimEnd (textLoop t []).1 ≠ [])
    (hfull : s.pool.length < MAX_NODES) (hcur : s.current < s.pool.length)
    (hp : s.ptr = w ++ t ++ '<' :: r) :
    step s = Step.next
      { pool := addChild s.pool s.current s.pool.length ++
          [{ blankNode with type := NODE_TEXT, text := cstr (trimEnd (textLoop t []).1),
                            parent := some s.current }],
        current := s.current, ptr := '<' :: r } := by
  have hdw : s.ptr.dropWhile isWs = t ++ '<' :: r := by
    rw [hp, List.append_assoc, List.dropWhile_append_of_pos hw, htc, List.cons_append,
      List.dropWhile_cons, hc]
    rfl
  have hlt : ¬ deref (t ++ '<' :: r) = '<' := by
    rw [htc]
    exact (ht c (by rw [htc]; exact List.mem_cons_self _ _)).2
  have htl := textLoop_append r t [] ht (by simpa using hlen)
  simp only [step, hdw]
  rw [if_neg hlt, textNode_eq s _ (by rw [htl]; exact hne) hfull hcur, htl]

theorem iter_succ_last : ∀ (n : Nat) (s s1 s2 : PState), iter n s = some s1 →
    deref s1.ptr ≠ NUL → step s1 = Step.next s2 → iter (n + 1) s = some s2
  | 0, s, s1, s2, h, hd, hst => by
    simp only [iter, Option.some.injEq] at h
    subst h
    simp only [iter, if_neg hd, hst]
  | n + 1, s, s1, s2, h, hd, hst => by
    rw [iter] at h
    rw [iter]
    split at h
    · exact absurd h (by simp)
    · rename_i hs
      rw [if_neg hs]
      cases hs' : step s with
      | next s' =>
        rw [hs'] at h
        exact iter_succ_last n s' s1 s2 h hd hst
      | stop s' => rw [hs'] at h; exact absurd h (by simp)
      | fault => rw [hs'] at h; exact absurd h (by simp)

/-- The iteration at a recognized opening tag without attributes, `<name>`, on an
arena and an insertion point that are given. -/
theorem step_open_plain (pool : List HtmlNode) (cur : Nat) (w name post : List Char)
    (pool' : List HtmlNode) (cur' : Nat)
    (hw : ∀ c ∈ w, isWs c = true)
    (hname : ∀ c ∈ name, c ≠ NUL ∧ tagNameChar c = true) (hlen : name.length ≤ 31)
    (hnc : ¬ "!--".toList <+: name)
    (htag : html_match_tag (name.map lowerChar) ≠ 0)
    (hfull : pool.length < MAX_NODES) (hcur : cur < pool.length)
    (hpool : pool' = addChild pool cur pool.length ++
      [{ blankNode with type := NODE_ELEMENT, tag := html_match_tag (name.map lowerChar),
                        text := cstr (name.map lowerChar), parent := some cur }])
    (hcur' : cur' = if name.getLast? = some '/' ∨
        html_match_tag (name.map lowerChar) = TAG_BR ∨
        html_match_tag (name.map lowerChar) = TAG_HR ∨
        html_match_tag (name.map lowerChar) = TAG_IMG then cur else pool.length) :
    step ⟨pool, cur, w ++ '<' :: name ++ '>' :: post⟩ = Step.next ⟨pool', cur', post⟩ := by
  have h := step_open ⟨pool, cur, w ++ '<' :: name ++ '>' :: post⟩ w name [] post hw hname hlen
    hnc (by simp) (by decide) htag hfull hcur (by simp)
  rw [h, hpool, hcur']
  simp only [List.nil_append, List.append_nil,
    html_parse_attr_at_end ('>' :: post) _ _ _ (show inTagChar '>' = false by decide)]
  rfl

/-- The iteration at a text run in front of a tag, on an arena and an insertion
point that are given. -/
theorem step_text_at (pool : List HtmlNode) (cur : Nat) (w t r : List Char) (c : Char)
    (t' : List Char) (pool' : List HtmlNode)
    (hw : ∀ c ∈ w, isWs c = true) (htc : t = c :: t') (hc : isWs c = false)
    (ht : ∀ c ∈ t, c ≠ NUL ∧ c ≠ '<') (hlen : t.length ≤ 255)
    (hne : trimEnd (textLoop t []).1 ≠ [])
    (hfull : pool.length < MAX_NODES) (hcur : cur < pool.length)
    (hpool : pool' = addChild pool cur pool.length ++
      [{ blankNode with type := NODE_TEXT, text := cstr (trimEnd (textLoop t []).1),
                        parent := some cur }]) :
    step ⟨pool, cur, w ++ t ++ '<' :: r⟩ = Step.next ⟨pool', cur, '<' :: r⟩ := by
  rw [step_text ⟨pool, cur, w ++ t ++ '<' :: r⟩ w t r c t' hw htc hc ht hlen hne hfull hcur rfl,
    hpool]

theorem atHead_div_p_a : AtHead [] "<div><p>a".toList 3
    ⟨(html_parse [] "<div><p>a".toList).getD [], 2, []⟩ := by
  refine ⟨by decide, fun r => ?_⟩
  have h1 := step_open_plain ((html_parse [] []).getD []) 0 []
    "div".toList ("<p>a".toList ++ '<' :: r) ((html_parse [] "<div>".toList).getD []) 1
    (by decide) (by decide) (by decide) (by decide) (by decide) (by decide) (by decide)
    (by decide) (by decide)
  have h2 := step_open_plain ((html_parse [] "<div>".toList).getD []) 1 [] "p".toList
    ("a".toList ++ '<' :: r) ((html_parse [] "<div><p>".toList).getD []) 2
    (by decide) (by decide) (by decide) (by decide) (by decide) (by decide) (by decide)
    (by decide) (by decide)
  have h3 := step_text_at ((html_parse [] "<div><p>".toList).getD []) 2 [] "a".toList r 'a' []
    ((html_parse [] "<div><p>a".toList).getD []) (by decide) rfl
    (by decide) (by decide) (by decide) (by decide) (by decide) (by decide) (by decide)
  exact iter_succ_last 2 _ _ _ (iter_succ_last 1 _ _ _ (iter_succ_last 0 _ _ _ rfl
    (fun h => absurd (show '<' = NUL from h) (by decide)) h1)
    (fun h => absurd (show '<' = NUL from h) (by decide)) h2)
    (fun h => absurd (show 'a' = NUL from h) (by decide)) h3

/-! ### Comments -/
theorem popCurrent_parent (pool : List HtmlNode) (cur q : Nat)
    (h : (pool[cur]?).bind (fun n => n.parent) = some q) : popCurrent pool cur = q := by
  unfold popCurrent
  cases hn : pool[cur]? with
  | none => rw [hn] at h; exact absurd h (by simp)
  | some n =>
    rw [hn] at h
    simp only [Option.some_bind] at h
    simp only [h]

theorem popCurrent_none (pool : List HtmlNode) (cur : Nat)
    (h : (pool[cur]?).bind (fun n => n.parent) = none) : popCurrent pool cur = cur := by
  unfold popCurrent
  cases hn : pool[cur]? with
  | none => rfl
  | some n =>
    rw [hn] at h
    simp only [Option.some_bind] at h
    simp only [h]

/-- C20. Comment content is discarded.  For every text `pre` that ends outside
any tag and comment and every comment body `c` such that `"--" ++ c` does not
contain `-->`, the text `pre ++ "<!--" ++ c ++ "-->" ++ post` parses to the same
tree as the text with the empty comment body, whatever `c` holds; the iteration
at the comment leaves the arena and the insertion point as they are and goes on
at `post`, right behind the first `-->`. -/
theorem comment_discarded (pool : List HtmlNode) (pre : List Char) (n : Nat) (s : PState)
    (c post : List Char) (hpre : AtHead pool pre n s) (hc : NUL ∉ c)
    (h : ¬ "-->".toList <:+: "--".toList ++ c) :
    html_parse pool (pre ++ "<!--".toList ++ c ++ "-->".toList ++ post)
      = html_parse pool (pre ++ "<!--".toList ++ [] ++ "-->".toList ++ post) ∧
    step { s with ptr := s.ptr ++ "<!--".toList ++ c ++ "-->".toList ++ post }
      = Step.next { s with ptr := post } := by
  have key : ∀ (m : List Char), NUL ∉ m → ¬ "-->".toList <:+: "--".toList ++ m →
      step { s with ptr := s.ptr ++ '<' :: ("!--".toList ++ m ++ "-->".toList ++ post) }
        = Step.next { s with ptr := post } := by
    intro m hm hm'
    exact step_comment _ s.ptr m post hpre.1 hm hm' (by simp)
  have e : ∀ (m : List Char), pre ++ "<!--".toList ++ m ++ "-->".toList ++ post
      = pre ++ '<' :: ("!--".toList ++ m ++ "-->".toList ++ post) := by
    intro m; simp
  refine ⟨?_, ?_⟩
  · rw [e c, e [], html_parse_at_head pool pre n s hpre _ _ (key c hc h),
      html_parse_at_head pool pre n s hpre _ _ (key [] (by simp) (by decide))]
  · have e' : s.ptr ++ "<!--".toList ++ c ++ "-->".toList ++ post
        = s.ptr ++ '<' :: ("!--".toList ++ c ++ "-->".toList ++ post) := by simp
    rw [e']
    exact key c hc h

theorem comment_discarded_witness :
    html_parse [] ("<div><p>a".toList ++ "<!--".toList ++ " <b>x</b> -- > <".toList
        ++ "-->".toList ++ "b</div>".toList)
      = html_parse [] ("<div><p>a".toList ++ "<!--".toList ++ [] ++ "-->".toList
        ++ "b</div>".toList) :=
  (comment_discarded [] "<div><p>a".toList 3 _ " <b>x</b> -- > <".toList "b</div>".toList
    atHead_div_p_a (by decide) (by decide)).1

/-! ### The branch at a tag that is not recognized -/
theorem html_match_tag_long (x : List Char) (hx : NUL ∉ x) (hl : 6 < x.length) :
    html_match_tag x = 0 := by
  have hk : ∀ lit : List Char, NUL ∉ lit → lit.length ≤ 6 → ¬ kstrcmp x lit = 0 := by
    intro lit h1 h2 h
    have := kstrcmp_eq_zero x lit hx h1 h
    rw [this] at hl
    omega
  unfold html_match_tag
  rw [if_neg (hk _ (by decide) (by decide)), if_neg (hk _ (by decide) (by decide)),
    if_neg (hk _ (by decide) (by decide)), if_neg (hk _ (by decide) (by decide)),
    if_neg (hk _ (by decide) (by decide)), if_neg (hk _ (by decide) (by decide)),
    if_neg (hk _ (by decide) (by decide)), if_neg (hk _ (by decide) (by decide)),
    if_neg (hk _ (by decide) (by decide)), if_neg (hk _ (by decide) (by decide)),
    if_neg (hk _ (by decide) (by decide)), if_neg (hk _ (by decide) (by decide)),
    if_neg (hk _ (by decide) (by decide)), if_neg (hk _ (by decide) (by decide)),
    if_neg (hk _ (by decide) (by decide)), if_neg (hk _ (by decide) (by decide)),
    if_neg (not_or.2 ⟨hk _ (by decide) (by decide), hk _ (by decide) (by decide)⟩),
    if_neg (not_or.2 ⟨hk _ (by decide) (by decide), hk _ (by decide) (by decide)⟩),
    if_neg (hk _ (by decide) (by decide)), if_neg (hk _ (by decide) (by decide))]

theorem toNat_ofNat_small (n : Nat) (h : n < 0xD800) : (Char.ofNat n).toNat = n := by
  simp [Char.ofNat, Char.toNat, Nat.isValidChar, h, Char.ofNatAux]
  rfl

/-- The lower-case letter of a capital letter is its code plus 32. -/
theorem lowerChar_toNat (c : Char) : (lowerChar c).toNat =
    if 'A'.toNat ≤ c.toNat ∧ c.toNat ≤ 'Z'.toNat then c.toNat + 32 else c.toNat := by
  unfold lowerChar
  split
  · rename_i hc
    have : 'Z'.toNat = 90 := by decide
    exact toNat_ofNat_small _ (by omega)
  · rfl

theorem lowerChar_ne_nul {c : Char} (h : c ≠ NUL) : lowerChar c ≠ NUL := by
  intro h'
  have h1 := congrArg Char.toNat h'
  rw [lowerChar_toNat] at h1
  have h0 : NUL.toNat = 0 := by decide
  have hA : 'A'.toNat = 65 := by decide
  split at h1
  · omega
  · exact h (toNat_inj (by rw [h1]))

/-- The tag name that the main loop reads from `name ++ rest` when `name` is made
of name bytes and `rest` starts with a byte that ends a name: the first 31 bytes
of `name`; the pointer is behind them. -/
theorem tagName_read (name rest : List Char)
    (hname : ∀ c ∈ name, c ≠ NUL ∧ tagNameChar c = true)
    (hdelim : tagNameChar (deref rest) = false) :
    copyWhile tagNameChar 31 (name ++ rest) = (name.take 31, name.drop 31 ++ rest) := by
  by_cases hl : name.length ≤ 31
  · rw [List.take_of_length_le hl, List.drop_of_length_le hl, List.nil_append]
    exact copyWhile_append tagNameChar 31 name rest hname hl (Or.inr (Or.inr (Or.inr hdelim)))
  · have := copyWhile_append tagNameChar 31 (name.take 31) (name.drop 31 ++ rest)
      (fun c hc => hname c (List.mem_of_mem_take hc))
      (by simp) (Or.inl (by simp; omega))
    rw [← List.append_assoc, List.take_append_drop] at this
    exact this

/-- The iteration at an opening tag whose name is not recognized: the tag is
passed up to its `>`; the arena and the insertion point are left as they are. -/
theorem step_unknown (s : PState) (w name attrs post : List Char)
    (hw : ∀ c ∈ w, isWs c = true)
    (hname : ∀ c ∈ name, c ≠ NUL ∧ tagNameChar c = true)
    (hne : name ≠ []) (hnc : ¬ "!--".toList <+: name)
    (hattrs : ∀ c ∈ attrs, inTagChar c = true)
    (hdelim : tagNameChar (deref (attrs ++ ['>'])) = false)
    (htag : html_match_tag (name.map lowerChar) = 0)
    (hp : s.ptr = w ++ '<' :: name ++ attrs ++ '>' :: post) :
    step s = Step.next { s with ptr := post } := by
  have hp' : s.ptr = w ++ '<' :: (name ++ (attrs ++ '>' :: post)) := by
    rw [hp]; simp
  have hd : deref (attrs ++ '>' :: post) = deref (attrs ++ ['>']) := by
    cases attrs <;> rfl
  have hcw := tagName_read name (attrs ++ '>' :: post) hname (by rw [hd]; exact hdelim)
  have hdash : ¬ deref (attrs ++ '>' :: post) = '-' := by
    intro h'
    rw [hd] at h'
    rw [h'] at hdelim
    revert hdelim
    decide
  have hnot : ¬ (deref (name ++ (attrs ++ '>' :: post)) = '!' ∧
      deref (name ++ (attrs ++ '>' :: post)).tail = '-' ∧
      deref (name ++ (attrs ++ '>' :: post)).tail.tail = '-') := by
    intro ⟨h1, h2, h3⟩
    match name, hne, hnc with
    | [_], _, _ => exact hdash h2
    | [_, _], _, _ => exact hdash h3
    | a :: b :: c :: l, _, hnc =>
      simp only [List.cons_append, deref, List.headD_cons, List.tail_cons] at h1 h2 h3
      apply hnc
      rw [h1, h2, h3]
      exact ⟨l, rfl⟩
  have hns : ¬ deref (name ++ (attrs ++ '>' :: post)) = '/' := by
    cases hn : name with
    | nil => exact absurd hn hne
    | cons c cs =>
      simp only [List.cons_append, deref, List.headD_cons]
      intro h'
      have := (hname c (by rw [hn]; exact List.mem_cons_self _ _)).2
      rw [h'] at this
      revert this
      decide
  have htag' : html_match_tag ((name.take 31).map lowerChar) = 0 := by
    by_cases hl : name.length ≤ 31
    · rw [List.take_of_length_le hl]; exact htag
    · apply html_match_tag_long
      · intro hm
        obtain ⟨c, hc, hc'⟩ := List.mem_map.1 hm
        exact lowerChar_ne_nul (hname c (List.mem_of_mem_take hc)).1 hc'
      · simp; omega
  rw [step_at_lt s w _ hw hp', if_neg hnot, if_neg hns, hcw, if_pos htag']
  have hsk : skipToGt (name.drop 31 ++ (attrs ++ '>' :: post)) = '>' :: post := by
    rw [← List.append_assoc]
    apply skipToGt_append_gt
    intro c hc
    rcases List.mem_append.1 hc with h | h
    · have := hname c (List.mem_of_mem_drop h)
      simp only [inTagChar, Bool.and_eq_true, bne_iff_ne, ne_eq]
      refine ⟨this.1, ?_⟩
      intro h'
      have h2 := this.2
      rw [h'] at h2
      revert h2
      decide
    · exact hattrs c h
  simp only [hsk, skipGt_gt]

/-- C17. A tag that is not recognized creates no node.  For every name made of
name bytes that does not open a comment and is, lower-cased, none of the
recognized names, and every attribute text without `>`, the iteration at
`<name attrs>` leaves the arena and the insertion point as they are and goes on
behind the `>`; a text run `t` that follows the tag becomes, in the next
iteration, a text node whose parent is that insertion point and which is
appended to its children.  The text `<foo bar="1">text</foo>` parses to the root
with one child, the text node `text`, and rendering the root prints exactly the
characters of `text`. -/
theorem unknown_tag_no_node (s : PState) (w name attrs t r : List Char) (c : Char)
    (t' : List Char)
    (hw : ∀ c ∈ w, isWs c = true)
    (hname : ∀ c ∈ name, c ≠ NUL ∧ tagNameChar c = true)
    (hne : name ≠ []) (hnc : ¬ "!--".toList <+: name)
    (hattrs : ∀ c ∈ attrs, inTagChar c = true)
    (hdelim : tagNameChar (deref (attrs ++ ['>'])) = false)
    (htag : html_match_tag (name.map lowerChar) = 0)
    (htc : t = c :: t') (hc : isWs c = false)
    (ht : ∀ c ∈ t, c ≠ NUL ∧ c ≠ '<') (hlen : t.length ≤ 255)
    (htrim : trimEnd (textLoop t []).1 ≠ [])
    (hfull : s.pool.length < MAX_NODES) (hcur : s.current < s.pool.length)
    (hp : s.ptr = w ++ '<' :: name ++ attrs ++ '>' :: (t ++ '<' :: r)) :
    step s = Step.next { s with ptr := t ++ '<' :: r } ∧
    iter 2 s = some
      { pool := addChild s.pool s.current s.pool.length ++
          [{ blankNode with type := NODE_TEXT, text := cstr (trimEnd (textLoop t []).1),
                            parent := some s.current }],
        current := s.current, ptr := '<' :: r } ∧
    html_parse [] ("<foo bar=".toList ++ DQ :: '1' :: DQ :: ">text</foo>".toList)
      = some [{ blankNode with type := NODE_ELEMENT, tag := TAG_HTML, children := [1] },
              { blankNode with type := NODE_TEXT, text := "text".toList, parent := some 0 }] ∧
    ((html_parse [] ("<foo bar=".toList ++ DQ :: '1' :: DQ :: ">text</foo>".toList)).bind
        (fun a => render_node a.length a 0 freshRenderer)).map (fun e => emitted e.log)
      = some "text".toList := by
  have h1 := step_unknown s w name attrs (t ++ '<' :: r) hw hname hne hnc hattrs hdelim htag hp
  have h2 := step_text { s with ptr := t ++ '<' :: r } [] t r c t' (by simp) htc hc ht hlen
    htrim hfull hcur (by simp)
  have hd1 : deref s.ptr ≠ NUL := by
    have : s.ptr = w ++ '<' :: (name ++ attrs ++ '>' :: (t ++ '<' :: r)) := by rw [hp]; simp
    rw [this]
    exact ws_deref w hw _
  have hd2 : deref (t ++ '<' :: r) ≠ NUL := by
    rw [htc]
    exact (ht c (by rw [htc]; exact List.mem_cons_self _ _)).1
  exact ⟨h1, iter_succ_last 1 _ _ _ (iter_succ_last 0 _ _ _ rfl hd1 h1) hd2 h2,
    by decide, by decide⟩

theorem unknown_tag_no_node_witness :
    step ⟨(html_parse [] "<div>".toList).getD [], 1,
        " <foo bar=".toList ++ DQ :: '1' :: DQ :: ">text</foo>".toList⟩
      = Step.next ⟨(html_parse [] "<div>".toList).getD [], 1, "text</foo>".toList⟩ :=
  (unknown_tag_no_node ⟨(html_parse [] "<div>".toList).getD [], 1,
      " <foo bar=".toList ++ DQ :: '1' :: DQ :: ">text</foo>".toList⟩ " ".toList "foo".toList
    (" bar=".toList ++ [DQ, '1', DQ]) "text".toList "/foo>".toList 't' "ext".toList
    (by decide) (by decide) (by decide) (by decide) (by decide) (by decide) (by decide)
    rfl (by decide) (by decide) (by decide) (by decide) (by decide) (by decide) (by decide)).1

/-! ### Tag names that differ in case -/
theorem lowerChar_eq_low {a d : Char} (hd : d.toNat < 97) (h : lowerChar a = d) : a = d := by
  have h1 := congrArg Char.toNat h
  rw [lowerChar_toNat] at h1
  have hA : 'A'.toNat = 65 := by decide
  split at h1
  · omega
  · exact toNat_inj h1

theorem lowerChar_low {d : Char} (hd : d.toNat < 65) : lowerChar d = d := by
  unfold lowerChar
  have hA : 'A'.toNat = 65 := by decide
  rw [if_neg (by omega)]

/-- Two bytes with the same lower-case form are both name bytes or both not. -/
theorem nameChar_of_lower_eq {a b : Char} (h : lowerChar a = lowerChar b)
    (hb : b ≠ NUL ∧ tagNameChar b = true) : a ≠ NUL ∧ tagNameChar a = true := by
  have key : ∀ x : Char, x.toNat < 65 → a = x → b = x := by
    intro x hx hax
    rw [hax, lowerChar_low hx] at h
    exact lowerChar_eq_low (by omega) h.symm
  refine ⟨fun h0 => hb.1 (key NUL (by decide) h0), ?_⟩
  simp only [tagNameChar, Bool.and_eq_true, bne_iff_ne, ne_eq] at hb ⊢
  exact ⟨⟨fun h0 => hb.2.1.1 (key ' ' (by decide) h0), fun h0 => hb.2.1.2 (key '>' (by decide) h0)⟩,
    fun h0 => hb.2.2 (key '/' (by decide) h0)⟩

theorem nameChars_of_map_eq : ∀ (n1 n2 : List Char), n2.map lowerChar = n1.map lowerChar →
    (∀ c ∈ n1, c ≠ NUL ∧ tagNameChar c = true) → ∀ c ∈ n2, c ≠ NUL ∧ tagNameChar c = true
  | [], [], _, _ => by simp
  | [], _ :: _, h, _ => by simp at h
  | _ :: _, [], h, _ => by simp at h
  | b :: n1, a :: n2, h, hn => by
    simp only [List.map_cons, List.cons.injEq] at h
    intro c hc
    rcases List.mem_cons.1 hc with hc | hc
    · rw [hc]
      exact nameChar_of_lower_eq h.1 (hn b (List.mem_cons_self _ _))
    · exact nameChars_of_map_eq n1 n2 h.2 (fun x hx => hn x (List.mem_cons_of_mem _ hx)) c hc

theorem comment_of_map_eq (n1 n2 : List Char) (h : n2.map lowerChar = n1.map lowerChar)
    (hc : "!--".toList <+: n2) : "!--".toList <+: n1 := by
  obtain ⟨t, ht⟩ := hc
  rw [← ht] at h
  match n1, h with
  | [], h => simp at h
  | [_], h => simp at h
  | [_, _], h => simp at h
  | a :: b :: c :: l, h =>
    simp only [String.toList, List.cons_append, List.map_cons, List.cons.injEq] at h
    have ha := lowerChar_eq_low (d := lowerChar '!') (by decide) h.1.symm
    have hb := lowerChar_eq_low (d := lowerChar '-') (by decide) h.2.1.symm
    have hc := lowerChar_eq_low (d := lowerChar '-') (by decide) h.2.2.1.symm
    rw [ha, hb, hc]
    exact ⟨l, rfl⟩

/-- The byte in front of the pointer at the end of a tag is `/` for the same
pointers whatever the name of the tag is, as a name holds no `/`. -/
theorem prevChar_name (n rest p4 : List Char) (hsuf : p4 <:+ rest)
    (hn : ∀ c ∈ n, c ≠ NUL ∧ tagNameChar c = true) :
    prevChar ('<' :: n ++ rest) p4 = '/' ↔
      (p4.length < rest.length ∧ deref (rest.drop (rest.length - p4.length - 1)) = '/') := by
  have hle := hsuf.length_le
  unfold prevChar
  by_cases hlt : p4.length < rest.length
  · have e : ('<' :: n ++ rest).length - p4.length - 1
        = ('<' :: n).length + (rest.length - p4.length - 1) := by
      simp only [List.length_append, List.length_cons]; omega
    rw [e, List.drop_append]
    simp [hlt]
  · have e : ('<' :: n ++ rest).length - p4.length - 1 = n.length := by
      simp only [List.length_append, List.length_cons]; omega
    rw [e]
    constructor
    · intro h
      exfalso
      rcases List.eq_nil_or_concat n with h0 | ⟨b, x, h0⟩
      · rw [h0] at h
        revert h
        simp [deref]
      · rw [h0, List.concat_eq_append] at h
        have e2 : '<' :: (b ++ [x]) ++ rest = ('<' :: b) ++ x :: rest := by simp
        have e3 : (b ++ [x]).length = ('<' :: b).length := by simp
        rw [e2, e3, List.drop_left] at h
        simp only [deref, List.headD_cons] at h
        have := (hn x (by rw [h0, List.concat_eq_append]; simp)).2
        rw [h] at this
        revert this
        decide
    · intro h
      exact absurd h.1 hlt

theorem openTag_congr (s1 s2 : PState) (p0 p0' : List Char) (tn : List Char × List Char)
    (tag_id : Nat) (hpool : s1.pool = s2.pool) (hcur : s1.current = s2.current)
    (hprev : prevChar p0 (skipToGt tn.2) = '/' ↔ prevChar p0' (skipToGt tn.2) = '/') :
    (∃ s', openTag s1 p0 tn tag_id = Step.next s' ∧ openTag s2 p0' tn tag_id = Step.next s') ∨
    (openTag s1 p0 tn tag_id = Step.stop s1 ∧ openTag s2 p0' tn tag_id = Step.stop s2) := by
  unfold openTag
  rw [← hpool, ← hcur]
  cases ha : html_alloc_node s1.pool with
  | none => right; exact ⟨rfl, rfl⟩
  | some x =>
    left
    simp only [html_parse_attr_ptr]
    rw [skipToGt_eq_self (skipToGt (skipToGt tn.2)) (skipToGt_deref _),
      skipToGt_eq_self (skipToGt tn.2) (skipToGt_deref _)]
    simp only [propext hprev]
    exact ⟨_, rfl, rfl⟩

/-- The parse of two texts with a common front part that ends outside any tag,
when the iterations at the byte `<` behind it end alike. -/
theorem html_parse_at_head_congr (pool : List HtmlNode) (pre : List Char) (n : Nat)
    (s : PState) (h : AtHead pool pre n s) (r1 r2 : List Char)
    (hst : (∃ s', step { s with ptr := s.ptr ++ '<' :: r1 } = Step.next s' ∧
              step { s with ptr := s.ptr ++ '<' :: r2 } = Step.next s') ∨
           (∃ a b, step { s with ptr := s.ptr ++ '<' :: r1 } = Step.stop a ∧
              step { s with ptr := s.ptr ++ '<' :: r2 } = Step.stop b ∧ a.pool = b.pool) ∨
           (step { s with ptr := s.ptr ++ '<' :: r1 } = Step.fault ∧
              step { s with ptr := s.ptr ++ '<' :: r2 } = Step.fault)) :
    html_parse pool (pre ++ '<' :: r1) = html_parse pool (pre ++ '<' :: r2) := by
  rcases hst with ⟨s', h1, h2⟩ | ⟨a, b, h1, h2, hab⟩ | ⟨h1, h2⟩
  · rw [html_parse_at_head pool pre n s h r1 s' h1, html_parse_at_head pool pre n s h r2 s' h2]
  · unfold html_parse
    rw [run_iter n _ _ _ (h.2 r1) (by rw [initState_ptr]; exact Nat.lt_succ_self _),
      run_iter n _ _ _ (h.2 r2) (by rw [initState_ptr]; exact Nat.lt_succ_self _)]
    simp only [run, if_neg (ws_deref s.ptr h.1 r1), if_neg (ws_deref s.ptr h.1 r2), h1, h2,
      Option.map_some', hab]
  · unfold html_parse
    rw [run_iter n _ _ _ (h.2 r1) (by rw [initState_ptr]; exact Nat.lt_succ_self _),
      run_iter n _ _ _ (h.2 r2) (by rw [initState_ptr]; exact Nat.lt_succ_self _)]
    simp only [run, if_neg (ws_deref s.ptr h.1 r1), if_neg (ws_deref s.ptr h.1 r2), h1, h2]

theorem not_comment_of_name (name rest : List Char) (hne : name ≠ [])
    (hnc : ¬ "!--".toList <+: name) (hdelim : tagNameChar (deref rest) = false) :
    ¬ (deref (name ++ rest) = '!' ∧ deref (name ++ rest).tail = '-' ∧
      deref (name ++ rest).tail.tail = '-') := by
  have hdash : ¬ deref rest = '-' := by
    intro h'
    rw [h'] at hdelim
    revert hdelim
    decide
  intro ⟨h1, h2, h3⟩
  match name, hne, hnc with
  | [_], _, _ => exact hdash h2
  | [_, _], _, _ => exact hdash h3
  | a :: b :: c :: l, _, hnc =>
    simp only [List.cons_append, deref, List.headD_cons, List.tail_cons] at h1 h2 h3
    apply hnc
    rw [h1, h2, h3]
    exact ⟨l, rfl⟩

theorem not_slash_of_name (name rest : List Char) (hne : name ≠ [])
    (hname : ∀ c ∈ name, c ≠ NUL ∧ tagNameChar c = true) :
    ¬ deref (name ++ rest) = '/' := by
  cases hn : name with
  | nil => exact absurd hn hne
  | cons c cs =>
    simp only [List.cons_append, deref, List.headD_cons]
    intro h'
    have := (hname c (by rw [hn]; exact List.mem_cons_self _ _)).2
    rw [h'] at this
    revert this
    decide

/-- The iterations at two opening tags whose names have the same lower-case form
end alike. -/
theorem step_name_case (s : PState) (w n1 n2 rest : List Char)
    (hw : ∀ c ∈ w, isWs c = true)
    (hn1 : ∀ c ∈ n1, c ≠ NUL ∧ tagNameChar c = true) (hlen : n1.length ≤ 31)
    (hnc : ¬ "!--".toList <+: n1)
    (hmap : n2.map lowerChar = n1.map lowerChar)
    (hdelim : tagNameChar (deref rest) = false) :
    (∃ s', step { s with ptr := w ++ '<' :: (n1 ++ rest) } = Step.next s' ∧
        step { s with ptr := w ++ '<' :: (n2 ++ rest) } = Step.next s') ∨
    (∃ a b, step { s with ptr := w ++ '<' :: (n1 ++ rest) } = Step.stop a ∧
        step { s with ptr := w ++ '<' :: (n2 ++ rest) } = Step.stop b ∧ a.pool = b.pool) ∨
    (step { s with ptr := w ++ '<' :: (n1 ++ rest) } = Step.fault ∧
        step { s with ptr := w ++ '<' :: (n2 ++ rest) } = Step.fault) := by
  have hl : n2.length = n1.length := by
    have := congrArg List.length hmap
    simpa using this
  by_cases hne : n1 = []
  · have hne2 : n2 = [] := by
      apply List.eq_nil_of_length_eq_zero
      rw [hl, hne]; rfl
    rw [hne, hne2]
    cases hst : step { s with ptr := w ++ '<' :: ([] ++ rest) } with
    | next s' => exact Or.inl ⟨s', rfl, rfl⟩
    | stop a => exact Or.inr (Or.inl ⟨a, a, rfl, rfl, rfl⟩)
    | fault => exact Or.inr (Or.inr ⟨rfl, rfl⟩)
  · have hne2 : n2 ≠ [] := by
      intro h
      rw [h] at hl
      exact hne (List.eq_nil_of_length_eq_zero hl.symm)
    have hn2 := nameChars_of_map_eq n1 n2 hmap hn1
    have hnc2 : ¬ "!--".toList <+: n2 := fun h => hnc (comment_of_map_eq n1 n2 hmap h)
    rw [step_at_lt _ w (n1 ++ rest) hw rfl, step_at_lt _ w (n2 ++ rest) hw rfl,
      if_neg (not_comment_of_name n1 rest hne hnc hdelim),
      if_neg (not_comment_of_name n2 rest hne2 hnc2 hdelim),
      if_neg (not_slash_of_name n1 rest hne hn1), if_neg (not_slash_of_name n2 rest hne2 hn2),
      copyWhile_append tagNameChar 31 n1 rest hn1 hlen (Or.inr (Or.inr (Or.inr hdelim))),
      copyWhile_append tagNameChar 31 n2 rest hn2 (by omega) (Or.inr (Or.inr (Or.inr hdelim)))]
    simp only [hmap]
    by_cases htag : html_match_tag (n1.map lowerChar) = 0
    · rw [if_pos htag, if_pos htag]
      exact Or.inl ⟨_, rfl, rfl⟩
    · rw [if_neg htag, if_neg htag]
      have hsuf : skipToGt rest <:+ rest := List.dropWhile_suffix _
      rcases openTag_congr { s with ptr := w ++ '<' :: (n1 ++ rest) }
          { s with ptr := w ++ '<' :: (n2 ++ rest) } ('<' :: (n1 ++ rest)) ('<' :: (n2 ++ rest))
          (n1.map lowerChar, rest) (html_match_tag (n1.map lowerChar)) rfl rfl
          ((prevChar_name n1 rest _ hsuf hn1).trans (prevChar_name n2 rest _ hsuf hn2).symm)
        with ⟨s', h1, h2⟩ | ⟨h1, h2⟩
      · exact Or.inl ⟨s', h1, h2⟩
      · exact Or.inr (Or.inl ⟨_, _, h1, h2, rfl⟩)

/-- C18. Tag-name matching is case-insensitive.  For every text `pre` that ends
outside any tag and comment, and every two names `n1`, `n2` of an opening tag
with at most 31 bytes that have the same lower-case form, as they have when
letters of the one are replaced by their other case, the texts
`pre ++ "<" ++ n1 ++ rest` and `pre ++ "<" ++ n2 ++ rest` parse to the same tree:
the same tag kinds, the same lower-case names in the text fields, the same
attributes and structure.  The texts `<P>x</P>` and `<p>x</p>` parse to the same
tree, the name `STRONG` gets the tag kind of `b`, and its lower-case form is
what the text field of its node holds. -/
theorem tag_name_case_insensitive (pool : List HtmlNode) (pre : List Char) (n : Nat)
    (s : PState) (n1 n2 rest : List Char) (hpre : AtHead pool pre n s)
    (hn1 : ∀ c ∈ n1, c ≠ NUL ∧ tagNameChar c = true) (hlen : n1.length ≤ 31)
    (hnc : ¬ "!--".toList <+: n1)
    (hmap : n2.map lowerChar = n1.map lowerChar)
    (hdelim : tagNameChar (deref rest) = false) :
    html_parse pool (pre ++ "<".toList ++ n1 ++ rest)
      = html_parse pool (pre ++ "<".toList ++ n2 ++ rest) ∧
    html_parse [] "<P>x</P>".toList = html_parse [] "<p>x</p>".toList ∧
    html_match_tag ("STRONG".toList.map lowerChar) = html_match_tag "b".toList ∧
    html_match_tag "b".toList = TAG_B ∧
    (html_parse [] "<STRONG>x".toList).map (fun a => a[1]?.map (fun m => (m.tag, m.text)))
      = some (some (TAG_B, "strong".toList)) := by
  refine ⟨?_, by decide, by decide, by decide, by rfl⟩
  have e : ∀ m : List Char, pre ++ "<".toList ++ m ++ rest = pre ++ '<' :: (m ++ rest) := by
    intro m; simp
  rw [e n1, e n2]
  exact html_parse_at_head_congr pool pre n s hpre _ _
    (step_name_case s s.ptr n1 n2 rest hpre.1 hn1 hlen hnc hmap hdelim)

theorem tag_name_case_insensitive_witness :
    html_parse [] ("<div><p>a".toList ++ "<".toList ++ "STRONG".toList
        ++ " class=x>y</strong>".toList)
      = html_parse [] ("<div><p>a".toList ++ "<".toList ++ "strong".toList
        ++ " class=x>y</strong>".toList) :=
  (tag_name_case_insensitive [] "<div><p>a".toList 3 _ "STRONG".toList "strong".toList
    " class=x>y</strong>".toList atHead_div_p_a (by decide) (by decide) (by decide)
    (by decide) (by decide)).1

/-! ### The shape of an iteration -/

theorem step_stop_eq (s s' : PState) (h : step s = Step.stop s') : s' = s := by
  simp only [step] at h
  split at h
  · split at h
    · split at h <;> exact absurd h (by simp)
    · split at h
      · exact absurd h (by simp)
      · split at h
        · exact absurd h (by simp)
        · unfold openTag at h
          split at h
          · simp only [Step.stop.injEq] at h
            exact h.symm
          · exact absurd h (by simp)
  · simp only [textNode] at h
    split at h
    · split at h
      · simp only [Step.stop.injEq] at h
        exact h.symm
      · exact absurd h (by simp)
    · exact absurd h (by simp)

theorem alloc_some_room {pool : List HtmlNode} {x : Nat × List HtmlNode}
    (h : html_alloc_node pool = some x) : pool.length < MAX_NODES := by
  unfold html_alloc_node at h
  split at h
  · exact absurd h (by simp)
  · omega

theorem openTag_shape (s : PState) (p0 : List Char) (tn : List Char × List Char) (tag_id : Nat)
    (s' : PState) (hcur : s.current < s.pool.length)
    (h : openTag s p0 tn tag_id = Step.next s') : StepShape s s' := by
  have hroom : s.pool.length < MAX_NODES := by
    cases ha : html_alloc_node s.pool with
    | none =>
      unfold openTag at h
      rw [ha] at h
      exact absurd h (by simp)
    | some x => exact alloc_some_room ha
  rw [openTag_eq s p0 tn tag_id hroom hcur] at h
  simp only [Step.next.injEq] at h
  right
  refine ⟨_, by rw [← h], rfl, rfl, rfl, ?_⟩
  rw [← h]
  by_cases hsc : prevChar p0 (skipToGt tn.2) = '/' ∨ tag_id = TAG_BR ∨ tag_id = TAG_HR ∨
      tag_id = TAG_IMG
  · exact Or.inl (if_pos hsc)
  · have hsc' := hsc
    simp only [not_or] at hsc'
    exact Or.inr ⟨if_neg hsc, rfl, hsc'.2.1, hsc'.2.2.1, hsc'.2.2.2⟩

theorem textNode_shape (s : PState) (p0 : List Char) (s' : PState)
    (hcur : s.current < s.pool.length) (h : textNode s p0 = Step.next s') : StepShape s s' := by
  by_cases ht : trimEnd (textLoop p0 []).1 ≠ []
  · have hroom : s.pool.length < MAX_NODES := by
      cases ha : html_alloc_node s.pool with
      | none =>
        simp only [textNode, if_pos ht, ha] at h
        exact absurd h (by simp)
      | some x => exact alloc_some_room ha
    rw [textNode_eq s p0 ht hroom hcur] at h
    simp only [Step.next.injEq] at h
    right
    refine ⟨_, by rw [← h], rfl, rfl, rfl, ?_⟩
    rw [← h]
    exact Or.inl rfl
  · simp only [textNode, if_neg ht, Step.next.injEq] at h
    left
    rw [← h]
    exact ⟨rfl, Or.inl rfl⟩

/-- Every iteration of the main loop has the shape `StepShape`. -/
theorem step_shape (s s' : PState) (hcur : s.current < s.pool.length)
    (h : step s = Step.next s') : StepShape s s' := by
  simp only [step] at h
  split at h
  · split at h
    · split at h
      · exact absurd h (by simp)
      · simp only [Step.next.injEq] at h
        rw [← h]
        exact Or.inl ⟨rfl, Or.inl rfl⟩
    · split at h
      · simp only [Step.next.injEq] at h
        rw [← h]
        exact Or.inl ⟨rfl, Or.inr rfl⟩
      · split at h
        · simp only [Step.next.injEq] at h
          rw [← h]
          exact Or.inl ⟨rfl, Or.inl rfl⟩
        · exact openTag_shape s _ _ _ s' hcur h
  · exact textNode_shape s _ s' hcur h

/-! ### The invariant of the main loop -/

theorem core_addChild_fn (k : Nat) (m : HtmlNode) :
    core (if m.children.length < 32 then { m with children := m.children ++ [k] } else m)
      = core m := by
  split <;> rfl

/-- The nodes of the arena after a node has been added behind the nodes and
entered in the children of the insertion point. -/
theorem push_cases (pool : List HtmlNode) (cur : Nat) (new : HtmlNode) (i : Nat)
    (m' : HtmlNode) (h : (addChild pool cur pool.length ++ [new])[i]? = some m') :
    (i < pool.length ∧ ∃ m, pool[i]? = some m ∧ core m' = core m ∧ (i ≠ cur → m' = m)) ∨
    (i = pool.length ∧ m' = new) := by
  have hl : (addChild pool cur pool.length).length = pool.length := setNode_length _ _ _
  by_cases hi : i < pool.length
  · left
    rw [List.getElem?_append_left (by rw [hl]; exact hi)] at h
    unfold addChild at h
    rw [setNode_getElem?] at h
    refine ⟨hi, ?_⟩
    have hm : pool[i]? = some pool[i] := List.getElem?_eq_getElem hi
    refine ⟨pool[i], hm, ?_, ?_⟩
    · split at h
      · rw [hm] at h
        simp only [Option.map_some', Option.some.injEq] at h
        rw [← h]
        exact core_addChild_fn _ _
      · rw [hm] at h
        simp only [Option.some.injEq] at h
        rw [h]
    · intro hne
      rw [if_neg hne, hm] at h
      simp only [Option.some.injEq] at h
      exact h.symm
  · right
    rw [List.getElem?_append_right (by rw [hl]; omega), hl] at h
    by_cases hi' : i = pool.length
    · refine ⟨hi', ?_⟩
      rw [hi'] at h
      simpa using h.symm
    · have : i - pool.length ≠ 0 := by omega
      cases hd : i - pool.length with
      | zero => exact absurd hd this
      | succ d => rw [hd] at h; simp at h

theorem push_length (pool : List HtmlNode) (cur : Nat) (new : HtmlNode) :
    (addChild pool cur pool.length ++ [new]).length = pool.length + 1 := by
  simp [addChild, setNode_length]

theorem push_old (pool : List HtmlNode) (cur : Nat) (new : HtmlNode) (i : Nat)
    (hi : i < pool.length) :
    ((addChild pool cur pool.length ++ [new])[i]?).map core = (pool[i]?).map core := by
  have hlt : i < (addChild pool cur pool.length ++ [new]).length := by
    rw [push_length]; omega
  have hm := List.getElem?_eq_getElem hlt
  rcases push_cases pool cur new i _ hm with ⟨_, m, h1, h2, _⟩ | ⟨h1, _⟩
  · rw [hm, h1]
    simp [h2]
  · omega

theorem sealed_core (i0 : Option Nat) (i : Nat) (m m' : HtmlNode) (h : core m' = core m) :
    Sealed i0 i m' ↔ Sealed i0 i m := by
  have ht : m'.type = m.type := (congrArg HtmlNode.type h : (core m').type = (core m).type)
  have hg : m'.tag = m.tag := (congrArg HtmlNode.tag h : (core m').tag = (core m).tag)
  unfold Sealed
  rw [ht, hg]

theorem parent_core (m m' : HtmlNode) (h : core m' = core m) : m'.parent = m.parent :=
  (congrArg HtmlNode.parent h : (core m').parent = (core m).parent)

/-- The invariant of the main loop is kept by every iteration. -/
theorem inv_shape (i0 : Option Nat) (s s' : PState) (hinv : Inv i0 s) (h : StepShape s s') :
    Inv i0 s' := by
  obtain ⟨h0, h1, h2, h3, h4⟩ := hinv
  rcases h with ⟨hp, hc⟩ | ⟨new, hp, hpar, hch, _, hc⟩
  · -- the arena stays
    rcases hc with hc | hc
    · exact ⟨by rw [hp]; exact h0, by rw [hp, hc]; exact h1, by rw [hp]; exact h2,
        by rw [hp, hc]; exact h3, by rw [hp]; exact h4⟩
    · have hm : s.pool[s.current]? = some s.pool[s.current] := List.getElem?_eq_getElem h1
      have hpop : popCurrent s.pool s.current = s.current ∨
          s.pool[s.current].parent = some (popCurrent s.pool s.current) := by
        cases hq : s.pool[s.current].parent with
        | none => exact Or.inl (popCurrent_none _ _ (by rw [hm]; exact hq))
        | some q => exact Or.inr (by rw [popCurrent_parent _ _ q (by rw [hm]; exact hq)])
      rcases hpop with hpop | hpop
      · rw [hpop] at hc
        exact ⟨by rw [hp]; exact h0, by rw [hp, hc]; exact h1, by rw [hp]; exact h2,
          by rw [hp, hc]; exact h3, by rw [hp]; exact h4⟩
      · have := h2 _ _ hm _ hpop
        exact ⟨by rw [hp]; exact h0, by rw [hp, hc]; exact this.1, by rw [hp]; exact h2,
          by rw [hp, hc]; exact this.2, by rw [hp]; exact h4⟩
  · -- a node is added
    have hlen : s'.pool.length = s.pool.length + 1 := by rw [hp]; exact push_length _ _ _
    have hnew : ¬ Sealed i0 s.current new → True := fun _ => trivial
    have hold : ∀ (q : Nat) (mq' : HtmlNode), q < s.pool.length → s'.pool[q]? = some mq' →
        ∃ mq, s.pool[q]? = some mq ∧ core mq' = core mq ∧ (q ≠ s.current → mq' = mq) := by
      intro q mq' hq hmq
      rw [hp] at hmq
      rcases push_cases _ _ _ _ _ hmq with ⟨_, hh⟩ | ⟨hh, _⟩
      · exact hh
      · omega
    have hnotsealed : ∀ (q : Nat), q < s.pool.length →
        (∀ mq : HtmlNode, s.pool[q]? = some mq → ¬ Sealed i0 q mq) →
        ∀ mq' : HtmlNode, s'.pool[q]? = some mq' → ¬ Sealed i0 q mq' := by
      intro q hq hns mq' hmq'
      obtain ⟨mq, e1, e2, _⟩ := hold q mq' hq hmq'
      rw [sealed_core i0 q mq mq' e2]
      exact hns mq e1
    refine ⟨fun i hi => by rw [hlen]; exact Nat.lt_succ_of_lt (h0 i hi), ?_, ?_, ?_, ?_⟩
    · rcases hc with hc | ⟨hc, _⟩ <;> rw [hc, hlen] <;> omega
    · intro i m' hm' q hq
      rw [hp] at hm'
      rcases push_cases _ _ _ _ _ hm' with ⟨hi, m, e1, e2, _⟩ | ⟨hi, e⟩
      · rw [parent_core m m' e2] at hq
        have := h2 i m e1 q hq
        exact ⟨by rw [hlen]; omega, hnotsealed q this.1 this.2⟩
      · rw [e, hpar] at hq
        simp only [Option.some.injEq] at hq
        rw [← hq]
        exact ⟨by rw [hlen]; omega, hnotsealed s.current h1 h3⟩
    · rcases hc with hc | ⟨hc, ht, hb, hh, hi⟩
      · rw [hc]
        exact hnotsealed s.current h1 h3
      · rw [hc]
        intro m hm
        rw [hp] at hm
        rcases push_cases _ _ _ _ _ hm with ⟨hlt, _⟩ | ⟨_, e⟩
        · omega
        · rw [e]
          intro hs
          rcases hs with hs | hs | hs | hs | hs
          · have := h0 _ hs
            omega
          · rw [ht] at hs
            exact absurd hs (by decide)
          · exact hb hs
          · exact hh hs
          · exact hi hs
    · intro i m' hm' hs
      rw [hp] at hm'
      rcases push_cases _ _ _ _ _ hm' with ⟨hi, m, e1, e2, e3⟩ | ⟨hi, e⟩
      · by_cases hic : i = s.current
        · exfalso
          rw [sealed_core i0 i m m' e2, hic] at hs
          rw [hic] at e1
          exact h3 m e1 hs
        · rw [e3 hic]
          rw [e3 hic] at hs
          exact h4 i m e1 hs
      · rw [e]
        exact hch

theorem inv_step (i0 : Option Nat) (s s' : PState) (hinv : Inv i0 s)
    (h : step s = Step.next s') : Inv i0 s' :=
  inv_shape i0 s s' hinv (step_shape s s' hinv.2.1 h)

/-- A property of the arena and the insertion point that every iteration keeps
holds when the main loop has ended. -/
theorem run_keeps (P : PState → Prop) (hP : ∀ s s', P s → step s = Step.next s' → P s') :
    ∀ (k : Nat) (s sf : PState), P s → run k s = some sf → P sf
  | 0, s, sf, hs, h => by
    simp only [run, Option.some.injEq] at h
    rw [← h]; exact hs
  | k + 1, s, sf, hs, h => by
    simp only [run] at h
    split at h
    · simp only [Option.some.injEq] at h
      rw [← h]; exact hs
    · cases hst : step s with
      | next s' =>
        rw [hst] at h
        exact run_keeps P hP k s' sf (hP s s' hs hst) h
      | stop s' =>
        rw [hst] at h
        simp only [Option.some.injEq] at h
        rw [← h, step_stop_eq s s' hst]
        exact hs
      | fault => rw [hst] at h; exact absurd h (by simp)

theorem iter_keeps (P : PState → Prop) (hP : ∀ s s', P s → step s = Step.next s' → P s') :
    ∀ (n : Nat) (s sf : PState), P s → iter n s = some sf → P sf
  | 0, s, sf, hs, h => by
    simp only [iter, Option.some.injEq] at h
    rw [← h]; exact hs
  | n + 1, s, sf, hs, h => by
    simp only [iter] at h
    split at h
    · exact absurd h (by simp)
    · cases hst : step s with
      | next s' =>
        rw [hst] at h
        exact iter_keeps P hP n s' sf (hP s s' hs hst) h
      | stop s' => rw [hst] at h; exact absurd h (by simp)
      | fault => rw [hst] at h; exact absurd h (by simp)

theorem inv_init (pool : List HtmlNode) (html : List Char) : Inv none (initState pool html) := by
  refine ⟨fun i h => absurd h (by simp), (Nat.zero_lt_one : (0 : Nat) < 1), ?_, ?_, ?_⟩
  · intro i m hm q hq
    have : (initState pool html).pool
        = [{ blankNode with type := NODE_ELEMENT, tag := TAG_HTML }] := rfl
    rw [this] at hm
    cases i with
    | zero =>
      simp only [List.getElem?_cons_zero, Option.some.injEq] at hm
      rw [← hm] at hq
      exact absurd hq (by simp [blankNode])
    | succ i => simp at hm
  · intro m hm
    have : (initState pool html).pool[(initState pool html).current]?
        = some { blankNode with type := NODE_ELEMENT, tag := TAG_HTML } := rfl
    rw [this] at hm
    simp only [Option.some.injEq] at hm
    rw [← hm]
    intro hs
    rcases hs with hs | hs | hs | hs | hs <;> revert hs <;> simp <;> decide
  · intro i m hm hs
    have : (initState pool html).pool
        = [{ blankNode with type := NODE_ELEMENT, tag := TAG_HTML }] := rfl
    rw [this] at hm
    cases i with
    | zero =>
      simp only [List.getElem?_cons_zero, Option.some.injEq] at hm
      rw [← hm]
      rfl
    | succ i => simp at hm

/-! ### Nodes without children -/

theorem shape_core (s s' : PState) (h : StepShape s s') (i : Nat) (hi : i < s.pool.length) :
    (s'.pool[i]?).map core = (s.pool[i]?).map core := by
  rcases h with ⟨hp, _⟩ | ⟨new, hp, _⟩
  · rw [hp]
  · rw [hp]
    exact push_old _ _ _ _ hi

theorem shape_length (s s' : PState) (h : StepShape s s') : s.pool.length ≤ s'.pool.length := by
  rcases h with ⟨hp, _⟩ | ⟨new, hp, _⟩
  · rw [hp]
  · rw [hp, push_length]
    omega

/-- The fields of a node other than its children stay as they are from the
iteration on that has made the node. -/
theorem run_core (i0 : Option Nat) (k : Nat) (s sf : PState) (hinv : Inv i0 s)
    (h : run k s = some sf) (i : Nat) (hi : i < s.pool.length) :
    Inv i0 sf ∧ i < sf.pool.length ∧ (sf.pool[i]?).map core = (s.pool[i]?).map core := by
  have := run_keeps
    (fun t => Inv i0 t ∧ i < t.pool.length ∧ (t.pool[i]?).map core = (s.pool[i]?).map core)
    (fun t t' ht hst => by
      have hsh := step_shape t t' ht.1.2.1 hst
      exact ⟨inv_shape i0 t t' ht.1 hsh, Nat.lt_of_lt_of_le ht.2.1 (shape_length t t' hsh),
        (shape_core t t' hsh i ht.2.1).trans ht.2.2⟩)
    k s sf ⟨hinv, hi, rfl⟩ h
  exact this

theorem inv_at_head (pool : List HtmlNode) (pre : List Char) (n : Nat) (s : PState)
    (h : AtHead pool pre n s) : Inv none s := by
  have := iter_keeps (Inv none) (fun t t' ht hst => inv_step none t t' ht hst) n _ _
    (inv_init pool (pre ++ '<' :: [])) (h.2 [])
  exact this

/-- A node that has just been added and is not the insertion point stays without
children. -/
theorem inv_seal (s s' : PState) (new : HtmlNode) (hinv : Inv none s)
    (hp : s'.pool = addChild s.pool s.current s.pool.length ++ [new])
    (hpar : new.parent = some s.current) (hch : new.children = []) (hsrc : new.src = [])
    (hc : s'.current = s.current) : Inv (some s.pool.length) s' := by
  have hinv' : Inv none s' :=
    inv_shape none s s' hinv (Or.inr ⟨new, hp, hpar, hch, hsrc, Or.inl hc⟩)
  obtain ⟨_, h1, h2, _, _⟩ := hinv
  obtain ⟨_, g1, g2, g3, g4⟩ := hinv'
  have hlen : s'.pool.length = s.pool.length + 1 := by rw [hp]; exact push_length _ _ _
  have hsplit : ∀ (i : Nat) (m : HtmlNode), Sealed (some s.pool.length) i m →
      i = s.pool.length ∨ Sealed none i m := by
    intro i m hs
    rcases hs with hs | hs
    · left
      simp only [Option.some.injEq] at hs
      exact hs.symm
    · exact Or.inr (Or.inr hs)
  refine ⟨?_, g1, ?_, ?_, ?_⟩
  · intro i hi
    simp only [Option.some.injEq] at hi
    rw [← hi, hlen]
    omega
  · intro i m hm q hq
    refine ⟨(g2 i m hm q hq).1, ?_⟩
    intro mq hmq hs
    rcases hsplit q mq hs with hk | hs'
    · -- no parent is the new node
      rw [hp] at hm
      rcases push_cases _ _ _ _ _ hm with ⟨hi, m0, e1, e2, _⟩ | ⟨hi, e⟩
      · rw [parent_core m0 m e2] at hq
        have := (h2 i m0 e1 q hq).1
        omega
      · rw [e, hpar] at hq
        simp only [Option.some.injEq] at hq
        omega
    · exact (g2 i m hm q hq).2 mq hmq hs'
  · intro m hm hs
    rcases hsplit _ m hs with hk | hs'
    · rw [hc] at hk
      omega
    · exact g3 m hm hs'
  · intro i m hm hs
    rcases hsplit i m hs with hk | hs'
    · rw [hp, hk] at hm
      rcases push_cases _ _ _ _ _ hm with ⟨hi, _⟩ | ⟨_, e⟩
      · omega
      · rw [e]; exact hch
    · exact g4 i m hm hs'

/-- C19. Text nodes, the elements `br`, `hr` and `img`, and elements written with
the self-closing syntax have no children.  In every tree that `html_parse`
returns, every text node and every element `br`, `hr` or `img` has no children.
For every text `pre` that ends outside any tag and comment and every recognized
tag `<name attrs>` whose last byte in front of the `>` is `/`, the iteration at
the tag adds the node of the tag and leaves the insertion point where it is, so
that what follows is appended to the same parent, and in the tree returned that
node, the element with the tag kind of `name`, has no children. -/
theorem sealed_nodes_childless (pool : List HtmlNode) (pre : List Char) (n : Nat) (s : PState)
    (name attrs post : List Char) (a : List HtmlNode) (hpre : AtHead pool pre n s)
    (hname : ∀ c ∈ name, c ≠ NUL ∧ tagNameChar c = true) (hlen : name.length ≤ 31)
    (hnc : ¬ "!--".toList <+: name)
    (hattrs : ∀ c ∈ attrs, inTagChar c = true)
    (hdelim : tagNameChar (deref (attrs ++ ['>'])) = false)
    (htag : html_match_tag (name.map lowerChar) ≠ 0)
    (hslash : (name ++ attrs).getLast? = some '/')
    (hfull : s.pool.length < MAX_NODES)
    (hret : html_parse pool (pre ++ "<".toList ++ name ++ attrs ++ ">".toList ++ post) = some a) :
    (∀ (pool' : List HtmlNode) (html : List Char) (a' : List HtmlNode),
      html_parse pool' html = some a' →
      ∀ (i : Nat) (m : HtmlNode), a'[i]? = some m →
        m.type = NODE_TEXT ∨ m.tag = TAG_BR ∨ m.tag = TAG_HR ∨ m.tag = TAG_IMG →
        m.children = []) ∧
    (∃ node : HtmlNode,
      step { s with ptr := s.ptr ++ "<".toList ++ name ++ attrs ++ ">".toList ++ post }
        = Step.next ⟨addChild s.pool s.current s.pool.length ++ [node], s.current, post⟩ ∧
      node.type = NODE_ELEMENT ∧ node.tag = html_match_tag (name.map lowerChar) ∧
      node.parent = some s.current) ∧
    (a[s.pool.length]?).map (fun m => (m.type, m.tag, m.parent, m.children))
      = some (NODE_ELEMENT, html_match_tag (name.map lowerChar), some s.current, []) := by
  have hinv := inv_at_head pool pre n s hpre
  have hst := step_open { s with ptr := s.ptr ++ '<' :: (name ++ attrs ++ '>' :: post) }
    s.ptr name attrs post hpre.1 hname hlen hnc hattrs hdelim htag hfull hinv.2.1 (by simp)
  rw [if_pos (Or.inl hslash)] at hst
  have hfields : ∀ node : HtmlNode, node = { blankNode with
      type := NODE_ELEMENT, tag := html_match_tag (name.map lowerChar),
      text := cstr (name.map lowerChar), parent := some s.current,
      href := (html_parse_attr (attrs ++ '>' :: post) "href".toList [] 256).2 } →
      node.type = NODE_ELEMENT ∧ node.tag = html_match_tag (name.map lowerChar) ∧
      node.parent = some s.current ∧ node.children = [] ∧ node.src = [] := by
    intro node h
    rw [h]
    exact ⟨rfl, rfl, rfl, rfl, rfl⟩
  generalize ({ blankNode with
      type := NODE_ELEMENT, tag := html_match_tag (name.map lowerChar),
      text := cstr (name.map lowerChar), parent := some s.current,
      href := (html_parse_attr (attrs ++ '>' :: post) "href".toList [] 256).2 } : HtmlNode)
    = node at hst hfields
  obtain ⟨f1, f2, f3, f4, f5⟩ := hfields node rfl
  refine ⟨?_, ⟨node, ?_, f1, f2, f3⟩, ?_⟩
  · intro pool' html a' h i m hm hleaf
    unfold html_parse at h
    cases hr : run (html.length + 1) (initState pool' html) with
    | none => rw [hr] at h; exact absurd h (by simp)
    | some sf =>
      rw [hr] at h
      simp only [Option.map_some', Option.some.injEq] at h
      have := run_keeps (Inv none) (fun t t' ht hst => inv_step none t t' ht hst) _ _ _
        (inv_init pool' html) hr
      rw [← h] at hm
      exact this.2.2.2.2 i m hm (Or.inr hleaf)
  · have e : s.ptr ++ "<".toList ++ name ++ attrs ++ ">".toList ++ post
        = s.ptr ++ '<' :: (name ++ attrs ++ '>' :: post) := by simp
    rw [e]
    exact hst
  · have e : pre ++ "<".toList ++ name ++ attrs ++ ">".toList ++ post
        = pre ++ '<' :: (name ++ attrs ++ '>' :: post) := by simp
    rw [e, html_parse_at_head pool pre n s hpre _ _ hst] at hret
    cases hr : run (post.length + 1)
        ⟨addChild s.pool s.current s.pool.length ++ [node], s.current, post⟩ with
    | none => rw [hr] at hret; exact absurd hret (by simp)
    | some sf =>
      rw [hr] at hret
      simp only [Option.map_some', Option.some.injEq] at hret
      have hseal := inv_seal s
        ⟨addChild s.pool s.current s.pool.length ++ [node], s.current, post⟩ node hinv rfl
        f3 f4 f5 rfl
      have hk : s.pool.length < (addChild s.pool s.current s.pool.length ++ [node]).length := by
        rw [push_length]; omega
      obtain ⟨hf, hlt, hcore⟩ := run_core _ _ _ sf hseal hr s.pool.length hk
      have hm : sf.pool[s.pool.length]? = some sf.pool[s.pool.length] :=
        List.getElem?_eq_getElem hlt
      have hch := hf.2.2.2.2 _ _ hm (Or.inl rfl)
      rw [hm] at hcore
      have hnew : (addChild s.pool s.current s.pool.length ++ [node])[s.pool.length]?
          = some node := by
        rw [List.getElem?_append_right (by simp [addChild, setNode_length])]
        simp [addChild, setNode_length]
      rw [hnew] at hcore
      simp only [Option.map_some', Option.some.injEq] at hcore
      rw [← hret, hm]
      simp only [Option.map_some', Option.some.injEq, Prod.mk.injEq]
      exact ⟨((congrArg HtmlNode.type hcore : (core _).type = (core _).type)).trans f1,
        ((congrArg HtmlNode.tag hcore : (core _).tag = (core _).tag)).trans f2,
        ((congrArg HtmlNode.parent hcore : (core _).parent = (core _).parent)).trans f3, hch⟩

theorem sealed_nodes_childless_witness :
    ((html_parse [] ("<div><p>a".toList ++ "<".toList ++ "span".toList ++ " /".toList
        ++ ">".toList ++ "b</p>".toList)).getD [])[4]?.map
        (fun m => (m.type, m.tag, m.parent, m.children))
      = some (NODE_ELEMENT, html_match_tag ("span".toList.map lowerChar), some 2, []) :=
  (sealed_nodes_childless [] "<div><p>a".toList 3 _ "span".toList " /".toList "b</p>".toList
    ((html_parse [] ("<div><p>a".toList ++ "<".toList ++ "span".toList ++ " /".toList
        ++ ">".toList ++ "b</p>".toList)).getD [])
    atHead_div_p_a (by decide) (by decide) (by decide) (by decide) (by decide) (by decide)
    (by decide) (by decide) (by decide)).2.2

/-! ### The example tree and the attribute src -/

/-- C13, as stated, fails.  In the tree of `<p>Hi <b>there</b></p>` the first
child of `p` is a text node with the content `Hi`, two letters and no space
behind them: the space has been trimmed. -/
theorem parse_example_counterexample :
    (html_parse [] "<p>Hi <b>there</b></p>".toList).map
        (fun a => a[2]?.map (fun m => (m.type, m.parent, m.text)))
      = some (some (NODE_TEXT, some 1, "Hi".toList)) ∧
    (html_parse [] "<p>Hi <b>there</b></p>".toList).map
        (fun a => a[2]?.map (fun m => m.text))
      ≠ some (some "Hi ".toList) := by
  constructor
  · rfl
  · decide

/-- C13 (amended). The text `<p>Hi <b>there</b></p>` parses to the root with one
child, a `p` element with exactly two children, in order: a text node with the
content `Hi`, without the space that follows it in the text, and a `b` element
whose only child is a text node with the content `there`. -/
theorem parse_example_tree :
    html_parse [] "<p>Hi <b>there</b></p>".toList = some
      [{ blankNode with type := NODE_ELEMENT, tag := TAG_HTML, children := [1] },
       { blankNode with type := NODE_ELEMENT, tag := TAG_P, text := "p".toList,
                        children := [2, 3], parent := some 0 },
       { blankNode with type := NODE_TEXT, text := "Hi".toList, parent := some 1 },
       { blankNode with type := NODE_ELEMENT, tag := TAG_B, text := "b".toList,
                        children := [4], parent := some 1 },
       { blankNode with type := NODE_TEXT, text := "there".toList, parent := some 3 }] := by
  decide

theorem src_shape (s s' : PState) (h : StepShape s s')
    (hs : ∀ (i : Nat) (m : HtmlNode), s.pool[i]? = some m → m.src = []) :
    ∀ (i : Nat) (m : HtmlNode), s'.pool[i]? = some m → m.src = [] := by
  rcases h with ⟨hp, _⟩ | ⟨new, hp, _, _, hsrc, _⟩
  · rw [hp]; exact hs
  · intro i m hm
    rw [hp] at hm
    rcases push_cases _ _ _ _ _ hm with ⟨_, m0, e1, e2, _⟩ | ⟨_, e⟩
    · have : m.src = m0.src := (congrArg HtmlNode.src e2 : (core m).src = (core m0).src)
      rw [this]
      exact hs i m0 e1
    · rw [e]; exact hsrc

/-- C14. The attribute `src` is never extracted.  The first call of
`html_parse_attr`, for `href`, leaves the pointer at the `>` of the tag or at the
end of the text, so the second call, for `src`, finds nothing to read: it returns
its destination as it was.  In every tree that `html_parse` returns the field
`src` of every node is empty; so it is for `<img src="a.png">`, whose rendering
prints `[IMG: ]`. -/
theorem src_never_extracted :
    (∀ (p out : List Char),
      html_parse_attr (html_parse_attr p "href".toList [] 256).1 "src".toList out 256
        = (skipToGt p, out)) ∧
    (∀ (pool : List HtmlNode) (html : List Char) (a : List HtmlNode),
      html_parse pool html = some a → ∀ (i : Nat) (m : HtmlNode), a[i]? = some m → m.src = []) ∧
    html_parse [] imgExample = some
      [{ blankNode with type := NODE_ELEMENT, tag := TAG_HTML, children := [1] },
       { blankNode with type := NODE_ELEMENT, tag := TAG_IMG, text := "img".toList,
                        src := [], parent := some 0 }] ∧
    ((html_parse [] imgExample).bind
        (fun a => render_node a.length a 0 freshRenderer)).map (fun e => emitted e.log)
      = some "[IMG: ]".toList := by
  refine ⟨?_, ?_, by decide, by decide⟩
  · intro p out
    rw [html_parse_attr_ptr]
    exact html_parse_attr_at_end _ _ _ _ (skipToGt_deref p)
  · intro pool html a h
    unfold html_parse at h
    cases hr : run (html.length + 1) (initState pool html) with
    | none => rw [hr] at h; exact absurd h (by simp)
    | some sf =>
      rw [hr] at h
      simp only [Option.map_some', Option.some.injEq] at h
      have := run_keeps
        (fun t => Inv none t ∧ ∀ (i : Nat) (m : HtmlNode), t.pool[i]? = some m → m.src = [])
        (fun t t' ht hst =>
          ⟨inv_step none t t' ht.1 hst, src_shape t t' (step_shape t t' ht.1.2.1 hst) ht.2⟩)
        _ _ _ ⟨inv_init pool html, ?_⟩ hr
      · rw [← h]
        exact this.2
      · intro i m hm
        have e : (initState pool html).pool
            = [{ blankNode with type := NODE_ELEMENT, tag := TAG_HTML }] := rfl
        rw [e] at hm
        cases i with
        | zero =>
          simp only [List.getElem?_cons_zero, Option.some.injEq] at hm
          rw [← hm]
          rfl
        | succ i => simp at hm

/-! ### Attributes as they are written -/

theorem kstrcmp_self : ∀ (a : List Char), NUL ∉ a → kstrcmp a a = 0
  | [], _ => by simp [kstrcmp, deref]
  | c :: cs, h => by
    have hc : c ≠ NUL := fun h' => h (by simp [h'])
    have hcs : NUL ∉ cs := fun h' => h (List.mem_cons_of_mem _ h')
    rw [kstrcmp, if_neg (by simp [deref]), if_neg hc]
    exact kstrcmp_self cs hcs

theorem kstrcmp_eq_zero_iff (a b : List Char) (ha : NUL ∉ a) (hb : NUL ∉ b) :
    kstrcmp a b = 0 ↔ a = b :=
  ⟨kstrcmp_eq_zero a b ha hb, fun h => by rw [h]; exact kstrcmp_self b hb⟩

theorem tagRest_eq (trail post : List Char) (sp : List Char) (l : List Attr) :
    tagRest trail post sp l = sp ++ tagRest trail post [] l := by
  cases l <;> simp [tagRest]

/-! ### One iteration of the attribute loop -/

theorem dropSpaces_append (sp x : List Char) (hsp : ∀ c ∈ sp, c = ' ') (hx : deref x ≠ ' ') :
    (sp ++ x).dropWhile (fun c => c == ' ') = x := by
  rw [List.dropWhile_append_of_pos (fun c hc => by simp [hsp c hc])]
  cases x with
  | nil => rfl
  | cons c cs =>
    simp only [deref, List.headD_cons] at hx
    rw [List.dropWhile_cons, if_neg (by simpa using hx)]

theorem deref_append_ne_nil {a : List Char} (b : List Char) (h : a ≠ []) :
    deref (a ++ b) = deref a := by
  cases a with
  | nil => exact absurd rfl h
  | cons c cs => rfl

theorem dropWhile_value (quote : Char) (v r : List Char)
    (hv : ∀ c ∈ v, c ≠ NUL ∧ c ≠ quote ∧ c ≠ '>')
    (hr : deref r = NUL ∨ attrValueChar quote (deref r) = false) :
    (v ++ r).dropWhile (fun c => c != NUL && attrValueChar quote c) = r := by
  rw [List.dropWhile_append_of_pos (fun c hc => by
    have := hv c hc
    simp [attrValueChar, this.1, this.2.1, this.2.2])]
  cases r with
  | nil => rfl
  | cons c cs =>
    simp only [deref, List.headD_cons] at hr
    rw [List.dropWhile_cons, if_neg]
    rcases hr with hr | hr
    · simp [hr]
    · simp [hr]

theorem copy_value (quote : Char) (n : Nat) (v r : List Char)
    (hv : ∀ c ∈ v, c ≠ NUL ∧ c ≠ quote ∧ c ≠ '>') (hn : v.length ≤ n)
    (hr : deref r = NUL ∨ attrValueChar quote (deref r) = false) :
    copyWhile (attrValueChar quote) n (v ++ r) = (v, r) :=
  copyWhile_append _ n v r (fun c hc => by
      have := hv c hc
      exact ⟨this.1, by simp [attrValueChar, this.2.1, this.2.2]⟩) hn
    (Or.inr (Or.inr hr))

/-- The value part of an attribute: the pointer behind the byte that ends the
value, and the value in the destination when the name is the one looked for. -/
theorem attrValue_at (nm an : List Char) (ml : Nat) (quote : Char) (v r out : List Char)
    (hnm : NUL ∉ nm) (han : NUL ∉ an)
    (hv : ∀ c ∈ v, c ≠ NUL ∧ c ≠ quote ∧ c ≠ '>') (hn : an = nm → v.length ≤ ml - 1)
    (hr : deref r = NUL ∨ attrValueChar quote (deref r) = false) :
    attrValue nm an ml quote (v ++ r) out = (r, if an = nm then v else out) := by
  unfold attrValue
  by_cases h : an = nm
  · rw [if_pos ((kstrcmp_eq_zero_iff an nm han hnm).2 h), if_pos h,
      copy_value quote (ml - 1) v r hv (hn h) hr]
  · rw [if_neg (fun h' => h ((kstrcmp_eq_zero_iff an nm han hnm).1 h')), if_neg h,
      dropWhile_value quote v r hv hr]

theorem not_mem_nul {l : List Char} {P : Char → Prop} (h : ∀ c ∈ l, c ≠ NUL ∧ P c) :
    NUL ∉ l := fun hm => (h NUL hm).1 rfl

/-- One iteration of the loop of `html_parse_attr` at an attribute `a`, behind
which the text `r` starts with a space or `>`: the pointer is then behind the
attribute, and behind one space more when the value is not quoted; the
destination holds the value when the name is the one looked for. -/
theorem attrBody_attr (nm : List Char) (ml : Nat) (a : Attr) (sp r out : List Char)
    (hnm : NUL ∉ nm) (ha : Attr.ok nm ml a) (hsp : ∀ c ∈ sp, c = ' ')
    (hr : deref r = ' ' ∨ deref r = '>') :
    attrBody nm ml (sp ++ a.body ++ r) out
      = (if a.kind = AttrKind.bare then skipQuote ' ' r else r,
         if a.kind ≠ AttrKind.flag ∧ a.name = nm then a.value else out) := by
  obtain ⟨_, _, hname, hlen, hflag, hval, hbare, hfit⟩ := ha
  have hnul : NUL ∉ a.name := not_mem_nul hname
  have hrq : deref r ≠ '=' := by
    rcases hr with h | h <;> rw [h] <;> decide
  have hrn : attrNameChar (deref r) = false := by
    rcases hr with h | h <;> rw [h] <;> decide
  -- the name is read
  have hname_read : ∀ x : List Char, attrNameChar (deref x) = false →
      copyWhile attrNameChar 31 (a.name ++ x) = (a.name, x) := fun x hx =>
    copyWhile_append attrNameChar 31 a.name x hname hlen (Or.inr (Or.inr (Or.inr hx)))
  have hhead : ∀ x : List Char, deref x ≠ ' ' → deref (a.name ++ x) ≠ ' ' := by
    intro x hx
    cases hn : a.name with
    | nil => simpa using hx
    | cons c cs =>
      simp only [List.cons_append, deref, List.headD_cons]
      intro h'
      have := (hname c (by rw [hn]; exact List.mem_cons_self _ _)).2
      rw [h'] at this
      revert this
      decide
  unfold attrBody
  by_cases hk : a.kind = AttrKind.flag
  · -- the name alone
    have hb : a.body = a.name := by simp [Attr.body, hk]
    have hne := hflag hk
    have h1 : (sp ++ a.body ++ r).dropWhile (fun c => c == ' ') = a.name ++ r := by
      rw [hb, List.append_assoc]
      apply dropSpaces_append sp _ hsp
      rw [deref_append_ne_nil r hne]
      have := hhead [] (by decide)
      simpa using this
    simp only [h1, hname_read r hrn, if_neg hrq, hk]
    simp
  · have hq : a.kind.quote ≠ '>' ∧ a.kind.quote ≠ NUL := by
      cases a.kind <;> exact ⟨by decide, by decide⟩
    by_cases hkb : a.kind = AttrKind.bare
    · -- a value without quotes
      have hb : a.body = a.name ++ '=' :: a.value := by simp [Attr.body, hk, hkb]
      have h1 : (sp ++ a.body ++ r).dropWhile (fun c => c == ' ')
          = a.name ++ ('=' :: (a.value ++ r)) := by
        rw [hb]
        have : sp ++ (a.name ++ '=' :: a.value) ++ r = sp ++ (a.name ++ ('=' :: (a.value ++ r))) := by
          simp
        rw [this]
        exact dropSpaces_append sp _ hsp
          (hhead _ (fun h => absurd (show '=' = ' ' from h) (by decide)))
      have hd : deref (a.value ++ r) ≠ DQ ∧ deref (a.value ++ r) ≠ SQ := by
        by_cases hv : a.value = []
        · rw [hv, List.nil_append]
          rcases hr with h | h <;> rw [h] <;> exact ⟨by decide, by decide⟩
        · rw [deref_append_ne_nil r hv]
          exact hbare hkb
      have hquote : attrQuote (a.value ++ r) = ' ' := by
        unfold attrQuote
        rw [if_neg (not_or.2 hd)]
      have hopen : attrOpen (a.value ++ r) = a.value ++ r := by
        unfold attrOpen
        rw [if_neg (not_or.2 hd)]
      have hval' : ∀ c ∈ a.value, c ≠ NUL ∧ c ≠ ' ' ∧ c ≠ '>' := by
        intro c hc
        have := hval c hc
        rw [hkb] at this
        exact this
      have hnr := hname_read ('=' :: (a.value ++ r)) (show attrNameChar '=' = false by decide)
      simp only [h1, hnr, List.tail_cons, hquote, hopen]
      rw [if_pos (by rfl : deref ('=' :: (a.value ++ r)) = '='),
        attrValue_at nm a.name ml ' ' a.value r out hnm hnul hval' hfit
          (Or.inr (by rcases hr with h | h <;> rw [h] <;> decide))]
      simp [hk, hkb]
    · -- a quoted value
      have hb : a.body = a.name ++ '=' :: a.kind.quote :: a.value ++ [a.kind.quote] := by
        simp [Attr.body, hk, hkb]
      have hqq : a.kind.quote = DQ ∨ a.kind.quote = SQ := by
        cases hkk : a.kind
        · left; rfl
        · right; rfl
        · exact absurd hkk hkb
        · exact absurd hkk hk
      have h1 : (sp ++ a.body ++ r).dropWhile (fun c => c == ' ')
          = a.name ++ ('=' :: a.kind.quote :: (a.value ++ a.kind.quote :: r)) := by
        rw [hb]
        have : sp ++ (a.name ++ '=' :: a.kind.quote :: a.value ++ [a.kind.quote]) ++ r
            = sp ++ (a.name ++ ('=' :: a.kind.quote :: (a.value ++ a.kind.quote :: r))) := by
          simp
        rw [this]
        exact dropSpaces_append sp _ hsp
          (hhead _ (fun h => absurd (show '=' = ' ' from h) (by decide)))
      have hquote : attrQuote (a.kind.quote :: (a.value ++ a.kind.quote :: r)) = a.kind.quote := by
        unfold attrQuote
        rw [if_pos (show deref (a.kind.quote :: (a.value ++ a.kind.quote :: r)) = DQ ∨
          deref (a.kind.quote :: (a.value ++ a.kind.quote :: r)) = SQ from hqq)]
        rfl
      have hopen : attrOpen (a.kind.quote :: (a.value ++ a.kind.quote :: r))
          = a.value ++ a.kind.quote :: r := by
        unfold attrOpen
        rw [if_pos (show deref (a.kind.quote :: (a.value ++ a.kind.quote :: r)) = DQ ∨
          deref (a.kind.quote :: (a.value ++ a.kind.quote :: r)) = SQ from hqq)]
        rfl
      have hnr := hname_read ('=' :: a.kind.quote :: (a.value ++ a.kind.quote :: r))
        (show attrNameChar '=' = false by decide)
      simp only [h1, hnr, List.tail_cons, hquote, hopen]
      rw [if_pos (by rfl : deref ('=' :: a.kind.quote :: (a.value ++ a.kind.quote :: r)) = '='),
        attrValue_at nm a.name ml a.kind.quote a.value (a.kind.quote :: r) out hnm hnul hval hfit
          (Or.inr (by simp [attrValueChar, deref]))]
      simp [hk, hkb, skipQuote, deref]

/-! ### The attribute loop over the attributes of a tag -/

theorem deref_cons (c : Char) (cs : List Char) : deref (c :: cs) = c := rfl

theorem attrLoop_succ (nm : List Char) (ml k : Nat) (p out : List Char)
    (h : deref p ≠ NUL ∧ deref p ≠ '>') :
    attrLoop nm ml (k + 1) p out
      = attrLoop nm ml k (attrBody nm ml p out).1 (attrBody nm ml p out).2 := by
  rw [attrLoop, if_pos h]

theorem attrLoop_spaces (nm : List Char) (ml : Nat) (sp post out : List Char)
    (hsp : ∀ c ∈ sp, c = ' ') (k : Nat) (hk : (sp ++ '>' :: post).length < k) :
    attrLoop nm ml k (sp ++ '>' :: post) out = ('>' :: post, out) := by
  have hstop : ∀ j, attrLoop nm ml (j + 1) ('>' :: post) out = ('>' :: post, out) := by
    intro j
    rw [attrLoop, if_neg (fun h => h.2 rfl)]
  cases sp with
  | nil =>
    cases k with
    | zero => exact absurd hk (Nat.not_lt_zero _)
    | succ j => exact hstop j
  | cons c sp' =>
    have hc : c = ' ' := hsp c (List.mem_cons_self _ _)
    match k, hk with
    | j + 2, _ =>
      have hb : attrBody nm ml (c :: sp' ++ '>' :: post) out = ('>' :: post, out) := by
        unfold attrBody
        have h1 : (c :: sp' ++ '>' :: post).dropWhile (fun c => c == ' ') = '>' :: post :=
          dropSpaces_append (c :: sp') _ hsp (by rw [deref_cons]; decide)
        have h2 : copyWhile attrNameChar 31 ('>' :: post) = ([], '>' :: post) := by
          rw [copyWhile, if_neg (fun h => absurd h.2 (by decide))]
        simp only [h1, h2]
        rw [if_neg (by rw [deref_cons]; decide)]
      rw [attrLoop_succ nm ml (j + 1) _ out
        (by rw [hc, List.cons_append, deref_cons]; exact ⟨by decide, by decide⟩), hb]
      exact hstop j
    | 0, hk => exact absurd hk (Nat.not_lt_zero _)
    | 1, hk => simp at hk

theorem body_ne_nil (nm : List Char) (ml : Nat) (a : Attr) (ha : Attr.ok nm ml a) :
    a.body ≠ [] := by
  unfold Attr.body
  by_cases hk : a.kind = AttrKind.flag
  · rw [if_pos hk, List.append_nil]
    exact ha.2.2.2.2.1 hk
  · rw [if_neg hk]
    split <;> simp

theorem body_head (nm : List Char) (ml : Nat) (a : Attr) (ha : Attr.ok nm ml a) (r : List Char) :
    deref (a.body ++ r) ≠ NUL ∧ deref (a.body ++ r) ≠ '>' ∧ deref (a.body ++ r) ≠ ' ' := by
  rw [deref_append_ne_nil r (body_ne_nil nm ml a ha)]
  unfold Attr.body
  cases hn : a.name with
  | nil =>
    have hk : a.kind ≠ AttrKind.flag := fun hk => ha.2.2.2.2.1 hk hn
    rw [if_neg hk, List.nil_append]
    split <;> (simp only [List.cons_append, deref_cons]; exact ⟨by decide, by decide, by decide⟩)
  | cons c cs =>
    simp only [List.cons_append, deref, List.headD_cons]
    have := ha.2.2.1 c (by rw [hn]; exact List.mem_cons_self _ _)
    refine ⟨this.1, ?_, ?_⟩ <;> intro h' <;> rw [h'] at this <;> exact absurd this.2 (by decide)

theorem tagRest_head (nm : List Char) (ml : Nat) (trail post : List Char)
    (htrail : ∀ c ∈ trail, c = ' ') (l : List Attr) (hl : ∀ a ∈ l, Attr.ok nm ml a) :
    deref (tagRest trail post (padOf trail l) l) = ' ' ∨
      deref (tagRest trail post (padOf trail l) l) = '>' := by
  cases l with
  | nil =>
    simp only [tagRest, padOf]
    cases trail with
    | nil => right; rfl
    | cons c cs => left; exact htrail c (List.mem_cons_self _ _)
  | cons a l' =>
    have ha := hl a (List.mem_cons_self _ _)
    left
    simp only [tagRest, padOf]
    cases hp : a.pad with
    | nil => exact absurd hp ha.1
    | cons c cs =>
      exact ha.2.1 c (by rw [hp]; exact List.mem_cons_self _ _)

theorem tagRest_nil_head (nm : List Char) (ml : Nat) (trail post : List Char)
    (l : List Attr) (hl : ∀ a ∈ l, Attr.ok nm ml a) :
    deref (tagRest trail post [] l) ≠ ' ' := by
  cases l with
  | nil => simp only [tagRest, List.nil_append, deref_cons]; decide
  | cons a l' =>
    simp only [tagRest, List.nil_append]
    exact (body_head nm ml a (hl a (List.mem_cons_self _ _)) _).2.2

theorem skipQuote_tagRest (nm : List Char) (ml : Nat) (trail post sp : List Char)
    (hsp : ∀ c ∈ sp, c = ' ') (l : List Attr) (hl : ∀ a ∈ l, Attr.ok nm ml a) :
    skipQuote ' ' (tagRest trail post sp l) = tagRest trail post sp.tail l := by
  rw [tagRest_eq trail post sp l, tagRest_eq trail post sp.tail l]
  cases sp with
  | nil =>
    unfold skipQuote
    rw [List.nil_append, if_neg (tagRest_nil_head nm ml trail post l hl)]
    rfl
  | cons c cs =>
    have hc : c = ' ' := hsp c (List.mem_cons_self _ _)
    unfold skipQuote
    rw [if_pos (by rw [hc]; rfl)]
    rfl

/-- The loop of `html_parse_attr` over the attributes of a tag: the pointer ends
at the `>` of the tag and the destination holds the value of the last attribute
with the name looked for. -/
theorem attrLoop_attrs (nm : List Char) (ml : Nat) (trail post : List Char) (hnm : NUL ∉ nm)
    (htrail : ∀ c ∈ trail, c = ' ') :
    ∀ (l : List Attr) (sp out : List Char) (k : Nat), (∀ a ∈ l, Attr.ok nm ml a) →
      (∀ c ∈ sp, c = ' ') → (tagRest trail post sp l).length < k →
      attrLoop nm ml k (tagRest trail post sp l) out = ('>' :: post, attrsOut nm l out)
  | [], sp, out, k, _, hsp, hk => by
    simp only [tagRest, attrsOut] at hk ⊢
    exact attrLoop_spaces nm ml sp post out hsp k hk
  | a :: l, sp, out, k, hl, hsp, hk => by
    have ha := hl a (List.mem_cons_self _ _)
    have hl' : ∀ x ∈ l, Attr.ok nm ml x := fun x hx => hl x (List.mem_cons_of_mem _ hx)
    have hpad : ∀ c ∈ padOf trail l, c = ' ' := by
      cases l with
      | nil => exact htrail
      | cons b l'' => exact (hl' b (List.mem_cons_self _ _)).2.1
    have hr := tagRest_head nm ml trail post htrail l hl'
    have hb := attrBody_attr nm ml a sp (tagRest trail post (padOf trail l) l) out hnm ha hsp hr
    have hcond : deref (tagRest trail post sp (a :: l)) ≠ NUL ∧
        deref (tagRest trail post sp (a :: l)) ≠ '>' := by
      simp only [tagRest]
      cases sp with
      | nil =>
        rw [List.nil_append]
        exact ⟨(body_head nm ml a ha _).1, (body_head nm ml a ha _).2.1⟩
      | cons c cs =>
        have hc : c = ' ' := hsp c (List.mem_cons_self _ _)
        simp only [List.cons_append, deref, List.headD_cons, hc]
        exact ⟨by decide, by decide⟩
    have hlen : (tagRest trail post (padOf trail l) l).length
        < (tagRest trail post sp (a :: l)).length := by
      simp only [tagRest, List.length_append]
      have := List.length_pos.2 (body_ne_nil nm ml a ha)
      omega
    match k, hk with
    | 0, hk => exact absurd hk (Nat.not_lt_zero _)
    | j + 1, hk =>
      rw [attrLoop_succ nm ml j _ out hcond]
      have e : tagRest trail post sp (a :: l)
          = sp ++ a.body ++ tagRest trail post (padOf trail l) l := rfl
      rw [e, hb]
      simp only [attrsOut]
      by_cases hkb : a.kind = AttrKind.bare
      · rw [if_pos hkb, skipQuote_tagRest nm ml trail post _ hpad l hl']
        apply attrLoop_attrs nm ml trail post hnm htrail l _ _ j hl'
          (fun c hc => hpad c (List.mem_of_mem_tail hc))
        have : (tagRest trail post (padOf trail l).tail l).length
            ≤ (tagRest trail post (padOf trail l) l).length := by
          rw [tagRest_eq trail post (padOf trail l).tail l, tagRest_eq trail post (padOf trail l) l]
          simp only [List.length_append, List.length_tail]
          omega
        omega
      · rw [if_neg hkb]
        exact attrLoop_attrs nm ml trail post hnm htrail l _ _ j hl' hpad (by omega)

theorem tagRest_attrsText (trail post : List Char) :
    ∀ (l : List Attr), tagRest trail post (padOf trail l) l
      = attrsText l ++ trail ++ '>' :: post
  | [] => by simp [tagRest, padOf, attrsText]
  | a :: l => by
    have ih := tagRest_attrsText trail post l
    show a.pad ++ a.body ++ tagRest trail post (padOf trail l) l
      = a.pad ++ a.body ++ attrsText l ++ trail ++ '>' :: post
    rw [ih]
    simp only [List.append_assoc]

theorem attrsOut_append (nm : List Char) :
    ∀ (l1 l2 : List Attr) (out : List Char),
      attrsOut nm (l1 ++ l2) out = attrsOut nm l2 (attrsOut nm l1 out)
  | [], _, _ => rfl
  | a :: l1, l2, out => by
    simp only [List.cons_append, attrsOut]
    exact attrsOut_append nm l1 l2 _

theorem attrsOut_none (nm : List Char) :
    ∀ (l : List Attr) (out : List Char), (∀ x ∈ l, x.kind ≠ AttrKind.flag → x.name ≠ nm) →
      attrsOut nm l out = out
  | [], _, _ => rfl
  | a :: l, out, h => by
    simp only [attrsOut]
    rw [if_neg (fun hc => h a (List.mem_cons_self _ _) hc.1 hc.2)]
    exact attrsOut_none nm l out (fun x hx => h x (List.mem_cons_of_mem _ hx))

theorem attrsOut_last (nm : List Char) (l1 l2 : List Attr) (h : Attr) (out : List Char)
    (hk : h.kind ≠ AttrKind.flag) (hn : h.name = nm)
    (hl2 : ∀ x ∈ l2, x.kind ≠ AttrKind.flag → x.name ≠ nm) :
    attrsOut nm (l1 ++ h :: l2) out = h.value := by
  rw [attrsOut_append]
  simp only [attrsOut]
  rw [if_pos ⟨hk, hn⟩]
  exact attrsOut_none nm l2 _ hl2

theorem quote_inTag (k : AttrKind) : inTagChar k.quote = true := by
  cases k <;> decide

theorem body_inTag (nm : List Char) (ml : Nat) (a : Attr) (ha : Attr.ok nm ml a) :
    ∀ c ∈ a.pad ++ a.body, inTagChar c = true := by
  obtain ⟨_, hpad, hname, _, _, hval, _, _⟩ := ha
  have hn : ∀ c ∈ a.name, inTagChar c = true := by
    intro c hc
    have := hname c hc
    simp only [attrNameChar, Bool.and_eq_true, bne_iff_ne, ne_eq] at this
    simp only [inTagChar, Bool.and_eq_true, bne_iff_ne, ne_eq]
    exact ⟨this.1, this.2.2⟩
  have hv : ∀ c ∈ a.value, inTagChar c = true := by
    intro c hc
    have := hval c hc
    simp only [inTagChar, Bool.and_eq_true, bne_iff_ne, ne_eq]
    exact ⟨this.1, this.2.2⟩
  intro c hc
  rcases List.mem_append.1 hc with hc | hc
  · rw [hpad c hc]; decide
  · unfold Attr.body at hc
    rcases List.mem_append.1 hc with hc | hc
    · exact hn c hc
    · split at hc
      · simp at hc
      · split at hc
        · rcases List.mem_cons.1 hc with hc | hc
          · rw [hc]; decide
          · exact hv c hc
        · simp only [List.cons_append, List.mem_cons, List.mem_append, List.mem_singleton,
            List.not_mem_nil, or_false] at hc
          rcases hc with hc | hc | hc | hc
          · rw [hc]; decide
          · rw [hc]; exact quote_inTag _
          · exact hv c hc
          · rw [hc]; exact quote_inTag _

theorem attrsText_inTag (nm : List Char) (ml : Nat) :
    ∀ (l : List Attr), (∀ a ∈ l, Attr.ok nm ml a) → ∀ c ∈ attrsText l, inTagChar c = true
  | [], _, c, hc => by simp [attrsText] at hc
  | a :: l, hl, c, hc => by
    simp only [attrsText] at hc
    rcases List.mem_append.1 hc with hc | hc
    · exact body_inTag nm ml a (hl a (List.mem_cons_self _ _)) c hc
    · exact attrsText_inTag nm ml l (fun x hx => hl x (List.mem_cons_of_mem _ hx)) c hc

/-- The attribute `href` that `html_parse_attr` reads from the attributes of a
tag. -/
theorem html_parse_attr_attrs (nm : List Char) (ml : Nat) (trail post : List Char)
    (hnm : NUL ∉ nm) (htrail : ∀ c ∈ trail, c = ' ') (l : List Attr)
    (hl : ∀ a ∈ l, Attr.ok nm ml a) (out : List Char) :
    html_parse_attr (attrsText l ++ trail ++ '>' :: post) nm out ml
      = ('>' :: post, attrsOut nm l out) := by
  rw [← tagRest_attrsText trail post l]
  unfold html_parse_attr
  apply attrLoop_attrs nm ml trail post hnm htrail l _ out _ hl _ (Nat.lt_succ_self _)
  cases l with
  | nil => exact htrail
  | cons b l' => exact (hl b (List.mem_cons_self _ _)).2.1

/-! ### The attribute href -/

/-- C15, as stated, fails.  In `<a title=">" href="v">` the value of `href` is
`v`, without `"` and `>`, but the field `href` of the element stays empty: the
attribute loop ends at the `>` inside the value of `title`.  In
`<a href="v" xxxxxxxxxxxxxxxxxxxxxxxxxxxxxxxhref="w">` the field holds `w`: the
name of the second attribute is read in two parts, 31 bytes and `href`. -/
theorem href_counterexample :
    (html_parse [] hrefExample1).map (fun a => a[1]?.map (fun m => (m.tag, m.href)))
      = some (some (TAG_A, [])) ∧
    (html_parse [] hrefExample2).map (fun a => a[1]?.map (fun m => (m.tag, m.href)))
      = some (some (TAG_A, ['w'])) := by
  constructor <;> rfl

/-- C15 (amended). The attribute `href` of a recognized opening tag is stored in
the field `href` of its element.  Let the tag be written as its name followed by
attributes separated by spaces, each a name of at most 31 bytes alone or with a
value in double quotes, in single quotes or without quotes, no value holding `>`
or the byte that ends it; let `h` be one of them with the name `href` and a
value of at most 255 bytes, written in one of the three ways, and let no later
attribute with a value have the name `href`.  Then the iteration at the tag adds
an element whose field `href` is exactly the value of `h`, and so it is in the
tree that `html_parse` returns, wherever `h` stands among the attributes. -/
theorem href_extracted (pool : List HtmlNode) (pre : List Char) (n : Nat) (s : PState)
    (name : List Char) (l1 l2 : List Attr) (h : Attr) (trail post : List Char)
    (a : List HtmlNode) (hpre : AtHead pool pre n s)
    (hname : ∀ c ∈ name, c ≠ NUL ∧ tagNameChar c = true) (hlen : name.length ≤ 31)
    (hnc : ¬ "!--".toList <+: name)
    (htag : html_match_tag (name.map lowerChar) ≠ 0)
    (hl1 : ∀ x ∈ l1, Attr.ok "href".toList 256 x)
    (hl2 : ∀ x ∈ l2, Attr.ok "href".toList 256 x ∧
      (x.kind ≠ AttrKind.flag → x.name ≠ "href".toList))
    (hh : Attr.ok "href".toList 256 h) (hhn : h.name = "href".toList)
    (hhk : h.kind ≠ AttrKind.flag)
    (htrail : ∀ c ∈ trail, c = ' ')
    (hfull : s.pool.length < MAX_NODES)
    (hret : html_parse pool (pre ++ "<".toList ++ name ++ attrsText (l1 ++ h :: l2) ++ trail
      ++ ">".toList ++ post) = some a) :
    (∃ (node : HtmlNode) (cur' : Nat),
      step { s with ptr := s.ptr ++ "<".toList ++ name ++ attrsText (l1 ++ h :: l2) ++ trail
          ++ ">".toList ++ post }
        = Step.next ⟨addChild s.pool s.current s.pool.length ++ [node], cur', post⟩ ∧
      node.type = NODE_ELEMENT ∧ node.tag = html_match_tag (name.map lowerChar) ∧
      node.href = h.value) ∧
    (a[s.pool.length]?).map (fun m => (m.type, m.tag, m.href))
      = some (NODE_ELEMENT, html_match_tag (name.map lowerChar), h.value) := by
  have hinv := inv_at_head pool pre n s hpre
  have hl : ∀ x ∈ l1 ++ h :: l2, Attr.ok "href".toList 256 x := by
    intro x hx
    rcases List.mem_append.1 hx with hx | hx
    · exact hl1 x hx
    · rcases List.mem_cons.1 hx with hx | hx
      · rw [hx]; exact hh
      · exact (hl2 x hx).1
  have hattrs : ∀ c ∈ attrsText (l1 ++ h :: l2) ++ trail, inTagChar c = true := by
    intro c hc
    rcases List.mem_append.1 hc with hc | hc
    · exact attrsText_inTag _ _ _ hl c hc
    · rw [htrail c hc]; decide
  have hdelim : tagNameChar (deref (attrsText (l1 ++ h :: l2) ++ trail ++ ['>'])) = false := by
    have h1 := tagRest_head "href".toList 256 trail [] htrail (l1 ++ h :: l2) hl
    rw [tagRest_attrsText] at h1
    rcases h1 with h1 | h1 <;> rw [h1] <;> decide
  have hst := step_open
    { s with ptr := s.ptr ++ '<' :: (name ++ (attrsText (l1 ++ h :: l2) ++ trail) ++ '>' :: post) }
    s.ptr name (attrsText (l1 ++ h :: l2) ++ trail) post hpre.1 hname hlen hnc hattrs hdelim
    htag hfull hinv.2.1 (by simp)
  rw [html_parse_attr_attrs "href".toList 256 trail post (by decide) htrail _ hl,
    attrsOut_last "href".toList l1 l2 h [] hhk hhn (fun x hx => (hl2 x hx).2)] at hst
  have hfields : ∀ node : HtmlNode, node = { blankNode with
      type := NODE_ELEMENT, tag := html_match_tag (name.map lowerChar),
      text := cstr (name.map lowerChar), parent := some s.current,
      href := h.value } →
      node.type = NODE_ELEMENT ∧ node.tag = html_match_tag (name.map lowerChar) ∧
      node.parent = some s.current ∧ node.children = [] ∧ node.src = [] ∧
      node.href = h.value := by
    intro node h
    rw [h]
    exact ⟨rfl, rfl, rfl, rfl, rfl, rfl⟩
  generalize ({ blankNode with
      type := NODE_ELEMENT, tag := html_match_tag (name.map lowerChar),
      text := cstr (name.map lowerChar), parent := some s.current,
      href := h.value } : HtmlNode) = node at hst hfields
  obtain ⟨f1, f2, f3, f4, f5, f6⟩ := hfields node rfl
  generalize hcur' : (if (name ++ (attrsText (l1 ++ h :: l2) ++ trail)).getLast? = some '/' ∨
      html_match_tag (name.map lowerChar) = TAG_BR ∨
      html_match_tag (name.map lowerChar) = TAG_HR ∨
      html_match_tag (name.map lowerChar) = TAG_IMG then s.current else s.pool.length) = cur'
    at hst
  refine ⟨⟨node, cur', ?_, f1, f2, f6⟩, ?_⟩
  · have e : s.ptr ++ "<".toList ++ name ++ attrsText (l1 ++ h :: l2) ++ trail ++ ">".toList
          ++ post
        = s.ptr ++ '<' :: (name ++ (attrsText (l1 ++ h :: l2) ++ trail) ++ '>' :: post) := by
      simp
    rw [e]
    exact hst
  · have e : pre ++ "<".toList ++ name ++ attrsText (l1 ++ h :: l2) ++ trail ++ ">".toList
          ++ post
        = pre ++ '<' :: (name ++ (attrsText (l1 ++ h :: l2) ++ trail) ++ '>' :: post) := by
      simp
    rw [e, html_parse_at_head pool pre n s hpre _ _ hst] at hret
    cases hr : run (post.length + 1)
        ⟨addChild s.pool s.current s.pool.length ++ [node], cur', post⟩ with
    | none => rw [hr] at hret; exact absurd hret (by simp)
    | some sf =>
      rw [hr] at hret
      simp only [Option.map_some', Option.some.injEq] at hret
      have hinv1 : Inv none ⟨addChild s.pool s.current s.pool.length ++ [node], cur', post⟩ :=
        inv_step none
          { s with ptr := s.ptr ++ '<' :: (name ++ (attrsText (l1 ++ h :: l2) ++ trail) ++ '>' :: post) }
          _ hinv hst
      have hk : s.pool.length < (addChild s.pool s.current s.pool.length ++ [node]).length := by
        rw [push_length]; omega
      obtain ⟨_, hlt, hcore⟩ := run_core _ _ _ sf hinv1 hr s.pool.length hk
      have hm : sf.pool[s.pool.length]? = some sf.pool[s.pool.length] :=
        List.getElem?_eq_getElem hlt
      rw [hm] at hcore
      have hnew : (addChild s.pool s.current s.pool.length ++ [node])[s.pool.length]?
          = some node := by
        rw [List.getElem?_append_right (by simp [addChild, setNode_length])]
        simp [addChild, setNode_length]
      rw [hnew] at hcore
      simp only [Option.map_some', Option.some.injEq] at hcore
      rw [← hret, hm]
      simp only [Option.map_some', Option.some.injEq, Prod.mk.injEq]
      exact ⟨((congrArg HtmlNode.type hcore : (core _).type = (core _).type)).trans f1,
        ((congrArg HtmlNode.tag hcore : (core _).tag = (core _).tag)).trans f2,
        ((congrArg HtmlNode.href hcore : (core _).href = (core _).href)).trans f6⟩

theorem href_extracted_witness :
    ((html_parse [] ("<div><p>a".toList ++ "<".toList ++ "a".toList
        ++ attrsText ([⟨" ".toList, "id".toList, AttrKind.bare, "x1".toList⟩,
            ⟨"  ".toList, "title".toList, AttrKind.sq, "a b".toList⟩]
          ++ ⟨" ".toList, "href".toList, AttrKind.dq, "/p?q=1".toList⟩
          :: [⟨" ".toList, "disabled".toList, AttrKind.flag, []⟩])
        ++ " ".toList ++ ">".toList ++ "go</a>".toList)).getD [])[4]?.map
        (fun m => (m.type, m.tag, m.href))
      = some (NODE_ELEMENT, html_match_tag ("a".toList.map lowerChar), "/p?q=1".toList) :=
  (href_extracted [] "<div><p>a".toList 3 _ "a".toList
    [⟨" ".toList, "id".toList, AttrKind.bare, "x1".toList⟩,
     ⟨"  ".toList, "title".toList, AttrKind.sq, "a b".toList⟩]
    [⟨" ".toList, "disabled".toList, AttrKind.flag, []⟩]
    ⟨" ".toList, "href".toList, AttrKind.dq, "/p?q=1".toList⟩ " ".toList "go</a>".toList
    _ atHead_div_p_a (by decide) (by decide) (by decide) (by decide) (by decide) (by decide)
    (by decide) rfl (by decide) (by decide) (by decide) (by decide)).2

/-! ### Closing tags -/

/-- The root, the node 0, has no parent in any state that the main loop reaches. -/
theorem root_at_head (pool : List HtmlNode) (pre : List Char) (n : Nat) (s : PState)
    (h : AtHead pool pre n s) : (s.pool[0]?).bind (fun m => m.parent) = none := by
  have h0 : ((initState pool (pre ++ '<' :: [])).pool[0]?).map core
      = some (core { blankNode with type := NODE_ELEMENT, tag := TAG_HTML }) := by
    rfl
  have key : Inv none ({ s with ptr := s.ptr ++ '<' :: [] } : PState) ∧ 0 < s.pool.length ∧
      (s.pool[0]?).map core
        = some (core { blankNode with type := NODE_ELEMENT, tag := TAG_HTML }) :=
    iter_keeps
      (fun t => Inv none t ∧ 0 < t.pool.length ∧ (t.pool[0]?).map core
        = some (core { blankNode with type := NODE_ELEMENT, tag := TAG_HTML }))
      (fun t t' ht hst => by
        have hsh := step_shape t t' ht.1.2.1 hst
        exact ⟨inv_shape none t t' ht.1 hsh, Nat.lt_of_lt_of_le ht.2.1 (shape_length t t' hsh),
          (shape_core t t' hsh 0 ht.2.1).trans ht.2.2⟩)
      n _ { s with ptr := s.ptr ++ '<' :: [] } ⟨inv_init pool (pre ++ '<' :: []), Nat.zero_lt_one, h0⟩ (h.2 [])
  have hm : s.pool[0]? = some (s.pool.get ⟨0, key.2.1⟩) := List.getElem?_eq_getElem key.2.1
  have hc := key.2.2
  rw [hm] at hc ⊢
  simp only [Option.map_some', Option.some.injEq] at hc
  exact (congrArg HtmlNode.parent hc : (core _).parent = (core _).parent)

/-- C16, as stated, fails.  Behind the text `<a ` the closing tags `</x href=y>`
and `</x>` do not give the same tree: the text stands inside the tag `a`, whose
attributes are read from it. -/
theorem close_tag_counterexample :
    '>' ∉ "x href=y".toList ∧ '>' ∉ "x".toList ∧
    html_parse [] ("<a ".toList ++ "</".toList ++ "x href=y".toList ++ ">".toList ++ [])
      ≠ html_parse [] ("<a ".toList ++ "</".toList ++ "x".toList ++ ">".toList ++ []) := by
  decide

/-- C16 (amended). A closing tag pops without looking at its name.  For every
text `pre` that ends outside any tag and comment, and every two names `n1`, `n2`
without `>` and terminator, the texts `pre ++ "</" ++ n1 ++ ">" ++ post` and
`pre ++ "</" ++ n2 ++ ">" ++ post` parse to the same tree.  The iteration at the
closing tag leaves the arena as it is and goes on at `post` with the insertion
point at the parent of the previous insertion point, and at the previous
insertion point itself when that has no parent; the root, the node 0, has none,
so the insertion point stays at the root when it was the root.  In
`<div><p>a</span>b</div>` the text `b` is the second child of `div`. -/
theorem close_tag_ignores_name (pool : List HtmlNode) (pre : List Char) (n : Nat) (s : PState)
    (n1 n2 post : List Char) (hpre : AtHead pool pre n s)
    (h1 : ∀ c ∈ n1, c ≠ NUL ∧ c ≠ '>') (h2 : ∀ c ∈ n2, c ≠ NUL ∧ c ≠ '>') :
    html_parse pool (pre ++ "</".toList ++ n1 ++ ">".toList ++ post)
      = html_parse pool (pre ++ "</".toList ++ n2 ++ ">".toList ++ post) ∧
    step { s with ptr := s.ptr ++ "</".toList ++ n1 ++ ">".toList ++ post }
      = Step.next { s with ptr := post, current := popCurrent s.pool s.current } ∧
    (∀ q, (s.pool[s.current]?).bind (fun m => m.parent) = some q →
      popCurrent s.pool s.current = q) ∧
    ((s.pool[s.current]?).bind (fun m => m.parent) = none →
      popCurrent s.pool s.current = s.current) ∧
    (s.current = 0 → popCurrent s.pool s.current = 0) ∧
    (html_parse [] "<div><p>a</span>b</div>".toList).map
        (fun a => (a[1]?.map (fun m => (m.tag, m.children)),
                   a[4]?.map (fun m => (m.type, m.text, m.parent))))
      = some (some (TAG_DIV, [2, 4]), some (NODE_TEXT, "b".toList, some 1)) := by
  have key : ∀ (m : List Char), (∀ c ∈ m, c ≠ NUL ∧ c ≠ '>') →
      step { s with ptr := s.ptr ++ '<' :: ('/' :: m ++ '>' :: post) }
        = Step.next { s with ptr := post, current := popCurrent s.pool s.current } := by
    intro m hm
    exact step_close _ s.ptr m post hpre.1
      (fun c hc => by
        simp only [inTagChar, Bool.and_eq_true, bne_iff_ne, ne_eq]
        exact hm c hc) (by simp)
  have e : ∀ (m : List Char), pre ++ "</".toList ++ m ++ ">".toList ++ post
      = pre ++ '<' :: ('/' :: m ++ '>' :: post) := by
    intro m; simp
  refine ⟨?_, ?_, popCurrent_parent _ _, popCurrent_none _ _, ?_, by rfl⟩
  rotate_left 2
  · intro h0
    rw [h0]
    exact popCurrent_none _ _ (root_at_head pool pre n s hpre)
  · rw [e n1, e n2, html_parse_at_head pool pre n s hpre _ _ (key n1 h1),
      html_parse_at_head pool pre n s hpre _ _ (key n2 h2)]
  · have := key n1 h1
    have e' : s.ptr ++ "</".toList ++ n1 ++ ">".toList ++ post
        = s.ptr ++ '<' :: ('/' :: n1 ++ '>' :: post) := by simp
    rw [e']
    exact this

theorem close_tag_ignores_name_witness :
    html_parse [] ("<div><p>a".toList ++ "</".toList ++ "span".toList ++ ">".toList ++ "b</div>".toList)
      = html_parse [] ("<div><p>a".toList ++ "</".toList ++ "p".toList ++ ">".toList ++ "b</div>".toList) :=
  (close_tag_ignores_name [] "<div><p>a".toList 3 _ "span".toList "p".toList "b</div>".toList
    atHead_div_p_a (by decide) (by decide)).1

/-! ### The text of a text node -/

theorem textLoop_length : ∀ (p acc : List Char), acc.length ≤ 255 →
    (textLoop p acc).1.length ≤ 255
  | [], acc, h => by simpa [textLoop] using h
  | c :: cs, acc, h => by
    simp only [textLoop]
    split
    · rename_i hc
      split
      · split
        · exact textLoop_length cs _ (by simp only [List.length_append, List.length_singleton]; omega)
        · exact textLoop_length cs _ h
      · exact textLoop_length cs _ (by simp only [List.length_append, List.length_singleton]; omega)
    · exact h

/-- The text run that the loop stores behind `acc` holds no line feed, carriage
return, tabulator or terminator. -/
theorem textLoop_chars : ∀ (p acc : List Char) (x : Char), x ∈ (textLoop p acc).1 →
    x ∈ acc ∨ (x ≠ LF ∧ x ≠ CR ∧ x ≠ TAB ∧ x ≠ NUL)
  | [], acc, x, h => by
    simp only [textLoop] at h
    exact Or.inl h
  | c :: cs, acc, x, h => by
    simp only [textLoop] at h
    split at h
    · rename_i hc
      split at h
      · split at h
        · rcases textLoop_chars cs _ x h with h' | h'
          · rcases List.mem_append.1 h' with h'' | h''
            · exact Or.inl h''
            · right
              rw [List.mem_singleton.1 h'']
              exact ⟨by decide, by decide, by decide, by decide⟩
          · exact Or.inr h'
        · exact textLoop_chars cs _ x h
      · rename_i hws
        rcases textLoop_chars cs _ x h with h' | h'
        · rcases List.mem_append.1 h' with h'' | h''
          · exact Or.inl h''
          · right
            rw [List.mem_singleton.1 h'']
            simp only [not_or] at hws
            exact ⟨hws.1, hws.2.1, hws.2.2, hc.1⟩
        · exact Or.inr h'
    · exact Or.inl h

theorem textLoop_isPrefix : ∀ (p acc : List Char), acc <+: (textLoop p acc).1
  | [], acc => by simp [textLoop]
  | c :: cs, acc => by
    simp only [textLoop]
    split
    · split
      · split
        · exact (List.prefix_append acc _).trans (textLoop_isPrefix cs _)
        · exact textLoop_isPrefix cs _
      · exact (List.prefix_append acc _).trans (textLoop_isPrefix cs _)
    · exact List.prefix_refl _

/-- The text run read at a pointer that is not at white space does not begin with
a space. -/
theorem textLoop_head (p : List Char) (hp : isWs (deref p) = false) :
    (textLoop p []).1.head? ≠ some ' ' := by
  cases p with
  | nil => simp [textLoop]
  | cons c cs =>
    simp only [deref, List.headD_cons] at hp
    simp only [textLoop]
    split
    · rename_i hc
      have hws : ¬ (c = LF ∨ c = CR ∨ c = TAB) := by
        intro h
        rcases h with h | h | h <;> rw [h] at hp <;> revert hp <;> decide
      rw [if_neg hws]
      have hpre := textLoop_isPrefix cs ([] ++ [c])
      obtain ⟨t, ht⟩ := hpre
      rw [← ht]
      simp only [List.nil_append, List.singleton_append, List.head?_cons, ne_eq,
        Option.some.injEq]
      intro h
      rw [h] at hp
      revert hp
      decide
    · simp

theorem trimEnd_isPrefix (t : List Char) : trimEnd t <+: t := by
  unfold trimEnd
  have h := List.dropWhile_suffix (fun c => c == ' ') (l := t.reverse)
  have := List.reverse_prefix.2 h
  simpa using this

theorem trimEnd_getLast (t : List Char) : (trimEnd t).getLast? ≠ some ' ' := by
  unfold trimEnd
  rw [List.getLast?_reverse]
  cases h : List.dropWhile (fun c => c == ' ') t.reverse with
  | nil => simp
  | cons c cs =>
    have := List.head_dropWhile_not (fun c => c == ' ') t.reverse (by rw [h]; simp)
    simp only [h, List.head_cons] at this
    simp only [List.head?_cons, ne_eq, Option.some.injEq]
    intro hc
    rw [hc] at this
    exact absurd this (by decide)

/-- The text that the branch "Text node" stores, when it stores one. -/
theorem text_stored_ok (p : List Char) (hp : isWs (deref p) = false)
    (hne : trimEnd (textLoop p []).1 ≠ []) :
    TextOk (cstr (trimEnd (textLoop p []).1)) := by
  have hpre := trimEnd_isPrefix (textLoop p []).1
  have hmem : ∀ x ∈ trimEnd (textLoop p []).1, x ≠ LF ∧ x ≠ CR ∧ x ≠ TAB ∧ x ≠ NUL := by
    intro x hx
    rcases textLoop_chars p [] x (hpre.subset hx) with h | h
    · simp at h
    · exact h
  have hnul : NUL ∉ trimEnd (textLoop p []).1 := fun h => (hmem NUL h).2.2.2 rfl
  rw [cstr_eq_self _ hnul]
  refine ⟨hne, ?_, fun h => (hmem LF h).1 rfl, fun h => (hmem CR h).2.1 rfl,
    fun h => (hmem TAB h).2.2.1 rfl, hnul, ?_, trimEnd_getLast _⟩
  · exact Nat.le_trans hpre.length_le (textLoop_length p [] (by simp))
  · obtain ⟨t, ht⟩ := hpre
    have hh := textLoop_head p hp
    rw [← ht] at hh
    cases hte : trimEnd (textLoop p []).1 with
    | nil => exact absurd hte hne
    | cons c cs =>
      rw [hte] at hh
      simpa using hh

theorem dropWhile_isWs_head (p : List Char) : isWs (deref (p.dropWhile isWs)) = false := by
  cases h : p.dropWhile isWs with
  | nil => decide
  | cons c cs =>
    have := List.head_dropWhile_not isWs p (by rw [h]; simp)
    simp only [h, List.head_cons] at this
    simpa [deref] using this

/-! ### The nodes that the main loop makes -/

theorem openTag_room (s : PState) (p0 : List Char) (tn : List Char × List Char) (tag_id : Nat)
    (s' : PState) (h : openTag s p0 tn tag_id = Step.next s') : s.pool.length < MAX_NODES := by
  cases ha : html_alloc_node s.pool with
  | none =>
    unfold openTag at h
    rw [ha] at h
    exact absurd h (by simp)
  | some x => exact alloc_some_room ha

/-- What an iteration of the main loop adds to the arena: nothing, or one node
behind the others, an element with a recognized tag or a text node with a
well-formed text, while the arena has room. -/
theorem step_new (s s' : PState) (hcur : s.current < s.pool.length)
    (h : step s = Step.next s') :
    s'.pool = s.pool ∨
    ∃ new : HtmlNode, s'.pool = addChild s.pool s.current s.pool.length ++ [new] ∧
      s.pool.length < MAX_NODES ∧ new.parent = some s.current ∧ new.children = [] ∧
      NewNode new := by
  simp only [step] at h
  split at h
  · split at h
    · split at h
      · exact absurd h (by simp)
      · simp only [Step.next.injEq] at h
        rw [← h]
        exact Or.inl rfl
    · split at h
      · simp only [Step.next.injEq] at h
        rw [← h]
        exact Or.inl rfl
      · split at h
        · simp only [Step.next.injEq] at h
          rw [← h]
          exact Or.inl rfl
        · rename_i htag
          have hroom := openTag_room s _ _ _ s' h
          rw [openTag_eq s _ _ _ hroom hcur] at h
          simp only [Step.next.injEq] at h
          right
          refine ⟨_, by rw [← h], hroom, rfl, rfl, Or.inl ⟨rfl, htag⟩⟩
  · by_cases ht : trimEnd (textLoop (s.ptr.dropWhile isWs) []).1 ≠ []
    · have hroom : s.pool.length < MAX_NODES := by
        cases ha : html_alloc_node s.pool with
        | none =>
          simp only [textNode, if_pos ht, ha] at h
          exact absurd h (by simp)
        | some x => exact alloc_some_room ha
      rw [textNode_eq s _ ht hroom hcur] at h
      simp only [Step.next.injEq] at h
      right
      refine ⟨_, by rw [← h], hroom, rfl, rfl, Or.inr ⟨rfl, rfl, ?_⟩⟩
      exact text_stored_ok _ (dropWhile_isWs_head s.ptr) ht
    · simp only [textNode, if_neg ht, Step.next.injEq] at h
      left
      rw [← h]

/-- The children of a node of the arena after a node has been added: as they
were, or with the new node behind them when the node is the insertion point and
has less than 32 children. -/
theorem push_children (pool : List HtmlNode) (cur : Nat) (new : HtmlNode) (i : Nat)
    (m m' : HtmlNode) (hi : i < pool.length) (hm : pool[i]? = some m)
    (h : (addChild pool cur pool.length ++ [new])[i]? = some m') :
    (i = cur ∧ m.children.length < 32 ∧ m'.children = m.children ++ [pool.length]) ∨
    ((i ≠ cur ∨ 32 ≤ m.children.length) ∧ m' = m) := by
  have hl : (addChild pool cur pool.length).length = pool.length := setNode_length _ _ _
  rw [List.getElem?_append_left (by rw [hl]; exact hi)] at h
  unfold addChild at h
  rw [setNode_getElem?, hm] at h
  by_cases hic : i = cur
  · rw [if_pos hic] at h
    simp only [Option.map_some', Option.some.injEq] at h
    by_cases hlen : m.children.length < 32
    · rw [if_pos hlen] at h
      left
      exact ⟨hic, hlen, by rw [← h]⟩
    · rw [if_neg hlen] at h
      right
      exact ⟨Or.inr (by omega), h.symm⟩
  · rw [if_neg hic] at h
    simp only [Option.some.injEq] at h
    right
    exact ⟨Or.inl hic, h.symm⟩

/-- A property of nodes that does not depend on their children and holds for the
root and for every node that an iteration makes holds for every node of the tree
that `html_parse` returns. -/
theorem parse_nodes (Q : HtmlNode → Prop)
    (hcore : ∀ m m' : HtmlNode, core m' = core m → Q m → Q m')
    (hroot : Q { blankNode with type := NODE_ELEMENT, tag := TAG_HTML })
    (hnew : ∀ m : HtmlNode, NewNode m → m.children = [] → Q m)
    (pool : List HtmlNode) (html : List Char) (a : List HtmlNode)
    (h : html_parse pool html = some a) :
    ∀ (i : Nat) (m : HtmlNode), a[i]? = some m → Q m := by
  unfold html_parse at h
  cases hr : run (html.length + 1) (initState pool html) with
  | none => rw [hr] at h; exact absurd h (by simp)
  | some sf =>
    rw [hr] at h
    simp only [Option.map_some', Option.some.injEq] at h
    have := run_keeps
      (fun t => Inv none t ∧ ∀ (i : Nat) (m : HtmlNode), t.pool[i]? = some m → Q m)
      (fun t t' ht hst => by
        refine ⟨inv_step none t t' ht.1 hst, ?_⟩
        rcases step_new t t' ht.1.2.1 hst with hp | ⟨new, hp, _, _, hch, hn⟩
        · rw [hp]; exact ht.2
        · intro i m' hm'
          rw [hp] at hm'
          rcases push_cases _ _ _ _ _ hm' with ⟨_, m, e1, e2, _⟩ | ⟨_, e⟩
          · exact hcore m m' e2 (ht.2 i m e1)
          · rw [e]; exact hnew new hn hch)
      _ _ _ ⟨inv_init pool html, ?_⟩ hr
    · rw [← h]; exact this.2
    · intro i m hm
      have e : (initState pool html).pool
          = [{ blankNode with type := NODE_ELEMENT, tag := TAG_HTML }] := rfl
      rw [e] at hm
      cases i with
      | zero =>
        simp only [List.getElem?_cons_zero, Option.some.injEq] at hm
        rw [← hm]
        exact hroot
      | succ i => simp at hm

/-! ### Text nodes and the children of a node -/

theorem step_ws_only (s : PState) (hw : ∀ c ∈ s.ptr, isWs c = true) :
    step s = Step.next { s with ptr := [] } := by
  have hd : s.ptr.dropWhile isWs = [] := by
    rw [List.dropWhile_eq_nil_iff]
    exact hw
  simp only [step, hd]
  rw [if_neg (by decide)]
  simp [textNode, textLoop, trimEnd]

theorem step_skip_ws (pool : List HtmlNode) (cur : Nat) (w r : List Char)
    (hw : ∀ c ∈ w, isWs c = true) (s' : PState) :
    step ⟨pool, cur, w ++ '<' :: r⟩ = Step.next s' ↔ step ⟨pool, cur, '<' :: r⟩ = Step.next s' := by
  rw [step_at_lt ⟨pool, cur, w ++ '<' :: r⟩ w r hw rfl,
    step_at_lt ⟨pool, cur, '<' :: r⟩ [] r (by simp) rfl]
  split
  · exact Iff.rfl
  · split
    · exact Iff.rfl
    · split
      · exact Iff.rfl
      · rcases openTag_congr ⟨pool, cur, w ++ '<' :: r⟩ ⟨pool, cur, '<' :: r⟩ ('<' :: r) ('<' :: r)
          ((copyWhile tagNameChar 31 r).1.map lowerChar, (copyWhile tagNameChar 31 r).2)
          (html_match_tag ((copyWhile tagNameChar 31 r).1.map lowerChar)) rfl rfl Iff.rfl
          with ⟨t, h1, h2⟩ | ⟨h1, h2⟩
        · rw [h1, h2]
        · rw [h1, h2]
          simp

/-- C21. Every text node that `html_parse` makes is well-formed, and white space
alone makes no node.  In every tree that `html_parse` returns, the text of every
text node is not empty, has at most 255 bytes, holds no line feed, carriage
return or tabulator, and neither begins nor ends with a space.  An iteration of
the main loop that starts at white space in front of a `<` does what it does
when it starts at that `<`, so the white space between two tags makes no node;
at white space that runs to the end of the text it makes no node either.  The
text `<p>`, space, line feed, tabulator, space, `</p>` parses to the root and a
`p` element without children. -/
theorem text_nodes_wellformed :
    (∀ (pool : List HtmlNode) (html : List Char) (a : List HtmlNode),
      html_parse pool html = some a →
      ∀ (i : Nat) (m : HtmlNode), a[i]? = some m → m.type = NODE_TEXT → TextOk m.text) ∧
    (∀ (pool : List HtmlNode) (cur : Nat) (w r : List Char) (s' : PState),
      (∀ c ∈ w, isWs c = true) →
      (step ⟨pool, cur, w ++ '<' :: r⟩ = Step.next s' ↔
        step ⟨pool, cur, '<' :: r⟩ = Step.next s')) ∧
    (∀ s : PState, (∀ c ∈ s.ptr, isWs c = true) → step s = Step.next { s with ptr := [] }) ∧
    html_parse [] ("<p>".toList ++ [' ', LF, TAB, ' '] ++ "</p>".toList) = some
      [{ blankNode with type := NODE_ELEMENT, tag := TAG_HTML, children := [1] },
       { blankNode with type := NODE_ELEMENT, tag := TAG_P, text := "p".toList,
                        parent := some 0 }] := by
  refine ⟨?_, fun pool cur w r s' hw => step_skip_ws pool cur w r hw s',
    step_ws_only, by decide⟩
  intro pool html a h
  exact parse_nodes (fun m => m.type = NODE_TEXT → TextOk m.text)
    (fun m m' hc hq ht => by
      have e1 : m'.type = m.type := (congrArg HtmlNode.type hc : (core m').type = (core m).type)
      have e2 : m'.text = m.text := (congrArg HtmlNode.text hc : (core m').text = (core m).text)
      rw [e2]
      exact hq (e1 ▸ ht))
    (fun ht => absurd ht (by decide))
    (fun m hn _ ht => by
      rcases hn with ⟨he, _⟩ | ⟨_, _, hok⟩
      · rw [he] at ht
        exact absurd ht (by decide)
      · exact hok)
    pool html a h

/-- C22. Two spaces in a row are kept.  The text `a  b`, with two spaces, parses
to a text node with the content `a  b`: a space of the text is stored whatever
stands in front of it, only a line feed, carriage return or tabulator is dropped
behind a space.  So `a`, line feed, space, `b` gives two spaces in a row as
well. -/
theorem double_space_kept :
    html_parse [] "a  b".toList = some
      [{ blankNode with type := NODE_ELEMENT, tag := TAG_HTML, children := [1] },
       { blankNode with type := NODE_TEXT, text := "a  b".toList, parent := some 0 }] ∧
    html_parse [] ('a' :: LF :: ' ' :: 'b' :: []) = some
      [{ blankNode with type := NODE_ELEMENT, tag := TAG_HTML, children := [1] },
       { blankNode with type := NODE_TEXT, text := "a  b".toList, parent := some 0 }] ∧
    [' ', ' '] <:+: "a  b".toList := by
  refine ⟨by decide, by decide, ⟨['a'], ['b'], rfl⟩⟩

theorem setNode_same (f : HtmlNode → HtmlNode) :
    ∀ (l : List HtmlNode) (i : Nat), (∀ m, l[i]? = some m → f m = m) → setNode l i f = l
  | [], _, _ => rfl
  | n :: ns, 0, h => by
    simp only [setNode]
    rw [h n (List.getElem?_cons_zero)]
  | n :: ns, i + 1, h => by
    simp only [setNode, List.cons.injEq, true_and]
    exact setNode_same f ns i (fun m hm => h m (by simpa using hm))

set_option maxRecDepth 20000 in
theorem br33_tree :
    (html_parse [] br33).map
        (fun a => (a.length, a[0]?.map (fun m => m.children),
                   a[33]?.map (fun m => (m.tag, m.parent))))
      = some (34, some (List.range' 1 32), some (TAG_BR, some 0)) := by
  rfl

/-- C24. No node has more than 32 children.  In every tree that `html_parse`
returns every list of children has at most 32 entries.  The statement that
enters a node in the children of its parent leaves the arena as it is when the
parent has 32 children, and puts the node behind the children that are there
when it has less: the children entered before are never changed.  An iteration
of the main loop at an insertion point with 32 children leaves every node that
was there as it was; the node it makes has the insertion point as its parent.
In the tree of 33 tags `<br>` the root has the first 32 of them as its children,
and the last one, the node 33, has the root as its parent. -/
theorem children_capped :
    (∀ (pool : List HtmlNode) (html : List Char) (a : List HtmlNode),
      html_parse pool html = some a →
      ∀ (i : Nat) (m : HtmlNode), a[i]? = some m → m.children.length ≤ 32) ∧
    (∀ (pool : List HtmlNode) (cur node : Nat) (m : HtmlNode), pool[cur]? = some m →
      (32 ≤ m.children.length → addChild pool cur node = pool) ∧
      (m.children.length < 32 →
        (addChild pool cur node)[cur]? = some { m with children := m.children ++ [node] })) ∧
    (∀ (s s' : PState) (m : HtmlNode), s.current < s.pool.length →
      s.pool[s.current]? = some m → 32 ≤ m.children.length → step s = Step.next s' →
      (∀ i, i < s.pool.length → s'.pool[i]? = s.pool[i]?) ∧
      ∀ (i : Nat) (m' : HtmlNode), s.pool.length ≤ i → s'.pool[i]? = some m' →
        m'.parent = some s.current) ∧
    (html_parse [] br33).map
        (fun a => (a.length, a[0]?.map (fun m => m.children),
                   a[33]?.map (fun m => (m.tag, m.parent))))
      = some (34, some (List.range' 1 32), some (TAG_BR, some 0)) := by
  have hfull : ∀ (pool : List HtmlNode) (cur node : Nat) (m : HtmlNode), pool[cur]? = some m →
      32 ≤ m.children.length → addChild pool cur node = pool := by
    intro pool cur node m hm hlen
    unfold addChild
    apply setNode_same
    intro m' hm'
    rw [hm] at hm'
    simp only [Option.some.injEq] at hm'
    rw [← hm', if_neg (by omega)]
  refine ⟨?_, ?_, ?_, br33_tree⟩
  · intro pool html a h
    unfold html_parse at h
    cases hr : run (html.length + 1) (initState pool html) with
    | none => rw [hr] at h; exact absurd h (by simp)
    | some sf =>
      rw [hr] at h
      simp only [Option.map_some', Option.some.injEq] at h
      have := run_keeps
        (fun t => Inv none t ∧
          ∀ (i : Nat) (m : HtmlNode), t.pool[i]? = some m → m.children.length ≤ 32)
        (fun t t' ht hst => by
          refine ⟨inv_step none t t' ht.1 hst, ?_⟩
          rcases step_new t t' ht.1.2.1 hst with hp | ⟨new, hp, _, _, hch, _⟩
          · rw [hp]; exact ht.2
          · intro i m' hm'
            rw [hp] at hm'
            rcases push_cases _ _ _ _ _ hm' with ⟨hi, m, e1, _, _⟩ | ⟨_, e⟩
            · rcases push_children _ _ _ _ m m' hi e1 hm' with ⟨_, hl, hc⟩ | ⟨_, hc⟩
              · rw [hc]
                simp only [List.length_append, List.length_singleton]
                omega
              · rw [hc]; exact ht.2 i m e1
            · rw [e, hch]; exact Nat.zero_le _)
        _ _ _ ⟨inv_init pool html, ?_⟩ hr
      · rw [← h]; exact this.2
      · intro i m hm
        have e : (initState pool html).pool
            = [{ blankNode with type := NODE_ELEMENT, tag := TAG_HTML }] := rfl
        rw [e] at hm
        cases i with
        | zero =>
          simp only [List.getElem?_cons_zero, Option.some.injEq] at hm
          rw [← hm]
          exact Nat.zero_le _
        | succ i => simp at hm
  · intro pool cur node m hm
    refine ⟨hfull pool cur node m hm, ?_⟩
    intro hlen
    unfold addChild
    rw [setNode_getElem?, if_pos rfl, hm]
    simp only [Option.map_some', Option.some.injEq]
    rw [if_pos hlen]
  · intro s s' m hcur hm hlen hst
    rcases step_new s s' hcur hst with hp | ⟨new, hp, _, hpar, _, _⟩
    · rw [hp]
      refine ⟨fun i _ => rfl, ?_⟩
      intro i m' hi hm'
      have := (List.getElem?_eq_some_iff.1 hm').1
      omega
    · rw [hp, hfull s.pool s.current s.pool.length m hm hlen]
      refine ⟨fun i hi => List.getElem?_append_left hi, ?_⟩
      intro i m' hi hm'
      rw [List.getElem?_append_right hi] at hm'
      cases hd : i - s.pool.length with
      | zero =>
        rw [hd] at hm'
        simp only [List.getElem?_cons_zero, Option.some.injEq] at hm'
        rw [← hm']; exact hpar
      | succ d => rw [hd] at hm'; simp at hm'

/-! ### The result of the main loop -/

theorem skipGt_suffix (p : List Char) : skipGt p <:+ p := by
  unfold skipGt
  split
  · exact List.tail_suffix p
  · exact List.suffix_refl p

theorem skipToGt_suffix (p : List Char) : skipToGt p <:+ p := List.dropWhile_suffix _

theorem copyWhile_snd_suffix (cond : Char → Bool) (n : Nat) (p : List Char) :
    (copyWhile cond n p).2 <:+ p := by
  rw [copyWhile_snd]
  exact List.drop_suffix _ _

/-- Every iteration of the main loop leaves the pointer inside the text. -/
theorem step_suffix (s s' : PState) (h : step s = Step.next s') : s'.ptr <:+ s.ptr := by
  have hws : s.ptr.dropWhile isWs <:+ s.ptr := List.dropWhile_suffix _
  simp only [step] at h
  split at h
  · have ht : (s.ptr.dropWhile isWs).tail <:+ s.ptr := (List.tail_suffix _).trans hws
    split at h
    · split at h
      · exact absurd h (by simp)
      · simp only [Step.next.injEq] at h
        rw [← h]
        exact (List.drop_suffix _ _).trans ht
    · split at h
      · simp only [Step.next.injEq] at h
        rw [← h]
        exact (((skipGt_suffix _).trans (skipToGt_suffix _)).trans (List.tail_suffix _)).trans ht
      · split at h
        · simp only [Step.next.injEq] at h
          rw [← h]
          exact (((skipGt_suffix _).trans (skipToGt_suffix _)).trans
            (copyWhile_snd_suffix _ _ _)).trans ht
        · rw [openTag_ptr _ _ _ _ _ h]
          exact (((skipGt_suffix _).trans (skipToGt_suffix _)).trans
            (copyWhile_snd_suffix _ _ _)).trans ht
  · rw [textNode_ptr _ _ _ h]
    exact (textLoop_suffix _ _).trans hws

/-- An iteration of the main loop ends with the null pointer only at the text
`<!--`. -/
theorem step_fault (s : PState) (h : step s = Step.fault) : "<!--".toList <:+: s.ptr := by
  have hws : s.ptr.dropWhile isWs <:+ s.ptr := List.dropWhile_suffix _
  simp only [step] at h
  split at h
  · rename_i hlt
    obtain ⟨q, hq⟩ := deref_eq_lt hlt
    rw [hq] at h
    simp only [List.tail_cons] at h
    split at h
    · rename_i hc
      have : "<!--".toList <+: s.ptr.dropWhile isWs := by
        rw [hq]
        match q, hc with
        | a :: b :: c :: l, hc =>
          simp only [deref, List.headD_cons, List.tail_cons] at hc
          rw [hc.1, hc.2.1, hc.2.2]
          exact ⟨l, rfl⟩
        | [], hc => exact absurd hc.1 (by decide)
        | [_], hc => exact absurd (show NUL = '-' from hc.2.1) (by decide)
        | [_, _], hc => exact absurd (show NUL = '-' from hc.2.2) (by decide)
      exact this.isInfix.trans hws.isInfix
    · split at h
      · exact absurd h (by simp)
      · split at h
        · exact absurd h (by simp)
        · unfold openTag at h
          split at h <;> exact absurd h (by simp)
  · simp only [textNode] at h
    split at h
    · split at h <;> exact absurd h (by simp)
    · exact absurd h (by simp)

/-- The main loop ends with a tree on every text without `<!--`. -/
theorem run_isSome (html : List Char) (hno : ¬ "<!--".toList <:+: html) :
    ∀ (k : Nat) (s : PState), s.ptr <:+ html → (run k s).isSome = true
  | 0, s, _ => rfl
  | k + 1, s, hs => by
    simp only [run]
    split
    · rfl
    · cases hst : step s with
      | next s' => exact run_isSome html hno k s' ((step_suffix s s' hst).trans hs)
      | stop s' => rfl
      | fault => exact absurd ((step_fault s hst).trans hs.isInfix) hno

theorem run_full (k : Nat) (s sf : PState) (hinv : Inv none s)
    (hfull : MAX_NODES ≤ s.pool.length) (h : run k s = some sf) : sf.pool = s.pool := by
  have := run_keeps (fun t => Inv none t ∧ t.pool = s.pool)
    (fun t t' ht hst => by
      refine ⟨inv_step none t t' ht.1 hst, ?_⟩
      rcases step_new t t' ht.1.2.1 hst with hp | ⟨new, _, hroom, _⟩
      · rw [hp]; exact ht.2
      · rw [ht.2] at hroom
        omega)
    k s sf ⟨hinv, rfl⟩ h
  exact this.2

/-- C23. `html_parse` fails on a comment that is not closed.  On the text
`<!-- x` the main loop ends with the null pointer that `kstrstr` has returned in
`ptr`, which the test `*ptr` of the loop dereferences: nothing is returned.  On
every text in which `<!--` does not occur `html_parse` returns a tree.  Every
tree it returns has the root as its node 0, an element with the tag kind `html`
and no parent, and at least 1 and at most 512 nodes; once the arena holds 512
nodes the main loop adds none and what it returns is the arena as it is. -/
theorem html_parse_unclosed_comment :
    html_parse [] "<!-- x".toList = none ∧
    (∀ (pool : List HtmlNode) (html : List Char), ¬ "<!--".toList <:+: html →
      (html_parse pool html).isSome = true) ∧
    (∀ (pool : List HtmlNode) (html : List Char) (a : List HtmlNode),
      html_parse pool html = some a →
      1 ≤ a.length ∧ a.length ≤ 512 ∧
      (a[0]?).map (fun m => (m.type, m.tag, m.parent)) = some (NODE_ELEMENT, TAG_HTML, none)) ∧
    (∀ (k : Nat) (s sf : PState), Inv none s → MAX_NODES ≤ s.pool.length →
      run k s = some sf → sf.pool = s.pool) := by
  refine ⟨by decide, ?_, ?_, run_full⟩
  · intro pool html hno
    unfold html_parse
    have := run_isSome html hno (html.length + 1) (initState pool html)
      (by rw [initState_ptr])
    cases hr : run (html.length + 1) (initState pool html) with
    | none => rw [hr] at this; exact absurd this (by decide)
    | some sf => simp
  · intro pool html a h
    unfold html_parse at h
    cases hr : run (html.length + 1) (initState pool html) with
    | none => rw [hr] at h; exact absurd h (by simp)
    | some sf =>
      rw [hr] at h
      simp only [Option.map_some', Option.some.injEq] at h
      have hlen := run_keeps (fun t => Inv none t ∧ t.pool.length ≤ MAX_NODES)
        (fun t t' ht hst => by
          refine ⟨inv_step none t t' ht.1 hst, ?_⟩
          rcases step_new t t' ht.1.2.1 hst with hp | ⟨new, hp, hroom, _⟩
          · rw [hp]; exact ht.2
          · rw [hp, push_length]; omega)
        _ _ _ ⟨inv_init pool html, (by decide : (1 : Nat) ≤ MAX_NODES)⟩ hr
      obtain ⟨_, h0, hcore⟩ := run_core none _ _ sf (inv_init pool html) hr 0
        (Nat.zero_lt_one : (0 : Nat) < 1)
      have hm : sf.pool[0]? = some (sf.pool.get ⟨0, h0⟩) := List.getElem?_eq_getElem h0
      have e : ((initState pool html).pool[0]?).map core
          = some (core { blankNode with type := NODE_ELEMENT, tag := TAG_HTML }) := by
        rfl
      rw [e, hm] at hcore
      simp only [Option.map_some', Option.some.injEq] at hcore
      rw [← h]
      refine ⟨h0, hlen.2, ?_⟩
      rw [hm]
      simp only [Option.map_some', Option.some.injEq, Prod.mk.injEq]
      exact ⟨(congrArg HtmlNode.type hcore : (core _).type = (core _).type),
        (congrArg HtmlNode.tag hcore : (core _).tag = (core _).tag),
        (congrArg HtmlNode.parent hcore : (core _).parent = (core _).parent)⟩

/-! ### The style that render_node restores -/

theorem render_newline_fields (r : Renderer) :
    styleOf (render_newline r).st = styleOf r.st ∧ (render_newline r).st.width = r.st.width ∧
      (render_newline r).st.link = r.st.link ∧ (render_newline r).page_title = r.page_title :=
  ⟨rfl, rfl, rfl, rfl⟩

theorem renderChars_fields : ∀ (t : List Char) (r : Renderer),
    styleOf (renderChars t r).st = styleOf r.st ∧ (renderChars t r).st.width = r.st.width ∧
      (renderChars t r).st.link = r.st.link ∧ (renderChars t r).page_title = r.page_title
  | [], r => ⟨rfl, rfl, rfl, rfl⟩
  | c :: cs, r => by
    simp only [renderChars]
    split
    · exact ⟨rfl, rfl, rfl, rfl⟩
    · have ih := renderChars_fields cs
        { (if r.st.x ≥ r.st.width then render_newline r else r) with
          st := { (if r.st.x ≥ r.st.width then render_newline r else r).st with
                  x := wrap32 ((if r.st.x ≥ r.st.width then render_newline r else r).st.x + 1) },
          log := (if r.st.x ≥ r.st.width then render_newline r else r).log ++
            [DispEvent.set_cursor (if r.st.x ≥ r.st.width then render_newline r else r).st.x
               (if r.st.x ≥ r.st.width then render_newline r else r).st.y, DispEvent.kprint [c]] }
      have h0 : styleOf (if r.st.x ≥ r.st.width then render_newline r else r).st = styleOf r.st ∧
          (if r.st.x ≥ r.st.width then render_newline r else r).st.width = r.st.width ∧
          (if r.st.x ≥ r.st.width then render_newline r else r).st.link = r.st.link ∧
          (if r.st.x ≥ r.st.width then render_newline r else r).page_title = r.page_title := by
        split
        · exact render_newline_fields r
        · exact ⟨rfl, rfl, rfl, rfl⟩
      exact ⟨ih.1.trans h0.1, ih.2.1.trans h0.2.1, ih.2.2.1.trans h0.2.2.1,
        ih.2.2.2.trans h0.2.2.2⟩

/-- The function `render_text` changes the cursor and nothing else of the render
state. -/
theorem render_text_fields (t : List Char) (r : Renderer) :
    styleOf (render_text t r).st = styleOf r.st ∧ (render_text t r).st.width = r.st.width ∧
      (render_text t r).st.link = r.st.link ∧ (render_text t r).page_title = r.page_title :=
  renderChars_fields t _

theorem foldlM_keeps {α : Type} (P : α → Prop) (g : Nat → α → Option α)
    (hg : ∀ c r r', P r → g c r = some r' → P r') :
    ∀ (cs : List Nat) (r r' : α), P r → cs.foldlM (fun x c => g c x) r = some r' → P r'
  | [], r, r', hr, h => by
    simp only [List.foldlM, Option.pure_def, Option.some.injEq] at h
    rw [← h]; exact hr
  | c :: cs, r, r', hr, h => by
    simp only [List.foldlM, Option.bind_eq_bind] at h
    cases hc : g c r with
    | none => rw [hc] at h; exact absurd h (by simp)
    | some r1 =>
      rw [hc] at h
      exact foldlM_keeps P g hg cs r1 r' (hg c r r1 hr hc) h

/-- When `render_node` returns, `indent`, `bold`, `italic` and `color` are what
they were before the call. -/
theorem render_node_style : ∀ (k : Nat) (pool : List HtmlNode) (node : Nat) (r r' : Renderer),
    render_node k pool node r = some r' → styleOf r'.st = styleOf r.st
  | 0, _, _, _, _, h => by simp [render_node] at h
  | k + 1, pool, node, r, r', h => by
    simp only [render_node] at h
    split at h
    · exact absurd h (by simp)
    · rename_i n hn
      split at h
      · simp only [Option.some.injEq] at h
        rw [← h]
        exact (render_text_fields _ _).1
      · split at h
        · split at h
          · simp only [Option.some.injEq] at h
            rw [← h]
          · split at h
            · exact absurd h (by simp)
            · split at h <;> (simp only [Option.some.injEq] at h; rw [← h])
        · split at h
          · exact foldlM_keeps (fun x => styleOf x.st = styleOf r.st) (render_node k pool)
              (fun c x x' hx hc => (render_node_style k pool c x x' hc).trans hx)
              n.children r r' rfl h
          · split at h
            · exact absurd h (by simp)
            · simp only [Option.some.injEq] at h
              rw [← h]
              rfl

theorem foldlM_total {α : Type} (g : Nat → α → Option α) :
    ∀ (cs : List Nat), (∀ c ∈ cs, ∀ r, ∃ r', g c r = some r') →
      ∀ r, ∃ r', cs.foldlM (fun x c => g c x) r = some r'
  | [], _, r => ⟨r, rfl⟩
  | c :: cs, h, r => by
    obtain ⟨r1, h1⟩ := h c (List.mem_cons_self _ _) r
    obtain ⟨r2, h2⟩ := foldlM_total g cs (fun x hx => h x (List.mem_cons_of_mem _ hx)) r1
    exact ⟨r2, by simp only [List.foldlM, Option.bind_eq_bind, h1, Option.some_bind]; exact h2⟩

/-- On an arena in which the children of every node are nodes behind it,
`render_node` returns when its counter is at least the number of the nodes from
the node on. -/
theorem render_node_total (a : List HtmlNode) (ha : ChildrenAfter a) :
    ∀ (d i k : Nat), a.length - i ≤ d → i < a.length → a.length - i ≤ k →
      ∀ r, ∃ r', render_node k a i r = some r'
  | 0, i, k, hd, hi, _ => by omega
  | d + 1, i, k, hd, hi, hk => by
    intro r
    match k, hk with
    | 0, hk => omega
    | k + 1, hk =>
      have hm : a[i]? = some (a.get ⟨i, hi⟩) := List.getElem?_eq_getElem hi
      have hch : ∀ c ∈ (a.get ⟨i, hi⟩).children, ∀ x, ∃ x', render_node k a c x = some x' := by
        intro c hc x
        have := ha i _ hm c hc
        exact render_node_total a ha d c k (by omega) this.2 (by omega) x
      simp only [render_node, hm]
      split
      · exact ⟨_, rfl⟩
      · split
        · cases hh : (a.get ⟨i, hi⟩).children.head? with
          | none => exact ⟨_, rfl⟩
          | some c =>
            have hc : c ∈ (a.get ⟨i, hi⟩).children := List.mem_of_mem_head? hh
            have hlt := (ha i _ hm c hc).2
            have hmc : a[c]? = some (a.get ⟨c, hlt⟩) := List.getElem?_eq_getElem hlt
            simp only [hmc]
            split <;> exact ⟨_, rfl⟩
        · split
          · exact foldlM_total (render_node k a) _ hch r
          · obtain ⟨r2, h2⟩ := foldlM_total (render_node k a) _ hch (preHook (a.get ⟨i, hi⟩) r)
            rw [h2]
            exact ⟨_, rfl⟩

theorem parse_children_after (pool : List HtmlNode) (html : List Char) (a : List HtmlNode)
    (h : html_parse pool html = some a) : ChildrenAfter a := by
  unfold html_parse at h
  cases hr : run (html.length + 1) (initState pool html) with
  | none => rw [hr] at h; exact absurd h (by simp)
  | some sf =>
    rw [hr] at h
    simp only [Option.map_some', Option.some.injEq] at h
    have := run_keeps (fun t => Inv none t ∧ ChildrenAfter t.pool)
      (fun t t' ht hst => by
        refine ⟨inv_step none t t' ht.1 hst, ?_⟩
        rcases step_new t t' ht.1.2.1 hst with hp | ⟨new, hp, _, _, hch, _⟩
        · rw [hp]; exact ht.2
        · intro i m' hm' c hc
          rw [hp] at hm'
          rw [hp, push_length]
          rcases push_cases _ _ _ _ _ hm' with ⟨hi, m, e1, _, _⟩ | ⟨_, e⟩
          · rcases push_children _ _ _ _ m m' hi e1 hm' with ⟨_, _, hc'⟩ | ⟨_, hc'⟩
            · rw [hc'] at hc
              rcases List.mem_append.1 hc with hc | hc
              · have := ht.2 i m e1 c hc
                omega
              · rw [List.mem_singleton.1 hc]
                omega
            · rw [hc'] at hc
              have := ht.2 i m e1 c hc
              omega
          · rw [e, hch] at hc
            simp at hc)
      _ _ _ ⟨inv_init pool html, ?_⟩ hr
    · rw [← h]; exact this.2
    · intro i m hm c hc
      have e : (initState pool html).pool
          = [{ blankNode with type := NODE_ELEMENT, tag := TAG_HTML }] := rfl
      rw [e] at hm
      cases i with
      | zero =>
        simp only [List.getElem?_cons_zero, Option.some.injEq] at hm
        rw [← hm] at hc
        simp [blankNode] at hc
      | succ i => simp at hm

/-- The renderer returns on every tree that `html_parse` returns. -/
theorem render_parsed (pool : List HtmlNode) (html : List Char) (a : List HtmlNode)
    (h : html_parse pool html = some a) (r : Renderer) :
    ∃ r', render_node a.length a 0 r = some r' := by
  have ha := parse_children_after pool html a h
  have hlen : 0 < a.length := by
    unfold html_parse at h
    cases hr : run (html.length + 1) (initState pool html) with
    | none => rw [hr] at h; exact absurd h (by simp)
    | some sf =>
      rw [hr] at h
      simp only [Option.map_some', Option.some.injEq] at h
      have := (run_core none _ _ sf (inv_init pool html) hr 0 (Nat.zero_lt_one : (0 : Nat) < 1)).2.1
      rw [← h]; exact this
  exact render_node_total a ha a.length 0 a.length (by omega) hlen (by omega) r

set_option maxRecDepth 100000 in
theorem ul4_rendered :
    ((html_parse [] ul4).bind (fun a => render_node a.length a 0 freshRenderer)).map
        (fun r => (r.st.indent, r.st.bold, r.st.italic, r.st.color, emitted r.log))
      = some (0, 0, 0, 0x0F, "* a* b* c* de".toList) := by
  decide

/-- C25. `render_node` restores the style.  For every arena, every node of it and
every state of the renderer, when `render_node` returns, `indent`, `bold`,
`italic` and `color` have the values they had before the call; so they have for
every `ul`, whatever the depth of the lists, and behind the whole rendering.  On
every tree that `html_parse` returns `render_node` does return.  Four lists `ul`
one in the other are rendered from the initial state with the indent 0 behind
them. -/
theorem render_node_restores_style :
    (∀ (k : Nat) (pool : List HtmlNode) (node : Nat) (r r' : Renderer),
      render_node k pool node r = some r' →
      r'.st.indent = r.st.indent ∧ r'.st.bold = r.st.bold ∧ r'.st.italic = r.st.italic ∧
        r'.st.color = r.st.color) ∧
    (∀ (pool : List HtmlNode) (html : List Char) (a : List HtmlNode) (r : Renderer),
      html_parse pool html = some a → ∃ r', render_node a.length a 0 r = some r') ∧
    ((html_parse [] ul4).bind (fun a => render_node a.length a 0 freshRenderer)).map
        (fun r => (r.st.indent, r.st.bold, r.st.italic, r.st.color, emitted r.log))
      = some (0, 0, 0, 0x0F, "* a* b* c* de".toList) := by
  refine ⟨?_, fun pool html a r h => render_parsed pool html a h r, ul4_rendered⟩
  intro k pool node r r' h
  have := render_node_style k pool node r r' h
  simp only [styleOf, Prod.mk.injEq] at this
  exact this

/-! ### The flag link -/

theorem hrLoop_fields : ∀ (k : Nat) (i : Int) (r : Renderer),
    styleOf (hrLoop k i r).st = styleOf r.st ∧ (hrLoop k i r).st.width = r.st.width ∧
      (hrLoop k i r).st.link = r.st.link ∧ (hrLoop k i r).page_title = r.page_title
  | 0, _, r => ⟨rfl, rfl, rfl, rfl⟩
  | k + 1, i, r => by
    simp only [hrLoop]
    split
    · have ih := hrLoop_fields k (i + 1) (render_text "-".toList r)
      have h0 := render_text_fields "-".toList r
      exact ⟨ih.1.trans h0.1, ih.2.1.trans h0.2.1, ih.2.2.1.trans h0.2.2.1,
        ih.2.2.2.trans h0.2.2.2⟩
    · exact ⟨rfl, rfl, rfl, rfl⟩

/-- The first `switch` of `render_node` leaves the width and the title as they
are, and the flag `link` too, except for the tag `a`, for which it sets it. -/
theorem preHook_fields (n : HtmlNode) (r : Renderer) :
    (preHook n r).st.width = r.st.width ∧
    (preHook n r).st.link = (if n.tag = TAG_A then 1 else r.st.link) ∧
    (preHook n r).page_title = r.page_title := by
  unfold preHook
  by_cases h1 : n.tag = TAG_H1
  · rw [if_pos h1, if_neg (by rw [h1]; decide)]
    exact ⟨rfl, rfl, rfl⟩
  rw [if_neg h1]
  by_cases h2 : n.tag = TAG_H2
  · rw [if_pos h2, if_neg (by rw [h2]; decide)]
    exact ⟨rfl, rfl, rfl⟩
  rw [if_neg h2]
  by_cases h3 : n.tag = TAG_H3
  · rw [if_pos h3, if_neg (by rw [h3]; decide)]
    exact ⟨rfl, rfl, rfl⟩
  rw [if_neg h3]
  by_cases h4 : n.tag = TAG_P
  · rw [if_pos h4, if_neg (by rw [h4]; decide)]
    exact ⟨rfl, rfl, rfl⟩
  rw [if_neg h4]
  by_cases h5 : n.tag = TAG_A
  · rw [if_pos h5, if_pos h5]
    have := render_text_fields "[".toList { r with st := { r.st with color := 0x09, link := 1 } }
    exact ⟨this.2.1, this.2.2.1, this.2.2.2⟩
  rw [if_neg h5, if_neg h5]
  by_cases h6 : n.tag = TAG_UL
  · rw [if_pos h6]
    exact ⟨rfl, rfl, rfl⟩
  rw [if_neg h6]
  by_cases h7 : n.tag = TAG_LI
  · rw [if_pos h7]
    have := render_text_fields "* ".toList (render_newline r)
    exact ⟨this.2.1, this.2.2.1, this.2.2.2⟩
  rw [if_neg h7]
  by_cases h8 : n.tag = TAG_B
  · rw [if_pos h8]
    exact ⟨rfl, rfl, rfl⟩
  rw [if_neg h8]
  by_cases h9 : n.tag = TAG_I
  · rw [if_pos h9]
    exact ⟨rfl, rfl, rfl⟩
  rw [if_neg h9]
  by_cases h10 : n.tag = TAG_HR
  · rw [if_pos h10]
    have := hrLoop_fields (wrap32 ((render_newline r).st.width - (render_newline r).st.indent)).toNat
      0 (render_newline r)
    exact ⟨this.2.1, this.2.2.1, this.2.2.2⟩
  rw [if_neg h10]
  by_cases h11 : n.tag = TAG_BR
  · rw [if_pos h11]
    exact ⟨rfl, rfl, rfl⟩
  rw [if_neg h11]
  by_cases h12 : n.tag = TAG_PRE ∨ n.tag = TAG_CODE
  · rw [if_pos h12]
    exact ⟨rfl, rfl, rfl⟩
  rw [if_neg h12]
  by_cases h13 : n.tag = TAG_IMG
  · rw [if_pos h13]
    have a1 := render_text_fields "[IMG: ".toList r
    have a2 := render_text_fields n.src (render_text "[IMG: ".toList r)
    have a3 := render_text_fields "]".toList (render_text n.src (render_text "[IMG: ".toList r))
    exact ⟨a3.2.1.trans (a2.2.1.trans a1.2.1), a3.2.2.1.trans (a2.2.2.1.trans a1.2.2.1),
      a3.2.2.2.trans (a2.2.2.2.trans a1.2.2.2)⟩
  rw [if_neg h13]
  exact ⟨rfl, rfl, rfl⟩

theorem postHook_fields (tag : Nat) (r : Renderer) :
    (postHook tag r).st.width = r.st.width ∧ (postHook tag r).st.link = r.st.link ∧
    (postHook tag r).page_title = r.page_title := by
  unfold postHook
  split
  · have := render_text_fields "]".toList r
    exact ⟨this.2.1, this.2.2.1, this.2.2.2⟩
  · split
    · exact ⟨rfl, rfl, rfl⟩
    · exact ⟨rfl, rfl, rfl⟩

/-- Nothing in `render_node` clears the flag `link`, and nothing changes the
width. -/
theorem render_node_link : ∀ (k : Nat) (pool : List HtmlNode) (node : Nat) (r r' : Renderer),
    render_node k pool node r = some r' →
    r'.st.width = r.st.width ∧ (r.st.link = 1 → r'.st.link = 1)
  | 0, _, _, _, _, h => by simp [render_node] at h
  | k + 1, pool, node, r, r', h => by
    have hfold : ∀ (cs : List Nat) (x x' : Renderer),
        cs.foldlM (fun y c => render_node k pool c y) x = some x' →
        x'.st.width = x.st.width ∧ (x.st.link = 1 → x'.st.link = 1) := by
      intro cs x x' hx
      exact foldlM_keeps (fun y => y.st.width = x.st.width ∧ (x.st.link = 1 → y.st.link = 1))
        (render_node k pool)
        (fun c y y' hy hc => by
          have := render_node_link k pool c y y' hc
          exact ⟨this.1.trans hy.1, fun hl => this.2 (hy.2 hl)⟩)
        cs x x' ⟨rfl, fun hl => hl⟩ hx
    simp only [render_node] at h
    split at h
    · exact absurd h (by simp)
    · rename_i n hn
      split at h
      · simp only [Option.some.injEq] at h
        rw [← h]
        have := render_text_fields n.text r
        exact ⟨this.2.1, fun hl => this.2.2.1.trans hl⟩
      · split at h
        · split at h
          · simp only [Option.some.injEq] at h
            rw [← h]
            exact ⟨rfl, fun hl => hl⟩
          · split at h
            · exact absurd h (by simp)
            · split at h <;> (simp only [Option.some.injEq] at h; rw [← h]) <;>
                exact ⟨rfl, fun hl => hl⟩
        · split at h
          · exact hfold _ _ _ h
          · split at h
            · exact absurd h (by simp)
            · rename_i r2 h2
              simp only [Option.some.injEq] at h
              rw [← h]
              have hf := hfold _ _ _ h2
              have hp := preHook_fields n r
              have hq := postHook_fields n.tag r2
              refine ⟨hq.1.trans (hf.1.trans hp.1), ?_⟩
              intro hl
              show (postHook n.tag r2).st.link = 1
              rw [hq.2.1]
              apply hf.2
              rw [hp.2.1]
              split
              · rfl
              · exact hl

/-- Behind an element `a` the flag `link` is set. -/
theorem render_a_link (k : Nat) (pool : List HtmlNode) (node : Nat) (n : HtmlNode)
    (r r' : Renderer) (hn : pool[node]? = some n) (ht : n.type ≠ NODE_TEXT)
    (ha : n.tag = TAG_A) (h : render_node k pool node r = some r') : r'.st.link = 1 := by
  cases k with
  | zero => simp [render_node] at h
  | succ k =>
    simp only [render_node, hn, if_neg ht] at h
    rw [if_neg (by rw [ha]; decide), if_neg (by rw [ha]; decide)] at h
    split at h
    · exact absurd h (by simp)
    · rename_i r2 h2
      simp only [Option.some.injEq] at h
      rw [← h]
      show (postHook n.tag r2).st.link = 1
      rw [(postHook_fields n.tag r2).2.1]
      have hf := foldlM_keeps (fun y => y.st.link = 1) (render_node k pool)
        (fun c y y' hy hc => (render_node_link k pool c y y' hc).2 hy)
        n.children (preHook n r) r2
        (by show (preHook n r).st.link = 1
            rw [(preHook_fields n r).2.1, if_pos ha]) h2
      exact hf

/-- The text `<a href=x>l</a>t`. -/
theorem link_example :
    ((html_parse [] "<a href=x>l</a>t".toList).bind
        (fun a => render_node a.length a 0 freshRenderer)).map
        (fun r => (r.st.link, emitted r.log))
      = some (1, "[l]t".toList) := by
  decide

/-- C26. The flag `link` is not restored: `render_node` sets it for an element
`a` and nothing clears it.  For every arena, every node and every state, when
`render_node` returns for an element `a` the flag is 1, whatever it was before;
when it returns for any node from a state with the flag 1, the flag is 1; and the
rendering of the tree of `<a href=x>l</a>t` from the initial state, in which the
flag is 0, prints `[l]t` and ends with the flag 1, so that the text `t` behind the
closed link is rendered with the flag set. -/
theorem link_flag_not_restored :
    (∀ (k : Nat) (pool : List HtmlNode) (node : Nat) (n : HtmlNode) (r r' : Renderer),
      pool[node]? = some n → n.type ≠ NODE_TEXT → n.tag = TAG_A →
      render_node k pool node r = some r' → r'.st.link = 1) ∧
    (∀ (k : Nat) (pool : List HtmlNode) (node : Nat) (r r' : Renderer),
      render_node k pool node r = some r' → r.st.link = 1 → r'.st.link = 1) ∧
    freshRenderer.st.link = 0 ∧
    ((html_parse [] "<a href=x>l</a>t".toList).bind
        (fun a => render_node a.length a 0 freshRenderer)).map
        (fun r => (r.st.link, emitted r.log))
      = some (1, "[l]t".toList) :=
  ⟨fun k pool node n r r' hn ht ha h => render_a_link k pool node n r r' hn ht ha h,
   fun k pool node r r' h => (render_node_link k pool node r r' h).2, rfl, link_example⟩

/-! ### The places of the characters of a text -/

theorem wrap32_range (x : Int) (h0 : -2147483648 ≤ x) (h1 : x < 2147483648) : wrap32 x = x := by
  unfold wrap32
  omega

theorem wrapCol_succ (x0 w d : Int) (j : Nat) :
    wrapCol x0 w d (j + 1) = wrapCol (x0 + 1) w d j := by
  have e1 : x0 + ((j + 1 : Nat) : Int) = x0 + 1 + (j : Int) := by push_cast; ring
  have e2 : ((j + 1 : Nat) : Int) - (w - x0) = (j : Int) - (w - (x0 + 1)) := by push_cast; ring
  simp only [wrapCol, e1, e2]

theorem wrapRow_succ (x0 y0 w d : Int) (j : Nat) :
    wrapRow x0 y0 w d (j + 1) = wrapRow (x0 + 1) y0 w d j := by
  have e1 : x0 + ((j + 1 : Nat) : Int) = x0 + 1 + (j : Int) := by push_cast; ring
  have e2 : ((j + 1 : Nat) : Int) - (w - x0) = (j : Int) - (w - (x0 + 1)) := by push_cast; ring
  simp only [wrapRow, e1, e2]

theorem wrapCol_zero (x0 w d : Int) (h : x0 < w) : wrapCol x0 w d 0 = x0 := by
  simp [wrapCol, h]

theorem wrapRow_zero (x0 y0 w d : Int) (h : x0 < w) : wrapRow x0 y0 w d 0 = y0 := by
  simp [wrapRow, h]

theorem wrapCol_full_zero (w d : Int) : wrapCol w w d 0 = d := by
  simp [wrapCol]

theorem wrapRow_full_zero (y0 w d : Int) : wrapRow w y0 w d 0 = y0 + 1 := by
  simp [wrapRow]

theorem wrapCol_full_succ (w d : Int) (hd : d < w) (j : Nat) :
    wrapCol w w d (j + 1) = wrapCol (d + 1) w d j := by
  have hm : 0 < w - d := by omega
  have hf : ¬ (w + ((j + 1 : Nat) : Int) < w) := by push_cast; omega
  simp only [wrapCol, if_neg hf]
  have e0 : ((j + 1 : Nat) : Int) - (w - w) = (j : Int) + 1 := by push_cast; ring
  rw [e0]
  split
  · rename_i h
    rw [Int.emod_eq_of_lt (by omega) (by omega)]
    ring
  · have e1 : (j : Int) + 1 = (j : Int) - (w - (d + 1)) + 1 * (w - d) := by ring
    rw [e1, Int.add_mul_emod_self]

theorem wrapRow_full_succ (y0 w d : Int) (hd : d < w) (j : Nat) :
    wrapRow w y0 w d (j + 1) = wrapRow (d + 1) (y0 + 1) w d j := by
  have hm : 0 < w - d := by omega
  have hf : ¬ (w + ((j + 1 : Nat) : Int) < w) := by push_cast; omega
  simp only [wrapRow, if_neg hf]
  have e0 : ((j + 1 : Nat) : Int) - (w - w) = (j : Int) + 1 := by push_cast; ring
  rw [e0]
  split
  · rename_i h
    rw [Int.ediv_eq_zero_of_lt (by omega) (by omega)]
    ring
  · have e1 : (j : Int) + 1 = (j : Int) - (w - (d + 1)) + 1 * (w - d) := by ring
    rw [e1, Int.add_mul_ediv_right _ _ (by omega)]
    ring

theorem cellsFrom_shift (x0 y0 x1 y1 w d : Int)
    (hc : ∀ j, wrapCol x0 w d (j + 1) = wrapCol x1 w d j)
    (hr : ∀ j, wrapRow x0 y0 w d (j + 1) = wrapRow x1 y1 w d j) :
    ∀ (cs : List Char) (i : Nat), cellsFrom x0 y0 w d (i + 1) cs = cellsFrom x1 y1 w d i cs
  | [], _ => rfl
  | c :: cs, i => by
    simp only [cellsFrom, hc, hr, cellsFrom_shift x0 y0 x1 y1 w d hc hr cs (i + 1)]

/-- The rows and the columns stay where `wrapCol` and `wrapRow` say. -/
theorem wrapRow_bounds (x0 y0 w d : Int) (hx : x0 ≤ w) (hd : d < w) (i : Nat) :
    y0 ≤ wrapRow x0 y0 w d i ∧ wrapRow x0 y0 w d i ≤ y0 + 1 + i := by
  unfold wrapRow
  split
  · omega
  · rename_i h
    have hm : 0 < w - d := by omega
    have h0 : 0 ≤ ((i : Int) - (w - x0)) := by omega
    have h1 := Int.ediv_nonneg h0 (le_of_lt hm)
    have h2 : ((i : Int) - (w - x0)) / (w - d) ≤ (i : Int) - (w - x0) :=
      Int.ediv_le_self _ h0
    omega

theorem wrapCol_bounds (x0 w d : Int) (hd : d < w) (i : Nat) :
    min x0 d ≤ wrapCol x0 w d i ∧ wrapCol x0 w d i < w := by
  unfold wrapCol
  split
  · omega
  · have hm : 0 < w - d := by omega
    have h1 := Int.emod_nonneg ((i : Int) - (w - x0)) (ne_of_gt hm)
    have h2 := Int.emod_lt_of_pos ((i : Int) - (w - x0)) hm
    omega

theorem endCol_succ (x0 x1 w d : Int) (c0 : Int) (h0 : wrapCol x0 w d 0 = c0)
    (h1 : x1 = c0 + 1)
    (hc : ∀ j, wrapCol x0 w d (j + 1) = wrapCol x1 w d j) (n : Nat) :
    endCol x0 w d (n + 1) = endCol x1 w d n := by
  unfold endCol
  rw [if_neg (Nat.succ_ne_zero n), Nat.add_sub_cancel]
  cases n with
  | zero => rw [if_pos rfl, h0, h1]
  | succ m => rw [if_neg (Nat.succ_ne_zero m), Nat.add_sub_cancel, hc]

theorem endRow_succ (x0 y0 x1 y1 w d : Int) (h0 : wrapRow x0 y0 w d 0 = y1)
    (hr : ∀ j, wrapRow x0 y0 w d (j + 1) = wrapRow x1 y1 w d j) (n : Nat) :
    endRow x0 y0 w d (n + 1) = endRow x1 y1 w d n := by
  unfold endRow
  rw [if_neg (Nat.succ_ne_zero n), Nat.add_sub_cancel]
  cases n with
  | zero => rw [if_pos rfl, h0]
  | succ m => rw [if_neg (Nat.succ_ne_zero m), Nat.add_sub_cancel, hr]

/-- The loop of `render_text` puts the characters where `wrapCol` and `wrapRow`
say. -/
theorem renderChars_wrap : ∀ (text : List Char) (x0 y0 w d b it l : Int) (c : Nat)
    (t : List Char) (lg : List DispEvent),
    NUL ∉ text → -2147483648 ≤ x0 → x0 ≤ w → w < 2147483648 → -2147483648 ≤ d → d < w →
    -2147483648 ≤ y0 → y0 + text.length < 2147483648 →
    renderChars text ⟨⟨x0, y0, w, d, b, it, l, c⟩, t, lg⟩ =
      ⟨⟨endCol x0 w d text.length, endRow x0 y0 w d text.length, w, d, b, it, l, c⟩, t,
        lg ++ cellsFrom x0 y0 w d 0 text⟩
  | [], x0, y0, w, d, b, it, l, c, t, lg, _, _, _, _, _, _, _, _ => by
    simp [renderChars, endCol, endRow, cellsFrom]
  | ch :: cs, x0, y0, w, d, b, it, l, c, t, lg, hn, hx0, hxw, hw, hd0, hdw, hy0, hy => by
    have hch : ch ≠ NUL := fun e => hn (e ▸ List.mem_cons_self _ _)
    have hcs : NUL ∉ cs := fun e => hn (List.mem_cons_of_mem _ e)
    have hlen : ((ch :: cs).length : Int) = (cs.length : Int) + 1 := by simp
    rw [hlen] at hy
    simp only [renderChars, if_neg hch, List.length_cons]
    by_cases hlt : x0 < w
    · rw [if_neg (by simpa using hlt)]
      simp only []
      rw [wrap32_range (x0 + 1) (by omega) (by omega)]
      rw [renderChars_wrap cs (x0 + 1) y0 w d b it l c t _ hcs (by omega) (by omega) hw hd0 hdw
        hy0 (by omega)]
      rw [endCol_succ x0 (x0 + 1) w d x0 (wrapCol_zero x0 w d hlt) rfl
          (wrapCol_succ x0 w d),
        endRow_succ x0 y0 (x0 + 1) y0 w d (wrapRow_zero x0 y0 w d hlt) (wrapRow_succ x0 y0 w d)]
      simp only [cellsFrom, wrapCol_zero x0 w d hlt, wrapRow_zero x0 y0 w d hlt,
        cellsFrom_shift x0 y0 (x0 + 1) y0 w d (wrapCol_succ x0 w d) (wrapRow_succ x0 y0 w d) cs 0,
        List.append_assoc, List.cons_append, List.nil_append]
    · have hxe : x0 = w := by omega
      subst hxe
      rw [if_pos (by simp)]
      simp only [render_newline]
      rw [wrap32_range (y0 + 1) (by omega) (by omega), wrap32_range (d + 1) (by omega) (by omega)]
      rw [renderChars_wrap cs (d + 1) (y0 + 1) x0 d b it l c t _ hcs (by omega) (by omega) hw hd0
        hdw (by omega) (by omega)]
      rw [endCol_succ x0 (d + 1) x0 d d (wrapCol_full_zero x0 d) rfl
          (wrapCol_full_succ x0 d hdw),
        endRow_succ x0 y0 (d + 1) (y0 + 1) x0 d (wrapRow_full_zero y0 x0 d)
          (wrapRow_full_succ y0 x0 d hdw)]
      simp only [cellsFrom, wrapCol_full_zero, wrapRow_full_zero,
        cellsFrom_shift x0 y0 (d + 1) (y0 + 1) x0 d (wrapCol_full_succ x0 d hdw)
          (wrapRow_full_succ y0 x0 d hdw) cs 0,
        List.append_assoc, List.cons_append, List.nil_append]

/-- C28. Text wrapping in `render_text`.  For a text without the terminator,
written from the cursor `(x0, y0)` with `x0 ≤ width` and the indent `d < width`
(all of them values of an `int`, and the rows below `2^31`), `render_text` sets
the colour and then, for each character in turn, puts the cursor and prints the
character: the character `i` at `(x0 + i, y0)` while `x0 + i < width`, and every
later one at the column `d + ((i - (width - x0)) mod (width - d))` of the row
`y0 + 1 + ((i - (width - x0)) div (width - d))`.  Behind the text the cursor is
one column past the last character, in that character's row: there is no wrap
after the last character.  Nothing else of the state changes.  With `x0 = 0`,
`d = 0` and `width = 80` the character `i` is at the column `i mod 80` of the row
`y0 + i div 80`. -/
theorem render_text_wrap (text : List Char) (r : Renderer) (hn : NUL ∉ text)
    (hx0 : -2147483648 ≤ r.st.x) (hxw : r.st.x ≤ r.st.width) (hw : r.st.width < 2147483648)
    (hd0 : -2147483648 ≤ r.st.indent) (hdw : r.st.indent < r.st.width)
    (hy0 : -2147483648 ≤ r.st.y) (hy : r.st.y + text.length < 2147483648) :
    render_text text r =
      { r with st := { r.st with x := endCol r.st.x r.st.width r.st.indent text.length,
                                 y := endRow r.st.x r.st.y r.st.width r.st.indent text.length },
               log := r.log ++ DispEvent.set_color r.st.color ::
                 cellsFrom r.st.x r.st.y r.st.width r.st.indent 0 text } ∧
    (∀ i : Nat, wrapCol r.st.x r.st.width r.st.indent i =
        (if r.st.x + i < r.st.width then r.st.x + i
         else r.st.indent + ((i - (r.st.width - r.st.x)) % (r.st.width - r.st.indent))) ∧
      wrapRow r.st.x r.st.y r.st.width r.st.indent i =
        (if r.st.x + i < r.st.width then r.st.y
         else r.st.y + 1 + ((i - (r.st.width - r.st.x)) / (r.st.width - r.st.indent)))) ∧
    (∀ (i : Nat) (y0 : Int), wrapCol 0 80 0 i = i % 80 ∧ wrapRow 0 y0 80 0 i = y0 + i / 80) := by
  refine ⟨?_, fun i => ⟨rfl, rfl⟩, ?_⟩
  · obtain ⟨⟨x0, y0, w, d, b, it, l, c⟩, t, lg⟩ := r
    simp only [render_text]
    rw [renderChars_wrap text x0 y0 w d b it l c t _ hn hx0 hxw hw hd0 hdw hy0 hy]
    simp only [List.append_assoc, List.cons_append, List.nil_append]
  · intro i y0
    unfold wrapCol wrapRow
    constructor <;> split <;> omega

/-- C28, an instance: the text `abc` written from the column 79 of the row 2 of a
screen of 80 columns. -/
theorem render_text_wrap_witness :
    render_text "abc".toList { freshRenderer with st := { freshRenderer.st with x := 79 } } =
      { freshRenderer with
        st := { freshRenderer.st with x := 2, y := 3 },
        log := [DispEvent.set_color 0x0F, DispEvent.set_cursor 79 2, DispEvent.kprint ['a'],
          DispEvent.set_cursor 0 3, DispEvent.kprint ['b'],
          DispEvent.set_cursor 1 3, DispEvent.kprint ['c']] } :=
  (render_text_wrap "abc".toList { freshRenderer with st := { freshRenderer.st with x := 79 } }
    (by decide) (by decide) (by decide) (by decide) (by decide) (by decide) (by decide)
    (by decide)).1.trans (by decide)

/-! ### The calls of render_node and their styles -/

theorem preHook_style (n : HtmlNode) (r : Renderer) :
    styleOf (preHook n r).st = tagStyle n.tag (styleOf r.st) := by
  unfold preHook tagStyle
  by_cases h1 : n.tag = TAG_H1
  · rw [if_pos h1, if_pos h1]; rfl
  rw [if_neg h1, if_neg h1]
  by_cases h2 : n.tag = TAG_H2
  · rw [if_pos h2, if_pos h2]; rfl
  rw [if_neg h2, if_neg h2]
  by_cases h3 : n.tag = TAG_H3
  · rw [if_pos h3, if_pos h3]; rfl
  rw [if_neg h3, if_neg h3]
  by_cases h4 : n.tag = TAG_P
  · rw [if_pos h4, if_neg (by rw [h4]; decide), if_neg (by rw [h4]; decide),
      if_neg (by rw [h4]; decide), if_neg (by rw [h4]; decide), if_neg (by rw [h4]; decide)]
    rfl
  rw [if_neg h4]
  by_cases h5 : n.tag = TAG_A
  · rw [if_pos h5, if_pos h5]
    exact (render_text_fields "[".toList
      { r with st := { r.st with color := 0x09, link := 1 } }).1
  rw [if_neg h5, if_neg h5]
  by_cases h6 : n.tag = TAG_UL
  · rw [if_pos h6, if_pos h6]; rfl
  rw [if_neg h6, if_neg h6]
  by_cases h7 : n.tag = TAG_LI
  · rw [if_pos h7, if_neg (by rw [h7]; decide), if_neg (by rw [h7]; decide),
      if_neg (by rw [h7]; decide)]
    exact (render_text_fields "* ".toList (render_newline r)).1
  rw [if_neg h7]
  by_cases h8 : n.tag = TAG_B
  · rw [if_pos h8, if_pos h8]; rfl
  rw [if_neg h8, if_neg h8]
  by_cases h9 : n.tag = TAG_I
  · rw [if_pos h9, if_pos h9]; rfl
  rw [if_neg h9, if_neg h9]
  by_cases h10 : n.tag = TAG_HR
  · rw [if_pos h10, if_neg (by rw [h10]; decide)]
    exact (hrLoop_fields (wrap32 ((render_newline r).st.width - (render_newline r).st.indent)).toNat
      0 (render_newline r)).1
  rw [if_neg h10]
  by_cases h11 : n.tag = TAG_BR
  · rw [if_pos h11, if_neg (by rw [h11]; decide)]
    rfl
  rw [if_neg h11]
  by_cases h12 : n.tag = TAG_PRE ∨ n.tag = TAG_CODE
  · rw [if_pos h12, if_pos h12]; rfl
  rw [if_neg h12, if_neg h12]
  by_cases h13 : n.tag = TAG_IMG
  · rw [if_pos h13]
    have a1 := render_text_fields "[IMG: ".toList r
    have a2 := render_text_fields n.src (render_text "[IMG: ".toList r)
    have a3 := render_text_fields "]".toList (render_text n.src (render_text "[IMG: ".toList r))
    exact a3.1.trans (a2.1.trans a1.1)
  rw [if_neg h13]

/-- A call within the loop over the children is a call within the call for one of
the children, entered in a state that has what the calls keep. -/
theorem chain_mem (g : Nat → Renderer → Option Renderer) (f : Nat → Renderer → List Visit)
    (P : Renderer → Prop) (hg : ∀ c r r', P r → g c r = some r' → P r') (v : Visit) :
    ∀ (cs : List Nat) (r : Renderer), P r → v ∈ chain g f cs r →
      ∃ c rc, c ∈ cs ∧ P rc ∧ v ∈ f c rc
  | [], _, _, h => by simp [chain] at h
  | c :: cs, r, hr, h => by
    simp only [chain, List.mem_append] at h
    rcases h with h | h
    · exact ⟨c, r, List.mem_cons_self _ _, hr, h⟩
    · cases hc : g c r with
      | none => rw [hc] at h; simp at h
      | some r' =>
        rw [hc] at h
        obtain ⟨c', rc, h1, h2, h3⟩ := chain_mem g f P hg v cs r' (hg c r r' hr hc) h
        exact ⟨c', rc, List.mem_cons_of_mem _ h1, h2, h3⟩

/-- The style in which a call is entered is made by the tags of the elements
around the node, from the style of the outermost call. -/
theorem visits_style : ∀ (k : Nat) (pool : List HtmlNode) (node : Nat) (p : List Nat)
    (r : Renderer) (v : Visit), v ∈ visits k pool node p r →
    ∃ q, v.above = q ++ p ∧ styleOf v.entry.st = q.foldr tagStyle (styleOf r.st) ∧
      v.entry.st.width = r.st.width
  | 0, _, _, _, _, _, h => by simp [visits] at h
  | k + 1, pool, node, p, r, v, h => by
    simp only [visits] at h
    split at h
    · simp at h
    · rename_i n hn
      rcases List.mem_cons.1 h with h | h
      · rw [h]
        exact ⟨[], rfl, rfl, rfl⟩
      · split at h
        · simp at h
        · split at h
          · simp at h
          · rename_i ht
            have hr0 : styleOf (if n.tag = TAG_HEAD then r else preHook n r).st
                  = tagStyle n.tag (styleOf r.st) ∧
                (if n.tag = TAG_HEAD then r else preHook n r).st.width = r.st.width := by
              split
              · rename_i hh
                refine ⟨?_, rfl⟩
                rw [hh]
                rfl
              · exact ⟨preHook_style n r, (preHook_fields n r).1⟩
            obtain ⟨c, rc, _, hP, hv⟩ := chain_mem (render_node k pool) _
              (fun x => styleOf x.st = tagStyle n.tag (styleOf r.st) ∧ x.st.width = r.st.width)
              (fun c x x' hx hc =>
                ⟨(render_node_style k pool c x x' hc).trans hx.1,
                 (render_node_link k pool c x x' hc).1.trans hx.2⟩)
              v n.children _ hr0 h
            obtain ⟨q, hq1, hq2, hq3⟩ := visits_style k pool c (n.tag :: p) rc v hv
            refine ⟨q ++ [n.tag], by rw [hq1]; simp, ?_, hq3.trans hP.2⟩
            rw [hq2, hP.1, List.foldr_append]
            rfl

/-- A call within the call for `node` is that call or lies below the tag of
`node`. -/
theorem visits_cases (k : Nat) (pool : List HtmlNode) (node : Nat) (p : List Nat)
    (r : Renderer) (n : HtmlNode) (v : Visit) (hn : pool[node]? = some n)
    (h : v ∈ visits k pool node p r) :
    v = ⟨node, p, r⟩ ∨
    ∃ q, v.above = q ++ n.tag :: p ∧
      styleOf v.entry.st = q.foldr tagStyle (tagStyle n.tag (styleOf r.st)) := by
  cases k with
  | zero => simp [visits] at h
  | succ k =>
    simp only [visits, hn] at h
    rcases List.mem_cons.1 h with h | h
    · exact Or.inl h
    · right
      split at h
      · simp at h
      · split at h
        · simp at h
        · have hr0 : styleOf (if n.tag = TAG_HEAD then r else preHook n r).st
              = tagStyle n.tag (styleOf r.st) := by
            split
            · rename_i hh
              rw [hh]
              rfl
            · exact preHook_style n r
          obtain ⟨c, rc, _, hP, hv⟩ := chain_mem (render_node k pool) _
            (fun x => styleOf x.st = tagStyle n.tag (styleOf r.st))
            (fun c x x' hx hc => (render_node_style k pool c x x' hc).trans hx)
            v n.children _ hr0 h
          obtain ⟨q, hq1, hq2, _⟩ := visits_style k pool c (n.tag :: p) rc v hv
          exact ⟨q, hq1, by rw [hq2, hP]⟩

theorem tagStyle_bold (t : Nat) (s : Int × Int × Int × Nat) (h : s.2.1 = 1) :
    (tagStyle t s).2.1 = 1 := by
  unfold tagStyle
  repeat' split
  all_goals first | rfl | exact h

theorem tagStyle_white (t : Nat) (s : Int × Int × Int × Nat) (ht : ¬ tints t)
    (h : s.2.2.2 = 0x0F) : (tagStyle t s).2.2.2 = 0x0F := by
  unfold tints at ht
  unfold tagStyle
  repeat' split
  all_goals first | rfl | exact h | (exfalso; apply ht; tauto)

theorem foldr_tagStyle_bold : ∀ (q : List Nat) (s : Int × Int × Int × Nat),
    s.2.1 = 1 → (q.foldr tagStyle s).2.1 = 1
  | [], _, h => h
  | t :: q, s, h => tagStyle_bold t _ (foldr_tagStyle_bold q s h)

theorem foldr_tagStyle_white : ∀ (q : List Nat) (s : Int × Int × Int × Nat),
    (∀ t ∈ q, ¬ tints t) → s.2.2.2 = 0x0F → (q.foldr tagStyle s).2.2.2 = 0x0F
  | [], _, _, h => h
  | t :: q, s, hq, h =>
    tagStyle_white t _ (hq t (List.mem_cons_self _ _))
      (foldr_tagStyle_white q s (fun u hu => hq u (List.mem_cons_of_mem _ hu)) h)

theorem bold_example :
    ((html_parse [] "<p>Hi <b>there</b></p>".toList).map
        (fun a => (visits a.length a 0 [] freshRenderer).map
          (fun v => (v.node, (a.getD v.node blankNode).text, v.entry.st.bold,
            v.entry.st.color))))
      = some [(0, [], 0, 0x0F), (1, "p".toList, 0, 0x0F), (2, "Hi".toList, 0, 0x0F),
              (3, "b".toList, 0, 0x0F), (4, "there".toList, 1, 0x0F)] ∧
    ((html_parse [] "<p>Hi <b>there</b></p>".toList).bind
        (fun a => render_node a.length a 0 freshRenderer)).map
        (fun r => (r.st.bold, r.st.color, emitted r.log))
      = some (0, 0x0F, "Hithere".toList) := by
  constructor <;> decide

/-- C27, as the code has it.  Bold is scoped to the element `b`: in every call
of `render_node` within the call for an element `b`, that call itself apart, the
flag `bold` is 1 when the call is entered, so every descendant text node is
written while `bold = 1`; the colour is `0x0F` there when none of the elements
between the `b` and the node is an `h1`, `h2`, `a`, `i`, `pre` or `code`.  Two
calls below the same tags are entered with the same indent, flags and colour, so
a text node beside a `b` that is entered with `bold = 0` is written while
`bold = 0`.  For `<p>Hi <b>there</b></p>` the text `Hi` is written with
`bold = 0`, the text `there` with `bold = 1` and the colour `0x0F`, and the
rendering ends with `bold = 0` and the colour `0x0F`. -/
theorem bold_scoped :
    (∀ (k : Nat) (pool : List HtmlNode) (node : Nat) (p : List Nat) (r : Renderer)
        (n : HtmlNode) (v : Visit),
      pool[node]? = some n → n.tag = TAG_B → v ∈ visits k pool node p r →
      v = ⟨node, p, r⟩ ∨
      ∃ q, v.above = q ++ TAG_B :: p ∧ v.entry.st.bold = 1 ∧
        ((∀ t ∈ q, ¬ tints t) → v.entry.st.color = 0x0F)) ∧
    (∀ (k : Nat) (pool : List HtmlNode) (node : Nat) (p : List Nat) (r : Renderer)
        (v w : Visit),
      v ∈ visits k pool node p r → w ∈ visits k pool node p r → v.above = w.above →
      v.entry.st.indent = w.entry.st.indent ∧ v.entry.st.bold = w.entry.st.bold ∧
        v.entry.st.italic = w.entry.st.italic ∧ v.entry.st.color = w.entry.st.color) ∧
    (∀ (t : List Char) (r : Renderer),
      (render_text t r).st.bold = r.st.bold ∧ (render_text t r).st.color = r.st.color) ∧
    ((html_parse [] "<p>Hi <b>there</b></p>".toList).map
        (fun a => (visits a.length a 0 [] freshRenderer).map
          (fun v => (v.node, (a.getD v.node blankNode).text, v.entry.st.bold,
            v.entry.st.color))))
      = some [(0, [], 0, 0x0F), (1, "p".toList, 0, 0x0F), (2, "Hi".toList, 0, 0x0F),
              (3, "b".toList, 0, 0x0F), (4, "there".toList, 1, 0x0F)] ∧
    ((html_parse [] "<p>Hi <b>there</b></p>".toList).bind
        (fun a => render_node a.length a 0 freshRenderer)).map
        (fun r => (r.st.bold, r.st.color, emitted r.log))
      = some (0, 0x0F, "Hithere".toList) := by
  refine ⟨?_, ?_, ?_, bold_example.1, bold_example.2⟩
  · intro k pool node p r n v hn hb hv
    rcases visits_cases k pool node p r n v hn hv with h | ⟨q, hq1, hq2⟩
    · exact Or.inl h
    · right
      rw [hb] at hq1 hq2
      have hs : tagStyle TAG_B (styleOf r.st) = (r.st.indent, 1, r.st.italic, 0x0F) := rfl
      rw [hs] at hq2
      refine ⟨q, hq1, ?_, fun hq => ?_⟩
      · have := foldr_tagStyle_bold q (r.st.indent, 1, r.st.italic, 0x0F) rfl
        rw [← hq2] at this
        exact this
      · have := foldr_tagStyle_white q (r.st.indent, 1, r.st.italic, 0x0F) hq rfl
        rw [← hq2] at this
        exact this
  · intro k pool node p r v w hv hw he
    obtain ⟨q, hq1, hq2, _⟩ := visits_style k pool node p r v hv
    obtain ⟨q', hq1', hq2', _⟩ := visits_style k pool node p r w hw
    have hqq : q = q' := by
      rw [hq1, hq1'] at he
      exact List.append_cancel_right he
    rw [← hqq, ← hq2] at hq2'
    have e := hq2'
    simp only [styleOf, Prod.mk.injEq] at e
    exact ⟨e.1.symm, e.2.1.symm, e.2.2.1.symm, e.2.2.2.symm⟩
  · intro t r
    have e := (render_text_fields t r).1
    simp only [styleOf, Prod.mk.injEq] at e
    exact ⟨e.2.1, e.2.2.2⟩

/-- C27, the counterexample: in `<b><i>x</i></b>` the text `x` lies in an
element `b` that is entered with `bold = 0`, and it is written with `bold = 1`
and the colour `0x07`, which the element `i` sets, not `0x0F`. -/
theorem bold_colour_counterexample :
    ((html_parse [] "<b><i>x</i></b>".toList).map
        (fun a => (visits a.length a 0 [] freshRenderer).map
          (fun v => (v.node, (a.getD v.node blankNode).text, v.above, v.entry.st.bold,
            v.entry.st.color))))
      = some [(0, [], [], 0, 0x0F), (1, "b".toList, [TAG_HTML], 0, 0x0F),
              (2, "i".toList, [TAG_B, TAG_HTML], 1, 0x0F),
              (3, "x".toList, [TAG_I, TAG_B, TAG_HTML], 1, 0x07)] ∧
    ((html_parse [] "<b><i>x</i></b>".toList).bind
        (fun a => render_node a.length a 0 freshRenderer)).map (fun r => r.log)
      = some [DispEvent.set_color 0x07, DispEvent.set_cursor 0 2, DispEvent.kprint ['x']] := by
  exact ⟨by rfl, by decide⟩

/-! ### The indent of a list -/

theorem tagStyle_indent (t : Nat) (s : Int × Int × Int × Nat) :
    (tagStyle t s).1 = if t = TAG_UL then wrap32 (s.1 + 2) else s.1 := by
  unfold tagStyle
  by_cases ht : t = TAG_UL
  · rw [ht]
    rfl
  · rw [if_neg ht, if_neg ht]
    repeat' split
    all_goals rfl

/-- From the indent 0, the indent is twice the number of `ul` among the tags. -/
theorem foldr_tagStyle_indent : ∀ (q : List Nat) (s : Int × Int × Int × Nat),
    s.1 = 0 → q.count TAG_UL < 1073741824 → (q.foldr tagStyle s).1 = 2 * (q.count TAG_UL : Int)
  | [], s, h, _ => by simpa using h
  | t :: q, s, h, hq => by
    have hle : q.count TAG_UL ≤ (t :: q).count TAG_UL := by
      rw [List.count_cons]
      omega
    have ih := foldr_tagStyle_indent q s h (by omega)
    simp only [List.foldr_cons]
    rw [tagStyle_indent]
    by_cases ht : t = TAG_UL
    · have hc : (t :: q).count TAG_UL = q.count TAG_UL + 1 := by
        rw [ht, List.count_cons_self]
      rw [if_pos ht, hc, ih, wrap32_range _ (by omega) (by omega)]
      push_cast
      ring
    · have hc : (t :: q).count TAG_UL = q.count TAG_UL := by
        rw [List.count_cons_of_ne (fun e => ht e.symm)]
      rw [if_neg ht, hc, ih]

/-- The first `switch` for an element `li`, with the indent below the width. -/
theorem preHook_li (n : HtmlNode) (r : Renderer) (hn : n.tag = TAG_LI)
    (h0 : 0 ≤ r.st.indent) (h1 : r.st.indent + 2 ≤ r.st.width) (hw : r.st.width < 2147483648) :
    preHook n r =
      { r with
        st := { r.st with x := r.st.indent + 2, y := wrap32 (r.st.y + 1) },
        log := r.log ++ [DispEvent.set_color r.st.color,
          DispEvent.set_cursor r.st.indent (wrap32 (r.st.y + 1)), DispEvent.kprint ['*'],
          DispEvent.set_cursor (r.st.indent + 1) (wrap32 (r.st.y + 1)),
          DispEvent.kprint [' ']] } := by
  obtain ⟨⟨x0, y0, w, d, b, it, l, c⟩, t, lg⟩ := r
  change 0 ≤ d at h0
  change d + 2 ≤ w at h1
  change w < 2147483648 at hw
  unfold preHook
  rw [if_neg (by rw [hn]; decide), if_neg (by rw [hn]; decide), if_neg (by rw [hn]; decide),
    if_neg (by rw [hn]; decide), if_neg (by rw [hn]; decide), if_neg (by rw [hn]; decide),
    if_pos hn]
  have hs : "* ".toList = ['*', ' '] := rfl
  rw [hs]
  have hA : ¬ w ≤ d := by omega
  have hB : ¬ w ≤ d + 1 := by omega
  have e1 := wrap32_range (d + 1) (by omega) (by omega)
  have e2 := wrap32_range (d + 1 + 1) (by omega) (by omega)
  have e3 : d + 1 + 1 = d + 2 := by ring
  have e4 := wrap32_range (d + 2) (by omega) (by omega)
  have n1 : ¬ '*' = NUL := by decide
  have n2 : ¬ ' ' = NUL := by decide
  simp only [render_text, render_newline, renderChars, if_neg n1, if_neg n2, ge_iff_le,
    if_neg hA, e1, if_neg hB, e2, e3, e4, List.append_assoc, List.cons_append,
    List.nil_append]

theorem ul2_rendered :
    ((html_parse [] ul2).bind (fun a => render_node a.length a 0 freshRenderer)).map
        (fun r => r.log)
      = some [DispEvent.set_color 0x0F, DispEvent.set_cursor 2 3, DispEvent.kprint ['*'],
          DispEvent.set_cursor 3 3, DispEvent.kprint [' '],
          DispEvent.set_color 0x0F, DispEvent.set_cursor 4 3, DispEvent.kprint ['a'],
          DispEvent.set_color 0x0F, DispEvent.set_cursor 4 4, DispEvent.kprint ['*'],
          DispEvent.set_cursor 5 4, DispEvent.kprint [' '],
          DispEvent.set_color 0x0F, DispEvent.set_cursor 6 4, DispEvent.kprint ['b']] := by
  decide

/-- C30. List indentation.  In a rendering from the indent 0, a call with `k`
elements `ul` around its node is entered with the indent `2k` (and the width of
the start).  With the width 80 and `2k + 2 < 80`, the first `switch` for an
element `li` there moves to the column `2k` of the next row, sets the colour and
writes `*` at the column `2k` and a space at the column `2k + 1` of that row, and
leaves the cursor at the column `2k + 2`, where the children of the `li` start;
the call for an element `li` is that `switch`, the children, and the restoring of
the style.  The first `switch` for an element `ul` adds 2 to the indent and does
nothing else.  So it is in `<ul><li>a<ul><li>b</li></ul></li></ul>`. -/
theorem list_indent :
    (∀ (k : Nat) (pool : List HtmlNode) (node : Nat) (r : Renderer) (v : Visit),
      r.st.indent = 0 → v ∈ visits k pool node [] r → v.above.count TAG_UL < 1073741824 →
      v.entry.st.indent = 2 * (v.above.count TAG_UL : Int) ∧
        v.entry.st.width = r.st.width) ∧
    (∀ (k : Nat) (pool : List HtmlNode) (node : Nat) (r : Renderer) (v : Visit) (n : HtmlNode),
      r.st.indent = 0 → r.st.width = 80 → v ∈ visits k pool node [] r →
      pool[v.node]? = some n → n.tag = TAG_LI → 2 * (v.above.count TAG_UL : Int) + 2 < 80 →
      preHook n v.entry =
        { v.entry with
          st := { v.entry.st with x := 2 * (v.above.count TAG_UL : Int) + 2,
                                  y := wrap32 (v.entry.st.y + 1) },
          log := v.entry.log ++ [DispEvent.set_color v.entry.st.color,
            DispEvent.set_cursor (2 * (v.above.count TAG_UL : Int)) (wrap32 (v.entry.st.y + 1)),
            DispEvent.kprint ['*'],
            DispEvent.set_cursor (2 * (v.above.count TAG_UL : Int) + 1)
              (wrap32 (v.entry.st.y + 1)),
            DispEvent.kprint [' ']] }) ∧
    (∀ (k : Nat) (pool : List HtmlNode) (node : Nat) (n : HtmlNode) (r : Renderer),
      pool[node]? = some n → n.type ≠ NODE_TEXT → n.tag = TAG_LI →
      render_node (k + 1) pool node r =
        (n.children.foldlM (fun r' c => render_node k pool c r') (preHook n r)).map
          (fun r2 => { r2 with st := { r2.st with indent := r.st.indent, bold := r.st.bold,
                                                  italic := r.st.italic,
                                                  color := r.st.color } })) ∧
    (∀ (n : HtmlNode) (r : Renderer), n.tag = TAG_UL →
      preHook n r = { r with st := { r.st with indent := wrap32 (r.st.indent + 2) } }) ∧
    ((html_parse [] ul2).bind (fun a => render_node a.length a 0 freshRenderer)).map
        (fun r => r.log)
      = some [DispEvent.set_color 0x0F, DispEvent.set_cursor 2 3, DispEvent.kprint ['*'],
          DispEvent.set_cursor 3 3, DispEvent.kprint [' '],
          DispEvent.set_color 0x0F, DispEvent.set_cursor 4 3, DispEvent.kprint ['a'],
          DispEvent.set_color 0x0F, DispEvent.set_cursor 4 4, DispEvent.kprint ['*'],
          DispEvent.set_cursor 5 4, DispEvent.kprint [' '],
          DispEvent.set_color 0x0F, DispEvent.set_cursor 6 4, DispEvent.kprint ['b']] := by
  have key : ∀ (k : Nat) (pool : List HtmlNode) (node : Nat) (r : Renderer) (v : Visit),
      r.st.indent = 0 → v ∈ visits k pool node [] r → v.above.count TAG_UL < 1073741824 →
      v.entry.st.indent = 2 * (v.above.count TAG_UL : Int) ∧
        v.entry.st.width = r.st.width := by
    intro k pool node r v hr hv hc
    obtain ⟨q, hq1, hq2, hq3⟩ := visits_style k pool node [] r v hv
    rw [List.append_nil] at hq1
    rw [hq1] at hc ⊢
    refine ⟨?_, hq3⟩
    have := foldr_tagStyle_indent q (styleOf r.st) hr hc
    rw [← hq2] at this
    exact this
  refine ⟨key, ?_, ?_, ?_, ul2_rendered⟩
  · intro k pool node r v n hr hw hv hn ht hk
    have hc : v.above.count TAG_UL < 1073741824 := by omega
    obtain ⟨hi, hwd⟩ := key k pool node r v hr hv hc
    rw [hw] at hwd
    have := preHook_li n v.entry ht (by rw [hi]; omega) (by rw [hi, hwd]; omega)
      (by rw [hwd]; decide)
    rw [this, hi]
  · intro k pool node n r hn ht hl
    have hp : ∀ r2, postHook n.tag r2 = r2 := by
      intro r2
      rw [hl]
      rfl
    simp only [render_node, hn, if_neg ht]
    rw [if_neg (by rw [hl]; decide), if_neg (by rw [hl]; decide)]
    cases n.children.foldlM (fun r' c => render_node k pool c r') (preHook n r) with
    | none => rfl
    | some r2 =>
      simp only [Option.map_some', hp]
  · intro n r hn
    unfold preHook
    rw [if_neg (by rw [hn]; decide), if_neg (by rw [hn]; decide), if_neg (by rw [hn]; decide),
      if_neg (by rw [hn]; decide), if_neg (by rw [hn]; decide), if_pos hn]

/-! ### The links of the tree -/

/-- What holds for the arena with the root alone and is kept when a node is added
holds for every tree that `html_parse` returns. -/
theorem parse_keeps (P : List HtmlNode → Prop)
    (hroot : P [{ blankNode with type := NODE_ELEMENT, tag := TAG_HTML }])
    (hadd : ∀ (pool : List HtmlNode) (cur : Nat) (new : HtmlNode), cur < pool.length →
      pool.length < MAX_NODES → new.parent = some cur → new.children = [] → NewNode new →
      P pool → P (addChild pool cur pool.length ++ [new]))
    (pool : List HtmlNode) (html : List Char) (a : List HtmlNode)
    (h : html_parse pool html = some a) : P a := by
  unfold html_parse at h
  cases hr : run (html.length + 1) (initState pool html) with
  | none => rw [hr] at h; exact absurd h (by simp)
  | some sf =>
    rw [hr] at h
    simp only [Option.map_some', Option.some.injEq] at h
    have := run_keeps (fun t => Inv none t ∧ P t.pool)
      (fun t t' ht hst => by
        refine ⟨inv_step none t t' ht.1 hst, ?_⟩
        rcases step_new t t' ht.1.2.1 hst with hp | ⟨new, hp, hroom, hpar, hch, hn⟩
        · rw [hp]; exact ht.2
        · rw [hp]
          exact hadd t.pool t.current new ht.1.2.1 hroom hpar hch hn ht.2)
      _ _ _ ⟨inv_init pool html, hroot⟩ hr
    rw [← h]
    exact this.2

theorem parse_length (pool : List HtmlNode) (html : List Char) (a : List HtmlNode)
    (h : html_parse pool html = some a) : 1 ≤ a.length ∧ a.length ≤ MAX_NODES :=
  parse_keeps (fun pl => 1 ≤ pl.length ∧ pl.length ≤ MAX_NODES)
    ⟨Nat.le_refl 1, by decide⟩
    (fun pl cur new _ hroom _ _ _ _ => by
      show 1 ≤ (addChild pl cur pl.length ++ [new]).length ∧
        (addChild pl cur pl.length ++ [new]).length ≤ MAX_NODES
      rw [push_length]
      exact ⟨by omega, hroom⟩)
    pool html a h

theorem parse_tree_ok (pool : List HtmlNode) (html : List Char) (a : List HtmlNode)
    (h : html_parse pool html = some a) : TreeOk a := by
  have := parse_keeps (fun pl => ChildrenAfter pl ∧ TreeOk pl) ?_ ?_ pool html a h
  · exact this.2
  · refine ⟨?_, ?_, ?_, ?_⟩
    · intro i m hm c hc
      cases i with
      | zero =>
        simp only [List.getElem?_cons_zero, Option.some.injEq] at hm
        rw [← hm] at hc
        simp [blankNode] at hc
      | succ i => simp at hm
    · intro i m hm c hc
      cases i with
      | zero =>
        simp only [List.getElem?_cons_zero, Option.some.injEq] at hm
        rw [← hm] at hc
        simp [blankNode] at hc
      | succ i => simp at hm
    · intro i m hm
      cases i with
      | zero =>
        simp only [List.getElem?_cons_zero, Option.some.injEq] at hm
        rw [← hm]
        simp [blankNode]
      | succ i => simp at hm
    · intro i m j hm hp
      cases i with
      | zero =>
        simp only [List.getElem?_cons_zero, Option.some.injEq] at hm
        rw [← hm] at hp
        simp [blankNode] at hp
      | succ i => simp at hm
  · intro pl cur new hcur _ hpar hch _ ⟨hca, ht1, ht2, ht3⟩
    have hnew : (addChild pl cur pl.length ++ [new])[pl.length]? = some new := by
      have hl : (addChild pl cur pl.length).length = pl.length := setNode_length _ _ _
      rw [List.getElem?_append_right (by rw [hl]), hl, Nat.sub_self]
      rfl
    have hold : ∀ (c : Nat) (mc : HtmlNode), pl[c]? = some mc →
        ∃ mc', (addChild pl cur pl.length ++ [new])[c]? = some mc' ∧ mc'.parent = mc.parent := by
      intro c mc hmc
      have hc : c < pl.length := (List.getElem?_eq_some.1 hmc).1
      have := push_old pl cur new c hc
      rw [hmc] at this
      cases hx : (addChild pl cur pl.length ++ [new])[c]? with
      | none => rw [hx] at this; simp at this
      | some mc' =>
        rw [hx] at this
        simp only [Option.map_some', Option.some.injEq] at this
        exact ⟨mc', rfl, (congrArg HtmlNode.parent this : (core mc').parent = (core mc).parent)⟩
    refine ⟨?_, ?_, ?_, ?_⟩
    · intro i m' hm' c hc
      rw [push_length]
      rcases push_cases _ _ _ _ _ hm' with ⟨hi, m, e1, _, _⟩ | ⟨_, e⟩
      · rcases push_children _ _ _ _ m m' hi e1 hm' with ⟨_, _, hc'⟩ | ⟨_, hc'⟩
        · rw [hc'] at hc
          rcases List.mem_append.1 hc with hc | hc
          · have := hca i m e1 c hc
            omega
          · rw [List.mem_singleton.1 hc]
            omega
        · rw [hc'] at hc
          have := hca i m e1 c hc
          omega
      · rw [e, hch] at hc
        simp at hc
    · intro i m' hm' c hc
      rcases push_cases _ _ _ _ _ hm' with ⟨hi, m, e1, _, _⟩ | ⟨_, e⟩
      · rcases push_children _ _ _ _ m m' hi e1 hm' with ⟨hic, _, hc'⟩ | ⟨_, hc'⟩
        · rw [hc'] at hc
          rcases List.mem_append.1 hc with hc | hc
          · obtain ⟨h1, mc, h2, h3⟩ := ht1 i m e1 c hc
            obtain ⟨mc', h4, h5⟩ := hold c mc h2
            exact ⟨h1, mc', h4, h5.trans h3⟩
          · rw [List.mem_singleton.1 hc]
            exact ⟨hi, new, hnew, by rw [hpar, hic]⟩
        · rw [hc'] at hc
          obtain ⟨h1, mc, h2, h3⟩ := ht1 i m e1 c hc
          obtain ⟨mc', h4, h5⟩ := hold c mc h2
          exact ⟨h1, mc', h4, h5.trans h3⟩
      · rw [e, hch] at hc
        simp at hc
    · intro i m' hm'
      rcases push_cases _ _ _ _ _ hm' with ⟨hi, m, e1, _, _⟩ | ⟨_, e⟩
      · rcases push_children _ _ _ _ m m' hi e1 hm' with ⟨_, _, hc'⟩ | ⟨_, hc'⟩
        · rw [hc', List.pairwise_append]
          refine ⟨ht2 i m e1, List.pairwise_singleton _ _, ?_⟩
          intro x hx y hy
          rw [List.mem_singleton.1 hy]
          exact (hca i m e1 x hx).2
        · rw [hc']
          exact ht2 i m e1
      · rw [e, hch]
        exact List.Pairwise.nil
    · intro i m' j hm' hp
      rcases push_cases _ _ _ _ _ hm' with ⟨hi, m, e1, e2, _⟩ | ⟨hi, e⟩
      · have : m'.parent = m.parent :=
          (congrArg HtmlNode.parent e2 : (core m').parent = (core m).parent)
        rw [this] at hp
        exact ht3 i m j e1 hp
      · rw [e, hpar] at hp
        simp only [Option.some.injEq] at hp
        omega

/-! ### No node is rendered twice -/

theorem up_add (a : List HtmlNode) (n : Nat) : ∀ (m j : Nat),
    up a (n + m) j = (up a n j).bind (up a m)
  | 0, j => by simp [up]
  | m + 1, j => by
    rw [← Nat.add_assoc]
    simp only [up]
    rw [up_add a n m j, Option.bind_assoc]

theorem up_le (a : List HtmlNode) (ha : TreeOk a) : ∀ (n j i : Nat),
    up a n j = some i → i ≤ j ∧ (0 < n → i < j)
  | 0, j, i, h => by
    simp only [up, Option.some.injEq] at h
    exact ⟨by omega, fun h0 => absurd h0 (by decide)⟩
  | n + 1, j, i, h => by
    simp only [up] at h
    cases hx : up a n j with
    | none => rw [hx] at h; simp at h
    | some x =>
      rw [hx] at h
      simp only [Option.some_bind] at h
      cases hm : a[x]? with
      | none => rw [hm] at h; simp at h
      | some m =>
        rw [hm] at h
        simp only [Option.some_bind] at h
        have h1 := ha.2.2 x m i hm h
        have h2 := (up_le a ha n j x hx).1
        exact ⟨by omega, fun _ => by omega⟩

/-- Two children of a node have no descendant in common. -/
theorem up_siblings (a : List HtmlNode) (ha : TreeOk a) (i c1 c2 : Nat) (m : HtmlNode)
    (hm : a[i]? = some m) (h1 : c1 ∈ m.children) (h2 : c2 ∈ m.children) (hne : c1 ≠ c2)
    (j n1 n2 : Nat) (hle : n1 ≤ n2) (e1 : up a n1 j = some c1) (e2 : up a n2 j = some c2) :
    False := by
  obtain ⟨d, hd⟩ : ∃ d, n2 = n1 + d := ⟨n2 - n1, by omega⟩
  rw [hd, up_add, e1] at e2
  simp only [Option.some_bind] at e2
  cases d with
  | zero =>
    simp only [up, Option.some.injEq] at e2
    exact hne e2
  | succ d =>
    rw [Nat.add_comm, up_add] at e2
    obtain ⟨_, mc, hmc, hp⟩ := ha.1 i m hm c1 h1
    have e3 : up a 1 c1 = some i := by
      simp [up, hmc, hp]
    rw [e3] at e2
    simp only [Option.some_bind] at e2
    have := (up_le a ha d i c2 e2).1
    have := (ha.1 i m hm c2 h2).1
    omega

/-- A call within the call for a node is a call for a descendant of the node,
which is a node of the arena. -/
theorem visits_up (a : List HtmlNode) (ha : TreeOk a) : ∀ (k : Nat) (i : Nat) (p : List Nat)
    (r : Renderer) (v : Visit), v ∈ visits k a i p r →
    v.node < a.length ∧ ∃ n, up a n v.node = some i
  | 0, _, _, _, _, h => by simp [visits] at h
  | k + 1, i, p, r, v, h => by
    simp only [visits] at h
    split at h
    · simp at h
    · rename_i n hn
      rcases List.mem_cons.1 h with h | h
      · rw [h]
        exact ⟨(List.getElem?_eq_some.1 hn).1, 0, rfl⟩
      · split at h
        · simp at h
        · split at h
          · simp at h
          · obtain ⟨c, rc, hc, _, hv⟩ := chain_mem (render_node k a) _ (fun _ => True)
              (fun _ _ _ _ _ => trivial) v n.children _ trivial h
            obtain ⟨h1, m, hm⟩ := visits_up a ha k c (n.tag :: p) rc v hv
            obtain ⟨_, mc, hmc, hp⟩ := ha.1 i n hn c hc
            refine ⟨h1, m + 1, ?_⟩
            simp [up, hm, hmc, hp]

theorem chain_nodup (a : List HtmlNode) (ha : TreeOk a) (k : Nat) (i : Nat) (m : HtmlNode)
    (hm : a[i]? = some m) (p : List Nat)
    (ih : ∀ (c : Nat) (r : Renderer), ((visits k a c p r).map Visit.node).Nodup) :
    ∀ (cs : List Nat) (r : Renderer), (∀ c ∈ cs, c ∈ m.children) →
      cs.Pairwise (fun x y => x < y) →
      ((chain (render_node k a) (fun c rc => visits k a c p rc) cs r).map Visit.node).Nodup
  | [], _, _, _ => by simp [chain]
  | c :: cs, r, hcs, hpw => by
    simp only [chain, List.map_append]
    rw [List.nodup_append]
    refine ⟨ih c r, ?_, ?_⟩
    · cases render_node k a c r with
      | none => simp
      | some r' =>
        exact chain_nodup a ha k i m hm p ih cs r'
          (fun x hx => hcs x (List.mem_cons_of_mem _ hx)) (List.Pairwise.of_cons hpw)
    · intro j hj1 hj2
      cases hr : render_node k a c r with
      | none => rw [hr] at hj2; simp at hj2
      | some r' =>
        rw [hr] at hj2
        obtain ⟨v1, hv1, e1⟩ := List.mem_map.1 hj1
        obtain ⟨v2, hv2, e2⟩ := List.mem_map.1 hj2
        obtain ⟨c', rc, hc', _, hv2'⟩ := chain_mem (render_node k a) _ (fun _ => True)
          (fun _ _ _ _ _ => trivial) v2 cs r' trivial hv2
        obtain ⟨_, n1, hn1⟩ := visits_up a ha k c p r v1 hv1
        obtain ⟨_, n2, hn2⟩ := visits_up a ha k c' p rc v2 hv2'
        rw [e1] at hn1
        rw [e2] at hn2
        have hlt : c < c' := List.rel_of_pairwise_cons hpw hc'
        have hc1 := hcs c (List.mem_cons_self _ _)
        have hc2 := hcs c' (List.mem_cons_of_mem _ hc')
        rcases Nat.le_total n1 n2 with hle | hle
        · exact up_siblings a ha i c c' m hm hc1 hc2 (by omega) j n1 n2 hle hn1 hn2
        · exact up_siblings a ha i c' c m hm hc2 hc1 (by omega) j n2 n1 hle hn2 hn1

/-- No node is rendered twice. -/
theorem visits_nodup (a : List HtmlNode) (ha : TreeOk a) : ∀ (k : Nat) (i : Nat) (p : List Nat)
    (r : Renderer), ((visits k a i p r).map Visit.node).Nodup
  | 0, _, _, _ => by simp [visits]
  | k + 1, i, p, r => by
    simp only [visits]
    split
    · simp
    · rename_i n hn
      rw [List.map_cons, List.nodup_cons]
      constructor
      · intro hmem
        obtain ⟨v, hv, e⟩ := List.mem_map.1 hmem
        split at hv
        · simp at hv
        · split at hv
          · simp at hv
          · obtain ⟨c, rc, hc, _, hv'⟩ := chain_mem (render_node k a) _ (fun _ => True)
              (fun _ _ _ _ _ => trivial) v n.children _ trivial hv
            obtain ⟨_, d, hd⟩ := visits_up a ha k c (n.tag :: p) rc v hv'
            have h1 := (up_le a ha d v.node c hd).1
            have h2 := (ha.1 i n hn c hc).1
            simp only at e
            omega
      · split
        · simp
        · split
          · simp
          · exact chain_nodup a ha k i n hn (n.tag :: p)
              (fun c rc => visits_nodup a ha k c (n.tag :: p) rc) n.children _
              (fun c hc => hc) (ha.2.1 i n hn)

/-- The calls are no more than the nodes of the arena. -/
theorem visits_length (a : List HtmlNode) (ha : TreeOk a) (k : Nat) (i : Nat) (p : List Nat)
    (r : Renderer) : (visits k a i p r).length ≤ a.length := by
  have hnd := visits_nodup a ha k i p r
  have hsub : ((visits k a i p r).map Visit.node).toFinset ⊆ Finset.range a.length := by
    intro j hj
    rw [List.mem_toFinset] at hj
    obtain ⟨v, hv, e⟩ := List.mem_map.1 hj
    rw [Finset.mem_range, ← e]
    exact (visits_up a ha k i p r v hv).1
  have := Finset.card_le_card hsub
  rw [List.toFinset_card_of_nodup hnd, Finset.card_range, List.length_map] at this
  exact this

/-! ### Where the cursor is put -/

theorem wrote_trans (D : Int) (n1 n2 : Nat) (r r1 r2 : Renderer) (h1 : Wrote D n1 r r1)
    (h2 : Wrote D n2 r1 r2) : Wrote D (n1 + n2) r r2 := by
  obtain ⟨a1, a2, a3, a4, a5, e1, a6, a7⟩ := h1
  obtain ⟨b1, b2, b3, b4, b5, e2, b6, b7⟩ := h2
  refine ⟨b1.trans a1, b2, b3, by omega, by push_cast; omega, e1 ++ e2,
    by rw [b6, a6, List.append_assoc], ?_⟩
  intro x y hxy
  rcases List.mem_append.1 hxy with h | h
  · exact a7 x y h
  · have := b7 x y h
    exact ⟨this.1, this.2.1, by omega⟩

theorem wrote_mono (D : Int) (n m : Nat) (r r' : Renderer) (h : Wrote D n r r') (hnm : n ≤ m) :
    Wrote D m r r' := by
  obtain ⟨a1, a2, a3, a4, a5, e1, a6, a7⟩ := h
  exact ⟨a1, a2, a3, a4, by omega, e1, a6, a7⟩

/-- A step that leaves the cursor and the width and sends nothing that puts the
cursor. -/
theorem wrote_same (D : Int) (r r' : Renderer) (ext : List DispEvent)
    (hw : r'.st.width = r.st.width) (hx : r'.st.x = r.st.x) (hy : r'.st.y = r.st.y)
    (hl : r'.log = r.log ++ ext) (he : ∀ x y, DispEvent.set_cursor x y ∉ ext)
    (h0 : 0 ≤ r.st.x) (h1 : r.st.x ≤ 1101) : Wrote D 0 r r' :=
  ⟨hw, by omega, by omega, by omega, by simp [hy], ext, hl, fun x y h => absurd h (he x y)⟩

theorem wrote_newline (D : Int) (r : Renderer) (h0 : 0 ≤ r.st.indent) (h1 : r.st.indent ≤ 1101)
    (hy0 : 0 ≤ r.st.y) (hy : r.st.y + 1 < 2147483648) : Wrote D 1 r (render_newline r) := by
  have e : (render_newline r).st.y = r.st.y + 1 := wrap32_range _ (by omega) (by omega)
  refine ⟨rfl, h0, h1, ?_, ?_, [], by simp [render_newline], fun x y h => by simp at h⟩
  · rw [e]; omega
  · rw [e]; simp

theorem wrote_chars (D : Int) (hD : D ≤ 1100) : ∀ (t : List Char) (r : Renderer),
    r.st.width = 80 → 0 ≤ r.st.indent → r.st.indent ≤ D → 0 ≤ r.st.x → r.st.x ≤ 1101 →
    0 ≤ r.st.y → r.st.y + t.length < 2147483648 → Wrote D t.length r (renderChars t r)
  | [], r, _, _, _, hx0, hx1, _, _ =>
    wrote_same D r r [] rfl rfl rfl (by simp) (fun x y h => by simp at h) hx0 hx1
  | c :: cs, r, hw, hi0, hi1, hx0, hx1, hy0, hy => by
    have hlen : ((c :: cs).length : Int) = (cs.length : Int) + 1 := by simp
    rw [hlen] at hy
    simp only [renderChars]
    split
    · exact wrote_mono D 0 _ r r
        (wrote_same D r r [] rfl rfl rfl (by simp) (fun x y h => by simp at h) hx0 hx1)
        (Nat.zero_le _)
    · have hstep : ∀ (r1 : Renderer), r1.st.width = 80 → r1.st.indent = r.st.indent →
          0 ≤ r1.st.x → r1.st.x ≤ max 79 D → r.st.y ≤ r1.st.y → r1.st.y ≤ r.st.y + 1 →
          (∃ e, r1.log = r.log ++ e ∧ ∀ x y, DispEvent.set_cursor x y ∉ e) →
          Wrote D (c :: cs).length r (renderChars cs
            { r1 with st := { r1.st with x := wrap32 (r1.st.x + 1) },
                      log := r1.log ++ [DispEvent.set_cursor r1.st.x r1.st.y,
                        DispEvent.kprint [c]] }) := by
        intro r1 g1 g2 g3 g4 g5 g6 ⟨e, g7, g8⟩
        have hm : max 79 D ≤ 1100 := max_le (by decide) hD
        have ex : wrap32 (r1.st.x + 1) = r1.st.x + 1 := wrap32_range _ (by omega) (by omega)
        have ih := wrote_chars D hD cs
          { r1 with st := { r1.st with x := wrap32 (r1.st.x + 1) },
                    log := r1.log ++ [DispEvent.set_cursor r1.st.x r1.st.y,
                      DispEvent.kprint [c]] }
          g1 (by rw [g2]; exact hi0) (by rw [g2]; exact hi1)
          (by show 0 ≤ wrap32 (r1.st.x + 1); rw [ex]; omega)
          (by show wrap32 (r1.st.x + 1) ≤ 1101; rw [ex]; omega)
          (by show 0 ≤ r1.st.y; omega) (by show r1.st.y + (cs.length : Int) < 2147483648; omega)
        have h1 : Wrote D 1 r
            { r1 with st := { r1.st with x := wrap32 (r1.st.x + 1) },
                      log := r1.log ++ [DispEvent.set_cursor r1.st.x r1.st.y,
                        DispEvent.kprint [c]] } := by
          refine ⟨g1.trans hw.symm, ?_, ?_, g5, by simpa using g6,
            e ++ [DispEvent.set_cursor r1.st.x r1.st.y, DispEvent.kprint [c]],
            by simp [g7], ?_⟩
          · show 0 ≤ wrap32 (r1.st.x + 1); rw [ex]; omega
          · show wrap32 (r1.st.x + 1) ≤ 1101; rw [ex]; omega
          · intro x y hxy
            rcases List.mem_append.1 hxy with h | h
            · exact absurd h (g8 x y)
            · simp only [List.mem_cons, DispEvent.set_cursor.injEq, List.mem_singleton,
                reduceCtorEq, or_false, List.not_mem_nil] at h
              rw [h.1, h.2]
              exact ⟨g3, g4, g5⟩
        have := wrote_trans D 1 cs.length _ _ _ h1 ih
        rw [Nat.add_comm] at this
        exact this
      by_cases hge : r.st.x ≥ r.st.width
      · rw [if_pos hge]
        have ey : (render_newline r).st.y = r.st.y + 1 := wrap32_range _ (by omega) (by omega)
        exact hstep (render_newline r) hw rfl hi0 (le_trans hi1 (le_max_right _ _))
          (by rw [ey]; omega) (by rw [ey]) ⟨[], by simp [render_newline], fun x y h => by simp at h⟩
      · rw [if_neg hge]
        rw [hw] at hge
        exact hstep r hw rfl hx0 (le_trans (by omega) (le_max_left _ _)) (le_refl _) (by omega)
          ⟨[], by simp, fun x y h => by simp at h⟩

theorem wrote_text (D : Int) (hD : D ≤ 1100) (t : List Char) (r : Renderer)
    (hw : r.st.width = 80) (hi0 : 0 ≤ r.st.indent) (hi1 : r.st.indent ≤ D) (hx0 : 0 ≤ r.st.x)
    (hx1 : r.st.x ≤ 1101) (hy0 : 0 ≤ r.st.y) (hy : r.st.y + t.length < 2147483648) :
    Wrote D t.length r (render_text t r) := by
  have h1 : Wrote D 0 r { r with log := r.log ++ [DispEvent.set_color r.st.color] } :=
    wrote_same D r _ [DispEvent.set_color r.st.color] rfl rfl rfl rfl
      (fun x y h => by simp at h) hx0 hx1
  have h2 := wrote_chars D hD t { r with log := r.log ++ [DispEvent.set_color r.st.color] }
    hw hi0 hi1 hx0 hx1 hy0 hy
  have := wrote_trans D 0 t.length _ _ _ h1 h2
  rw [Nat.zero_add] at this
  exact this

theorem wrote_hr (D : Int) (hD : D ≤ 1100) : ∀ (k : Nat) (i : Int) (r : Renderer),
    r.st.width = 80 → 0 ≤ r.st.indent → r.st.indent ≤ D → 0 ≤ r.st.x → r.st.x ≤ 1101 →
    0 ≤ r.st.y → r.st.y + k < 2147483648 → Wrote D k r (hrLoop k i r)
  | 0, _, r, _, _, _, hx0, hx1, _, _ =>
    wrote_same D r r [] rfl rfl rfl (by simp) (fun x y h => by simp at h) hx0 hx1
  | k + 1, i, r, hw, hi0, hi1, hx0, hx1, hy0, hy => by
    have hk : ((k + 1 : Nat) : Int) = (k : Int) + 1 := by simp
    rw [hk] at hy
    simp only [hrLoop]
    split
    · have h1 := wrote_text D hD "-".toList r hw hi0 hi1 hx0 hx1 hy0
        (by show r.st.y + ((1 : Nat) : Int) < 2147483648; omega)
      have hf := render_text_fields "-".toList r
      have hind : (render_text "-".toList r).st.indent = r.st.indent := by
        have e := hf.1
        simp only [styleOf, Prod.mk.injEq] at e
        exact e.1
      obtain ⟨a1, a2, a3, a4, a5, _⟩ := h1
      have h2 := wrote_hr D hD k (i + 1) (render_text "-".toList r) (a1.trans hw)
        (by rw [hind]; exact hi0) (by rw [hind]; exact hi1) a2 a3 (by omega)
        (by
          have : (render_text "-".toList r).st.y ≤ r.st.y + 1 := a5
          omega)
      have := wrote_trans D _ _ _ _ _
        (wrote_text D hD "-".toList r hw hi0 hi1 hx0 hx1 hy0
          (by show r.st.y + ((1 : Nat) : Int) < 2147483648; omega)) h2
      have e : "-".toList.length + k = k + 1 := by
        show 1 + k = k + 1
        omega
      rw [e] at this
      exact this
    · exact wrote_mono D 0 _ r r
        (wrote_same D r r [] rfl rfl rfl (by simp) (fun x y h => by simp at h) hx0 hx1)
        (Nat.zero_le _)

/-- What the first `switch` writes. -/
theorem wrote_pre (D : Int) (hD : D ≤ 1100) (n : HtmlNode) (r : Renderer)
    (hw : r.st.width = 80) (hi0 : 0 ≤ r.st.indent) (hi1 : r.st.indent ≤ D) (hx0 : 0 ≤ r.st.x)
    (hx1 : r.st.x ≤ 1101) (hy0 : 0 ≤ r.st.y)
    (hy : r.st.y + (n.src.length + 90 : Nat) < 2147483648) :
    Wrote D (n.src.length + 90) r (preHook n r) := by
  have hyy : r.st.y + (n.src.length : Int) + 90 < 2147483648 := by
    push_cast at hy
    omega
  have hnl := wrote_newline D r hi0 (by omega) hy0 (by omega)
  have hnl2 : Wrote D 1 (render_newline r) (render_newline (render_newline r)) :=
    wrote_newline D (render_newline r) hi0 (by show r.st.indent ≤ 1101; omega)
      (by have := hnl.2.2.2.1; omega) (by have := hnl.2.2.2.2.1; push_cast at this; omega)
  have hsame : ∀ (s : RenderState), s.width = r.st.width → s.x = r.st.x → s.y = r.st.y →
      Wrote D 0 r { r with st := s } := fun s h1 h2 h3 =>
    wrote_same D r _ [] h1 h2 h3 (by simp) (fun x y h => by simp at h) hx0 hx1
  have hsame1 : ∀ (s : RenderState), s.width = r.st.width → s.x = (render_newline r).st.x →
      s.y = (render_newline r).st.y → Wrote D 1 r { render_newline r with st := s } :=
    fun s h1 h2 h3 =>
    wrote_trans D 1 0 _ _ _ hnl
      (wrote_same D (render_newline r) _ [] h1 h2 h3 (by simp) (fun x y h => by simp at h)
        hnl.2.1 hnl.2.2.1)
  unfold preHook
  by_cases c0 : n.tag = TAG_H1
  · rw [if_pos c0]
    exact wrote_mono D 1 _ _ _ (hsame1 _ rfl rfl rfl) (by omega)
  rw [if_neg c0]
  by_cases c1 : n.tag = TAG_H2
  · rw [if_pos c1]
    exact wrote_mono D 1 _ _ _ (hsame1 _ rfl rfl rfl) (by omega)
  rw [if_neg c1]
  by_cases c2 : n.tag = TAG_H3
  · rw [if_pos c2]
    exact wrote_mono D 1 _ _ _ (hsame1 _ rfl rfl rfl) (by omega)
  rw [if_neg c2]
  by_cases c3 : n.tag = TAG_P
  · rw [if_pos c3]
    exact wrote_mono D 2 _ _ _ (wrote_trans D 1 1 _ _ _ hnl hnl2) (by omega)
  rw [if_neg c3]
  by_cases c4 : n.tag = TAG_A
  · rw [if_pos c4]
    have h1 := hsame { r.st with color := 0x09, link := 1 } rfl rfl rfl
    have h2 := wrote_text D hD "[".toList { r with st := { r.st with color := 0x09, link := 1 } }
      hw hi0 hi1 hx0 hx1 hy0 (by show r.st.y + ((1 : Nat) : Int) < 2147483648; omega)
    exact wrote_mono D _ _ _ _ (wrote_trans D _ _ _ _ _ h1 h2) (by show 0 + 1 ≤ _; omega)
  rw [if_neg c4]
  by_cases c5 : n.tag = TAG_UL
  · rw [if_pos c5]
    exact wrote_mono D 0 _ _ _ (hsame _ rfl rfl rfl) (by omega)
  rw [if_neg c5]
  by_cases c6 : n.tag = TAG_LI
  · rw [if_pos c6]
    have h2 := wrote_text D hD "* ".toList (render_newline r) hw hi0 hi1 hnl.2.1 hnl.2.2.1
      (by have := hnl.2.2.2.1; omega)
      (by
        have := hnl.2.2.2.2.1
        push_cast at this
        show (render_newline r).st.y + ((2 : Nat) : Int) < 2147483648
        omega)
    exact wrote_mono D _ _ _ _ (wrote_trans D _ _ _ _ _ hnl h2) (by show 1 + 2 ≤ _; omega)
  rw [if_neg c6]
  by_cases c7 : n.tag = TAG_B
  · rw [if_pos c7]
    exact wrote_mono D 0 _ _ _ (hsame _ rfl rfl rfl) (by omega)
  rw [if_neg c7]
  by_cases c8 : n.tag = TAG_I
  · rw [if_pos c8]
    exact wrote_mono D 0 _ _ _ (hsame _ rfl rfl rfl) (by omega)
  rw [if_neg c8]
  by_cases c9 : n.tag = TAG_HR
  · rw [if_pos c9]
    have hk : (wrap32 ((render_newline r).st.width - (render_newline r).st.indent)).toNat ≤ 80 := by
      show (wrap32 (r.st.width - r.st.indent)).toNat ≤ 80
      rw [hw, wrap32_range _ (by omega) (by omega)]
      omega
    have h2 := wrote_hr D hD
      (wrap32 ((render_newline r).st.width - (render_newline r).st.indent)).toNat 0
      (render_newline r) hw hi0 hi1 hnl.2.1 hnl.2.2.1 (by have := hnl.2.2.2.1; omega)
      (by
        have := hnl.2.2.2.2.1
        push_cast at this
        omega)
    have h12 := wrote_trans D _ _ _ _ _ hnl h2
    have hf := hrLoop_fields
      (wrap32 ((render_newline r).st.width - (render_newline r).st.indent)).toNat 0
      (render_newline r)
    have hind : (hrLoop (wrap32 ((render_newline r).st.width
        - (render_newline r).st.indent)).toNat 0 (render_newline r)).st.indent = r.st.indent := by
      have e := hf.1
      simp only [styleOf, Prod.mk.injEq] at e
      exact e.1
    have h3 := wrote_newline D _ (by rw [hind]; exact hi0) (by rw [hind]; omega)
      (by have := h12.2.2.2.1; omega)
      (by
        have := h12.2.2.2.2.1
        push_cast at this
        omega)
    exact wrote_mono D _ _ _ _ (wrote_trans D _ _ _ _ _ h12 h3) (by omega)
  rw [if_neg c9]
  by_cases c10 : n.tag = TAG_BR
  · rw [if_pos c10]
    exact wrote_mono D 1 _ _ _ hnl (by omega)
  rw [if_neg c10]
  by_cases c11 : n.tag = TAG_PRE ∨ n.tag = TAG_CODE
  · rw [if_pos c11]
    exact wrote_mono D 0 _ _ _ (hsame _ rfl rfl rfl) (by omega)
  rw [if_neg c11]
  by_cases c12 : n.tag = TAG_IMG
  · rw [if_pos c12]
    have h1 := wrote_text D hD "[IMG: ".toList r hw hi0 hi1 hx0 hx1 hy0
      (by show r.st.y + ((6 : Nat) : Int) < 2147483648; omega)
    have f1 := render_text_fields "[IMG: ".toList r
    have i1 : (render_text "[IMG: ".toList r).st.indent = r.st.indent := by
      have e := f1.1
      simp only [styleOf, Prod.mk.injEq] at e
      exact e.1
    have y1 : (render_text "[IMG: ".toList r).st.y ≤ r.st.y + 6 := h1.2.2.2.2.1
    have h2 := wrote_text D hD n.src (render_text "[IMG: ".toList r) (h1.1.trans hw)
      (by rw [i1]; exact hi0) (by rw [i1]; exact hi1) h1.2.1 h1.2.2.1
      (by have := h1.2.2.2.1; omega) (by omega)
    have f2 := render_text_fields n.src (render_text "[IMG: ".toList r)
    have i2 : (render_text n.src (render_text "[IMG: ".toList r)).st.indent = r.st.indent := by
      have e := f2.1
      simp only [styleOf, Prod.mk.injEq] at e
      exact e.1.trans i1
    have y2 : (render_text n.src (render_text "[IMG: ".toList r)).st.y
        ≤ (render_text "[IMG: ".toList r).st.y + n.src.length := h2.2.2.2.2.1
    have h3 := wrote_text D hD "]".toList (render_text n.src (render_text "[IMG: ".toList r))
      (h2.1.trans (h1.1.trans hw)) (by rw [i2]; exact hi0) (by rw [i2]; exact hi1)
      h2.2.1 h2.2.2.1 (by have := h2.2.2.2.1; have := h1.2.2.2.1; omega)
      (by show _ + ((1 : Nat) : Int) < 2147483648; omega)
    exact wrote_mono D _ _ _ _ (wrote_trans D _ _ _ _ _ (wrote_trans D _ _ _ _ _ h1 h2) h3)
      (by show 6 + n.src.length + 1 ≤ _; omega)
  rw [if_neg c12]
  exact wrote_mono D 0 _ _ _
      (wrote_same D r r [] rfl rfl rfl (by simp) (fun x y h => by simp at h) hx0 hx1)
      (by omega)

/-- What the second `switch` writes. -/
theorem wrote_post (D : Int) (hD : D ≤ 1100) (tag : Nat) (r : Renderer)
    (hw : r.st.width = 80) (hi : tag ≠ TAG_UL → 0 ≤ r.st.indent ∧ r.st.indent ≤ D)
    (hx0 : 0 ≤ r.st.x) (hx1 : r.st.x ≤ 1101) (hy0 : 0 ≤ r.st.y)
    (hy : r.st.y + 1 < 2147483648) : Wrote D 1 r (postHook tag r) := by
  unfold postHook
  split
  · rename_i h
    have := hi (by rw [h]; decide)
    exact wrote_text D hD "]".toList r hw this.1 this.2 hx0 hx1 hy0
      (by show r.st.y + ((1 : Nat) : Int) < 2147483648; omega)
  · split
    · rename_i h
      have := hi (by rcases h with h | h | h <;> (rw [h]; decide))
      exact wrote_newline D r this.1 (by omega) hy0 hy
    · exact wrote_mono D 0 _ r r
        (wrote_same D r r [] rfl rfl rfl (by simp) (fun x y h => by simp at h) hx0 hx1)
        (by omega)

/-! ### What a call of render_node writes -/

theorem rows_append (a : List HtmlNode) (u v : List Visit) :
    rows a (u ++ v) = rows a u + rows a v := by
  simp [rows]

theorem rows_cons (a : List HtmlNode) (x : Visit) (v : List Visit) :
    rows a (x :: v) = cost (a.getD x.node blankNode) + rows a v := by
  simp [rows]

/-- What the loop over the children writes, given what the calls for the
children write. -/
theorem chain_wrote (D : Int) (a : List HtmlNode) (k : Nat) (p : List Nat)
    (ih : ∀ (c : Nat) (x x' : Renderer), render_node k a c x = some x' → x.st.width = 80 →
      0 ≤ x.st.x → x.st.x ≤ 1101 → 0 ≤ x.st.y →
      (∀ v ∈ visits k a c p x, 0 ≤ v.entry.st.indent ∧ v.entry.st.indent ≤ D) →
      x.st.y + rows a (visits k a c p x) < 2147483648 →
      Wrote D (rows a (visits k a c p x)) x x') :
    ∀ (cs : List Nat) (r r2 : Renderer),
      cs.foldlM (fun r' c => render_node k a c r') r = some r2 → r.st.width = 80 →
      0 ≤ r.st.x → r.st.x ≤ 1101 → 0 ≤ r.st.y →
      (∀ v ∈ chain (render_node k a) (fun c rc => visits k a c p rc) cs r,
        0 ≤ v.entry.st.indent ∧ v.entry.st.indent ≤ D) →
      r.st.y + rows a (chain (render_node k a) (fun c rc => visits k a c p rc) cs r)
        < 2147483648 →
      Wrote D (rows a (chain (render_node k a) (fun c rc => visits k a c p rc) cs r)) r r2
  | [], r, r2, h, _, hx0, hx1, _, _, _ => by
    simp only [List.foldlM, Option.pure_def, Option.some.injEq] at h
    rw [← h]
    exact wrote_same D r r [] rfl rfl rfl (by simp) (fun x y h => by simp at h) hx0 hx1
  | c :: cs, r, r2, h, hw, hx0, hx1, hy0, hv, hy => by
    simp only [List.foldlM, Option.bind_eq_bind] at h
    cases hc : render_node k a c r with
    | none => rw [hc] at h; exact absurd h (by simp)
    | some r1 =>
      rw [hc] at h
      simp only [Option.some_bind] at h
      simp only [chain, hc] at hv hy ⊢
      rw [rows_append] at hy ⊢
      push_cast at hy
      have h1 := ih c r r1 hc hw hx0 hx1 hy0
        (fun v hvm => hv v (List.mem_append.2 (Or.inl hvm))) (by omega)
      have y1 : r1.st.y ≤ r.st.y + rows a (visits k a c p r) := h1.2.2.2.2.1
      have h2 := chain_wrote D a k p ih cs r1 r2 h (h1.1.trans hw) h1.2.1 h1.2.2.1
        (by have := h1.2.2.2.1; omega)
        (fun v hvm => hv v (List.mem_append.2 (Or.inr hvm))) (by omega)
      exact wrote_trans D _ _ _ _ _ h1 h2

/-- What a call of `render_node` writes: with the width 80, the cursor at a
column from 0 to 1101 and a row from 0 on, every call entered with an indent from
0 to `D`, and rows to spare, the cursor is put at columns from 0 to the larger of
79 and `D` only, and at rows from the row of the start on. -/
theorem render_wrote (D : Int) (hD : D ≤ 1100) (a : List HtmlNode) : ∀ (k : Nat) (i : Nat)
    (p : List Nat) (r r' : Renderer), render_node k a i r = some r' → r.st.width = 80 →
    0 ≤ r.st.x → r.st.x ≤ 1101 → 0 ≤ r.st.y →
    (∀ v ∈ visits k a i p r, 0 ≤ v.entry.st.indent ∧ v.entry.st.indent ≤ D) →
    r.st.y + rows a (visits k a i p r) < 2147483648 →
    Wrote D (rows a (visits k a i p r)) r r'
  | 0, _, _, _, _, h, _, _, _, _, _, _ => by simp [render_node] at h
  | k + 1, i, p, r, r', h, hw, hx0, hx1, hy0, hv, hy => by
    simp only [render_node] at h
    simp only [visits] at hv hy ⊢
    cases hn : a[i]? with
    | none => rw [hn] at h; exact absurd h (by simp)
    | some n =>
      simp only [hn] at h hv hy ⊢
      have hgd : a.getD i blankNode = n := by
        rw [List.getD_eq_getElem?_getD, hn]
        rfl
      rw [rows_cons] at hy ⊢
      simp only [hgd] at hy ⊢
      have hi := hv ⟨i, p, r⟩ (List.mem_cons_self _ _)
      have hi0 : 0 ≤ r.st.indent := hi.1
      have hi1 : r.st.indent ≤ D := hi.2
      have hrefl : Wrote D 0 r r :=
        wrote_same D r r [] rfl rfl rfl (by simp) (fun x y h => by simp at h) hx0 hx1
      push_cast at hy
      by_cases ht : n.type = NODE_TEXT
      · rw [if_pos ht] at h hy ⊢
        simp only [Option.some.injEq] at h
        rw [← h]
        have hc : cost n = n.text.length := by
          unfold cost
          rw [if_pos ht]
        rw [hc] at hy ⊢
        have := wrote_text D hD n.text r hw hi0 hi1 hx0 hx1 hy0 (by
          simp only [rows, List.map_nil, List.sum_nil] at hy
          omega)
        exact wrote_mono D _ _ _ _ this (by omega)
      · rw [if_neg ht] at h hv hy ⊢
        have hc : cost n = n.src.length + 100 := by
          unfold cost
          rw [if_neg ht]
        rw [hc] at hy ⊢
        by_cases htt : n.tag = TAG_TITLE
        · rw [if_pos htt] at h hy ⊢
          have hsame : ∀ t, Wrote D 0 r { r with page_title := t } := fun t =>
            wrote_same D r _ [] rfl rfl rfl (by simp) (fun x y h => by simp at h) hx0 hx1
          have hres : Wrote D 0 r r' := by
            split at h
            · simp only [Option.some.injEq] at h
              rw [← h]; exact hrefl
            · split at h
              · exact absurd h (by simp)
              · split at h <;> (simp only [Option.some.injEq] at h; rw [← h])
                · exact hsame _
                · exact hrefl
          exact wrote_mono D _ _ _ _ hres (by omega)
        · rw [if_neg htt] at h hv hy ⊢
          have ih := fun c x x' => render_wrote D hD a k c (n.tag :: p) x x'
          by_cases hh : n.tag = TAG_HEAD
          · rw [if_pos hh] at h hv hy ⊢
            have := chain_wrote D a k (n.tag :: p) ih n.children r r' h hw hx0 hx1 hy0
              (fun v hvm => hv v (List.mem_cons_of_mem _ hvm)) (by omega)
            exact wrote_mono D _ _ _ _ this (by omega)
          · rw [if_neg hh] at h hv hy ⊢
            cases hf : n.children.foldlM (fun r' c => render_node k a c r') (preHook n r) with
            | none => rw [hf] at h; exact absurd h (by simp)
            | some r2 =>
              rw [hf] at h
              simp only [Option.some.injEq] at h
              have h1 := wrote_pre D hD n r hw hi0 hi1 hx0 hx1 hy0 (by push_cast; omega)
              have y1 : (preHook n r).st.y ≤ r.st.y + (n.src.length + 90 : Nat) :=
                h1.2.2.2.2.1
              push_cast at y1
              have h2 := chain_wrote D a k (n.tag :: p) ih n.children (preHook n r) r2 hf
                (h1.1.trans hw) h1.2.1 h1.2.2.1 (by have := h1.2.2.2.1; omega)
                (fun v hvm => hv v (List.mem_cons_of_mem _ hvm)) (by omega)
              have h12 := wrote_trans D _ _ _ _ _ h1 h2
              have hst : styleOf r2.st = styleOf (preHook n r).st :=
                foldlM_keeps (fun x => styleOf x.st = styleOf (preHook n r).st)
                  (render_node k a)
                  (fun c x x' hx hcx => (render_node_style k a c x x' hcx).trans hx)
                  n.children (preHook n r) r2 rfl hf
              have hind : n.tag ≠ TAG_UL → r2.st.indent = r.st.indent := by
                intro hul
                have e1 : r2.st.indent = (tagStyle n.tag (styleOf r.st)).1 := by
                  rw [← preHook_style, ← hst]
                  rfl
                rw [e1, tagStyle_indent, if_neg hul]
                rfl
              have y2 : r2.st.y ≤ r.st.y + ((n.src.length + 90 +
                  rows a (chain (render_node k a) (fun c rc => visits k a c (n.tag :: p) rc)
                    n.children (preHook n r)) : Nat) : Int) := h12.2.2.2.2.1
              push_cast at y2
              have h3 := wrote_post D hD n.tag r2 (h12.1.trans hw)
                (fun hul => by rw [hind hul]; exact ⟨hi0, hi1⟩) h12.2.1 h12.2.2.1
                (by have := h12.2.2.2.1; omega) (by omega)
              have h4 : Wrote D 0 (postHook n.tag r2) r' := by
                rw [← h]
                exact wrote_same D _ _ [] rfl rfl rfl (by simp) (fun x y h => by simp at h)
                  h3.2.1 h3.2.2.1
              exact wrote_mono D _ _ _ _
                (wrote_trans D _ _ _ _ _ (wrote_trans D _ _ _ _ _ h12 h3) h4) (by omega)

/-! ### The positions of the cursor -/

theorem parse_src (pool : List HtmlNode) (html : List Char) (a : List HtmlNode)
    (h : html_parse pool html = some a) :
    ∀ (i : Nat) (m : HtmlNode), a[i]? = some m → m.src = [] := by
  unfold html_parse at h
  cases hr : run (html.length + 1) (initState pool html) with
  | none => rw [hr] at h; exact absurd h (by simp)
  | some sf =>
    rw [hr] at h
    simp only [Option.map_some', Option.some.injEq] at h
    have := run_keeps
      (fun t => Inv none t ∧ ∀ (i : Nat) (m : HtmlNode), t.pool[i]? = some m → m.src = [])
      (fun t t' ht hst =>
        ⟨inv_step none t t' ht.1 hst, src_shape t t' (step_shape t t' ht.1.2.1 hst) ht.2⟩)
      _ _ _ ⟨inv_init pool html, ?_⟩ hr
    · rw [← h]
      exact this.2
    · intro i m hm
      have e : (initState pool html).pool
          = [{ blankNode with type := NODE_ELEMENT, tag := TAG_HTML }] := rfl
      rw [e] at hm
      cases i with
      | zero =>
        simp only [List.getElem?_cons_zero, Option.some.injEq] at hm
        rw [← hm]
        rfl
      | succ i => simp at hm

/-- The rows that the call for a node of a tree of `html_parse` takes are 355 at
most. -/
theorem parse_cost (pool : List HtmlNode) (html : List Char) (a : List HtmlNode)
    (h : html_parse pool html = some a) (i : Nat) (m : HtmlNode) (hm : a[i]? = some m) :
    cost m ≤ 355 := by
  have h1 := parse_src pool html a h i m hm
  have h2 := parse_nodes (fun m => m.type = NODE_TEXT → m.text.length ≤ 255)
    (fun m m' e hq ht => by
      have e1 : m'.type = m.type := (congrArg HtmlNode.type e : (core m').type = (core m).type)
      have e2 : m'.text = m.text := (congrArg HtmlNode.text e : (core m').text = (core m).text)
      rw [e2]
      exact hq (e1 ▸ ht))
    (fun ht => absurd ht (by decide))
    (fun m hn _ ht => by
      rcases hn with ⟨he, _⟩ | ⟨_, _, hok⟩
      · rw [he] at ht
        exact absurd ht (by decide)
      · exact hok.2.1)
    pool html a h i m hm
  unfold cost
  split
  · rename_i ht
    have := h2 ht
    omega
  · rw [h1]
    simp

theorem rows_le (a : List HtmlNode) (hc : ∀ (i : Nat) (m : HtmlNode), a[i]? = some m → cost m ≤ 355) :
    ∀ (vs : List Visit), (∀ v ∈ vs, v.node < a.length) → rows a vs ≤ vs.length * 355
  | [], _ => by simp [rows]
  | v :: vs, hv => by
    rw [rows_cons, List.length_cons]
    have h1 := rows_le a hc vs (fun x hx => hv x (List.mem_cons_of_mem _ hx))
    have hlt := hv v (List.mem_cons_self _ _)
    have h2 : cost (a.getD v.node blankNode) ≤ 355 := by
      apply hc v.node
      rw [List.getD_eq_getElem?_getD, List.getElem?_eq_getElem hlt]
      rfl
    omega

/-- A call lies below fewer elements than the depth of the recursion allows. -/
theorem visits_depth : ∀ (k : Nat) (pool : List HtmlNode) (node : Nat) (p : List Nat)
    (r : Renderer) (v : Visit), v ∈ visits k pool node p r → v.above.length < p.length + k
  | 0, _, _, _, _, _, h => by simp [visits] at h
  | k + 1, pool, node, p, r, v, h => by
    simp only [visits] at h
    split at h
    · simp at h
    · rename_i n hn
      rcases List.mem_cons.1 h with h | h
      · rw [h]
        show p.length < p.length + (k + 1)
        omega
      · split at h
        · simp at h
        · split at h
          · simp at h
          · obtain ⟨c, rc, _, _, hv⟩ := chain_mem (render_node k pool) _ (fun _ => True)
              (fun _ _ _ _ _ => trivial) v n.children _ trivial h
            have := visits_depth k pool c (n.tag :: p) rc v hv
            simp only [List.length_cons] at this
            omega

theorem mem_cursors : ∀ (es : List DispEvent) (x y : Int),
    (x, y) ∈ cursors es ↔ DispEvent.set_cursor x y ∈ es
  | [], _, _ => by simp [cursors]
  | e :: es, x, y => by
    cases e <;> simp [cursors, mem_cursors es x y]

/-- The rendering of a tree of `html_parse` from the state of `render_init`: it
returns, and it puts the cursor at columns from 0 to the larger of 79 and `D`
and at rows from 2 on, when every call is entered below `D / 2` elements `ul` at
most. -/
theorem render_parsed_wrote (pool : List HtmlNode) (html : List Char) (a : List HtmlNode)
    (h : html_parse pool html = some a) (N : Nat) (hN : N ≤ 512)
    (hul : ∀ v ∈ visits a.length a 0 [] freshRenderer, v.above.count TAG_UL ≤ N) :
    ∃ r', render_node a.length a 0 freshRenderer = some r' ∧
      ∀ x y, DispEvent.set_cursor x y ∈ r'.log → 0 ≤ x ∧ x ≤ max 79 (2 * (N : Int)) ∧ 2 ≤ y := by
  obtain ⟨r', hr⟩ := render_parsed pool html a h freshRenderer
  refine ⟨r', hr, ?_⟩
  have hlen := parse_length pool html a h
  have ht := parse_tree_ok pool html a h
  have hvl := visits_length a ht a.length 0 [] freshRenderer
  have hrows := rows_le a (parse_cost pool html a h) (visits a.length a 0 [] freshRenderer)
    (fun v hv => (visits_up a ht a.length 0 [] freshRenderer v hv).1)
  have hM : a.length ≤ 512 := hlen.2
  have hind : ∀ v ∈ visits a.length a 0 [] freshRenderer,
      0 ≤ v.entry.st.indent ∧ v.entry.st.indent ≤ 2 * (N : Int) := by
    intro v hv
    obtain ⟨q, hq1, hq2, _⟩ := visits_style a.length a 0 [] freshRenderer v hv
    rw [List.append_nil] at hq1
    have hc := hul v hv
    rw [hq1] at hc
    have := foldr_tagStyle_indent q (styleOf freshRenderer.st) rfl (by omega)
    rw [← hq2] at this
    have e : v.entry.st.indent = 2 * (q.count TAG_UL : Int) := this
    rw [e]
    omega
  have hw := render_wrote (2 * (N : Int)) (by omega) a a.length 0 [] freshRenderer r' hr rfl
    (by decide) (by decide) (by decide) hind
    (by
      have e : freshRenderer.st.y = 2 := rfl
      rw [e]
      have : rows a (visits a.length a 0 [] freshRenderer) ≤ 512 * 355 :=
        le_trans hrows (Nat.mul_le_mul_right _ (le_trans hvl hM))
      omega)
  obtain ⟨_, _, _, _, _, ext, he, hc⟩ := hw
  intro x y hxy
  rw [he] at hxy
  have e0 : freshRenderer.log = [] := rfl
  rw [e0, List.nil_append] at hxy
  have := hc x y hxy
  have e : freshRenderer.st.y = 2 := rfl
  rw [e] at this
  exact this

set_option maxRecDepth 100000 in
theorem p12_cursors :
    ((html_parse [] p12).bind (fun a => render_node a.length a 0 freshRenderer)).map
        (fun r => cursors r.log)
      = some [(0, 4), (0, 6), (0, 8), (0, 10), (0, 12), (0, 14), (0, 16), (0, 18), (0, 20),
          (0, 22), (0, 24), (0, 26)] := by
  rfl

set_option maxRecDepth 100000 in
theorem ul40_cursors :
    ((html_parse [] ul40).bind (fun a => render_node a.length a 0 freshRenderer)).map
        (fun r => (cursors r.log, emitted r.log))
      = some ([(80, 4), (80, 5), (80, 6)], "* x".toList) := by
  rfl

/-- C29, as the code has it.  For every tree that `html_parse` returns, the
rendering by `render_node` from the state of `render_init` returns, and every
position that the cursor is put at to write a character has `0 ≤ x` and `2 ≤ y`;
when no call is entered below 40 elements `ul` or more, it has `x < 80` too.  The
rows are not kept below 25.  The state of `render_init` has the cursor at
`(0, 2)`, the width 80 and the indent 0.  In
`<ul><li>a<ul><li>b</li></ul></li></ul>` the cursor is put at the columns 2 to 6
of the rows 3 and 4. -/
theorem cursor_positions :
    (∀ (pool : List HtmlNode) (html : List Char) (a : List HtmlNode),
      html_parse pool html = some a →
      ∃ r', render_node a.length a 0 freshRenderer = some r' ∧
        ∀ x y, DispEvent.set_cursor x y ∈ r'.log → 0 ≤ x ∧ 2 ≤ y) ∧
    (∀ (pool : List HtmlNode) (html : List Char) (a : List HtmlNode),
      html_parse pool html = some a →
      (∀ v ∈ visits a.length a 0 [] freshRenderer, v.above.count TAG_UL < 40) →
      ∃ r', render_node a.length a 0 freshRenderer = some r' ∧
        ∀ x y, DispEvent.set_cursor x y ∈ r'.log → 0 ≤ x ∧ x < 80 ∧ 2 ≤ y) ∧
    (freshRenderer.st.x, freshRenderer.st.y, freshRenderer.st.width, freshRenderer.st.indent)
      = (0, 2, 80, 0) ∧
    ((html_parse [] ul2).bind (fun a => render_node a.length a 0 freshRenderer)).map
        (fun r => cursors r.log)
      = some [(2, 3), (3, 3), (4, 3), (4, 4), (5, 4), (6, 4)] := by
  refine ⟨?_, ?_, rfl, by decide⟩
  · intro pool html a h
    have hlen := parse_length pool html a h
    obtain ⟨r', hr, hc⟩ := render_parsed_wrote pool html a h 512 (le_refl _)
      (fun v hv => by
        have h1 := visits_depth a.length a 0 [] freshRenderer v hv
        have h2 := List.count_le_length TAG_UL v.above
        have h3 : a.length ≤ 512 := hlen.2
        simp only [List.length_nil] at h1
        omega)
    exact ⟨r', hr, fun x y hxy => ⟨(hc x y hxy).1, (hc x y hxy).2.2⟩⟩
  · intro pool html a h hul
    obtain ⟨r', hr, hc⟩ := render_parsed_wrote pool html a h 39 (by decide)
      (fun v hv => by
        have := hul v hv
        omega)
    refine ⟨r', hr, fun x y hxy => ?_⟩
    have := hc x y hxy
    have hm : max (79 : Int) (2 * ((39 : Nat) : Int)) = 79 := by decide
    rw [hm] at this
    exact ⟨this.1, by omega, this.2.2⟩

/-- C29, the counterexample: the twelfth of twelve paragraphs `<p>x</p>` is
written at the row 26, which is not below 25, and the item of `<li>x` within forty
`<ul>` is written at the column 80, which is not below 80. -/
theorem cursor_counterexample :
    ((html_parse [] p12).bind (fun a => render_node a.length a 0 freshRenderer)).map
        (fun r => cursors r.log)
      = some [(0, 4), (0, 6), (0, 8), (0, 10), (0, 12), (0, 14), (0, 16), (0, 18), (0, 20),
          (0, 22), (0, 24), (0, 26)] ∧
    ((html_parse [] ul40).bind (fun a => render_node a.length a 0 freshRenderer)).map
        (fun r => (cursors r.log, emitted r.log))
      = some ([(80, 4), (80, 5), (80, 6)], "* x".toList) :=
  ⟨p12_cursors, ul40_cursors⟩

/-! ### The length of the request -/

theorem copyWhile_fst_nul (cond : Char → Bool) (n : Nat) (p : List Char) :
    NUL ∉ (copyWhile cond n p).1 := by
  rw [copyWhile_fst]
  intro h
  have h1 := List.mem_of_mem_take h
  have h2 := List.mem_takeWhile_imp h1
  simp at h2

theorem copyWhile_fst_length (cond : Char → Bool) (n : Nat) (p : List Char) :
    (copyWhile cond n p).1.length ≤ n := by
  rw [copyWhile_fst]
  simp

/-- The fields that `parse_url` writes hold no terminator, and the host, the path
and the query have at most 127, 255 and 255 bytes. -/
theorem parse_url_fields (url : List Char) :
    NUL ∉ (parse_url url).2.host ∧ NUL ∉ (parse_url url).2.path ∧
    NUL ∉ (parse_url url).2.query ∧ (parse_url url).2.host.length ≤ 127 ∧
    (parse_url url).2.path.length ≤ 255 ∧ (parse_url url).2.query.length ≤ 255 := by
  have h1 : ∀ (c : Prop) [Decidable c] (a b : List Char × List Char),
      NUL ∉ a.1 → NUL ∉ b.1 → NUL ∉ (if c then a else b).1 := by
    intro c _ a b ha hb
    split <;> assumption
  have h2 : ∀ (c : Prop) [Decidable c] (a b : List Char × List Char),
      a.1.length ≤ 255 → b.1.length ≤ 255 → (if c then a else b).1.length ≤ 255 := by
    intro c _ a b ha hb
    split <;> assumption
  simp only [parse_url]
  exact ⟨copyWhile_fst_nul _ _ _,
    h1 _ _ _ (copyWhile_fst_nul _ _ _) (show NUL ∉ ['/'] from by decide),
    h1 _ _ _ (copyWhile_fst_nul _ _ _) (List.not_mem_nil _), copyWhile_fst_length _ _ _,
    h2 _ _ _ (copyWhile_fst_length _ _ _) (show ['/'].length ≤ 255 from by decide),
    h2 _ _ _ (copyWhile_fst_length _ _ _) (Nat.zero_le _)⟩

theorem requestText_length (u : ParsedUrl) :
    (requestText "GET".toList u).length
      = 107 + u.host.length + u.path.length + (if u.query ≠ [] then 1 + u.query.length else 0) := by
  unfold requestText
  have e1 : "GET".toList.length = 3 := rfl
  have e2 : " ".toList.length = 1 := rfl
  have e3 : " HTTP/1.1\r\n".toList.length = 11 := rfl
  have e4 : "Host: ".toList.length = 6 := rfl
  have e5 : "\r\n".toList.length = 2 := rfl
  have e6 : "User-Agent: FrayBrowser/1.0\r\n".toList.length = 29 := rfl
  have e7 : "Accept: text/html,text/plain,*/*\r\n".toList.length = 34 := rfl
  have e8 : "Connection: close\r\n".toList.length = 19 := rfl
  have e9 : "?".toList.length = 1 := rfl
  simp only [List.length_append, e1, e2, e3, e4, e5, e6, e7, e8]
  split
  · simp only [List.length_append, e9]
    omega
  · simp only [List.length_nil]
    omega

set_option maxRecDepth 100000 in
theorem longUrl_parsed :
    (parse_url longUrl).2 =
      { host := "1.2.3.4".toList, port := 80, path := '/' :: List.replicate 254 'a',
        query := List.replicate 255 'b' } := by
  rfl

/-- C40. The request that `http_get` builds need not fit its buffer of 512
bytes.  For every URL, with `u` the result of `parse_url`, the length that
`build_request` returns for `GET` and `u` is 107 plus the lengths of the host and
of the path, plus 1 and the length of the query when there is one; `buf_size` has
no part in it.  The host has at most 127 bytes, the path and the query at most
255 each, so the length is at most 745, and it is at most 511 when host, path and
query together have at most 403 bytes.  For the URL with the host `1.2.3.4`, a
path of 255 bytes and a query of 255 bytes, which `dns_resolve` resolves, the
length is 625. -/
theorem request_length :
    (∀ (buf : List Char) (buf_size : Int) (url : List Char),
      (build_request buf buf_size "GET".toList (parse_url url).2).1
        = 107 + (parse_url url).2.host.length + (parse_url url).2.path.length +
          (if (parse_url url).2.query ≠ [] then 1 + (parse_url url).2.query.length else 0) ∧
      (build_request buf buf_size "GET".toList (parse_url url).2).1 ≤ 745 ∧
      ((parse_url url).2.host.length + (parse_url url).2.path.length +
          (parse_url url).2.query.length ≤ 403 →
        (build_request buf buf_size "GET".toList (parse_url url).2).1 ≤ 511)) ∧
    (build_request [] 512 "GET".toList (parse_url longUrl).2).1 = 625 ∧
    dns_resolve (parse_url longUrl).2.host = 0x01020304 := by
  have key : ∀ (buf : List Char) (buf_size : Int) (url : List Char),
      (build_request buf buf_size "GET".toList (parse_url url).2).1
        = 107 + (parse_url url).2.host.length + (parse_url url).2.path.length +
          (if (parse_url url).2.query ≠ [] then 1 + (parse_url url).2.query.length else 0) := by
    intro buf buf_size url
    have hf := parse_url_fields url
    rw [build_request_text buf buf_size "GET".toList (parse_url url).2 (by decide) hf.1 hf.2.1
      hf.2.2.1]
    exact requestText_length _
  refine ⟨fun buf buf_size url => ⟨key buf buf_size url, ?_, ?_⟩, ?_, ?_⟩
  · have hf := parse_url_fields url
    rw [key]
    split <;> omega
  · intro h
    rw [key]
    split <;> omega
  · rw [key, longUrl_parsed]
    have hq : List.replicate 255 'b' ≠ [] := fun h => by
      have := congrArg List.length h
      rw [List.length_replicate] at this
      exact absurd this (by decide)
    dsimp only
    rw [if_pos hq, List.length_cons, List.length_replicate, List.length_replicate]
    rfl
  · rw [longUrl_parsed]
    decide

/-! ### The content type of a response -/

theorem copyLine_suffix : ∀ (n : Nat) (p : List Char), (copyLine n p).2 <:+ p
  | 0, p => List.suffix_refl p
  | n + 1, p => by
    simp only [copyLine]
    split
    · exact (copyLine_suffix n p.tail).trans (List.tail_suffix p)
    · exact List.suffix_refl p

theorem skipLine_suffix (data_len : Int) : ∀ (k : Nat) (p : Ptr),
    (skipLine data_len k p).mem <:+ p.mem
  | 0, p => List.suffix_refl _
  | k + 1, p => by
    simp only [skipLine]
    split
    · exact (skipLine_suffix data_len k (p.add 1)).trans (List.drop_suffix _ _)
    · exact List.suffix_refl _

/-- The body of the header loop moves the pointer forward, and writes
`content_type` only at a line that begins with `Content-Type:`. -/
theorem headerStep_keeps (p : Ptr) (resp : HttpResponse) :
    (headerStep p resp).1.mem <:+ p.mem ∧
    (¬ "Content-Type:".toList <+: p.mem →
      (headerStep p resp).2.content_type = resp.content_type) := by
  have hiff := kstrncmp_eq_zero_iff "Content-Type:".toList (by decide) p.mem
  have h13 : "Content-Type:".toList.length = 13 := rfl
  rw [h13] at hiff
  simp only [headerStep]
  split
  · rename_i h
    refine ⟨?_, fun hn => absurd (hiff.1 h) hn⟩
    exact (copyLine_suffix _ _).trans ((List.drop_suffix _ _).trans (List.drop_suffix _ _))
  · split
    · refine ⟨?_, fun _ => rfl⟩
      exact (parseInt_suffix _ _).trans ((List.drop_suffix _ _).trans (List.drop_suffix _ _))
    · exact ⟨List.suffix_refl _, fun _ => rfl⟩

theorem headerLoop_keeps (data_len : Int) (data : List Char)
    (hno : ¬ "Content-Type:".toList <:+: data) : ∀ (k : Nat) (p : Ptr) (resp : HttpResponse),
    p.mem <:+ data → (headerLoop data_len k p resp).2.content_type = resp.content_type
  | 0, _, _, _ => rfl
  | k + 1, p, resp, hp => by
    simp only [headerLoop]
    split
    · have hs := headerStep_keeps p resp
      have hno' : ¬ "Content-Type:".toList <+: p.mem := fun h =>
        hno (h.isInfix.trans hp.isInfix)
      rw [headerLoop_keeps data_len data hno k _ _
        ((List.drop_suffix _ _).trans ((skipLine_suffix data_len _ _).trans (hs.1.trans hp)))]
      exact hs.2 hno'
    · rfl

theorem foldl_headerEffect_type (hs : List (List Char))
    (hno : ∀ l ∈ hs, ¬ "Content-Type:".toList <+: l) (r : HttpResponse) :
    (hs.foldl (fun r l => headerEffect l r) r).content_type = r.content_type := by
  induction hs generalizing r with
  | nil => rfl
  | cons l ls ih =>
    simp only [List.foldl_cons]
    rw [ih (fun x hx => hno x (List.mem_cons_of_mem _ hx))]
    unfold headerEffect
    rw [if_neg (hno l (List.mem_cons_self _ _))]
    split <;> rfl

/-- C39. `parse_response` writes `content_type` only at a header line that begins
with `Content-Type:`.  A response that does not begin with `HTTP/1.` is rejected
with `status_code`, `content_length` and `body` reset and `content_type` (and
`body_length`) as they were.  When the call returns for a buffer in which
`Content-Type:` does not occur at all, `content_type` is what it was before.  For
a well-formed response (a status line that begins with `HTTP/1.`, has at least 8
bytes and no `\r`, good header lines, the blank line, a body) of whose header
lines none begins with `Content-Type:`, whatever the body holds, the call
succeeds and `content_type` is what it was before, while `status_code` is that of
the status line and `body` is set.  So it is for a response with the one header
`X-Frame: none`: the content type `old` of before the call is still there. -/
theorem content_type_kept :
    (∀ (data : List Char) (data_len : Int) (resp : HttpResponse),
      ¬ "HTTP/1.".toList <+: data →
      parse_response data data_len resp
        = some (0, { resp with status_code := 0, content_length := 0, body := none })) ∧
    (∀ (data : List Char) (data_len : Int) (resp r : HttpResponse) (ret : Int),
      ¬ "Content-Type:".toList <:+: data → parse_response data data_len resp = some (ret, r) →
      r.content_type = resp.content_type) ∧
    (∀ (sl : List Char) (hs : List (List Char)) (b : List Char) (resp : HttpResponse),
      "HTTP/1.".toList <+: sl → 8 ≤ sl.length → CR ∉ sl → NUL ∉ sl →
      (∀ l ∈ hs, GoodLine l) → (∀ l ∈ hs, ¬ "Content-Type:".toList <+: l) →
      ∃ r, parse_response (responseText sl hs b) (responseText sl hs b).length resp
          = some (1, r) ∧
        r.content_type = resp.content_type ∧ r.status_code = statusOf sl ∧
        r.body = some (sl.length + (headerBlock hs).length + 4)) ∧
    (parse_response respPlain respPlain.length resp0).map
        (fun x => (x.1, x.2.status_code, x.2.content_type, x.2.content_length, x.2.body))
      = some (1, 200, "old".toList, 0, some 34) := by
  have hiff := fun data => kstrncmp_eq_zero_iff "HTTP/1.".toList (by decide) data
  have h7 : "HTTP/1.".toList.length = 7 := rfl
  rw [h7] at hiff
  refine ⟨?_, ?_, ?_, by decide⟩
  · intro data data_len resp hn
    unfold parse_response
    rw [if_pos (fun h => hn ((hiff data).1 h))]
  · intro data data_len resp r ret hno h
    unfold parse_response at h
    simp only at h
    split at h
    · simp only [Option.some.injEq, Prod.mk.injEq] at h
      rw [← h.2]
    · split at h
      · exact absurd h (by simp)
      · rename_i k hk
        have hl := headerLoop_keeps data_len data hno
          (data_len - ((Ptr.add ⟨0, data⟩ (k + 2)).off : Int)).toNat
          (Ptr.add ⟨0, data⟩ (k + 2))
          { resp with status_code := (parseIntAt (skipSpaces (Ptr.add ⟨0, data⟩ 9)) 0).1,
                      content_length := 0, body := none }
          (List.drop_suffix _ _)
        split at h
        · simp only [Option.some.injEq, Prod.mk.injEq] at h
          rw [← h.2]
          exact hl
        · simp only [Option.some.injEq, Prod.mk.injEq] at h
          rw [← h.2]
          exact hl
  · intro sl hs b resp hpre h8 hcr hnul hgood hno
    refine ⟨_, parse_response_wellformed sl hs b resp hpre h8 hcr hnul hgood, ?_, ?_, rfl⟩
    · show (headersResult sl hs resp).content_type = resp.content_type
      unfold headersResult
      rw [foldl_headerEffect_type hs hno]
    · show (headersResult sl hs resp).status_code = statusOf sl
      unfold headersResult
      have : ∀ (ls : List (List Char)) (r : HttpResponse),
          (ls.foldl (fun r l => headerEffect l r) r).status_code = r.status_code := by
        intro ls
        induction ls with
        | nil => intro r; rfl
        | cons l ls ih =>
          intro r
          simp only [List.foldl_cons]
          rw [ih]
          unfold headerEffect
          split
          · rfl
          · split <;> rfl
      rw [this]

/-- C39, an instance: the response with the status line `HTTP/1.1 200 OK`, the one
header `X-Frame: none` and the body `hi` is parsed with the content type of
before the call kept. -/
theorem content_type_kept_witness :
    responseText "HTTP/1.1 200 OK".toList ["X-Frame: none".toList] "hi".toList = respPlain ∧
    ∃ r, parse_response
          (responseText "HTTP/1.1 200 OK".toList ["X-Frame: none".toList] "hi".toList)
          (responseText "HTTP/1.1 200 OK".toList ["X-Frame: none".toList] "hi".toList).length
          resp0 = some (1, r) ∧
      r.content_type = resp0.content_type ∧ r.status_code = statusOf "HTTP/1.1 200 OK".toList ∧
      r.body = some ("HTTP/1.1 200 OK".toList.length +
        (headerBlock ["X-Frame: none".toList]).length + 4) :=
  ⟨by decide,
    content_type_kept.2.2.1 "HTTP/1.1 200 OK".toList ["X-Frame: none".toList] "hi".toList resp0
      (by decide) (by decide) (by decide) (by decide)
      (by simp only [List.mem_singleton, forall_eq, GoodLine]; decide) (by decide)⟩

/-! ### The parents of the nodes -/

theorem parse_parents (pool : List HtmlNode) (html : List Char) (a : List HtmlNode)
    (h : html_parse pool html = some a) :
    ∀ (i : Nat) (m : HtmlNode), a[i]? = some m →
      (i = 0 ∧ m.parent = none) ∨ (0 < i ∧ ∃ j, m.parent = some j ∧ j < i) := by
  refine parse_keeps (fun pl => 1 ≤ pl.length ∧ ∀ (i : Nat) (m : HtmlNode), pl[i]? = some m →
      (i = 0 ∧ m.parent = none) ∨ (0 < i ∧ ∃ j, m.parent = some j ∧ j < i)) ?_ ?_ pool html a h
    |>.2
  · refine ⟨Nat.le_refl 1, ?_⟩
    intro i m hm
    cases i with
    | zero =>
      simp only [List.getElem?_cons_zero, Option.some.injEq] at hm
      rw [← hm]
      exact Or.inl ⟨rfl, rfl⟩
    | succ i => simp at hm
  · intro pl cur new hcur _ hpar _ _ ⟨hlen, ih⟩
    refine ⟨by rw [push_length]; omega, ?_⟩
    intro i m' hm'
    rcases push_cases _ _ _ _ _ hm' with ⟨_, m, e1, e2, _⟩ | ⟨hi, e⟩
    · have : m'.parent = m.parent :=
        (congrArg HtmlNode.parent e2 : (core m').parent = (core m).parent)
      rw [this]
      exact ih i m e1
    · right
      rw [e, hpar]
      exact ⟨by omega, cur, rfl, by omega⟩

/-- Following the links to the parent from a node leads to the root. -/
theorem up_root (a : List HtmlNode)
    (hp : ∀ (i : Nat) (m : HtmlNode), a[i]? = some m →
      (i = 0 ∧ m.parent = none) ∨ (0 < i ∧ ∃ j, m.parent = some j ∧ j < i)) :
    ∀ (i : Nat), i < a.length → ∃ n, n ≤ i ∧ up a n i = some 0 := by
  intro i
  induction i using Nat.strong_induction_on with
  | _ i ih =>
    intro hi
    have hm : a[i]? = some a[i] := List.getElem?_eq_getElem hi
    rcases hp i a[i] hm with ⟨h0, _⟩ | ⟨_, j, hj, hlt⟩
    · exact ⟨0, Nat.zero_le _, by rw [h0]; rfl⟩
    · obtain ⟨n, hn, hu⟩ := ih j hlt (by omega)
      refine ⟨1 + n, by omega, ?_⟩
      rw [up_add]
      have e : up a 1 i = some j := by simp [up, hm, hj]
      rw [e]
      exact hu

/-- C33. The tree that `html_parse` returns is well-formed, for every text.  A
node in the list of children of a node has that node in its field `parent` and
lies behind it in the arena.  The root has no parent; every other node has one
parent, which lies before it in the arena.  Following the links to the parent
from a node never comes back to the node, and leads in at most as many steps as
the index of the node to the root, which has no parent.  The children of a node
are listed in the order of the arena, the order of the text.  So it is in the
tree of `<div><p>a</p>b</div>c`. -/
theorem tree_wellformed :
    (∀ (pool : List HtmlNode) (html : List Char) (a : List HtmlNode),
      html_parse pool html = some a →
      (∀ (i : Nat) (m : HtmlNode), a[i]? = some m → ∀ c ∈ m.children,
        i < c ∧ ∃ mc, a[c]? = some mc ∧ mc.parent = some i) ∧
      (∀ (i : Nat) (m : HtmlNode), a[i]? = some m →
        (i = 0 ∧ m.parent = none) ∨ (0 < i ∧ ∃ j, m.parent = some j ∧ j < i)) ∧
      (∀ (i n : Nat), up a n i = some i → n = 0) ∧
      (∀ (i : Nat), i < a.length → ∃ n, n ≤ i ∧ up a n i = some 0) ∧
      (∀ (i : Nat) (m : HtmlNode), a[i]? = some m →
        m.children.Pairwise (fun x y => x < y))) ∧
    (html_parse [] "<div><p>a</p>b</div>c".toList).map
        (fun a => a.map (fun m => (m.tag, m.text, m.children, m.parent)))
      = some [(TAG_HTML, [], [1, 5], none), (TAG_DIV, "div".toList, [2, 4], some 0),
          (TAG_P, "p".toList, [3], some 1), (0, "a".toList, [], some 2),
          (0, "b".toList, [], some 1), (0, "c".toList, [], some 0)] := by
  refine ⟨?_, by rfl⟩
  intro pool html a h
  have ht := parse_tree_ok pool html a h
  have hp := parse_parents pool html a h
  refine ⟨ht.1, hp, ?_, up_root a hp, ht.2.1⟩
  intro i n hu
  by_contra hn
  have := (up_le a ht n i i hu).2 (Nat.pos_of_ne_zero hn)
  omega

/-- C33, an instance: the tree of `<div><p>a</p>b</div>c`. -/
theorem tree_wellformed_witness :
    html_parse [] "<div><p>a</p>b</div>c".toList = some nestTree ∧
    (∀ (i : Nat) (m : HtmlNode), nestTree[i]? = some m → ∀ c ∈ m.children,
      i < c ∧ ∃ mc, nestTree[c]? = some mc ∧ mc.parent = some i) ∧
    (∀ (i : Nat) (m : HtmlNode), nestTree[i]? = some m →
      (i = 0 ∧ m.parent = none) ∨ (0 < i ∧ ∃ j, m.parent = some j ∧ j < i)) ∧
    (∀ (i n : Nat), up nestTree n i = some i → n = 0) ∧
    (∀ (i : Nat), i < nestTree.length → ∃ n, n ≤ i ∧ up nestTree n i = some 0) ∧
    (∀ (i : Nat) (m : HtmlNode), nestTree[i]? = some m →
      m.children.Pairwise (fun x y => x < y)) :=
  ⟨by rfl, tree_wellformed.1 [] "<div><p>a</p>b</div>c".toList nestTree (by rfl)⟩

/-! ### The end of the main loop -/

/-- The main loop ends: when the counter is larger than the text is long, the
run ends at the terminator, at a `break`, or with the null pointer. -/
theorem run_ends : ∀ (k : Nat) (s sf : PState), s.ptr.length < k → run k s = some sf →
    deref sf.ptr = NUL ∨ ∃ t, step t = Step.stop sf
  | 0, s, _, h, _ => absurd h (Nat.not_lt_zero _)
  | k + 1, s, sf, h, hr => by
    simp only [run] at hr
    split at hr
    · rename_i hn
      simp only [Option.some.injEq] at hr
      rw [← hr]
      exact Or.inl hn
    · rename_i hn
      cases hst : step s with
      | next s' =>
        rw [hst] at hr
        have := step_length_lt s s' hn hst
        exact run_ends k s' sf (by omega) hr
      | stop s' =>
        rw [hst] at hr
        simp only [Option.some.injEq] at hr
        rw [← hr]
        exact Or.inr ⟨s, hst⟩
      | fault =>
        rw [hst] at hr
        exact absurd hr (by simp)

/-- C35. `html_parse` does not return for a comment that is not closed; for every
other text it ends and returns a tree.  Every iteration of the main loop that is
entered and goes on moves the pointer forward, and so does every iteration of the
loop of `html_parse_attr`; the loop of `html_parse_attr` ends at a `>` or at the
terminator.  Hence the main loop is at its end after at most as many iterations
as the text has bytes: with any counter larger than that the result is the same,
and when there is one it was reached at the terminator or at a `break`.  When no
`<!--` occurs in the text, there is a result.  The texts `<p` and `<a href="x`
give a tree; on the text `<!-- x` the iteration ends with the null pointer in
`ptr`, which the test of the loop dereferences, and nothing is returned. -/
theorem html_parse_terminates :
    (∀ (s s' : PState), deref s.ptr ≠ NUL → step s = Step.next s' →
      s'.ptr.length < s.ptr.length) ∧
    (∀ (name : List Char) (ml : Nat) (p out : List Char), deref p ≠ NUL ∧ deref p ≠ '>' →
      (attrBody name ml p out).1.length < p.length) ∧
    (∀ (p name out : List Char) (ml : Nat),
      deref (html_parse_attr p name out ml).1 = NUL ∨
      deref (html_parse_attr p name out ml).1 = '>') ∧
    (∀ (pool : List HtmlNode) (html : List Char) (k : Nat), html.length < k →
      (run k (initState pool html)).map (fun s => s.pool) = html_parse pool html) ∧
    (∀ (pool : List HtmlNode) (html : List Char) (k : Nat) (sf : PState), html.length < k →
      run k (initState pool html) = some sf →
      deref sf.ptr = NUL ∨ ∃ t, step t = Step.stop sf) ∧
    (∀ (pool : List HtmlNode) (html : List Char), ¬ "<!--".toList <:+: html →
      (html_parse pool html).isSome = true) ∧
    html_parse [] "<p".toList = some
      [{ blankNode with type := NODE_ELEMENT, tag := TAG_HTML, children := [1] },
       { blankNode with type := NODE_ELEMENT, tag := TAG_P, text := "p".toList,
                        parent := some 0 }] ∧
    html_parse [] ("<a href=".toList ++ DQ :: "x".toList) = some
      [{ blankNode with type := NODE_ELEMENT, tag := TAG_HTML, children := [1] },
       { blankNode with type := NODE_ELEMENT, tag := TAG_A, text := "a".toList,
                        href := "x".toList, parent := some 0 }] ∧
    step ⟨[{ blankNode with type := NODE_ELEMENT, tag := TAG_HTML }], 0, "<!-- x".toList⟩
      = Step.fault ∧
    html_parse [] "<!-- x".toList = none := by
  refine ⟨step_length_lt, attrBody_length_lt, ?_, ?_, ?_, ?_, by decide, by decide, by decide,
    by decide⟩
  · intro p name out ml
    have := attrLoop_end name ml (p.length + 1) p out (Nat.lt_succ_self _)
    unfold html_parse_attr
    unfold inTagChar at this
    by_cases h1 : deref (attrLoop name ml (p.length + 1) p out).1 = NUL
    · exact Or.inl h1
    · by_cases h2 : deref (attrLoop name ml (p.length + 1) p out).1 = '>'
      · exact Or.inr h2
      · simp [h1, h2] at this
  · intro pool html k hk
    unfold html_parse
    rw [run_fuel k (html.length + 1) (initState pool html) hk (Nat.lt_succ_self _)]
  · intro pool html k sf hk hr
    exact run_ends k (initState pool html) sf hk hr
  · intro pool html hno
    unfold html_parse
    rw [Option.isSome_map']
    exact run_isSome html hno _ _ (List.suffix_refl _)

/-! ### The closing tag of an element that is not recognized -/

/-- The field `parent` of an old node is not changed when a node is added. -/
theorem popCurrent_push (pool : List HtmlNode) (cur : Nat) (new : HtmlNode) (e : Nat)
    (he : e < pool.length) :
    popCurrent (addChild pool cur pool.length ++ [new]) e = popCurrent pool e := by
  have h := push_old pool cur new e he
  have hm : pool[e]? = some pool[e] := List.getElem?_eq_getElem he
  rw [hm] at h
  cases hx : (addChild pool cur pool.length ++ [new])[e]? with
  | none => rw [hx] at h; simp at h
  | some m' =>
    rw [hx] at h
    simp only [Option.map_some', Option.some.injEq] at h
    have hp : m'.parent = pool[e].parent :=
      (congrArg HtmlNode.parent h : (core m').parent = (core pool[e]).parent)
    simp only [popCurrent, hx, hm, hp]

/-- The three iterations at `<name>t</name'>` with a name that is not recognized:
the first passes the tag, the second makes a text node at the insertion point,
the third moves the insertion point to its parent. -/
theorem iter_unknown_pair (s : PState) (name t name' post : List Char) (c : Char)
    (t' : List Char)
    (hname : ∀ c ∈ name, c ≠ NUL ∧ tagNameChar c = true) (hne : name ≠ [])
    (hnc : ¬ "!--".toList <+: name) (htag : html_match_tag (name.map lowerChar) = 0)
    (htc : t = c :: t') (hc : isWs c = false) (ht : ∀ c ∈ t, c ≠ NUL ∧ c ≠ '<')
    (hlen : t.length ≤ 255) (htrim : trimEnd (textLoop t []).1 ≠ [])
    (hname' : ∀ c ∈ name', inTagChar c = true)
    (hfull : s.pool.length < MAX_NODES) (hcur : s.current < s.pool.length)
    (hp : s.ptr = '<' :: name ++ '>' :: (t ++ '<' :: '/' :: name' ++ '>' :: post)) :
    iter 3 s = some
      { pool := addChild s.pool s.current s.pool.length ++
          [{ blankNode with type := NODE_TEXT, text := cstr (trimEnd (textLoop t []).1),
                            parent := some s.current }],
        current := popCurrent s.pool s.current, ptr := post } := by
  have h1 := step_unknown s [] name [] (t ++ '<' :: '/' :: name' ++ '>' :: post)
    (fun _ h => absurd h (List.not_mem_nil _)) hname hne hnc
    (fun _ h => absurd h (List.not_mem_nil _)) (by decide) htag
    (by rw [hp]; simp)
  have h2 := step_text { s with ptr := t ++ '<' :: '/' :: name' ++ '>' :: post } [] t
    ('/' :: name' ++ '>' :: post) c t' (fun _ h => absurd h (List.not_mem_nil _)) htc hc ht hlen
    htrim hfull hcur (by simp)
  have h3 := step_close
    { pool := addChild s.pool s.current s.pool.length ++
          [{ blankNode with type := NODE_TEXT, text := cstr (trimEnd (textLoop t []).1),
                            parent := some s.current }],
      current := s.current, ptr := '<' :: '/' :: name' ++ '>' :: post } [] name' post
    (fun _ h => absurd h (List.not_mem_nil _)) hname' (by simp)
  have hlt : '<' ≠ NUL := by decide
  have d1 : deref s.ptr ≠ NUL := by rw [hp]; exact hlt
  have d2 : deref (t ++ '<' :: '/' :: name' ++ '>' :: post) ≠ NUL := by
    rw [htc]
    exact (ht c (by rw [htc]; exact List.mem_cons_self _ _)).1
  have i1 := iter_succ_last 0 s s _ rfl d1 h1
  have i2 := iter_succ_last 1 s _ _ i1 d2 h2
  have i3 := iter_succ_last 2 s _ _ i2 hlt h3
  rw [i3]
  simp only [popCurrent_push s.pool s.current _ s.current hcur]

/-- C36. The closing tag of an element that is not recognized moves the insertion
point although the opening tag has not.  At `<name>t</name'>` with a name that
`html_match_tag` does not know, a text `t` that ends up as a text node, and room
in the arena, three iterations of the main loop leave the text node as a node of
the insertion point `e` (a child when `e` has less than 32), and the insertion
point at the parent of `e` when `e` has one.  So in `<div><foo>x</foo>y</div>`
the text `x` is a child of the `div` and the text `y` a child of the root. -/
theorem unknown_close_pops :
    (∀ (s : PState) (name t name' post : List Char) (c : Char) (t' : List Char) (m : HtmlNode)
        (q : Nat),
      (∀ c ∈ name, c ≠ NUL ∧ tagNameChar c = true) → name ≠ [] → ¬ "!--".toList <+: name →
      html_match_tag (name.map lowerChar) = 0 →
      t = c :: t' → isWs c = false → (∀ c ∈ t, c ≠ NUL ∧ c ≠ '<') → t.length ≤ 255 →
      trimEnd (textLoop t []).1 ≠ [] → (∀ c ∈ name', inTagChar c = true) →
      s.pool.length < MAX_NODES → s.pool[s.current]? = some m → m.parent = some q →
      s.ptr = '<' :: name ++ '>' :: (t ++ '<' :: '/' :: name' ++ '>' :: post) →
      iter 3 s = some
        { pool := addChild s.pool s.current s.pool.length ++
            [{ blankNode with type := NODE_TEXT, text := cstr (trimEnd (textLoop t []).1),
                              parent := some s.current }],
          current := q, ptr := post }) ∧
    html_match_tag ("foo".toList.map lowerChar) = 0 ∧
    html_parse [] "<div><foo>x</foo>y</div>".toList = some
      [{ blankNode with type := NODE_ELEMENT, tag := TAG_HTML, children := [1, 3] },
       { blankNode with type := NODE_ELEMENT, tag := TAG_DIV, text := "div".toList,
                        children := [2], parent := some 0 },
       { blankNode with type := NODE_TEXT, text := "x".toList, parent := some 1 },
       { blankNode with type := NODE_TEXT, text := "y".toList, parent := some 0 }] := by
  refine ⟨?_, by decide, by decide⟩
  intro s name t name' post c t' m q hname hne hnc htag htc hc ht hlen htrim hname' hfull hm
    hq hp
  have hcur : s.current < s.pool.length := (List.getElem?_eq_some.1 hm).1
  rw [iter_unknown_pair s name t name' post c t' hname hne hnc htag htc hc ht hlen htrim hname'
    hfull hcur hp]
  rw [popCurrent_parent s.pool s.current q (by rw [hm]; exact hq)]

/-- C36, an instance: with the insertion point at the `div` of `<div>`, the three
iterations over `<foo>x</foo>` leave the text `x` as a child of the `div` and the
insertion point at the root. -/
theorem unknown_close_pops_witness :
    iter 3 ⟨divArena, 1, '<' :: "foo".toList ++ '>' ::
        ("x".toList ++ '<' :: '/' :: "foo".toList ++ '>' :: "y</div>".toList)⟩
      = some
        { pool := addChild divArena 1 divArena.length ++
            [{ blankNode with type := NODE_TEXT,
                              text := cstr (trimEnd (textLoop "x".toList []).1),
                              parent := some 1 }],
          current := 0, ptr := "y</div>".toList } ∧
    addChild divArena 1 divArena.length ++
        [{ blankNode with type := NODE_TEXT, text := cstr (trimEnd (textLoop "x".toList []).1),
                          parent := some 1 }]
      = [{ blankNode with type := NODE_ELEMENT, tag := TAG_HTML, children := [1] },
         { blankNode with type := NODE_ELEMENT, tag := TAG_DIV, text := "div".toList,
                          children := [2], parent := some 0 },
         { blankNode with type := NODE_TEXT, text := "x".toList, parent := some 1 }] :=
  ⟨unknown_close_pops.1 ⟨divArena, 1, '<' :: "foo".toList ++ '>' ::
        ("x".toList ++ '<' :: '/' :: "foo".toList ++ '>' :: "y</div>".toList)⟩
      "foo".toList "x".toList "foo".toList "y</div>".toList 'x' []
      { blankNode with type := NODE_ELEMENT, tag := TAG_DIV, text := "div".toList,
                       parent := some 0 } 0
      (by decide) (by decide) (by decide) (by decide) rfl (by decide) (by decide) (by decide)
      (by decide) (by decide) (by decide) rfl rfl rfl,
    by decide⟩

/-! ### A text run longer than the buffer -/

theorem runChar_not_special (c : Char) (h : runChar c) :
    ¬ (c = LF ∨ c = CR ∨ c = TAB) := by
  intro hc
  have := h.2.2
  rcases hc with e | e | e <;> (rw [e] at this; exact absurd this (by decide))

theorem textLoop_plain : ∀ (t acc rest : List Char), (∀ c ∈ t, runChar c) →
    acc.length + t.length ≤ 255 → textLoop (t ++ rest) acc = textLoop rest (acc ++ t)
  | [], acc, rest, _, _ => by simp
  | c :: t, acc, rest, ht, hlen => by
    have hc := ht c (List.mem_cons_self _ _)
    simp only [List.length_cons] at hlen
    simp only [List.cons_append, textLoop]
    rw [if_pos ⟨hc.1, hc.2.1, by omega⟩, if_neg (runChar_not_special c hc)]
    have ih := textLoop_plain t (acc ++ [c]) rest (fun x hx => ht x (List.mem_cons_of_mem _ hx))
      (by simp only [List.length_append, List.length_singleton]; omega)
    rw [List.append_assoc, List.singleton_append] at ih
    exact ih

theorem textLoop_stop (p text : List Char) (h : text.length = 255 ∨ deref p = '<') :
    textLoop p text = (text, p) := by
  cases p with
  | nil => rfl
  | cons c cs =>
    simp only [textLoop]
    rw [if_neg]
    rintro ⟨_, h2, h3⟩
    rcases h with h | h
    · omega
    · exact h2 h

theorem trimEnd_plain (t : List Char) (ht : ∀ c ∈ t, runChar c) : trimEnd t = t := by
  unfold trimEnd
  cases hr : t.reverse with
  | nil => simp [List.reverse_eq_nil_iff.1 hr]
  | cons c cs =>
    have hc : c ∈ t := by
      rw [← List.mem_reverse, hr]
      exact List.mem_cons_self _ _
    have hne : (c == ' ') = false := by
      have := (ht c hc).2.2
      cases he : (c == ' ') with
      | false => rfl
      | true =>
        rw [beq_iff_eq] at he
        rw [he] at this
        exact absurd this (by decide)
    rw [List.dropWhile_cons, hne]
    simp only [Bool.false_eq_true, if_false]
    rw [← hr, List.reverse_reverse]

/-- The iteration at a piece of a text run: the piece becomes a text node. -/
theorem step_piece (s : PState) (t rest : List Char) (ht : ∀ c ∈ t, runChar c) (hne : t ≠ [])
    (hlen : t.length ≤ 255) (hstop : t.length = 255 ∨ deref rest = '<')
    (hfull : s.pool.length < MAX_NODES) (hcur : s.current < s.pool.length)
    (hp : s.ptr = t ++ rest) :
    step s = Step.next
      { pool := addChild s.pool s.current s.pool.length ++ [textNodeOf s.current t],
        current := s.current, ptr := rest } := by
  obtain ⟨c, t', htc⟩ := List.exists_cons_of_ne_nil hne
  have hc := ht c (by rw [htc]; exact List.mem_cons_self _ _)
  have hd : s.ptr.dropWhile isWs = t ++ rest := by
    rw [hp, htc, List.cons_append, List.dropWhile_cons, hc.2.2]
    simp
  have hl : textLoop (t ++ rest) [] = (t, rest) := by
    rw [textLoop_plain t [] rest ht (by simpa using hlen), List.nil_append]
    exact textLoop_stop rest t hstop
  have hnul : NUL ∉ t := fun h => (ht NUL h).1 rfl
  simp only [step, hd]
  rw [if_neg (by rw [htc]; exact hc.2.1)]
  rw [textNode_eq s (t ++ rest) (by rw [hl, trimEnd_plain t ht]; exact hne) hfull hcur, hl,
    trimEnd_plain t ht, cstr_eq_self t hnul]
  rfl

theorem pieces_length_le : ∀ (f : Nat) (t : List Char), (pieces f t).length ≤ f
  | 0, _ => Nat.le_refl 0
  | f + 1, t => by
    simp only [pieces]
    split
    · exact Nat.zero_le _
    · simp only [List.length_cons]
      have := pieces_length_le f (t.drop 255)
      omega

/-- The iterations at a text run without white space in front of a tag: one text
node for each piece of 255 bytes. -/
theorem iter_pieces : ∀ (f : Nat) (t : List Char) (s : PState) (r : List Char),
    (∀ c ∈ t, runChar c) → t.length ≤ f → s.pool.length + (pieces f t).length ≤ MAX_NODES →
    s.current < s.pool.length → s.ptr = t ++ '<' :: r →
    iter (pieces f t).length s = some
      { pool := addTexts s.pool s.current (pieces f t), current := s.current, ptr := '<' :: r }
  | 0, t, s, r, _, hlen, _, _, hp => by
    have : t = [] := List.length_eq_zero.1 (by omega)
    rw [this] at hp
    simp only [pieces, List.length_nil, iter, addTexts]
    rw [← List.nil_append ('<' :: r), ← hp]
  | f + 1, t, s, r, ht, hlen, hroom, hcur, hp => by
    by_cases hnil : t = []
    · rw [hnil] at hp
      simp only [pieces, hnil, if_true, List.length_nil, iter, addTexts]
      rw [← List.nil_append ('<' :: r), ← hp]
    · simp only [pieces, if_neg hnil, List.length_cons] at hroom ⊢
      have hpos : 0 < t.length := List.length_pos.2 hnil
      have hsplit : s.ptr = t.take 255 ++ (t.drop 255 ++ '<' :: r) := by
        rw [← List.append_assoc, List.take_append_drop]
        exact hp
      have hst := step_piece s (t.take 255) (t.drop 255 ++ '<' :: r)
        (fun c hc => ht c (List.mem_of_mem_take hc))
        (by
          intro h
          have := congrArg List.length h
          simp only [List.length_take, List.length_nil] at this
          omega)
        (by simp only [List.length_take]; omega)
        (by
          by_cases h255 : 255 ≤ t.length
          · left
            simp only [List.length_take]
            omega
          · right
            rw [List.drop_eq_nil_of_le (by omega)]
            rfl)
        (by omega) hcur hsplit
      have hd : deref s.ptr ≠ NUL := by
        obtain ⟨c, t', htc⟩ := List.exists_cons_of_ne_nil hnil
        rw [hp, htc]
        exact (ht c (by rw [htc]; exact List.mem_cons_self _ _)).1
      rw [iter, if_neg hd, hst]
      simp only []
      have ih := iter_pieces f (t.drop 255)
        { pool := addChild s.pool s.current s.pool.length ++
            [textNodeOf s.current (t.take 255)],
          current := s.current, ptr := t.drop 255 ++ '<' :: r } r
        (fun c hc => ht c (List.mem_of_mem_drop hc))
        (by simp only [List.length_drop]; omega)
        (by
          show (addChild s.pool s.current s.pool.length ++
            [textNodeOf s.current (t.take 255)]).length + _ ≤ MAX_NODES
          rw [push_length]
          omega)
        (by
          show s.current < (addChild s.pool s.current s.pool.length ++
            [textNodeOf s.current (t.take 255)]).length
          rw [push_length]
          omega)
        rfl
      rw [ih]
      rfl

theorem pieces_flatten : ∀ (f : Nat) (t : List Char), t.length ≤ f → (pieces f t).flatten = t
  | 0, t, h => by
    have : t = [] := List.length_eq_zero.1 (by omega)
    simp [pieces, this]
  | f + 1, t, h => by
    simp only [pieces]
    split
    · rename_i hn
      simp [hn]
    · rename_i hn
      have hpos : 0 < t.length := List.length_pos.2 hn
      rw [List.flatten_cons, pieces_flatten f (t.drop 255)
        (by simp only [List.length_drop]; omega), List.take_append_drop]

theorem pieces_count : ∀ (f : Nat) (t : List Char), t.length ≤ f →
    (pieces f t).length = (t.length + 254) / 255
  | 0, t, h => by
    have : t = [] := List.length_eq_zero.1 (by omega)
    simp [pieces, this]
  | f + 1, t, h => by
    simp only [pieces]
    split
    · rename_i hn
      simp [hn]
    · rename_i hn
      have hpos : 0 < t.length := List.length_pos.2 hn
      rw [List.length_cons, pieces_count f (t.drop 255)
        (by simp only [List.length_drop]; omega), List.length_drop]
      omega

theorem pieces_each : ∀ (f : Nat) (t : List Char) (p : List Char), p ∈ pieces f t →
    p ≠ [] ∧ p.length ≤ 255
  | 0, _, _, h => by simp [pieces] at h
  | f + 1, t, p, h => by
    simp only [pieces] at h
    split at h
    · simp at h
    · rename_i hn
      rcases List.mem_cons.1 h with h | h
      · rw [h]
        constructor
        · intro he
          have := congrArg List.length he
          have hpos : 0 < t.length := List.length_pos.2 hn
          simp only [List.length_take, List.length_nil] at this
          omega
        · simp only [List.length_take]
          omega
      · exact pieces_each f _ p h

theorem setNode_congr (f g : HtmlNode → HtmlNode) :
    ∀ (l : List HtmlNode) (i : Nat), (∀ m, l[i]? = some m → f m = g m) →
      setNode l i f = setNode l i g
  | [], _, _ => rfl
  | n :: ns, 0, h => by
    simp only [setNode]
    rw [h n (List.getElem?_cons_zero)]
  | n :: ns, i + 1, h => by
    simp only [setNode, List.cons.injEq, true_and]
    exact setNode_congr f g ns i (fun m hm => h m (by simpa using hm))

theorem setNode_setNode (f g : HtmlNode → HtmlNode) :
    ∀ (l : List HtmlNode) (i : Nat), setNode (setNode l i f) i g = setNode l i (fun n => g (f n))
  | [], _ => rfl
  | n :: ns, 0 => rfl
  | n :: ns, i + 1 => by
    simp only [setNode, List.cons.injEq, true_and]
    exact setNode_setNode f g ns i

/-- The arena after text nodes have been made at an insertion point with room
among its children: the new nodes stand behind the others, in order, and are
listed behind the children that were there. -/
theorem addTexts_closed : ∀ (cs : List (List Char)) (pool : List HtmlNode) (cur : Nat)
    (m : HtmlNode), pool[cur]? = some m → m.children.length + cs.length ≤ 32 →
    addTexts pool cur cs =
      setNode pool cur
        (fun n => { n with children := n.children ++ List.range' pool.length cs.length }) ++
      cs.map (textNodeOf cur)
  | [], pool, cur, m, _, _ => by
    simp only [addTexts, List.length_nil, List.range'_zero, List.append_nil, List.map_nil]
    exact (setNode_same _ pool cur (fun _ _ => rfl)).symm
  | c :: cs, pool, cur, m, hm, hlen => by
    simp only [List.length_cons] at hlen
    have hcur : cur < pool.length := (List.getElem?_eq_some.1 hm).1
    have hl : (addChild pool cur pool.length).length = pool.length := setNode_length _ _ _
    have hm' : (addChild pool cur pool.length ++ [textNodeOf cur c])[cur]?
        = some { m with children := m.children ++ [pool.length] } := by
      rw [List.getElem?_append_left (by rw [hl]; exact hcur)]
      unfold addChild
      rw [setNode_getElem?, if_pos rfl, hm]
      simp only [Option.map_some', Option.some.injEq]
      rw [if_pos (by omega)]
    simp only [addTexts]
    rw [addTexts_closed cs _ cur _ hm'
      (by simp only [List.length_append, List.length_singleton]; omega), push_length,
      setNode_append_lt _ _ _ _ (by rw [hl]; exact hcur)]
    unfold addChild
    rw [setNode_setNode, List.append_assoc, List.singleton_append, List.map_cons]
    congr 1
    apply setNode_congr
    intro n hn
    rw [hm] at hn
    simp only [Option.some.injEq] at hn
    rw [← hn, if_pos (by omega)]
    simp only [List.append_assoc, List.singleton_append, List.length_cons, List.range'_succ]

set_option maxRecDepth 100000 in
theorem longText_tree :
    html_parse [] longText = some
      [{ blankNode with type := NODE_ELEMENT, tag := TAG_HTML, children := [1] },
       { blankNode with type := NODE_ELEMENT, tag := TAG_P, text := "p".toList,
                        children := [2, 3], parent := some 0 },
       textNodeOf 1 (List.replicate 255 'a'), textNodeOf 1 (List.replicate 45 'a')] := by
  rfl

/-- C38. A text run that is longer than the buffer of a node is split.  At a run
`t` of bytes that are neither white space nor `<` nor the terminator, in front of
a `<`, with room in the arena for its pieces, the main loop makes in as many
iterations as there are pieces one text node for each piece of 255 bytes of `t`,
in order, each with the insertion point as its parent, and comes to the `<`.  The
pieces put together are `t`, there are `⌈n / 255⌉` of them for `n` bytes, and
none is empty.  When the insertion point has room among its children for all of
them, the new nodes are its next children, one behind the other.  A paragraph
with a text of 300 bytes has two text nodes, of 255 and of 45 bytes. -/
theorem long_text_split :
    (∀ (s : PState) (t r : List Char), (∀ c ∈ t, runChar c) →
      s.pool.length + (pieces t.length t).length ≤ MAX_NODES → s.current < s.pool.length →
      s.ptr = t ++ '<' :: r →
      iter (pieces t.length t).length s = some
        { pool := addTexts s.pool s.current (pieces t.length t), current := s.current,
          ptr := '<' :: r }) ∧
    (∀ (t : List Char), (pieces t.length t).flatten = t ∧
      (pieces t.length t).length = (t.length + 254) / 255 ∧
      ∀ p ∈ pieces t.length t, p ≠ [] ∧ p.length ≤ 255) ∧
    (∀ (cs : List (List Char)) (pool : List HtmlNode) (cur : Nat) (m : HtmlNode),
      pool[cur]? = some m → m.children.length + cs.length ≤ 32 →
      addTexts pool cur cs =
        setNode pool cur
          (fun n => { n with children := n.children ++ List.range' pool.length cs.length }) ++
        cs.map (textNodeOf cur)) ∧
    html_parse [] longText = some
      [{ blankNode with type := NODE_ELEMENT, tag := TAG_HTML, children := [1] },
       { blankNode with type := NODE_ELEMENT, tag := TAG_P, text := "p".toList,
                        children := [2, 3], parent := some 0 },
       textNodeOf 1 (List.replicate 255 'a'), textNodeOf 1 (List.replicate 45 'a')] :=
  ⟨fun s t r ht hroom hcur hp => iter_pieces t.length t s r ht (Nat.le_refl _) hroom hcur hp,
   fun t => ⟨pieces_flatten _ t (Nat.le_refl _), pieces_count _ t (Nat.le_refl _),
     pieces_each _ t⟩,
   addTexts_closed, longText_tree⟩

theorem run_a300 : ∀ c ∈ List.replicate 300 'a', runChar c := by
  intro c hc
  rw [List.eq_of_mem_replicate hc]
  exact ⟨by decide, by decide, by decide⟩

set_option maxRecDepth 100000 in
theorem pieces_a300 :
    pieces (List.replicate 300 'a').length (List.replicate 300 'a')
      = [List.replicate 255 'a', List.replicate 45 'a'] := by
  rfl

/-- C38, an instance: behind `<p>`, a run of 300 letters in front of `</p>` is
read in two iterations as two text nodes of the `p`, of 255 and of 45 letters. -/
theorem long_text_split_witness :
    iter (pieces (List.replicate 300 'a').length (List.replicate 300 'a')).length
        ⟨pArena, 1, List.replicate 300 'a' ++ '<' :: "/p>".toList⟩
      = some
        { pool := addTexts pArena 1
            (pieces (List.replicate 300 'a').length (List.replicate 300 'a')),
          current := 1, ptr := '<' :: "/p>".toList } ∧
    pieces (List.replicate 300 'a').length (List.replicate 300 'a')
      = [List.replicate 255 'a', List.replicate 45 'a'] ∧
    addTexts pArena 1 [List.replicate 255 'a', List.replicate 45 'a']
      = [{ blankNode with type := NODE_ELEMENT, tag := TAG_HTML, children := [1] },
         { blankNode with type := NODE_ELEMENT, tag := TAG_P, text := "p".toList,
                          children := [2, 3], parent := some 0 },
         textNodeOf 1 (List.replicate 255 'a'), textNodeOf 1 (List.replicate 45 'a')] :=
  ⟨long_text_split.1 ⟨pArena, 1, List.replicate 300 'a' ++ '<' :: "/p>".toList⟩
      (List.replicate 300 'a') "/p>".toList run_a300
      (by rw [pieces_a300]; decide) (by decide) rfl,
    pieces_a300, rfl⟩

/-! ### An element that the cap on the children drops -/

theorem addChild_full (pool : List HtmlNode) (cur node : Nat) (m : HtmlNode)
    (hm : pool[cur]? = some m) (hlen : 32 ≤ m.children.length) :
    addChild pool cur node = pool := by
  unfold addChild
  apply setNode_same
  intro m' hm'
  rw [hm] at hm'
  simp only [Option.some.injEq] at hm'
  rw [← hm', if_neg (by omega)]

/-- A node that is reached by links to children from `i` and has a node `o`
above it that no node lists as its child: then `o` is `i` or above `i`. -/
theorem below_up (a : List HtmlNode) (ha : TreeOk a) (o p : Nat) (mo mp : HtmlNode)
    (ho : a[o]? = some mo) (hop : mo.parent = some p) (hp : a[p]? = some mp)
    (hdrop : o ∉ mp.children) :
    ∀ (k i j n : Nat), j ∈ below k a i → up a n j = some o → ∃ n', up a n' i = some o
  | 0, _, _, _, h, _ => by simp [below] at h
  | k + 1, i, j, n, h, hu => by
    simp only [below] at h
    split at h
    · simp at h
    · rename_i m hm
      rcases List.mem_cons.1 h with h | h
      · rw [h] at hu
        exact ⟨n, hu⟩
      · obtain ⟨c, hc, hj⟩ := List.mem_flatMap.1 h
        obtain ⟨n', hn'⟩ := below_up a ha o p mo mp ho hop hp hdrop k c j n hj hu
        obtain ⟨_, mc, hmc, hcp⟩ := ha.1 i m hm c hc
        cases n' with
        | zero =>
          simp only [up, Option.some.injEq] at hn'
          rw [hn', ho] at hmc
          simp only [Option.some.injEq] at hmc
          rw [← hmc, hop] at hcp
          simp only [Option.some.injEq] at hcp
          rw [hcp, hm] at hp
          simp only [Option.some.injEq] at hp
          rw [hp, hn'] at hc
          exact absurd hc hdrop
        | succ d =>
          rw [Nat.add_comm, up_add] at hn'
          have e : up a 1 c = some i := by simp [up, hmc, hcp]
          rw [e] at hn'
          exact ⟨d, hn'⟩

/-- The calls of `render_node` are calls for nodes that are reached by links to
children. -/
theorem visits_below : ∀ (k : Nat) (a : List HtmlNode) (i : Nat) (p : List Nat)
    (r : Renderer) (v : Visit), v ∈ visits k a i p r → v.node ∈ below k a i
  | 0, _, _, _, _, _, h => by simp [visits] at h
  | k + 1, a, i, p, r, v, h => by
    cases hn : a[i]? with
    | none => simp [visits, hn] at h
    | some n =>
      simp only [visits, hn] at h
      simp only [below, hn]
      rcases List.mem_cons.1 h with h | h
      · rw [h]
        exact List.mem_cons_self _ _
      · apply List.mem_cons_of_mem
        split at h
        · simp at h
        · split at h
          · simp at h
          · obtain ⟨c, rc, hc, _, hv⟩ := chain_mem (render_node k a) _ (fun _ => True)
              (fun _ _ _ _ _ => trivial) v n.children _ trivial h
            exact List.mem_flatMap.2 ⟨c, hc, visits_below k a c (n.tag :: p) rc v hv⟩

/-- In a tree of `html_parse`, a node that its parent does not list and the nodes
below it by the links to the parent are not reached from the root by links to
children. -/
theorem dropped_unreached (pool : List HtmlNode) (html : List Char) (a : List HtmlNode)
    (h : html_parse pool html = some a) (o p : Nat) (mo mp : HtmlNode)
    (ho : a[o]? = some mo) (hop : mo.parent = some p) (hp : a[p]? = some mp)
    (hdrop : o ∉ mp.children) (k j n : Nat) (hu : up a n j = some o) : j ∉ below k a 0 := by
  intro hj
  have ha := parse_tree_ok pool html a h
  have hpar := parse_parents pool html a h
  obtain ⟨n', hn'⟩ := below_up a ha o p mo mp ho hop hp hdrop k 0 j n hj hu
  have hle := (up_le a ha n' 0 o hn').1
  have ho0 : o = 0 := by omega
  rw [ho0] at ho
  rcases hpar 0 mo ho with ⟨_, hnone⟩ | ⟨hpos, _⟩
  · rw [hnone] at hop
    exact absurd hop (by simp)
  · omega

set_option maxRecDepth 100000 in
theorem br32div_tree :
    (html_parse [] br32div).map
        (fun a => (a.length, a[0]?.map (fun m => m.children),
          (a.drop 33).map (fun m => (m.tag, m.text, m.children, m.parent)),
          below a.length a 0,
          (render_node a.length a 0 freshRenderer).map (fun r => emitted r.log)))
      = some (36, some (List.range' 1 32),
          [(TAG_DIV, "div".toList, [34], some 0), (0, "x".toList, [], some 33),
           (0, "y".toList, [], some 0)],
          List.range' 0 33, some []) := by
  rfl

/-- C37. An element that the cap on the children drops still becomes the
insertion point.  At a recognized opening tag that is not self-closing and not
`br`, `hr` or `img`, with room in the arena and an insertion point that has 32
children, the iteration leaves the arena as it is but for the new node behind
it, which has the insertion point in its field `parent`, and makes the new node
the insertion point.  Every node that an iteration makes has the insertion point
of that iteration as its parent.  In a tree of `html_parse`, a node that its
parent does not list, and every node from which the links to the parent lead to
it, is not reached from the root by links to children, and `render_node` is not
called for it.  In the tree of 32 tags `<br>` followed by `<div>x</div>y`, the
`div`, the node 33, has the root as its parent and is not among the children of
the root, the text `x` is its child, and the rendering prints nothing. -/
theorem capped_element_current :
    (∀ (s : PState) (w name attrs post : List Char) (m : HtmlNode),
      (∀ c ∈ w, isWs c = true) → (∀ c ∈ name, c ≠ NUL ∧ tagNameChar c = true) →
      name.length ≤ 31 → ¬ "!--".toList <+: name → (∀ c ∈ attrs, inTagChar c = true) →
      tagNameChar (deref (attrs ++ ['>'])) = false →
      html_match_tag (name.map lowerChar) ≠ 0 →
      ¬ ((name ++ attrs).getLast? = some '/' ∨ html_match_tag (name.map lowerChar) = TAG_BR ∨
        html_match_tag (name.map lowerChar) = TAG_HR ∨
        html_match_tag (name.map lowerChar) = TAG_IMG) →
      s.pool.length < MAX_NODES → s.pool[s.current]? = some m → 32 ≤ m.children.length →
      s.ptr = w ++ '<' :: name ++ attrs ++ '>' :: post →
      step s = Step.next
        { pool := s.pool ++
            [{ blankNode with type := NODE_ELEMENT, tag := html_match_tag (name.map lowerChar),
                              text := cstr (name.map lowerChar), parent := some s.current,
                              href := (html_parse_attr (attrs ++ '>' :: post)
                                "href".toList [] 256).2 }],
          current := s.pool.length, ptr := post }) ∧
    (∀ (s s' : PState), s.current < s.pool.length → step s = Step.next s' →
      s'.pool = s.pool ∨
      ∃ new : HtmlNode, s'.pool = addChild s.pool s.current s.pool.length ++ [new] ∧
        new.parent = some s.current) ∧
    (∀ (pool : List HtmlNode) (html : List Char) (a : List HtmlNode) (o p : Nat)
        (mo mp : HtmlNode),
      html_parse pool html = some a → a[o]? = some mo → mo.parent = some p →
      a[p]? = some mp → o ∉ mp.children →
      ∀ (j n : Nat), up a n j = some o →
        (∀ k, j ∉ below k a 0) ∧
        ∀ (k : Nat) (path : List Nat) (r : Renderer), ∀ v ∈ visits k a 0 path r, v.node ≠ j) ∧
    (html_parse [] br32div).map
        (fun a => (a.length, a[0]?.map (fun m => m.children),
          (a.drop 33).map (fun m => (m.tag, m.text, m.children, m.parent)),
          below a.length a 0,
          (render_node a.length a 0 freshRenderer).map (fun r => emitted r.log)))
      = some (36, some (List.range' 1 32),
          [(TAG_DIV, "div".toList, [34], some 0), (0, "x".toList, [], some 33),
           (0, "y".toList, [], some 0)],
          List.range' 0 33, some []) := by
  refine ⟨?_, ?_, ?_, br32div_tree⟩
  · intro s w name attrs post m hw hname hlen hnc hattrs hdelim htag hvoid hfull hm h32 hp
    have hcur : s.current < s.pool.length := (List.getElem?_eq_some.1 hm).1
    rw [step_open s w name attrs post hw hname hlen hnc hattrs hdelim htag hfull hcur hp,
      addChild_full s.pool s.current s.pool.length m hm h32, if_neg hvoid]
  · intro s s' hcur hst
    rcases step_new s s' hcur hst with h | ⟨new, h1, _, h2, _⟩
    · exact Or.inl h
    · exact Or.inr ⟨new, h1, h2⟩
  · intro pool html a o p mo mp h ho hop hp hdrop j n hu
    have key := fun k => dropped_unreached pool html a h o p mo mp ho hop hp hdrop k j n hu
    refine ⟨key, ?_⟩
    intro k path r v hv he
    exact key k (he ▸ visits_below k a 0 path r v hv)

set_option maxRecDepth 100000 in
theorem brArena_parse : html_parse [] (List.replicate 32 "<br>".toList).flatten = some brArena := by
  rfl

/-- C37, an instance: with the 32 elements `br` as the children of the root and
the insertion point at the root, the iteration at `<div>` puts the `div` behind
the arena with the root as its parent, leaves the children of the root as they
are, and makes the `div`, the node 33, the insertion point. -/
theorem capped_element_current_witness :
    html_parse [] (List.replicate 32 "<br>".toList).flatten = some brArena ∧
    step ⟨brArena, 0, [] ++ '<' :: "div".toList ++ [] ++ '>' :: "x</div>y".toList⟩
      = Step.next
        { pool := brArena ++
            [{ blankNode with type := NODE_ELEMENT,
                              tag := html_match_tag ("div".toList.map lowerChar),
                              text := cstr ("div".toList.map lowerChar), parent := some 0,
                              href := (html_parse_attr ([] ++ '>' :: "x</div>y".toList)
                                "href".toList [] 256).2 }],
          current := brArena.length, ptr := "x</div>y".toList } ∧
    (brArena.length, html_match_tag ("div".toList.map lowerChar),
      cstr ("div".toList.map lowerChar),
      (html_parse_attr ([] ++ '>' :: "x</div>y".toList) "href".toList [] 256).2)
      = (33, TAG_DIV, "div".toList, []) :=
  ⟨brArena_parse,
    capped_element_current.1 ⟨brArena, 0, [] ++ '<' :: "div".toList ++ [] ++ '>' ::
        "x</div>y".toList⟩ [] "div".toList [] "x</div>y".toList
      { blankNode with type := NODE_ELEMENT, tag := TAG_HTML, children := List.range' 1 32 }
      (by decide) (by decide) (by decide) (by decide) (by decide) (by decide) (by decide)
      (by decide) (by decide) rfl (by decide) rfl,
    by decide⟩

/-! ### The rule of an element hr -/

theorem render_text_dash (r : Renderer) (hx : r.st.x < r.st.width)
    (hx0 : -2147483648 ≤ r.st.x) (hw : r.st.width < 2147483648) :
    render_text "-".toList r =
      { r with st := { r.st with x := r.st.x + 1 },
               log := r.log ++ [DispEvent.set_color r.st.color,
                 DispEvent.set_cursor r.st.x r.st.y, DispEvent.kprint ['-']] } := by
  have hs : "-".toList = ['-'] := rfl
  have hn : ¬ '-' = NUL := by decide
  have hge : ¬ r.st.x ≥ r.st.width := by omega
  have e := wrap32_range (r.st.x + 1) (by omega) (by omega)
  rw [hs]
  simp only [render_text, renderChars, if_neg hn, if_neg hge, e, List.append_assoc,
    List.cons_append, List.nil_append]

theorem hrLoop_dashes : ∀ (k : Nat) (i : Int) (r : Renderer), 0 ≤ i →
    i + k = r.st.width - r.st.indent → r.st.x = r.st.indent + i →
    -2147483648 ≤ r.st.indent → r.st.width - r.st.indent < 2147483648 →
    r.st.width < 2147483648 →
    hrLoop k i r =
      { r with st := { r.st with x := r.st.x + k },
               log := r.log ++ dashes r.st.color r.st.y r.st.x k }
  | 0, i, r, _, _, _, _, _, _ => by
    simp [hrLoop, dashes]
  | k + 1, i, r, hi, hk, hx, hd, hwd, hw => by
    push_cast at hk
    have e := wrap32_range (r.st.width - r.st.indent) (by omega) (by omega)
    simp only [hrLoop, e]
    rw [if_pos (by omega), render_text_dash r (by omega) (by omega) hw]
    rw [hrLoop_dashes k (i + 1)
      { r with st := { r.st with x := r.st.x + 1 },
               log := r.log ++ [DispEvent.set_color r.st.color,
                 DispEvent.set_cursor r.st.x r.st.y, DispEvent.kprint ['-']] }
      (by omega) (by show i + 1 + (k : Int) = r.st.width - r.st.indent; omega)
      (by show r.st.x + 1 = r.st.indent + (i + 1); omega) hd hwd hw]
    simp only [dashes, List.append_assoc, List.cons_append, List.nil_append]
    push_cast
    have e2 : r.st.x + 1 + (k : Int) = r.st.x + ((k : Int) + 1) := by ring
    rw [e2]

theorem dashes_cursors (c : Nat) (y : Int) : ∀ (k : Nat) (x : Int),
    cursors (dashes c y x k) = (List.range k).map (fun (j : Nat) => (x + (j : Int), y))
  | 0, _ => rfl
  | k + 1, x => by
    simp only [dashes, cursors, dashes_cursors c y k (x + 1)]
    rw [List.range_succ_eq_map, List.map_cons, List.map_map]
    simp only [Nat.cast_zero, add_zero, List.cons.injEq, true_and]
    apply List.map_congr_left
    intro j _
    simp only [Function.comp_apply, Prod.mk.injEq, and_true]
    push_cast
    ring

theorem dashes_emitted (c : Nat) (y : Int) : ∀ (k : Nat) (x : Int),
    emitted (dashes c y x k) = List.replicate k '-'
  | 0, _ => rfl
  | k + 1, x => by
    simp only [dashes, emitted, dashes_emitted c y k (x + 1)]
    rfl

/-- C31. The rule of an element `hr`.  In a state with the indent `d`,
`d < width`, and the row `y` (values of an `int`, with `width - d` and `y + 2`
below `2^31`),
the first `switch` for an element `hr` sends `width - d` dashes to the display,
each after the colour is set and the cursor is put, at the columns `d`, `d + 1`,
..., `width - 1` of the row `y + 1`, and leaves the cursor at the column `d` of
the row `y + 2`; nothing else of the state changes.  The call of `render_node`
for an element `hr` without children leaves that same state.  With the indent 0
and the width 80 these are 80 dashes. -/
theorem hr_rule (n : HtmlNode) (r : Renderer) (hn : n.tag = TAG_HR)
    (hd0 : -2147483648 ≤ r.st.indent) (hdw : r.st.indent < r.st.width)
    (hwd : r.st.width - r.st.indent < 2147483648) (hw : r.st.width < 2147483648)
    (hy0 : -2147483648 ≤ r.st.y) (hy : r.st.y + 2 < 2147483648) :
    preHook n r =
      { r with st := { r.st with x := r.st.indent, y := r.st.y + 2 },
               log := r.log ++ dashes r.st.color (r.st.y + 1) r.st.indent
                 (r.st.width - r.st.indent).toNat } ∧
    (∀ (k : Nat) (pool : List HtmlNode) (node : Nat), pool[node]? = some n →
      n.type ≠ NODE_TEXT → n.children = [] →
      render_node (k + 1) pool node r = some
        { r with st := { r.st with x := r.st.indent, y := r.st.y + 2 },
                 log := r.log ++ dashes r.st.color (r.st.y + 1) r.st.indent
                   (r.st.width - r.st.indent).toNat }) ∧
    cursors (dashes r.st.color (r.st.y + 1) r.st.indent (r.st.width - r.st.indent).toNat)
      = (List.range (r.st.width - r.st.indent).toNat).map
          (fun (j : Nat) => (r.st.indent + (j : Int), r.st.y + 1)) ∧
    emitted (dashes r.st.color (r.st.y + 1) r.st.indent (r.st.width - r.st.indent).toNat)
      = List.replicate (r.st.width - r.st.indent).toNat '-' := by
  have hpre : preHook n r =
      { r with st := { r.st with x := r.st.indent, y := r.st.y + 2 },
               log := r.log ++ dashes r.st.color (r.st.y + 1) r.st.indent
                 (r.st.width - r.st.indent).toNat } := by
    obtain ⟨⟨x0, y0, w, d, b, it, l, c⟩, t, lg⟩ := r
    change -2147483648 ≤ d at hd0
    change d < w at hdw
    change w - d < 2147483648 at hwd
    change w < 2147483648 at hw
    change -2147483648 ≤ y0 at hy0
    change y0 + 2 < 2147483648 at hy
    unfold preHook
    rw [if_neg (by rw [hn]; decide), if_neg (by rw [hn]; decide), if_neg (by rw [hn]; decide),
      if_neg (by rw [hn]; decide), if_neg (by rw [hn]; decide), if_neg (by rw [hn]; decide),
      if_neg (by rw [hn]; decide), if_neg (by rw [hn]; decide), if_neg (by rw [hn]; decide),
      if_pos hn]
    have e1 := wrap32_range (y0 + 1) (by omega) (by omega)
    have e2 := wrap32_range (w - d) (by omega) (by omega)
    have e4 : y0 + 1 + 1 = y0 + 2 := by ring
    simp only [render_newline, e1, e2]
    rw [hrLoop_dashes (w - d).toNat 0 _ (le_refl _)
      (by show (0 : Int) + ((w - d).toNat : Int) = w - d; rw [Int.toNat_of_nonneg (by omega)]; ring)
      (by show d = d + 0; ring) hd0 hwd hw]
    have e5 := wrap32_range (y0 + 2) (by omega) (by omega)
    simp only [e4, e5]
  refine ⟨hpre, ?_, dashes_cursors _ _ _ _, dashes_emitted _ _ _ _⟩
  intro k pool node hnode ht hch
  simp only [render_node, hnode, if_neg ht]
  rw [if_neg (by rw [hn]; decide), if_neg (by rw [hn]; decide), hch]
  simp only [List.foldlM, Option.pure_def]
  have hpost : ∀ x, postHook n.tag x = x := by
    intro x
    rw [hn]
    rfl
  rw [hpost, hpre]

/-- C31, an instance: an element `hr` in the state of `render_init`, with the
indent 0 and the width 80, gives 80 dashes in the row 3 and leaves the cursor in
the row 4. -/
theorem hr_rule_witness :
    preHook hrNode freshRenderer =
      { freshRenderer with
        st := { freshRenderer.st with x := freshRenderer.st.indent,
                                      y := freshRenderer.st.y + 2 },
        log := freshRenderer.log ++ dashes freshRenderer.st.color (freshRenderer.st.y + 1)
          freshRenderer.st.indent (freshRenderer.st.width - freshRenderer.st.indent).toNat } ∧
    (freshRenderer.st.indent, freshRenderer.st.y + 1, freshRenderer.st.y + 2,
      (freshRenderer.st.width - freshRenderer.st.indent).toNat) = (0, 3, 4, 80) :=
  ⟨(hr_rule hrNode freshRenderer rfl (by decide) (by decide) (by decide) (by decide)
    (by decide) (by decide)).1, by decide⟩

/-! ### The order in which the texts are printed -/

theorem emitted_append : ∀ (l1 l2 : List DispEvent), emitted (l1 ++ l2) = emitted l1 ++ emitted l2
  | [], _ => rfl
  | e :: l1, l2 => by
    cases e <;> simp [emitted, emitted_append l1 l2]

theorem renderChars_emitted : ∀ (t : List Char) (r : Renderer),
    emitted (renderChars t r).log = emitted r.log ++ cstr t
  | [], r => by simp [renderChars, cstr]
  | c :: cs, r => by
    simp only [renderChars]
    by_cases hc : c = NUL
    · rw [if_pos hc, cstr_cons, if_pos hc, List.append_nil]
    · rw [if_neg hc, renderChars_emitted cs _, cstr_cons, if_neg hc]
      have hl : (if r.st.x ≥ r.st.width then render_newline r else r).log = r.log := by
        split <;> rfl
      simp only [hl, emitted_append, emitted, cstr_cons, if_neg hc, List.append_nil,
        List.append_assoc, List.nil_append]
      simp [cstr]

theorem render_text_emitted (t : List Char) (r : Renderer) :
    emitted (render_text t r).log = emitted r.log ++ cstr t := by
  unfold render_text
  rw [renderChars_emitted]
  simp [emitted_append, emitted]

theorem parse_inv (pool : List HtmlNode) (html : List Char) (a : List HtmlNode)
    (h : html_parse pool html = some a) : ∃ sf, Inv none sf ∧ sf.pool = a := by
  unfold html_parse at h
  cases hr : run (html.length + 1) (initState pool html) with
  | none => rw [hr] at h; exact absurd h (by simp)
  | some sf =>
    rw [hr] at h
    simp only [Option.map_some', Option.some.injEq] at h
    exact ⟨sf, run_keeps (fun t => Inv none t) (fun t t' ht hst => inv_step none t t' ht hst)
      _ _ _ (inv_init pool html) hr, h⟩

/-- A text node of a tree of `html_parse` has no children. -/
theorem parse_text_childless (pool : List HtmlNode) (html : List Char) (a : List HtmlNode)
    (h : html_parse pool html = some a) (i : Nat) (m : HtmlNode) (hm : a[i]? = some m)
    (ht : m.type = NODE_TEXT) : m.children = [] := by
  obtain ⟨sf, hinv, hp⟩ := parse_inv pool html a h
  rw [← hp] at hm
  exact hinv.2.2.2.2 i m hm (Or.inr (Or.inl ht))

theorem preHook_plain (n : HtmlNode) (r : Renderer)
    (h : n.tag = TAG_HTML ∨ n.tag = TAG_BODY ∨ n.tag = TAG_DIV ∨ n.tag = TAG_SPAN) :
    preHook n r = r ∧ postHook n.tag r = r ∧ n.tag ≠ TAG_TITLE ∧ n.tag ≠ TAG_HEAD := by
  unfold preHook postHook
  rcases h with h | h | h | h <;> (rw [h]; exact ⟨rfl, rfl, by decide, by decide⟩)

theorem below_cons (k : Nat) (a : List HtmlNode) (i : Nat) (n : HtmlNode)
    (hn : a[i]? = some n) :
    below (k + 1) a i = i :: n.children.flatMap (fun c => below k a c) := by
  simp only [below, hn]

/-- What `render_node` prints for a tree of nodes without hooks: the texts of the
text nodes, in the order of the walk. -/
theorem render_plain : ∀ (k : Nat) (a : List HtmlNode) (i : Nat) (r r' : Renderer),
    render_node k a i r = some r' →
    (∀ j ∈ below k a i, ∀ n, a[j]? = some n →
      Plain n ∧ (n.type = NODE_TEXT → n.children = [])) →
    emitted r'.log = emitted r.log ++ textsOf k a i
  | 0, _, _, _, _, h, _ => by simp [render_node] at h
  | k + 1, a, i, r, r', h, hp => by
    cases hn : a[i]? with
    | none => simp [render_node, hn] at h
    | some n =>
      simp only [render_node, hn] at h
      rw [below_cons k a i n hn] at hp
      have hpn := hp i (List.mem_cons_self _ _) n hn
      have hkids : ∀ (cs : List Nat) (x x' : Renderer),
          cs.foldlM (fun y c => render_node k a c y) x = some x' →
          (∀ c ∈ cs, ∀ j ∈ below k a c, ∀ n, a[j]? = some n →
            Plain n ∧ (n.type = NODE_TEXT → n.children = [])) →
          emitted x'.log = emitted x.log ++
            (cs.flatMap (fun c => below k a c)).flatMap (nodeText a) := by
        intro cs
        induction cs with
        | nil =>
          intro x x' hx _
          simp only [List.foldlM, Option.pure_def, Option.some.injEq] at hx
          rw [← hx]
          simp
        | cons c cs ih =>
          intro x x' hx hcs
          simp only [List.foldlM, Option.bind_eq_bind] at hx
          cases hc : render_node k a c x with
          | none => rw [hc] at hx; exact absurd hx (by simp)
          | some x1 =>
            rw [hc] at hx
            simp only [Option.some_bind] at hx
            have h1 := render_plain k a c x x1 hc (hcs c (List.mem_cons_self _ _))
            have h2 := ih x1 x' hx (fun d hd => hcs d (List.mem_cons_of_mem _ hd))
            rw [h2, h1]
            simp only [textsOf, List.flatMap_cons, List.flatMap_append, List.append_assoc]
      unfold textsOf
      rw [below_cons k a i n hn, List.flatMap_cons]
      have hnt : nodeText a i = if n.type = NODE_TEXT then cstr n.text else [] := by
        simp only [nodeText, hn]
      by_cases ht : n.type = NODE_TEXT
      · rw [if_pos ht] at h
        simp only [Option.some.injEq] at h
        rw [← h, render_text_emitted, hnt, if_pos ht, hpn.2 ht]
        simp
      · rw [if_neg ht] at h
        have htag : n.tag = TAG_HTML ∨ n.tag = TAG_BODY ∨ n.tag = TAG_DIV ∨ n.tag = TAG_SPAN := by
          rcases hpn.1 with h0 | h0
          · exact absurd h0 ht
          · exact h0
        obtain ⟨e1, e2, e3, e4⟩ := preHook_plain n r htag
        rw [if_neg e3, if_neg e4, e1] at h
        cases hf : n.children.foldlM (fun r' c => render_node k a c r') r with
        | none => rw [hf] at h; exact absurd h (by simp)
        | some r2 =>
          rw [hf] at h
          simp only [Option.some.injEq] at h
          have hk := hkids n.children r r2 hf
            (fun c hc j hj => hp j (List.mem_cons_of_mem _ (List.mem_flatMap.2 ⟨c, hc, hj⟩)))
          have hlog : r'.log = r2.log := by
            rw [← h]
            show (postHook n.tag r2).log = r2.log
            rw [(preHook_plain n r2 htag).2.1]
          rw [hlog, hk, hnt, if_neg ht, List.nil_append]

/-- The text `<div>a<span>b</span>c</div>d`. -/
theorem walk_example :
    (html_parse [] "<div>a<span>b</span>c</div>d".toList).map
        (fun a => (below a.length a 0, (below a.length a 0).map (nodeText a),
          textsOf a.length a 0,
          (render_node a.length a 0 freshRenderer).map (fun r => emitted r.log)))
      = some ([0, 1, 2, 3, 4, 5, 6],
          [[], [], "a".toList, [], "b".toList, "c".toList, "d".toList],
          "abcd".toList, some "abcd".toList) := by
  rfl

/-- C32. Rendering is a walk that takes a node before its children and the
children from left to right.  For every arena and node: when all the nodes that
are reached from the node by links to children are text nodes without children or
elements `html`, `body`, `div` or `span`, the characters that a call of
`render_node` prints are the texts of the text nodes among them, put together in
the order of the walk, and nothing else.  For a tree of `html_parse` it is enough
that the elements reached from the root are of these four kinds: `render_node`
returns and prints the texts in that order.  For `<div>a<span>b</span>c</div>d`
it prints `abcd`. -/
theorem render_preorder :
    (∀ (k : Nat) (a : List HtmlNode) (i : Nat) (r r' : Renderer),
      render_node k a i r = some r' →
      (∀ j ∈ below k a i, ∀ n, a[j]? = some n →
        Plain n ∧ (n.type = NODE_TEXT → n.children = [])) →
      emitted r'.log = emitted r.log ++ textsOf k a i) ∧
    (∀ (pool : List HtmlNode) (html : List Char) (a : List HtmlNode) (r : Renderer),
      html_parse pool html = some a →
      (∀ j ∈ below a.length a 0, ∀ n, a[j]? = some n → Plain n) →
      ∃ r', render_node a.length a 0 r = some r' ∧
        emitted r'.log = emitted r.log ++ textsOf a.length a 0) ∧
    (html_parse [] "<div>a<span>b</span>c</div>d".toList).map
        (fun a => (below a.length a 0, (below a.length a 0).map (nodeText a),
          textsOf a.length a 0,
          (render_node a.length a 0 freshRenderer).map (fun r => emitted r.log)))
      = some ([0, 1, 2, 3, 4, 5, 6],
          [[], [], "a".toList, [], "b".toList, "c".toList, "d".toList],
          "abcd".toList, some "abcd".toList) := by
  refine ⟨render_plain, ?_, walk_example⟩
  intro pool html a r h hp
  obtain ⟨r', hr⟩ := render_parsed pool html a h r
  exact ⟨r', hr, render_plain _ a 0 r r' hr
    (fun j hj n hn => ⟨hp j hj n hn, parse_text_childless pool html a h j n hn⟩)⟩

theorem walkTree_plain : ∀ j ∈ below walkTree.length walkTree 0, ∀ n,
    walkTree[j]? = some n → Plain n := by
  intro j _ n hn
  have hall : ∀ m ∈ walkTree, Plain m := by
    unfold Plain
    decide
  exact hall n (List.mem_iff_getElem?.mpr ⟨j, hn⟩)

/-- C32, an instance: the tree of `<div>a<span>b</span>c</div>d` has elements
`html`, `div` and `span` only, and its rendering prints `abcd`. -/
theorem render_preorder_witness :
    html_parse [] "<div>a<span>b</span>c</div>d".toList = some walkTree ∧
    (∃ r', render_node walkTree.length walkTree 0 freshRenderer = some r' ∧
      emitted r'.log = emitted freshRenderer.log ++ textsOf walkTree.length walkTree 0) ∧
    emitted freshRenderer.log ++ textsOf walkTree.length walkTree 0 = "abcd".toList :=
  ⟨by rfl,
    render_preorder.2.1 [] "<div>a<span>b</span>c</div>d".toList walkTree freshRenderer
      (by rfl) walkTree_plain,
    by rfl⟩

/-! ### The arena as memory -/

theorem cstr_no_nul (x : List Char) : NUL ∉ cstr x := by
  intro h
  have := List.mem_takeWhile_imp h
  simp at this

theorem cstr_pokeNul (b : List Char) : cstr (pokeNul b) = [] := by
  simp [pokeNul, cstr]

theorem cstr_pokeStr (b s : List Char) (hs : NUL ∉ s) : cstr (pokeStr b s) = s := by
  unfold pokeStr cstr
  rw [List.takeWhile_append_of_pos]
  · simp
  · intro c hc
    have : c ≠ NUL := fun e => hs (e ▸ hc)
    simpa using this

theorem cstr_kstrcpy_mem (dst src : List Char) : cstr (kstrcpy_mem dst src) = cstr src :=
  cstr_pokeStr dst (cstr src) (cstr_no_nul src)

theorem setRaw_length (f : RawNode → RawNode) :
    ∀ (l : List RawNode) (i : Nat), (setRaw l i f).length = l.length
  | [], _ => rfl
  | _ :: _, 0 => rfl
  | n :: ns, i + 1 => by simp [setRaw, setRaw_length f ns i]

theorem setRaw_getElem? (f : RawNode → RawNode) :
    ∀ (l : List RawNode) (i j : Nat),
      (setRaw l i f)[j]? = if j = i then l[j]?.map f else l[j]?
  | [], _, _ => by simp [setRaw]
  | n :: ns, 0, 0 => by simp [setRaw]
  | n :: ns, 0, j + 1 => by simp [setRaw]
  | n :: ns, i + 1, 0 => by simp [setRaw]
  | n :: ns, i + 1, j + 1 => by simp [setRaw, setRaw_getElem? f ns i j]

theorem setRaw_mem (f : RawNode → RawNode) (P : RawNode → Prop) (hf : ∀ n, P n → P (f n)) :
    ∀ (l : List RawNode) (i : Nat), (∀ n ∈ l, P n) → ∀ n ∈ setRaw l i f, P n
  | [], _, _, n, hn => by simp [setRaw] at hn
  | m :: ms, 0, h, n, hn => by
    simp only [setRaw, List.mem_cons] at hn
    rcases hn with e | e
    · rw [e]; exact hf m (h m (List.mem_cons_self _ _))
    · exact h n (List.mem_cons_of_mem _ e)
  | m :: ms, i + 1, h, n, hn => by
    simp only [setRaw, List.mem_cons] at hn
    rcases hn with e | e
    · rw [e]; exact h m (List.mem_cons_self _ _)
    · exact setRaw_mem f P hf ms i (fun x hx => h x (List.mem_cons_of_mem _ hx)) n e

/-- What is seen of the arena after an assignment to an entry. -/
theorem view_setRaw (f : RawNode → RawNode) (g : HtmlNode → HtmlNode) :
    ∀ (pool : List RawNode) (i c : Nat),
      (∀ n, pool[i]? = some n → viewNode (f n) = g (viewNode n)) →
      ((setRaw pool i f).take c).map viewNode = setNode ((pool.take c).map viewNode) i g
  | [], _, _, _ => by simp [setRaw, setNode]
  | n :: ns, i, 0, _ => by simp [setNode]
  | n :: ns, 0, c + 1, h => by
    simp only [setRaw, List.take_succ_cons, List.map_cons, setNode]
    rw [h n (List.getElem?_cons_zero)]
  | n :: ns, i + 1, c + 1, h => by
    simp only [setRaw, List.take_succ_cons, List.map_cons, setNode, List.cons.injEq, true_and]
    exact view_setRaw f g ns i c (fun m hm => h m (by simpa using hm))

/-- What is seen of the arena after the entry behind the nodes in use has been
written and counted. -/
theorem view_alloc (f : RawNode → RawNode) :
    ∀ (pool : List RawNode) (c : Nat) (hc : c < pool.length),
      ((setRaw pool c f).take (c + 1)).map viewNode
        = (pool.take c).map viewNode ++ [viewNode (f (pool.get ⟨c, hc⟩))]
  | [], _, h => absurd h (Nat.not_lt_zero _)
  | n :: ns, 0, _ => by simp [setRaw]
  | n :: ns, c + 1, h => by
    simp only [setRaw, List.take_succ_cons, List.map_cons, List.cons_append, List.cons.injEq,
      true_and]
    exact view_alloc f ns c (by simpa using h)

theorem view_length (A : Arena) (h : A.node_count ≤ A.node_pool.length) :
    (view A).length = A.node_count := by
  simp [view, h]

theorem view_getElem? (A : Arena) (i : Nat) (h : i < A.node_count) :
    (view A)[i]? = (A.node_pool[i]?).map viewNode := by
  unfold view
  rw [List.getElem?_map, List.getElem?_take_of_lt h]

/-- The loop of `html_parse_attr` on an array moves the pointer as the loop of
the model above does, and leaves in the array the C string that the model has. -/
theorem attrLoopMem_view (name : List Char) (ml : Nat) : ∀ (k : Nat) (p buf : List Char),
    (attrLoopMem name ml k p buf).1 = (attrLoop name ml k p (cstr buf)).1 ∧
    cstr (attrLoopMem name ml k p buf).2 = (attrLoop name ml k p (cstr buf)).2
  | 0, p, buf => ⟨rfl, rfl⟩
  | k + 1, p, buf => by
    have hb : (attrBodyMem name ml p buf).1 = (attrBody name ml p (cstr buf)).1 ∧
        cstr (attrBodyMem name ml p buf).2 = (attrBody name ml p (cstr buf)).2 := by
      simp only [attrBodyMem, attrBody]
      split
      · simp only [attrValueMem, attrValue]
        split
        · exact ⟨rfl, cstr_pokeStr _ _ (copyWhile_fst_nul _ _ _)⟩
        · exact ⟨rfl, rfl⟩
      · exact ⟨rfl, rfl⟩
    simp only [attrLoopMem, attrLoop]
    split
    · have ih := attrLoopMem_view name ml k (attrBodyMem name ml p buf).1
        (attrBodyMem name ml p buf).2
      rw [hb.1, hb.2] at ih
      rw [hb.1]
      exact ih
    · exact ⟨rfl, rfl⟩

theorem html_parse_attr_mem_view (p name buf : List Char) (ml : Nat) :
    (html_parse_attr_mem p name buf ml).1 = (html_parse_attr p name (cstr buf) ml).1 ∧
    cstr (html_parse_attr_mem p name buf ml).2 = (html_parse_attr p name (cstr buf) ml).2 :=
  attrLoopMem_view name ml _ p buf

theorem viewNode_alloc (n : RawNode) :
    viewNode { n with type := NODE_TEXT, tag := 0, text := pokeNul n.text,
                      href := pokeNul n.href, src := pokeNul n.src, child_count := 0,
                      parent := none } = blankNode := by
  simp [viewNode, blankNode, cstr_pokeNul]

theorem take_set_succ {α : Type} : ∀ (l : List α) (i : Nat) (x : α), i < l.length →
    (l.set i x).take (i + 1) = l.take i ++ [x]
  | [], _, _, h => absurd h (Nat.not_lt_zero _)
  | _ :: _, 0, _, _ => rfl
  | a :: l, i + 1, x, h => by
    simp only [List.set_cons_succ, List.take_succ_cons, List.cons_append, List.cons.injEq,
      true_and]
    exact take_set_succ l i x (by simpa using h)

/-- What is seen of an entry after a child has been entered in it. -/
theorem viewNode_addChild (n : RawNode) (node : Nat) (hc : n.child_count ≤ 32)
    (hl : n.children.length = 32) :
    viewNode (if n.child_count < 32 then
        { n with children := n.children.set n.child_count node,
                 child_count := n.child_count + 1 }
      else n)
      = (if (viewNode n).children.length < 32 then
          { viewNode n with children := (viewNode n).children ++ [node] }
        else viewNode n) := by
  have hlen : (viewNode n).children.length = n.child_count := by
    simp only [viewNode, List.length_take]
    omega
  rw [hlen]
  split
  · rename_i h
    simp only [viewNode, HtmlNode.mk.injEq, true_and]
    exact ⟨take_set_succ _ _ _ (by omega), trivial⟩
  · rfl

/-- The memory after a node has been allocated, written by `f` and entered in the
children of the insertion point, as it is seen. -/
theorem push_view (pool : List RawNode) (c cur : Nat) (f : RawNode → RawNode)
    (g : HtmlNode → HtmlNode) (hfg : ∀ n, viewNode (f n) = g (viewNode n))
    (hc : c < pool.length) (hcur : cur < c) (mc : RawNode) (hmc : pool[cur]? = some mc)
    (hcc : mc.child_count ≤ 32) (hcl : mc.children.length = 32) (k : Nat) :
    ((addChildMem (setRaw (setRaw pool c (fun n =>
        { n with type := NODE_TEXT, tag := 0, text := pokeNul n.text, href := pokeNul n.href,
                 src := pokeNul n.src, child_count := 0, parent := none })) c f) cur k).take
        (c + 1)).map viewNode
      = addChild (setNode ((pool.take c).map viewNode ++ [blankNode]) c g) cur k := by
  unfold addChildMem addChild
  rw [view_setRaw _ (fun n => if n.children.length < 32 then
      { n with children := n.children ++ [k] } else n) _ cur (c + 1)]
  · rw [view_setRaw f g _ c (c + 1) (fun n _ => hfg n), view_alloc _ pool c hc, viewNode_alloc]
  · intro n hn
    rw [setRaw_getElem?, if_neg (by omega), setRaw_getElem?, if_neg (by omega), hmc] at hn
    simp only [Option.some.injEq] at hn
    rw [← hn]
    exact viewNode_addChild mc k hcc hcl

/-- The entries of the memory after a node has been allocated, written by `f` and
entered in the children of the insertion point. -/
theorem push_getElem? (pool : List RawNode) (c cur : Nat) (f : RawNode → RawNode)
    (hcur : cur < c) (k i : Nat) :
    (addChildMem (setRaw (setRaw pool c (fun n =>
        { n with type := NODE_TEXT, tag := 0, text := pokeNul n.text, href := pokeNul n.href,
                 src := pokeNul n.src, child_count := 0, parent := none })) c f) cur k)[i]?
      = if i = cur then pool[i]?.map (fun n =>
            if n.child_count < 32 then
              { n with children := n.children.set n.child_count k,
                       child_count := n.child_count + 1 }
            else n)
        else if i = c then pool[i]?.map (fun n => f
            { n with type := NODE_TEXT, tag := 0, text := pokeNul n.text,
                     href := pokeNul n.href, src := pokeNul n.src, child_count := 0,
                     parent := none })
        else pool[i]? := by
  unfold addChildMem
  rw [setRaw_getElem?]
  by_cases h1 : i = cur
  · rw [if_pos h1, if_pos h1, setRaw_getElem?, if_neg (by omega), setRaw_getElem?,
      if_neg (by omega)]
  · rw [if_neg h1, if_neg h1, setRaw_getElem?]
    by_cases h2 : i = c
    · rw [if_pos h2, if_pos h2, setRaw_getElem?, if_pos h2, Option.map_map]
      rfl
    · rw [if_neg h2, if_neg h2, setRaw_getElem?, if_neg h2]

theorem popCurrentMem_view (A : Arena) (cur : Nat) (h : cur < A.node_count) :
    popCurrent (view A) cur = popCurrentMem A.node_pool cur := by
  unfold popCurrent popCurrentMem
  rw [view_getElem? A cur h]
  cases A.node_pool[cur]? with
  | none => rfl
  | some n => rfl

theorem setRaw_id : ∀ (l : List RawNode) (i : Nat), setRaw l i (fun n => n) = l
  | [], _ => rfl
  | _ :: _, 0 => rfl
  | n :: ns, i + 1 => by simp [setRaw, setRaw_id ns i]

/-- The memory stays in order when a node is allocated, written and entered in the
children of the insertion point. -/
theorem push_memOk (s : MState) (hs : MemOk s) (hroom : s.arena.node_count < MAX_NODES)
    (f e : RawNode → RawNode)
    (hf : ∀ n, (f n).children = n.children ∧ (f n).child_count = n.child_count ∧
      (f n).parent = some s.current)
    (he : ∀ n, (e n).children = n.children ∧ (e n).child_count = n.child_count ∧
      (e n).parent = n.parent)
    (cur' : Nat) (hcur' : cur' = s.current ∨ cur' = s.arena.node_count) (ptr' : List Char) :
    MemOk
      { arena :=
          { node_pool := setRaw (addChildMem (setRaw (setRaw s.arena.node_pool s.arena.node_count
              (fun n =>
                { n with type := NODE_TEXT, tag := 0, text := pokeNul n.text,
                         href := pokeNul n.href, src := pokeNul n.src, child_count := 0,
                         parent := none })) s.arena.node_count f) s.current s.arena.node_count)
              s.arena.node_count e,
            node_count := s.arena.node_count + 1 },
        current := cur', ptr := ptr' } := by
  obtain ⟨⟨hlen, hch⟩, hcnt, hnodes, hcur⟩ := hs
  refine ⟨⟨?_, ?_⟩, by show s.arena.node_count + 1 ≤ MAX_NODES; omega, ?_, ?_⟩
  · show (setRaw _ _ _).length = MAX_NODES
    unfold addChildMem
    rw [setRaw_length, setRaw_length, setRaw_length, setRaw_length]
    exact hlen
  · show ∀ n ∈ setRaw _ _ _, n.children.length = 32
    unfold addChildMem
    apply setRaw_mem e (fun n => n.children.length = 32) (fun n hn => by rw [(he n).1]; exact hn)
    apply setRaw_mem _ (fun n => n.children.length = 32)
      (fun n hn => by
        split
        · show (n.children.set n.child_count _).length = 32
          rw [List.length_set]
          exact hn
        · exact hn)
    apply setRaw_mem f (fun n => n.children.length = 32) (fun n hn => by rw [(hf n).1]; exact hn)
    exact setRaw_mem _ (fun n => n.children.length = 32) (fun m hm => by exact hm) _ _ hch
  · intro i n hi hn
    change i < s.arena.node_count + 1 at hi
    change (setRaw _ _ _)[i]? = some n at hn
    rw [setRaw_getElem?, push_getElem? _ _ _ _ hcur] at hn
    show n.child_count ≤ 32 ∧ ∀ q, n.parent = some q → q < s.arena.node_count + 1
    by_cases h1 : i = s.arena.node_count
    · rw [if_pos h1, if_neg (by omega), if_pos h1] at hn
      cases hp : s.arena.node_pool[i]? with
      | none => rw [hp] at hn; simp at hn
      | some m =>
        rw [hp] at hn
        simp only [Option.map_some', Option.some.injEq] at hn
        rw [← hn, (he _).2.1, (he _).2.2, (hf _).2.1, (hf _).2.2]
        refine ⟨Nat.zero_le _, ?_⟩
        intro q hq
        simp only [Option.some.injEq] at hq
        omega
    · rw [if_neg h1, if_neg h1] at hn
      have hi' : i < s.arena.node_count := by omega
      by_cases h2 : i = s.current
      · rw [if_pos h2] at hn
        cases hp : s.arena.node_pool[i]? with
        | none => rw [hp] at hn; simp at hn
        | some m =>
          rw [hp] at hn
          simp only [Option.map_some', Option.some.injEq] at hn
          have hm := hnodes i m hi' hp
          rw [← hn]
          split
          · refine ⟨by show m.child_count + 1 ≤ 32; omega, ?_⟩
            intro q hq
            have := hm.2 q hq
            omega
          · refine ⟨hm.1, ?_⟩
            intro q hq
            have := hm.2 q hq
            omega
      · rw [if_neg h2] at hn
        have hm := hnodes i n hi' hn
        refine ⟨hm.1, ?_⟩
        intro q hq
        have := hm.2 q hq
        omega
  · show cur' < s.arena.node_count + 1
    rcases hcur' with h | h <;> omega

/-! ### The main loop on the memory -/

/-- The branch "Text node" on the memory is seen as the branch of the model. -/
theorem textNode_sim (s : MState) (hs : MemOk s) (p0 : List Char) :
    textNode (absState s) p0 = absStep (textNodeMem s p0) ∧
    ∀ s', textNodeMem s p0 = MStep.next s' → MemOk s' := by
  have hs' := hs
  obtain ⟨⟨hlen, hch⟩, hcnt, hnodes, hcur⟩ := hs'
  have hvl : (view s.arena).length = s.arena.node_count := view_length _ (by omega)
  simp only [textNode, textNodeMem]
  by_cases ht : trimEnd (textLoop p0 []).1 ≠ []
  · rw [if_pos ht, if_pos ht]
    by_cases hfull : s.arena.node_count ≥ MAX_NODES
    · simp only [html_alloc_node, html_alloc_node_mem, absState, hvl, if_pos hfull]
      exact ⟨rfl, fun s' h => by simp at h⟩
    · simp only [html_alloc_node, html_alloc_node_mem, absState, hvl, if_neg hfull]
      have hc : s.arena.node_count < s.arena.node_pool.length := by omega
      obtain ⟨mc, hmc⟩ : ∃ mc, s.arena.node_pool[s.current]? = some mc :=
        ⟨_, List.getElem?_eq_getElem (by omega)⟩
      have hmem : mc ∈ s.arena.node_pool := List.mem_iff_getElem?.2 ⟨_, hmc⟩
      constructor
      · simp only [absStep, absState, view]
        rw [push_view s.arena.node_pool s.arena.node_count s.current _
          (fun n => { n with type := NODE_TEXT,
                             text := kstrcpy n.text (trimEnd (textLoop p0 []).1),
                             parent := some s.current })
          (fun n => by simp [viewNode, cstr_kstrcpy_mem, kstrcpy])
          hc hcur mc hmc (hnodes _ mc hcur hmc).1 (hch mc hmem)]
      · intro s' h
        simp only [MStep.next.injEq] at h
        rw [← h]
        have := push_memOk s hs (by omega)
          (fun n => { n with type := NODE_TEXT,
                             text := kstrcpy_mem n.text (trimEnd (textLoop p0 []).1),
                             parent := some s.current })
          (fun n => n) (fun n => ⟨rfl, rfl, rfl⟩) (fun n => ⟨rfl, rfl, rfl⟩) s.current
          (Or.inl rfl) (textLoop p0 []).2
        rw [setRaw_id] at this
        exact this
  · rw [if_neg ht, if_neg ht]
    refine ⟨rfl, fun s' h => ?_⟩
    simp only [MStep.next.injEq] at h
    rw [← h]
    exact hs

/-- The entry of the new node after it has been allocated, written by `f` and
entered in the children of the insertion point. -/
theorem rawAt_push (pool : List RawNode) (c cur : Nat) (f : RawNode → RawNode)
    (hc : c < pool.length) (hcur : cur < c) (k : Nat) :
    rawAt (addChildMem (setRaw (setRaw pool c (fun n =>
        { n with type := NODE_TEXT, tag := 0, text := pokeNul n.text, href := pokeNul n.href,
                 src := pokeNul n.src, child_count := 0, parent := none })) c f) cur k) c
      = f { pool.get ⟨c, hc⟩ with
            type := NODE_TEXT, tag := 0, text := pokeNul (pool.get ⟨c, hc⟩).text,
            href := pokeNul (pool.get ⟨c, hc⟩).href, src := pokeNul (pool.get ⟨c, hc⟩).src,
            child_count := 0, parent := none } := by
  unfold rawAt
  rw [List.getD_eq_getElem?_getD, push_getElem? _ _ _ _ hcur, if_neg (by omega), if_pos rfl,
    List.getElem?_eq_getElem hc]
  rfl

/-- The branch "Opening tag" on the memory is seen as the branch of the model. -/
theorem openTag_sim (s : MState) (hs : MemOk s) (p0 : List Char) (tn : List Char × List Char)
    (tag_id : Nat) :
    openTag (absState s) p0 tn tag_id = absStep (openTagMem s p0 tn tag_id) ∧
    ∀ s', openTagMem s p0 tn tag_id = MStep.next s' → MemOk s' := by
  have hs' := hs
  obtain ⟨⟨hlen, hch⟩, hcnt, hnodes, hcur⟩ := hs'
  have hvl : (view s.arena).length = s.arena.node_count := view_length _ (by omega)
  by_cases hfull : s.arena.node_count ≥ MAX_NODES
  · simp only [openTag, openTagMem, html_alloc_node, html_alloc_node_mem, absState, hvl,
      if_pos hfull]
    exact ⟨rfl, fun s' h => by simp at h⟩
  · have hc : s.arena.node_count < s.arena.node_pool.length := by omega
    obtain ⟨mc, hmc⟩ : ∃ mc, s.arena.node_pool[s.current]? = some mc :=
      ⟨_, List.getElem?_eq_getElem (by omega)⟩
    have hmem : mc ∈ s.arena.node_pool := List.mem_iff_getElem?.2 ⟨_, hmc⟩
    have hB := rawAt_push s.arena.node_pool s.arena.node_count s.current
      (fun n => { n with type := NODE_ELEMENT, tag := tag_id, text := kstrcpy_mem n.text tn.1,
                         parent := some s.current }) hc hcur s.arena.node_count
    have hBh : cstr (rawAt (addChildMem (setRaw (setRaw s.arena.node_pool s.arena.node_count
        (fun n => { n with type := NODE_TEXT, tag := 0, text := pokeNul n.text,
                           href := pokeNul n.href, src := pokeNul n.src, child_count := 0,
                           parent := none })) s.arena.node_count
        (fun n => { n with type := NODE_ELEMENT, tag := tag_id,
                           text := kstrcpy_mem n.text tn.1, parent := some s.current }))
        s.current s.arena.node_count) s.arena.node_count).href = [] := by
      rw [hB]
      exact cstr_pokeNul _
    have hBs : cstr (rawAt (addChildMem (setRaw (setRaw s.arena.node_pool s.arena.node_count
        (fun n => { n with type := NODE_TEXT, tag := 0, text := pokeNul n.text,
                           href := pokeNul n.href, src := pokeNul n.src, child_count := 0,
                           parent := none })) s.arena.node_count
        (fun n => { n with type := NODE_ELEMENT, tag := tag_id,
                           text := kstrcpy_mem n.text tn.1, parent := some s.current }))
        s.current s.arena.node_count) s.arena.node_count).src = [] := by
      rw [hB]
      exact cstr_pokeNul _
    simp only [openTag, openTagMem, html_alloc_node, html_alloc_node_mem, absState, hvl,
      if_neg hfull]
    generalize hbh : (rawAt (addChildMem (setRaw (setRaw s.arena.node_pool s.arena.node_count
        (fun n => { n with type := NODE_TEXT, tag := 0, text := pokeNul n.text,
                           href := pokeNul n.href, src := pokeNul n.src, child_count := 0,
                           parent := none })) s.arena.node_count
        (fun n => { n with type := NODE_ELEMENT, tag := tag_id,
                           text := kstrcpy_mem n.text tn.1, parent := some s.current }))
        s.current s.arena.node_count) s.arena.node_count) = B at hBh hBs ⊢
    have a1 := html_parse_attr_mem_view tn.2 "href".toList B.href 256
    rw [hBh] at a1
    have a2 := html_parse_attr_mem_view (html_parse_attr_mem tn.2 "href".toList B.href 256).1
      "src".toList B.src 256
    rw [hBs, a1.1] at a2
    constructor
    · simp only [absStep, absState, view, a1.1, a2.1]
      rw [view_setRaw _
        (fun n => { n with href := (html_parse_attr tn.2 "href".toList [] 256).2,
                           src := (html_parse_attr (html_parse_attr tn.2 "href".toList [] 256).1
                             "src".toList [] 256).2 })
        _ _ _ (fun n _ => by simp only [viewNode, a1.2, a2.2])]
      rw [push_view s.arena.node_pool s.arena.node_count s.current _
        (fun n => { n with type := NODE_ELEMENT, tag := tag_id, text := kstrcpy n.text tn.1,
                           parent := some s.current })
        (fun n => by simp [viewNode, cstr_kstrcpy_mem, kstrcpy])
        hc hcur mc hmc (hnodes _ mc hcur hmc).1 (hch mc hmem)]
    · intro s' h
      simp only [MStep.next.injEq] at h
      rw [← h]
      exact push_memOk s hs (by omega) _ _ (fun n => by exact ⟨rfl, rfl, rfl⟩)
        (fun n => by exact ⟨rfl, rfl, rfl⟩) _
        (by
          split
          · exact Or.inl rfl
          · exact Or.inr rfl) _

/-- An iteration of the main loop on the memory is seen as an iteration of the
model, and leaves the memory in order. -/
theorem step_sim (s : MState) (hs : MemOk s) :
    step (absState s) = absStep (stepMem s) ∧ ∀ s', stepMem s = MStep.next s' → MemOk s' := by
  have hs' := hs
  obtain ⟨⟨hlen, hch⟩, hcnt, hnodes, hcur⟩ := hs'
  have hptr : (absState s).ptr = s.ptr := rfl
  simp only [step, stepMem, hptr]
  by_cases h1 : deref (s.ptr.dropWhile isWs) = '<'
  · rw [if_pos h1, if_pos h1]
    by_cases h2 : deref (s.ptr.dropWhile isWs).tail = '!' ∧
        deref (s.ptr.dropWhile isWs).tail.tail = '-' ∧
        deref (s.ptr.dropWhile isWs).tail.tail.tail = '-'
    · rw [if_pos h2, if_pos h2]
      cases kstrstr (s.ptr.dropWhile isWs).tail "-->".toList with
      | none => exact ⟨rfl, fun s' h => by simp at h⟩
      | some k =>
        refine ⟨rfl, fun s' h => ?_⟩
        simp only [MStep.next.injEq] at h
        rw [← h]
        exact hs
    · rw [if_neg h2, if_neg h2]
      by_cases h3 : deref (s.ptr.dropWhile isWs).tail = '/'
      · rw [if_pos h3, if_pos h3]
        have hpop := popCurrentMem_view s.arena s.current hcur
        constructor
        · rw [show (absState s).pool = view s.arena from rfl,
            show (absState s).current = s.current from rfl, hpop]
          rfl
        · intro s' h
          simp only [MStep.next.injEq] at h
          rw [← h]
          refine ⟨⟨hlen, hch⟩, hcnt, hnodes, ?_⟩
          show popCurrentMem s.arena.node_pool s.current < s.arena.node_count
          unfold popCurrentMem
          cases hm : s.arena.node_pool[s.current]? with
          | none => exact hcur
          | some m =>
            cases hq : m.parent with
            | none =>
              simp only [hq]
              exact hcur
            | some q =>
              simp only [hq]
              exact (hnodes s.current m hcur hm).2 q hq
      · rw [if_neg h3, if_neg h3]
        by_cases h4 : html_match_tag
            ((copyWhile tagNameChar 31 (s.ptr.dropWhile isWs).tail).1.map lowerChar) = 0
        · rw [if_pos h4, if_pos h4]
          refine ⟨rfl, fun s' h => ?_⟩
          simp only [MStep.next.injEq] at h
          rw [← h]
          exact hs
        · rw [if_neg h4, if_neg h4]
          exact openTag_sim s hs _ _ _
  · rw [if_neg h1, if_neg h1]
    exact textNode_sim s hs _

theorem stepMem_stop_eq (s s' : MState) (h : stepMem s = MStep.stop s') : s' = s := by
  simp only [stepMem] at h
  split at h
  · split at h
    · split at h <;> exact absurd h (by simp)
    · split at h
      · exact absurd h (by simp)
      · split at h
        · exact absurd h (by simp)
        · unfold openTagMem at h
          split at h
          · simp only [MStep.stop.injEq] at h
            exact h.symm
          · exact absurd h (by simp)
  · simp only [textNodeMem] at h
    split at h
    · split at h
      · simp only [MStep.stop.injEq] at h
        exact h.symm
      · exact absurd h (by simp)
    · exact absurd h (by simp)

/-- The main loop leaves the memory in order. -/
theorem runMem_memOk : ∀ (k : Nat) (s sf : MState), MemOk s → runMem k s = some sf → MemOk sf
  | 0, s, sf, hs, h => by
    simp only [runMem, Option.some.injEq] at h
    rw [← h]
    exact hs
  | k + 1, s, sf, hs, h => by
    simp only [runMem] at h
    split at h
    · simp only [Option.some.injEq] at h
      rw [← h]
      exact hs
    · cases hst : stepMem s with
      | next s' =>
        rw [hst] at h
        exact runMem_memOk k s' sf ((step_sim s hs).2 s' hst) h
      | stop s' =>
        rw [hst] at h
        simp only [Option.some.injEq] at h
        rw [← h, stepMem_stop_eq s s' hst]
        exact hs
      | fault =>
        rw [hst] at h
        simp at h

/-- The main loop on the memory is seen as the main loop of the model. -/
theorem run_sim : ∀ (k : Nat) (s : MState), MemOk s →
    run k (absState s) = (runMem k s).map absState
  | 0, s, _ => rfl
  | k + 1, s, hs => by
    have hptr : (absState s).ptr = s.ptr := rfl
    simp only [run, runMem, hptr]
    split
    · rfl
    · have h := step_sim s hs
      rw [h.1]
      cases hst : stepMem s with
      | next s' => exact run_sim k s' (h.2 s' hst)
      | stop s' => rfl
      | fault => rfl

/-- The start of the main loop on the memory, whatever earlier calls have left
there, is seen as the start of the model. -/
theorem init_sim (A : Arena) (hA : ArenaOk A) (pool : List HtmlNode) (html : List Char) :
    MemOk (initMem A html) ∧ absState (initMem A html) = initState pool html := by
  obtain ⟨hlen, hch⟩ := hA
  have h0 : ¬ (0 : Nat) ≥ MAX_NODES := by decide
  have hpos : 0 < A.node_pool.length := by
    rw [hlen]
    decide
  simp only [initMem, html_reset_mem, html_alloc_node_mem, if_neg h0]
  refine ⟨⟨⟨?_, ?_⟩, show 0 + 1 ≤ MAX_NODES from by decide, ?_, Nat.zero_lt_one⟩, ?_⟩
  · show (setRaw _ _ _).length = MAX_NODES
    rw [setRaw_length, setRaw_length]
    exact hlen
  · show ∀ n ∈ setRaw _ _ _, n.children.length = 32
    apply setRaw_mem _ (fun n => n.children.length = 32) (fun m hm => by exact hm)
    exact setRaw_mem _ (fun n => n.children.length = 32) (fun m hm => by exact hm) _ _ hch
  · intro i n hi hn
    change i < 0 + 1 at hi
    change (setRaw _ _ _)[i]? = some n at hn
    have hi0 : i = 0 := by omega
    rw [hi0, setRaw_getElem?, if_pos rfl, setRaw_getElem?, if_pos rfl,
      List.getElem?_eq_getElem hpos] at hn
    simp only [Option.map_some', Option.some.injEq] at hn
    rw [← hn]
    exact ⟨Nat.zero_le _, fun q hq => by simp at hq⟩
  · simp only [absState, view, initState, html_reset, html_alloc_node]
    rw [view_setRaw _ (fun n => { n with type := NODE_ELEMENT, tag := TAG_HTML }) _ 0 (0 + 1)
      (fun n _ => by simp only [viewNode]), view_alloc _ A.node_pool 0 hpos, viewNode_alloc]
    rfl

/-- What is seen of the memory after `html_parse` is the tree of the model. -/
theorem html_parse_mem_view (A : Arena) (hA : ArenaOk A) (pool : List HtmlNode)
    (html : List Char) :
    (html_parse_mem A html).map view = html_parse pool html ∧
    (html_parse_mem A html).map (fun B => B.node_count)
      = (html_parse pool html).map List.length := by
  have hi := init_sim A hA pool html
  have hr := run_sim (html.length + 1) (initMem A html) hi.1
  rw [hi.2] at hr
  unfold html_parse_mem html_parse
  rw [hr]
  cases hm : runMem (html.length + 1) (initMem A html) with
  | none => exact ⟨rfl, rfl⟩
  | some sf =>
    simp only [Option.map_some', Option.some.injEq]
    refine ⟨rfl, ?_⟩
    show sf.arena.node_count = (view sf.arena).length
    have hf := runMem_memOk _ _ sf hi.1 hm
    rw [view_length sf.arena (by rw [hf.1.1]; exact hf.2.1)]

/-! ### The arena before and after a parse -/

theorem staleArena_ok : ArenaOk staleArena := by
  refine ⟨List.length_replicate _ _, fun n hn => ?_⟩
  rw [(List.mem_replicate.mp hn).2]
  rfl

theorem zeroArena_ok : ArenaOk zeroArena := by
  refine ⟨List.length_replicate _ _, fun n hn => ?_⟩
  rw [(List.mem_replicate.mp hn).2]
  rfl

set_option maxRecDepth 1000000 in
theorem staleArena_parse :
    (html_parse_mem staleArena "<a href=u>hi</a>".toList).map
        (fun B => (B.node_count, view B))
      = some (3, [{ blankNode with type := NODE_ELEMENT, tag := TAG_HTML, children := [1] },
          { type := NODE_ELEMENT, tag := TAG_A, text := "a".toList, href := "u".toList,
            src := [], children := [2], parent := some 0 },
          { blankNode with type := NODE_TEXT, text := "hi".toList, parent := some 1 }]) := by
  rfl

set_option maxRecDepth 1000000 in
theorem zeroArena_parse :
    (html_parse_mem zeroArena "<a href=u>hi</a>".toList).map
        (fun B => (B.node_count, view B))
      = some (3, [{ blankNode with type := NODE_ELEMENT, tag := TAG_HTML, children := [1] },
          { type := NODE_ELEMENT, tag := TAG_A, text := "a".toList, href := "u".toList,
            src := [], children := [2], parent := some 0 },
          { blankNode with type := NODE_TEXT, text := "hi".toList, parent := some 1 }]) := by
  rfl

set_option maxRecDepth 1000000 in
theorem staleArena_rest :
    (html_parse_mem staleArena "<a href=u>hi</a>".toList).map
        (fun B => ((rawAt B.node_pool 1).href.take 3, (rawAt B.node_pool 3).child_count))
      = some (['u', NUL, 'y'], 40) ∧
    (html_parse_mem zeroArena "<a href=u>hi</a>".toList).map
        (fun B => ((rawAt B.node_pool 1).href.take 3, (rawAt B.node_pool 3).child_count))
      = some (['u', NUL, NUL], 0) := by
  exact ⟨rfl, rfl⟩

theorem html_parse_mem_pair (A : Arena) (hA : ArenaOk A) (pool : List HtmlNode)
    (html : List Char) :
    (html_parse_mem A html).map (fun B => (B.node_count, view B))
      = (html_parse pool html).map (fun t => (t.length, t)) := by
  have h := html_parse_mem_view A hA pool html
  cases hm : html_parse_mem A html with
  | none =>
    rw [hm] at h
    rw [← h.1]
    rfl
  | some B =>
    rw [hm] at h
    rw [← h.1]
    have h2 := h.2
    rw [← h.1] at h2
    simp only [Option.map_some', Option.some.injEq] at h2 ⊢
    rw [h2]

/-- C34. The function `html_parse` resets the shared arena and depends on nothing
else.  On the memory of the arena, for every text and every two prior states of
the arena (any `node_count`, any contents of the 512 entries), the call leaves
the same `node_count` and the same nodes `node_pool[0 .. node_count)` as seen
through the type, the tag, the strings text, href and src, the parent and the
first `child_count` children; what is seen is the tree of the model of
`html_parse`, and the call fails on the one prior state when it fails on the
other.  For an arena filled up by earlier parses and for zeroed memory the text
`<a href=u>hi</a>` gives the same three nodes, while the bytes behind the
terminators and the entries from `node_count` on keep what was there. -/
theorem html_parse_resets_arena :
    (∀ (A1 A2 : Arena) (html : List Char), ArenaOk A1 → ArenaOk A2 →
      (html_parse_mem A1 html).map (fun B => (B.node_count, view B))
        = (html_parse_mem A2 html).map (fun B => (B.node_count, view B))) ∧
    (∀ (A : Arena) (pool : List HtmlNode) (html : List Char), ArenaOk A →
      (html_parse_mem A html).map (fun B => (B.node_count, view B))
        = (html_parse pool html).map (fun t => (t.length, t))) ∧
    ArenaOk staleArena ∧ ArenaOk zeroArena ∧
    (html_parse_mem staleArena "<a href=u>hi</a>".toList).map
        (fun B => (B.node_count, view B))
      = some (3, [{ blankNode with type := NODE_ELEMENT, tag := TAG_HTML, children := [1] },
          { type := NODE_ELEMENT, tag := TAG_A, text := "a".toList, href := "u".toList,
            src := [], children := [2], parent := some 0 },
          { blankNode with type := NODE_TEXT, text := "hi".toList, parent := some 1 }]) ∧
    (html_parse_mem zeroArena "<a href=u>hi</a>".toList).map
        (fun B => (B.node_count, view B))
      = (html_parse_mem staleArena "<a href=u>hi</a>".toList).map
        (fun B => (B.node_count, view B)) ∧
    (html_parse_mem staleArena "<a href=u>hi</a>".toList).map
        (fun B => ((rawAt B.node_pool 1).href.take 3, (rawAt B.node_pool 3).child_count))
      = some (['u', NUL, 'y'], 40) ∧
    (html_parse_mem zeroArena "<a href=u>hi</a>".toList).map
        (fun B => ((rawAt B.node_pool 1).href.take 3, (rawAt B.node_pool 3).child_count))
      = some (['u', NUL, NUL], 0) := by
  refine ⟨fun A1 A2 html h1 h2 => ?_, fun A pool html hA => html_parse_mem_pair A hA pool html,
    staleArena_ok, zeroArena_ok, staleArena_parse, ?_, staleArena_rest.1, staleArena_rest.2⟩
  · rw [html_parse_mem_pair A1 h1 [] html, html_parse_mem_pair A2 h2 [] html]
  · rw [zeroArena_parse, staleArena_parse]

/-- C34, an instance: after an arena that earlier parses have filled up and
after zeroed memory, the text `<a href=u>hi</a>` leaves the same nodes. -/
theorem html_parse_resets_arena_witness :
    ArenaOk staleArena ∧ ArenaOk zeroArena ∧
    (staleArena.node_count, zeroArena.node_count) = (512, 0) ∧
    (html_parse_mem staleArena "<a href=u>hi</a>".toList).map
        (fun B => (B.node_count, view B))
      = (html_parse_mem zeroArena "<a href=u>hi</a>".toList).map
        (fun B => (B.node_count, view B)) :=
  ⟨staleArena_ok, zeroArena_ok, by decide,
    html_parse_resets_arena.1 staleArena zeroArena "<a href=u>hi</a>".toList
      staleArena_ok zeroArena_ok⟩

end FrayHttp
